import Mathlib

/-!
# Verification development for the bidirectional symbolic-execution core

Shallow embedding of the data structures of the engine (weighted selection
tree, ticker, execution paths, object manager, constraint simplifier, code
graph distances) together with the theorems that settle the properties of
its specification.

Conventions: pointers to IR objects are natural-number identifiers, a null
pointer is `none`, C++ `assert` failures and reads through null pointers are
`none` results, and loops whose termination depends on an invariant carry an
explicit fuel argument.
-/

set_option autoImplicit false
set_option linter.unusedSectionVars false

namespace Klee

/-! ## Ticker (`include/klee/ADT/Ticker.h`) -/

/-- Wrap-around of the C++ `unsigned` type. -/
def u32 (n : Nat) : Nat := n % 4294967296

/-- The three data members of `class Ticker`. -/
structure Ticker where
  ticks : List Nat
  index : Nat
  counter : Nat
deriving DecidableEq, Repr

namespace Ticker

/-- The constructor's loop `while (ticks[index] == 0) index += 1;`. -/
def ctorSkip (ticks : List Nat) : Nat → Nat → Option Nat
  | 0, _ => none
  | fuel + 1, index =>
    if ticks.getD index 0 = 0 then ctorSkip ticks fuel (u32 (index + 1)) else some index

/-- The loop `while (ticks[index] == 0) index = (index + 1) % ticks.size();`. -/
def skipZero (ticks : List Nat) : Nat → Nat → Option Nat
  | 0, _ => none
  | fuel + 1, index =>
    if ticks.getD index 0 = 0 then skipZero ticks fuel (u32 (index + 1) % ticks.length)
    else some index

/-- The constructor `Ticker(std::vector<unsigned> ticks)`; `none` when the assertion fails. -/
def init (fuel : Nat) (ticks : List Nat) : Option Ticker :=
  if ticks.any (fun i => decide (0 < i)) then
    (ctorSkip ticks fuel 0).map fun i => { ticks := ticks, index := i, counter := 0 }
  else none

/-- The method `moveToNext()`. -/
def moveToNext (fuel : Nat) (t : Ticker) : Option Ticker :=
  if t.ticks.getD t.index 0 = 0 then none
  else
    let t1 : Ticker :=
      if t.counter ≠ 0 then
        { t with index := u32 (t.index + 1) % t.ticks.length, counter := 0 }
      else t
    (skipZero t1.ticks fuel t1.index).map fun i => { t1 with index := i }

/-- The method `getCurrent()`: the returned slot and the ticker afterwards. -/
def getCurrent (fuel : Nat) (t : Ticker) : Option (Nat × Ticker) :=
  let current := t.index
  let t1 : Ticker := { t with counter := u32 (t.counter + 1) }
  if t1.counter = t1.ticks.getD t1.index 0 then
    (moveToNext fuel t1).map fun t2 => (current, t2)
  else some (current, t1)

/-- The values returned by `k` successive `getCurrent()` calls. -/
def calls (fuel : Nat) : Nat → Ticker → Option (List Nat)
  | 0, _ => some []
  | k + 1, t =>
    match getCurrent fuel t with
    | none => none
    | some (c, t1) => (calls fuel k t1).map fun rest => c :: rest

/-- One period of the expected output: slot `base + i` repeated `ticks[i]` times, in index
order. -/
def cycleFrom : List Nat → Nat → List Nat
  | [], _ => []
  | x :: xs, base => List.replicate x base ++ cycleFrom xs (base + 1)

/-- One period for the whole tick vector. -/
def cycle (ticks : List Nat) : List Nat := cycleFrom ticks 0

/-- The first `k` values of the periodic repetition of `cycle ticks`. -/
def expected (ticks : List Nat) (k : Nat) : List Nat :=
  (List.range k).map fun j => (cycle ticks).getD (j % (cycle ticks).length) 0

/-- The state reached after `k` calls on a fresh ticker: the slot is in range and has a positive
quota, the counter is below it, and the position in the period is `k`. -/
def Inv (ticks : List Nat) (k : Nat) (t : Ticker) : Prop :=
  t.ticks = ticks ∧ t.index < ticks.length ∧ t.counter < ticks.getD t.index 0 ∧
    Nat.ModEq ticks.sum ((ticks.take t.index).sum + t.counter) k

end Ticker

/-! ## Call stack frames and `ObjectManager::checkStack` (`lib/Core/ObjectManager.cpp`) -/

/-- A `CallStackFrame`: the call site (`none` is the null pointer) and the function. -/
structure CallStackFrame where
  caller : Option Nat
  kf : Nat
deriving DecidableEq, Repr

/-- The `for` loop of `checkStack`: `n` iterations over the two reverse iterators. The last
equation is not reached, the range being at most the size of either stack. -/
def checkStackLoop : Nat → List CallStackFrame → List CallStackFrame → Bool
  | 0, _, _ => true
  | n + 1, st :: stateIt, pb :: pobIt =>
    if st.kf ≠ pb.kf ∨ (pb.caller.isSome ∧ pb.caller ≠ st.caller) then false
    else checkStackLoop n stateIt pobIt
  | _ + 1, _, _ => true

/-- `ObjectManager::checkStack` on the state's call stack and the pob's stack (bottom frame
first, as stored in the vectors). -/
def checkStack (callStack pobStack : List CallStackFrame) : Bool :=
  if callStack.length = 0 then true
  else
    let range := min (callStack.length - 1) pobStack.length
    checkStackLoop range callStack.reverse pobStack.reverse


/-! ## WeightedQueue (`include/klee/ADT/WeightedQueue.h`) -/

/-- The two data members: `weightToQueue` (a `std::map`, kept in increasing key order) and
`valueToWeight`. Weights are `unsigned`; only comparisons are made on them. -/
structure WeightedQueue (T : Type) where
  weightToQueue : List (Nat × List T)
  valueToWeight : List (T × Nat)
deriving DecidableEq, Repr

namespace WeightedQueue

variable {T : Type} [DecidableEq T]

/-- `weightToQueue[weight].push_back(item)` on the ordered map. -/
def pushBack (weight : Nat) (item : T) : List (Nat × List T) → List (Nat × List T)
  | [] => [(weight, [item])]
  | (k, q) :: rest =>
    if weight < k then (weight, [item]) :: (k, q) :: rest
    else if weight = k then (k, q ++ [item]) :: rest
    else (k, q) :: pushBack weight item rest

/-- The removal steps shared by `remove` and `update`: `weightToQueue.at(weight)`, find the
item in that queue (asserted), erase it, and erase the bucket when it became empty. -/
def eraseFrom (weight : Nat) (item : T) : List (Nat × List T) → Option (List (Nat × List T))
  | [] => none
  | (k, q) :: rest =>
    if k = weight then
      if item ∈ q then
        some (if (q.erase item).isEmpty then rest else (k, q.erase item) :: rest)
      else none
    else (eraseFrom weight item rest).map fun m => (k, q) :: m

/-- The default-constructed queue. -/
def empty : WeightedQueue T := { weightToQueue := [], valueToWeight := [] }

/-- The weight stored for an item in `valueToWeight`, if any. -/
def weightOf (q : WeightedQueue T) (item : T) : Option Nat :=
  (q.valueToWeight.find? fun e => decide (e.1 = item)).map Prod.snd

/-- The method `contains`. -/
def contains (q : WeightedQueue T) (item : T) : Bool := (q.weightOf item).isSome

/-- The method `insert`; `none` when the assertion fails. -/
def insert (item : T) (weight : Nat) (q : WeightedQueue T) : Option (WeightedQueue T) :=
  if q.contains item then none
  else some
    { valueToWeight := (item, weight) :: q.valueToWeight
      weightToQueue := pushBack weight item q.weightToQueue }

/-- The method `remove`; `none` when an assertion fails. -/
def remove (item : T) (q : WeightedQueue T) : Option (WeightedQueue T) :=
  match q.weightOf item with
  | none => none
  | some weight =>
    (eraseFrom weight item q.weightToQueue).map fun m =>
      { valueToWeight := q.valueToWeight.filter fun e => decide (e.1 ≠ item)
        weightToQueue := m }

/-- The method `update`; `none` when an assertion fails. -/
def update (item : T) (weight : Nat) (q : WeightedQueue T) : Option (WeightedQueue T) :=
  match q.weightOf item with
  | none => none
  | some oldWeight =>
    if oldWeight ≠ weight then
      (eraseFrom oldWeight item q.weightToQueue).map fun m =>
        { valueToWeight :=
            (item, weight) :: q.valueToWeight.filter fun e => decide (e.1 ≠ item)
          weightToQueue := pushBack weight item m }
    else some q

/-- The method `maxWeight`. -/
def maxWeight (q : WeightedQueue T) : Nat :=
  match q.weightToQueue.getLast? with
  | none => 0
  | some e => e.1

/-- The `for` loop of `choose`; running off the end is the `assert(0 && "unreachable")`. -/
def chooseLoop (p : Nat) : List (Nat × List T) → Option T
  | [] => none
  | (k, q) :: rest => if p ≤ k then q.head? else chooseLoop p rest

/-- The method `choose`; `none` for a failed assertion or `front()` of an empty vector. -/
def choose (p : Nat) (q : WeightedQueue T) : Option T :=
  match q.weightToQueue with
  | [] => none
  | (k, b) :: rest =>
    if p ≥ q.maxWeight then b.head?
    else chooseLoop p ((k, b) :: rest)

/-- The queues built from the empty one by successful `insert`, `remove` and `update` calls. -/
inductive Reachable : WeightedQueue T → Prop
  | empty : Reachable empty
  | insert {q q1 : WeightedQueue T} (item : T) (weight : Nat) :
      Reachable q → insert item weight q = some q1 → Reachable q1
  | remove {q q1 : WeightedQueue T} (item : T) :
      Reachable q → remove item q = some q1 → Reachable q1
  | update {q q1 : WeightedQueue T} (item : T) (weight : Nat) :
      Reachable q → update item weight q = some q1 → Reachable q1

/-- Representation invariant: bucket weights strictly increase, no bucket is empty, and every
item of `valueToWeight` sits in the bucket of its weight. -/
def WF (q : WeightedQueue T) : Prop :=
  (q.weightToQueue.map Prod.fst).Pairwise (· < ·) ∧
  (∀ e ∈ q.weightToQueue, e.2 ≠ []) ∧
  (∀ e ∈ q.valueToWeight, ∃ b, (e.2, b) ∈ q.weightToQueue ∧ e.1 ∈ b)

end WeightedQueue

/-! ## Paths (`include/klee/Expr/Path.h`, `lib/Expr/Path.cpp`) -/

/-- `enum KBlockType`. -/
inductive KBlockType where
  | Base | Call | Return
deriving DecidableEq, Repr

/-- A `KInstruction *`, identified by its block and its index in it
(`block->instructions[i]->index == i`, as `retractInstruction` asserts). -/
structure KInstruction where
  parent : Nat
  index : Nat
deriving DecidableEq, Repr

/-- What the path code reads from the IR shadow model: per block the number of instructions,
the block type, the parent function and the called functions of a call block, and the predicate
`RegularFunctionPredicate`, which is declared in `KModule.h` and taken as a parameter here. -/
structure KModule where
  numInstructions : Nat → Nat
  blockType : Nat → KBlockType
  blockFunction : Nat → Nat
  calledFunctions : Nat → List Nat
  regularFunctionPredicate : Nat → Bool

namespace KModule

/-- `block->instructions[i]`; `none` outside the array. -/
def instruction (m : KModule) (block i : Nat) : Option KInstruction :=
  if i < m.numInstructions block then some { parent := block, index := i } else none

/-- `KBlock::getFirstInstruction`. -/
def getFirstInstruction (m : KModule) (block : Nat) : Option KInstruction :=
  m.instruction block 0

/-- `KBlock::getLastInstruction`. -/
def getLastInstruction (m : KModule) (block : Nat) : Option KInstruction :=
  if m.numInstructions block = 0 then none
  else m.instruction block (m.numInstructions block - 1)

end KModule

/-- `enum class Path::TransitionKind`. -/
inductive TransitionKind where
  | In | Out | None
deriving DecidableEq, Repr

/-- `struct Path::entry`. -/
structure PathEntry where
  block : Nat
  kind : TransitionKind
deriving DecidableEq, Repr

/-- The data members of `class Path`; `next` is `none` for the null pointer. -/
structure Path where
  first : Nat
  last : Nat
  path : List PathEntry
  next : Option KInstruction
deriving DecidableEq, Repr

/-- `getTransitionKindFromInst`. -/
def getTransitionKindFromInst (m : KModule) (ki : KInstruction) : TransitionKind :=
  if m.regularFunctionPredicate ki.parent then
    if ki.index = 0 then TransitionKind.In else TransitionKind.Out
  else TransitionKind.None

/-- `getLastInstructionFromPathEntry`. -/
def getLastInstructionFromPathEntry (m : KModule) (entry : PathEntry) : Option KInstruction :=
  match entry.kind with
  | TransitionKind.In => m.getFirstInstruction entry.block
  | TransitionKind.Out => m.getLastInstruction entry.block
  | TransitionKind.None => m.getLastInstruction entry.block

namespace Path

/-- The constructor `Path(KInstruction *next)` for execution states. -/
def ofNext (next : Option KInstruction) : Path :=
  { first := 0, last := 0, path := [], next := next }

/-- `Path::empty`. -/
def empty (p : Path) : Bool := p.path.isEmpty

/-- `Path::emptyWithNext`. -/
def emptyWithNext (p : Path) : Bool := p.path.isEmpty && p.next.isSome

/-- `Path::getFirstInstruction`; `none` when the assertion fails or the index is outside. -/
def getFirstInstruction (m : KModule) (p : Path) : Option KInstruction :=
  match p.path.head? with
  | none => none
  | some e => m.instruction e.block p.first

/-- `Path::getLastInstruction`; `none` when the assertion fails or the index is outside. -/
def getLastInstruction (m : KModule) (p : Path) : Option KInstruction :=
  match p.path.getLast? with
  | none => none
  | some e => m.instruction e.block p.last

/-- `Path::stepInstruction`; `none` when `assert(next == prevPC)` fails. -/
def stepInstruction (m : KModule) (p : Path) (prevPC : KInstruction)
    (pc : Option KInstruction) : Option Path :=
  if p.next ≠ some prevPC then none
  else
    match p.path.getLast? with
    | none =>
      some { path := p.path ++ [⟨prevPC.parent, getTransitionKindFromInst m prevPC⟩]
             first := prevPC.index, last := prevPC.index, next := pc }
    | some lastEntry =>
      let path :=
        if prevPC.parent ≠ lastEntry.block then
          p.path ++ [⟨prevPC.parent, getTransitionKindFromInst m prevPC⟩]
        else p.path
      some { p with path := path, last := prevPC.index, next := pc }

/-- `Path::retractInstruction`; `none` when an assertion fails, an instruction index is outside
its block, or `back()` is taken of an empty vector. -/
def retractInstruction (m : KModule) (p : Path) : Option Path :=
  match getLastInstruction m p with
  | none => none
  | some lastExecuted =>
    if p.path.length = 1 ∧ p.first = p.last then
      some { path := p.path.dropLast, first := 0, last := 0, next := some lastExecuted }
    else
      let transitionKind := getTransitionKindFromInst m lastExecuted
      if transitionKind = TransitionKind.In ∨ transitionKind = TransitionKind.Out ∨
          m.getFirstInstruction lastExecuted.parent = some lastExecuted then
        match p.path.dropLast.getLast? with
        | none => none
        | some e =>
          match getLastInstructionFromPathEntry m e with
          | none => none
          | some ki =>
            some { p with path := p.path.dropLast, last := ki.index, next := some lastExecuted }
      else
        if 0 < p.last ∧ p.last - 1 < m.numInstructions lastExecuted.parent then
          some { p with last := p.last - 1, next := some lastExecuted }
        else none

/-- `Path::blockCompleted` for the last entry (`index + 1 == path.size()`); `none` when the path
is empty or the block has no instruction. -/
def tailCompleted (m : KModule) (p : Path) : Option Bool :=
  match p.path.getLast? with
  | none => none
  | some block =>
    match block.kind with
    | TransitionKind.In =>
      (m.getFirstInstruction block.block).map fun ki => decide (p.last = ki.index)
    | _ => (m.getLastInstruction block.block).map fun ki => decide (p.last = ki.index)

/-- `Path::blockCompleted(index)`. -/
def blockCompleted (m : KModule) (p : Path) (index : Nat) : Option Bool :=
  if index < p.path.length then
    if index + 1 < p.path.length then some true else tailCompleted m p
  else none

/-- The assertions `concat` makes on two paths that both have entries. -/
def concatAsserts (m : KModule) (l r : Path) : Bool :=
  if l.next.isNone then
    blockCompleted m l (l.path.length - 1) = some true &&
    (match l.path.getLast?, r.path.head? with
     | some lb, some rf =>
       decide (m.blockType lb.block = KBlockType.Return) &&
       decide (rf.kind = TransitionKind.Out) &&
       decide (m.blockType rf.block = KBlockType.Call) &&
       decide (m.blockFunction lb.block ∈ m.calledFunctions rf.block)
     | _, _ => false)
  else
    decide (l.next = getFirstInstruction m r)

/-- `Path::concat`; `none` when an assertion fails. -/
def concat (m : KModule) (l r : Path) : Option Path :=
  if l.empty then some r
  else if r.empty then some l
  else if l.emptyWithNext then
    if r.emptyWithNext then (if l.next = r.next then some l else none)
    else (if l.next = getFirstInstruction m r then some r else none)
  else if r.emptyWithNext then (if l.next = r.next then some l else none)
  else if concatAsserts m l r then
    match blockCompleted m l (l.path.length - 1) with
    | none => none
    | some leftWhole =>
      some { path := l.path ++ (if leftWhole then r.path else r.path.drop 1)
             first := l.first, last := r.last, next := r.next }
  else none

end Path

/-- A module in which every block has three instructions and no block passes
`RegularFunctionPredicate`; used for concrete paths. -/
def plainModule : KModule :=
  { numInstructions := fun _ => 3
    blockType := fun _ => KBlockType.Base
    blockFunction := fun _ => 0
    calledFunctions := fun _ => []
    regularFunctionPredicate := fun _ => false }

/-! ## Proof obligations and the object manager
(`lib/Core/ProofObligation.{h,cpp}`, `lib/Core/ObjectManager.{h,cpp}`)

Objects are kept in arenas and a pointer is the `id` of the object. The sets `states_ty` and
`pobs_ty` are ordered by id and kept as increasing lists; a map from targets to sets is a
function to lists, an absent key standing for the empty set. Calls to subscribers, to the
process forest and to the debug streams do not change the hub and are left out. -/

/-- A `ref<Target>`; targets are content-uniqued, so equal targets are the same value. Only
reach-block targets are built by the code modelled here. -/
inductive Target where
  | reachBlock (block : Nat) (atEnd : Bool)
  | other (id : Nat)
deriving DecidableEq, Repr

/-- The fields of a `ProofObligation` the hub and `create` work with; `path` stands for
`constraints.path()`, `constraints` for the constraint set installed by `create`. -/
structure ProofObligation where
  id : Nat
  parent : Option Nat
  root : Nat
  children : List Nat
  stack : List CallStackFrame
  propagationCount : List (Nat × Nat)
  location : Target
  path : Path
  constraints : Nat
  nullPointerExpr : Option Nat
deriving DecidableEq, Repr

/-- What the hub reads of an `ExecutionState`: `locationTarget` is the result of
`getLocationTarget()`, `reachedTarget` the target of the state's history when
`TargetManager::isReachedTarget` holds for it, `atPredicate` the condition under which
`checkReachedStates` removes a state that reached its target. -/
structure ExecutionState where
  id : Nat
  isolated : Bool
  locationTarget : Option Target
  callStack : List CallStackFrame
  path : Path
  reachedTarget : Option Target
  atPredicate : Bool
deriving DecidableEq, Repr

/-- A `Propagation`: a state and a proof obligation. -/
structure Propagation where
  state : Nat
  pob : Nat
deriving DecidableEq, Repr

/-- `enum class StateKind` of the hub. -/
inductive StateKind where
  | Regular | Isolated | None
deriving DecidableEq, Repr

/-- `std::set::insert` on a set ordered by id. -/
def setInsert (x : Nat) : List Nat → List Nat
  | [] => [x]
  | y :: ys => if x < y then x :: y :: ys else if x = y then y :: ys else y :: setInsert x ys

/-- `std::set::erase`. -/
def setErase (x : Nat) (l : List Nat) : List Nat := l.filter fun y => decide (y ≠ x)

/-- `std::set::insert` on a set of propagations. -/
def propInsert (x : Propagation) (l : List Propagation) : List Propagation :=
  if x ∈ l then l else l ++ [x]

/-- Update of one entry of a map from targets to sets. -/
def mapUpdate {α : Type} (f : Target → List α) (key : Target) (g : List α → List α) :
    Target → List α :=
  fun k => if k = key then g (f k) else f k

/-- The data members of `ObjectManager`, with the two arenas, the state id counter and the
debug flag `DebugPrint::RootPob` the hub reads. -/
structure ObjectManager where
  pobHeap : List ProofObligation
  stateHeap : List ExecutionState
  nextStateID : Nat
  debugRootPob : Bool
  states : List Nat
  isolatedStates : List Nat
  leafPobs : List Nat
  rootPobs : List Nat
  reachedStates : Target → List Nat
  pobs : Target → List Nat
  pathedPobs : List ((Path × Target) × Nat)
  propagations : Target → List Propagation
  propagationCount : Nat → Nat
  statesUpdated : Bool
  stateUpdateKind : StateKind
  current : Option Nat
  context : Option Nat
  addedStates : List Nat
  removedStates : List Nat
  addedPobs : List Nat
  removedPobs : List Nat
  addedPropagations : List Propagation
  removedPropagations : List Propagation

namespace ObjectManager

/-- A hub right after construction, with the given debug flag. -/
def init (debugRootPob : Bool) : ObjectManager :=
  { pobHeap := [], stateHeap := [], nextStateID := 0, debugRootPob := debugRootPob
    states := [], isolatedStates := [], leafPobs := [], rootPobs := []
    reachedStates := fun _ => [], pobs := fun _ => [], pathedPobs := []
    propagations := fun _ => [], propagationCount := fun _ => 0
    statesUpdated := false, stateUpdateKind := StateKind.None, current := none, context := none
    addedStates := [], removedStates := [], addedPobs := [], removedPobs := []
    addedPropagations := [], removedPropagations := [] }

/-- Dereference of a `ProofObligation *`. -/
def getPob (h : ObjectManager) (id : Nat) : Option ProofObligation :=
  h.pobHeap.find? fun p => decide (p.id = id)

/-- Dereference of an `ExecutionState *`. -/
def getState (h : ObjectManager) (id : Nat) : Option ExecutionState :=
  h.stateHeap.find? fun s => decide (s.id = id)

/-- The kind of a state: `state->isolated ? Isolated : Regular`. -/
def kindOf (s : ExecutionState) : StateKind :=
  if s.isolated then StateKind.Isolated else StateKind.Regular

/-- `ObjectManager::setCurrentState`. -/
def setCurrentState (h : ObjectManager) (cur : Nat) : Option ObjectManager :=
  match h.current, h.getState cur with
  | none, some s =>
    some { h with current := some cur, statesUpdated := true, stateUpdateKind := kindOf s }
  | _, _ => none

/-- `ObjectManager::branchState`: the hub afterwards and the new state. -/
def branchState (h : ObjectManager) (state : Nat) : Option (ObjectManager × Nat) :=
  match h.getState state with
  | none => none
  | some s =>
    if h.statesUpdated ∧ kindOf s = h.stateUpdateKind then
      let newState : ExecutionState := { s with id := h.nextStateID }
      some ({ h with stateHeap := h.stateHeap ++ [newState], nextStateID := h.nextStateID + 1
                     addedStates := h.addedStates ++ [newState.id] }, newState.id)
    else none

/-- `ObjectManager::removeState`. -/
def removeState (h : ObjectManager) (state : Nat) : Option ObjectManager :=
  match h.getState state with
  | none => none
  | some s =>
    if state ∈ h.removedStates then none
    else if ¬ h.statesUpdated then
      some { h with statesUpdated := true, stateUpdateKind := kindOf s
                    removedStates := h.removedStates ++ [state] }
    else if kindOf s = h.stateUpdateKind then
      some { h with removedStates := h.removedStates ++ [state] }
    else none

/-- `ObjectManager::initializeState`; `fresh` carries what `withKInstruction(location)` and the
targets give the new state, its id being assigned here. -/
def initializeState (h : ObjectManager) (fresh : ExecutionState) : ObjectManager × Nat :=
  let state : ExecutionState := { fresh with id := h.nextStateID, isolated := true }
  ({ h with stateHeap := h.stateHeap ++ [state], nextStateID := h.nextStateID + 1
            statesUpdated := true, stateUpdateKind := StateKind.Isolated
            addedStates := h.addedStates ++ [state.id] }, state.id)

/-- `ObjectManager::pobExists`. -/
def pobExists (h : ObjectManager) (pob : ProofObligation) : Bool :=
  h.pathedPobs.any fun e => decide (e.1 = (pob.path, pob.location))

/-- The loop of `addPob` and `checkReachedStates` that adds a propagation for every stack-compatible
pair. -/
def addPropagationsFor (h : ObjectManager) (pob : ProofObligation) (states : List Nat)
    (acc : List Propagation) : List Propagation :=
  states.foldl (fun acc st =>
    match h.getState st with
    | none => acc
    | some s => if checkStack s.callStack pob.stack then propInsert ⟨st, pob.id⟩ acc else acc) acc

/-- `ObjectManager::addPob`; `none` when `assert(!pobExists(pob))` fails or the pointer
dangles. -/
def addPob (h : ObjectManager) (pob : Nat) : Option ObjectManager :=
  match h.getPob pob with
  | none => none
  | some p =>
    if h.pobExists p then none
    else
      let rootPobs :=
        if p.parent.isNone ∧ h.debugRootPob then setInsert pob h.rootPobs else h.rootPobs
      some { h with
        rootPobs := rootPobs
        addedPobs := setInsert pob h.addedPobs
        pathedPobs := h.pathedPobs ++ [((p.path, p.location), pob)]
        addedPropagations :=
          addPropagationsFor h p (h.reachedStates p.location) h.addedPropagations }

/-- The loop of `ProofObligation::getSubtree`: breadth-first over `children`. -/
def getSubtreeLoop (h : ObjectManager) : Nat → List Nat → List Nat → Option (List Nat)
  | 0, _, _ => none
  | _ + 1, [], subtree => some subtree
  | fuel + 1, cur :: queue, subtree =>
    match h.getPob cur with
    | none => none
    | some p => getSubtreeLoop h fuel (queue ++ p.children) (setInsert cur subtree)

/-- `ProofObligation::getSubtree`; the loop visits every object at most once in a tree, so the
fuel is the number of objects (plus the final test). -/
def getSubtree (h : ObjectManager) (pob : Nat) : Option (List Nat) :=
  getSubtreeLoop h (h.pobHeap.length + 1) [pob] []

/-- The body of the loop of `removePob` for one member of the subtree. -/
def removePobStep (h : ObjectManager) (pob : Nat) : Option ObjectManager :=
  match h.getPob pob with
  | none => none
  | some p =>
    some { h with
      rootPobs := if p.parent.isNone then setErase pob h.rootPobs else h.rootPobs
      removedPobs := setInsert pob h.removedPobs
      pathedPobs := h.pathedPobs.filter fun e => decide (e.1 ≠ (p.path, p.location))
      removedPropagations :=
        ((h.propagations p.location).filter fun prop => decide (prop.pob = pob)).foldl
          (fun acc prop => propInsert prop acc) h.removedPropagations }

/-- `ObjectManager::removePob`. -/
def removePob (h : ObjectManager) (pob : Nat) : Option ObjectManager :=
  match h.getSubtree pob with
  | none => none
  | some subtree => subtree.foldlM removePobStep h

/-- `ObjectManager::removePropagation`. -/
def removePropagation (h : ObjectManager) (prop : Propagation) : ObjectManager :=
  { h with removedPropagations := propInsert prop h.removedPropagations }

/-- `ProofObligation::propagateToReturn` on the object `pob`: the call site is pushed on its
stack and its location becomes the target of the return block. -/
def propagateToReturn (h : ObjectManager) (pob : Nat) (callSite : Nat) (returnFunction : Nat)
    (returnTarget : Target) : ObjectManager :=
  { h with pobHeap := h.pobHeap.map fun p =>
      if p.id = pob then
        { p with stack := p.stack ++ [⟨some callSite, returnFunction⟩], location := returnTarget }
      else p }

/-- The set `states` built at the start of `checkReachedPobs`: added states and `current`. -/
def updatedStates (h : ObjectManager) : List Nat :=
  let added := h.addedStates.foldl (fun acc s => setInsert s acc) []
  match h.current with
  | none => added
  | some c => setInsert c added

/-- The first loop of `checkReachedPobs`: the parentless pobs at the location of a state. -/
def reachedPobs (h : ObjectManager) : List Nat :=
  (updatedStates h).foldl (fun toRemove st =>
    match h.getState st with
    | none => toRemove
    | some s =>
      match s.locationTarget with
      | none => toRemove
      | some reached =>
        (h.pobs reached).foldl (fun toRemove pob =>
          match h.getPob pob with
          | none => toRemove
          | some p => if p.parent.isNone then setInsert pob toRemove else toRemove) toRemove) []

/-- `ObjectManager::checkReachedPobs`. -/
def checkReachedPobs (h : ObjectManager) : Option ObjectManager :=
  if h.statesUpdated ∧ h.stateUpdateKind = StateKind.Regular then
    (reachedPobs h).foldlM removePob h
  else none

/-- The loop of `checkReachedStates` over one state: a reached state is recorded and paired with
the pobs at its target; the result tells whether the state is to be removed. -/
def checkReachedState (h : ObjectManager) (st : Nat) : ObjectManager × Bool :=
  match h.getState st with
  | none => (h, false)
  | some s =>
    match s.reachedTarget with
    | none => (h, false)
    | some target =>
      let copy : ExecutionState := { s with id := h.nextStateID }
      let h1 : ObjectManager :=
        { h with stateHeap := h.stateHeap ++ [copy], nextStateID := h.nextStateID + 1
                 reachedStates := mapUpdate h.reachedStates target (setInsert copy.id) }
      let props := (h1.pobs target).foldl (fun acc pob =>
        match h1.getPob pob with
        | none => acc
        | some p => if checkStack copy.callStack p.stack then propInsert ⟨copy.id, pob⟩ acc
                    else acc) h1.addedPropagations
      ({ h1 with addedPropagations := props }, s.atPredicate)

/-- `ObjectManager::checkReachedStates`. -/
def checkReachedStates (h : ObjectManager) : Option ObjectManager :=
  if h.statesUpdated ∧ h.stateUpdateKind = StateKind.Isolated then
    let states := h.removedStates.foldl (fun acc s => setInsert s acc) (updatedStates h)
    let r := states.foldl (fun (acc : ObjectManager × List Nat) st =>
      let (h1, rm) := checkReachedState acc.1 st
      (h1, if rm then acc.2 ++ [st] else acc.2)) (h, [])
    r.2.foldlM (fun h1 st => if st ∈ h1.removedStates then some h1 else removeState h1 st) r.1
  else none

/-- The states step of `updateSubscribers`. -/
def updateStates (h : ObjectManager) : Option ObjectManager :=
  if h.statesUpdated then
    if h.stateUpdateKind = StateKind.None then none
    else
      let isolated := decide (h.stateUpdateKind = StateKind.Isolated)
      match (if isolated then checkReachedStates h else checkReachedPobs h) with
      | none => none
      | some h1 =>
        let ins := fun (set : List Nat) => h1.addedStates.foldl (fun acc s => setInsert s acc) set
        let del := fun (set : List Nat) => h1.removedStates.foldl (fun acc s => setErase s acc) set
        some { h1 with
          states := if isolated then h1.states else del (ins h1.states)
          isolatedStates := if isolated then del (ins h1.isolatedStates) else h1.isolatedStates
          stateHeap := h1.stateHeap.filter fun s => decide (s.id ∉ h1.removedStates)
          current := none, addedStates := [], removedStates := []
          statesUpdated := false, stateUpdateKind := StateKind.None }
  else some h

/-- The propagations step of `updateSubscribers`. -/
def updatePropagations (h : ObjectManager) : Option ObjectManager :=
  let add := fun (h1 : ObjectManager) (prop : Propagation) =>
    match h1.getPob prop.pob with
    | none => none
    | some p =>
      some { h1 with
        propagations := mapUpdate h1.propagations p.location (propInsert prop)
        propagationCount := fun k =>
          if k = prop.pob then u32 (h1.propagationCount k + 1) else h1.propagationCount k }
  let del := fun (h1 : ObjectManager) (prop : Propagation) =>
    match h1.getPob prop.pob with
    | none => none
    | some p =>
      if 0 < h1.propagationCount prop.pob then
        some { h1 with
          propagations :=
            mapUpdate h1.propagations p.location fun l => l.filter fun q => decide (q ≠ prop)
          propagationCount := fun k =>
            if k = prop.pob then h1.propagationCount k - 1 else h1.propagationCount k }
      else none
  match h.addedPropagations.foldlM add h with
  | none => none
  | some h1 =>
    match h1.removedPropagations.foldlM del h1 with
    | none => none
    | some h2 => some { h2 with addedPropagations := [], removedPropagations := [] }

/-- The destructor `~ProofObligation`, followed by the release of the object. -/
def deletePob (h : ObjectManager) (pob : Nat) : ObjectManager :=
  match h.getPob pob with
  | none => h
  | some p =>
    { h with pobHeap := (h.pobHeap.filter fun q => decide (q.id ≠ pob)).map fun q =>
        let q1 := if q.id ∈ p.children then { q with parent := none } else q
        if some q1.id = p.parent then { q1 with children := setErase pob q1.children } else q1 }

/-- The proof-obligations step of `updateSubscribers`.

The set `removedPobs` is ordered by `ProofObligationIDCompare`, which reads the `id` of the
members it compares, and the loop deletes each member at the end of its turn while the set
keeps the pointer. The search `removedPobs.count(parent)` for a parent that is not a member
runs from the root of the tree to a missing child, and which members it compares on the way
depends on the shape of the tree: the step is `none` when a member has been deleted by then,
as the search may read the freed object. A parent that is a member is found without such a
check: the constructor numbers an obligation after its parent, so the loop, which follows the
ids, has deleted such a parent before it comes to the child, whose `parent` is null by then. -/
def updatePobs (h : ObjectManager) : Option ObjectManager :=
  let add := fun (h1 : ObjectManager) (pob : Nat) =>
    match h1.getPob pob with
    | none => none
    | some p =>
      let leaf := match p.parent with
        | none => h1.leafPobs
        | some parent => setErase parent h1.leafPobs
      some { h1 with
        pobs := mapUpdate h1.pobs p.location (setInsert pob)
        leafPobs := if p.children.isEmpty then setInsert pob leaf else leaf }
  let del := fun (h1 : ObjectManager) (pob : Nat) =>
    match h1.getPob pob with
    | none => none
    | some p =>
      let leaf := setErase pob h1.leafPobs
      let leaf1 := match p.parent with
        | none => some leaf
        | some parent =>
          match h1.getPob parent with
          | none => none
          | some pp =>
            if pp.children.length = 1 ∧ parent ∉ h1.removedPobs then
              if ∀ y ∈ h1.removedPobs, (h1.getPob y).isSome = true then
                some (setInsert parent leaf)
              else none
            else some leaf
      match leaf1 with
      | none => none
      | some l =>
        some (deletePob { h1 with leafPobs := l
                                  pobs := mapUpdate h1.pobs p.location (setErase pob) } pob)
  match h.addedPobs.foldlM add h with
  | none => none
  | some h1 =>
    match h1.removedPobs.foldlM del h1 with
    | none => none
    | some h2 => some { h2 with addedPobs := [], removedPobs := [], context := none }

/-- `ObjectManager::updateSubscribers`: the states, propagations and proof-obligations steps
(the conflicts step only forwards and clears the pending conflicts). -/
def updateSubscribers (h : ObjectManager) : Option ObjectManager :=
  (updateStates h).bind fun h1 => (updatePropagations h1).bind updatePobs

end ObjectManager

/-- The hub calls that buffer state updates between two `updateSubscribers()` calls. -/
inductive StateCall where
  | setCurrentState (state : Nat)
  | branchState (state : Nat)
  | removeState (state : Nat)
  | initializeState (fresh : ExecutionState)

namespace ObjectManager

/-- One buffered state call. -/
def applyCall (h : ObjectManager) : StateCall → Option ObjectManager
  | StateCall.setCurrentState s => setCurrentState h s
  | StateCall.branchState s => (branchState h s).map Prod.fst
  | StateCall.removeState s => removeState h s
  | StateCall.initializeState fresh => some (initializeState h fresh).1

/-- A sequence of buffered state calls. -/
def applyCalls (h : ObjectManager) (calls : List StateCall) : Option ObjectManager :=
  calls.foldlM applyCall h

/-- No `removeState` call of the sequence is made on a state that is in `addedStates` at the
time of the call. -/
def NoFreshRemoval : ObjectManager → List StateCall → Prop
  | _, [] => True
  | h, c :: cs =>
    (∀ s, c = StateCall.removeState s → s ∉ h.addedStates) ∧
    (∀ h1, applyCall h c = some h1 → NoFreshRemoval h1 cs)

/-- The hub between ticks as far as states go: nothing pending and every state object has an id
below the id counter. -/
def StatesSettled (h : ObjectManager) : Prop :=
  h.addedStates = [] ∧ h.removedStates = [] ∧ ∀ s ∈ h.stateHeap, s.id < h.nextStateID

/-- Ids of state objects and of pending states are below the id counter, and no state is
pending both as added and as removed. -/
def PendingInv (h : ObjectManager) : Prop :=
  (∀ s ∈ h.stateHeap, s.id < h.nextStateID) ∧ (∀ x ∈ h.addedStates, x < h.nextStateID) ∧
  (∀ x ∈ h.removedStates, x < h.nextStateID) ∧ (∀ x, x ∈ h.addedStates → x ∉ h.removedStates)

/-- The members the hub publishes: equal in two hubs. -/
def SameSets (h h1 : ObjectManager) : Prop :=
  h1.states = h.states ∧ h1.isolatedStates = h.isolatedStates ∧ h1.pobs = h.pobs ∧
  h1.leafPobs = h.leafPobs ∧ h1.propagations = h.propagations

/-- A root proof obligation at target 7 with an empty path, as the only object of a hub. -/
def rootPob : ProofObligation :=
  { id := 0, parent := none, root := 0, children := [], stack := [], propagationCount := []
    location := Target.reachBlock 7 false, path := Path.ofNext none, constraints := 0
    nullPointerExpr := none }

/-- A regular state with id 0. -/
def regularState : ExecutionState :=
  { id := 0, isolated := false, locationTarget := none, callStack := [], path := Path.ofNext none
    reachedTarget := none, atPredicate := false }

end ObjectManager

/-! ## `ProofObligation::create` and `CallStackFrame::subtractFrames` -/

/-- The loop of `CallStackFrame::subtractFrames` on the reversed vectors (`back()` is the head):
the remaining minuend, or `none` when an assertion fails. -/
def subtractFramesRev : List CallStackFrame → List CallStackFrame → Option (List CallStackFrame)
  | [], _ => some []
  | m :: ms, [] => some (m :: ms)
  | m :: ms, [s] => if s.caller = none then some (m :: ms) else none
  | m :: ms, s :: s2 :: ss => if s = m then subtractFramesRev ms (s2 :: ss) else none

/-- `CallStackFrame::subtractFrames(minued, subtrahend)`: the new value of `minued`. -/
def subtractFrames (minued subtrahend : List CallStackFrame) : Option (List CallStackFrame) :=
  (subtractFramesRev minued.reverse subtrahend.reverse).map List.reverse

/-- `propagationCount[state]` read as a value (0 for an absent key). -/
def countOf (m : List (Nat × Nat)) (state : Nat) : Nat :=
  match m.find? fun e => decide (e.1 = state) with
  | none => 0
  | some e => e.2

/-- `propagationCount[state]++` on the map. -/
def bumpCount (state : Nat) : List (Nat × Nat) → List (Nat × Nat)
  | [] => [(state, u32 (0 + 1))]
  | (k, v) :: rest =>
    if k = state then (k, u32 (v + 1)) :: rest else (k, v) :: bumpCount state rest

namespace ProofObligation

/-- `ProofObligation::makeChild(target)` on the arena `heap` with the static counter `nextID`:
the constructor takes one id, the assignment `pob->id = nextID++` another. The result is the
arena with the child added and entered in the parent's `children`, the counter, and the child. -/
def makeChild (heap : List ProofObligation) (nextID : Nat) (parent : ProofObligation)
    (target : Target) : List ProofObligation × Nat × ProofObligation :=
  let pob : ProofObligation :=
    { id := nextID + 1, parent := some parent.id, root := parent.root, children := []
      stack := [], propagationCount := parent.propagationCount, location := target
      path := Path.ofNext none, constraints := 0, nullPointerExpr := none }
  let heap1 := heap.map fun q =>
    if q.id = parent.id then { q with children := setInsert pob.id q.children } else q
  (heap1 ++ [pob], nextID + 2, pob)

/-- `ProofObligation::create(parent, state, composed, nullPointerExpr)`; `composed` is the
composed `PathConstraints` (its constraint set and its path). The result is the arena, the
counter and the id of the new obligation; `none` when a pointer is null or dangling or an
assertion of `subtractFrames` fails. -/
def create (heap : List ProofObligation) (nextID : Nat) (parent : Nat) (state : ExecutionState)
    (composed : Nat) (composedPath : Path) (nullPointerExpr : Option Nat) :
    Option (List ProofObligation × Nat × Nat) :=
  match heap.find? fun p => decide (p.id = parent) with
  | none => none
  | some par =>
    let place : Option Nat :=
      match state.path.path.head? with
      | none => state.path.next.map fun ki => ki.parent
      | some e => some e.block
    match place with
    | none => none
    | some place =>
      let (heap1, next1, pob) := makeChild heap nextID par (Target.reachBlock place false)
      match subtractFrames par.stack state.callStack with
      | none => none
      | some stack =>
        let pob1 : ProofObligation :=
          { pob with constraints := composed, path := composedPath
                     propagationCount := bumpCount state.id pob.propagationCount
                     stack := stack, nullPointerExpr := nullPointerExpr }
        some (heap1.map fun q => if q.id = pob1.id then pob1 else q, next1, pob1.id)

end ProofObligation

/-- The hub calls on proof obligations. -/
inductive PobCall where
  | addPob (pob : Nat)
  | removePob (pob : Nat)
  | updateSubscribers

namespace ObjectManager

/-- The key of an obligation in `pathedPobs`. -/
def keyOf (p : ProofObligation) : Path × Target := (p.path, p.location)

/-- The obligations `updateSubscribers()` closes: the union of the subtrees of the parentless
obligations a regular state reached (nothing for another kind of update). -/
def closedPobs (h : ObjectManager) : List Nat :=
  if h.statesUpdated ∧ h.stateUpdateKind = StateKind.Regular then
    (reachedPobs h).flatMap fun r => (getSubtree h r).getD []
  else []

/-- One call on proof obligations, together with the set of live obligations (added and not
removed) it leaves. -/
def applyPobCall (h : ObjectManager) (live : List Nat) :
    PobCall → Option (ObjectManager × List Nat)
  | PobCall.addPob pob => (addPob h pob).map fun h1 => (h1, pob :: live)
  | PobCall.removePob pob =>
    (removePob h pob).map fun h1 =>
      (h1, live.filter fun x => decide (x ∉ (getSubtree h pob).getD []))
  | PobCall.updateSubscribers =>
    (updateSubscribers h).map fun h1 =>
      (h1, live.filter fun x => decide (x ∉ closedPobs h))

/-- A sequence of calls on proof obligations. -/
def applyPobCalls (h : ObjectManager) (live : List Nat) :
    List PobCall → Option (ObjectManager × List Nat)
  | [] => some (h, live)
  | c :: cs =>
    match applyPobCall h live c with
    | none => none
    | some (h1, live1) => applyPobCalls h1 live1 cs

/-- The discipline of the callers: an obligation is added while it is not pending removal,
and the obligations a removal takes away (the subtree given to `removePob`, the subtrees closed
by `updateSubscribers()`) are live. -/
def PobDiscipline : ObjectManager → List Nat → List PobCall → Prop
  | _, _, [] => True
  | h, live, c :: cs =>
    (match c with
      | PobCall.addPob pob => pob ∉ h.removedPobs
      | PobCall.removePob pob => ∀ x ∈ (getSubtree h pob).getD [], x ∈ live
      | PobCall.updateSubscribers => ∀ x ∈ closedPobs h, x ∈ live) ∧
    (∀ h1 live1, applyPobCall h live c = some (h1, live1) → PobDiscipline h1 live1 cs)

/-- `pathedPobs` holds exactly one entry per live obligation, under the obligation's
`(path, location)`, and no other entry; no live obligation is pending removal. -/
def Keyed (h : ObjectManager) (live : List Nat) : Prop :=
  (∀ e ∈ h.pathedPobs, e.2 ∈ live ∧ ∃ p, h.getPob e.2 = some p ∧ e.1 = keyOf p) ∧
  (∀ id ∈ live, ∃ p, h.getPob id = some p ∧ (keyOf p, id) ∈ h.pathedPobs) ∧
  (h.pathedPobs.map Prod.fst).Nodup ∧
  (∀ id ∈ live, id ∉ h.removedPobs)

/-- What a run of `removePob` steps over the obligations `l` does to the arena, to
`pathedPobs` and to `removedPobs`. -/
def RemEffect (h h1 : ObjectManager) (l : List Nat) : Prop :=
  h1.pobHeap = h.pobHeap ∧
  (∀ q ∈ l, ∃ p, h.getPob q = some p) ∧
  (∀ e, e ∈ h1.pathedPobs ↔
    e ∈ h.pathedPobs ∧ ∀ q ∈ l, ∀ p, h.getPob q = some p → e.1 ≠ keyOf p) ∧
  h1.pathedPobs.Sublist h.pathedPobs ∧
  (∀ x, x ∈ h1.removedPobs ↔ x ∈ h.removedPobs ∨ x ∈ l)

/-- The arena, `pathedPobs` and `removedPobs` are the same in two hubs. -/
def PobFrame (h h1 : ObjectManager) : Prop :=
  h1.pobHeap = h.pobHeap ∧ h1.pathedPobs = h.pathedPobs ∧ h1.removedPobs = h.removedPobs

/-- Outside the obligations `ex` the arena keeps every object, with its key, and `pathedPobs`
and `removedPobs` are the same in the two hubs. -/
def KeyStable (ex : List Nat) (h h1 : ObjectManager) : Prop :=
  h1.pathedPobs = h.pathedPobs ∧ h1.removedPobs = h.removedPobs ∧
  ∀ id, id ∉ ex → ∀ p, h.getPob id = some p → ∃ p1, h1.getPob id = some p1 ∧ keyOf p1 = keyOf p

end ObjectManager

/-! ## DiscretePDF (`include/klee/ADT/DiscretePDF.h`)

The tree is a value of type `Node`, the null pointer being `nil`. A pointer into the tree is a
zipper: the subtree at the node and the list of frames of its ancestors, nearest first, so that
`n->parent` is the head frame. Weights, their sums and the argument of `choose` are exact
rationals: the rounding of the type `double` is not modelled, and what is proved of the sums
and of `choose` is for that exact arithmetic. -/

namespace DiscretePDF

/-- `DiscretePDF::Node`; `mark` is `m_mark` (true for red), `nil` the null pointer. -/
inductive Node (T : Type) where
  | nil : Node T
  | node (mark : Bool) (key : T) (weight sumWeights : ℚ) (left right : Node T) : Node T
deriving DecidableEq, Repr

/-- On which side of its parent a node hangs. -/
inductive Dir where
  | left | right
deriving DecidableEq, Repr

/-- An ancestor seen from below: its own fields and its other child. -/
structure Frame (T : Type) where
  dir : Dir
  mark : Bool
  key : T
  weight : ℚ
  sumWeights : ℚ
  sibling : Node T
deriving DecidableEq, Repr

variable {T : Type}

namespace Node

/-- `sumWeights` of a child as `setSum` reads it: nothing is added for a null child. -/
def sum : Node T → ℚ
  | nil => 0
  | node _ _ _ s _ _ => s

/-- `!n || n->isBlack()`, the test of `leftIsBlack` and `rightIsBlack`. -/
def isBlack : Node T → Bool
  | nil => true
  | node m _ _ _ _ _ => !m

/-- `if (n) n->markRed()` (`m = true`) and `if (n) n->markBlack()` (`m = false`). -/
def setMark (m : Bool) : Node T → Node T
  | nil => nil
  | node _ k w s l r => node m k w s l r

/-- `Node::setSum`. -/
def setSum : Node T → Node T
  | nil => nil
  | node m k w _ l r => node m k w (w + l.sum + r.sum) l r

/-- Is the pointer null. -/
def isNil : Node T → Bool
  | nil => true
  | node _ _ _ _ _ _ => false

end Node

open Node

/-- The parent node of a frame, with `child` as the child on the frame's side. -/
def plug (f : Frame T) (child : Node T) : Node T :=
  match f.dir with
  | Dir.left => node f.mark f.key f.weight f.sumWeights child f.sibling
  | Dir.right => node f.mark f.key f.weight f.sumWeights f.sibling child

/-- The whole tree (`m_root`) around a pointer. -/
def zip : Node T → List (Frame T) → Node T
  | t, [] => t
  | t, f :: fs => zip (plug f t) fs

/-- The pointer to the child on side `d` of a node. -/
def focusChild (d : Dir) : Node T → Option (Node T × Frame T)
  | nil => none
  | node m k w s l r =>
    match d with
    | Dir.left => some (l, ⟨Dir.left, m, k, w, s, r⟩)
    | Dir.right => some (r, ⟨Dir.right, m, k, w, s, l⟩)

/-- The other side. -/
def Dir.other : Dir → Dir
  | Dir.left => Dir.right
  | Dir.right => Dir.left

/-- `DiscretePDF::rotate(n)` for the node `n` below the parent frame `p`: the subtree that
takes the parent's place. `n->setSum()` runs before `p->setSum()` and so reads the sum the
parent had before the rotation. -/
def rotate : Node T → Frame T → Option (Node T)
  | nil, _ => none
  | node nm nk nw _ nl nr, p =>
    match p.dir with
    | Dir.left =>
      some (node nm nk nw (nw + nl.sum + p.sumWeights) nl
        (node p.mark p.key p.weight (p.weight + nr.sum + p.sibling.sum) nr p.sibling))
    | Dir.right =>
      some (node nm nk nw (nw + p.sumWeights + nr.sum)
        (node p.mark p.key p.weight (p.weight + p.sibling.sum + nl.sum) p.sibling nl) nr)

/-- `DiscretePDF::split(n)`: the pointer to `n` afterwards; `none` for a read through a null
pointer (`p->parent` of a red root). -/
def split : Node T → List (Frame T) → Option (Node T × List (Frame T))
  | nil, _ => none
  | node m k w s l r, ctx =>
    let l1 := l.setMark false
    let r1 := r.setMark false
    match ctx with
    | [] => some (node m k w s l1 r1, [])
    | p :: rest =>
      let n := node true k w s l1 r1
      if !p.mark then some (n, p :: rest)
      else
        match rest with
        | [] => none
        | pp :: rest2 =>
          let pp1 : Frame T := { pp with mark := true }
          if p.dir = pp.dir then
            match rotate (plug p n) pp1 with
            | none => none
            | some top =>
              (focusChild p.dir (top.setMark false)).map fun c => (c.1, c.2 :: rest2)
          else
            match rotate n p with
            | none => none
            | some n1 =>
              match rotate n1 pp1 with
              | none => none
              | some n2 => some (n2.setMark false, rest2)

/-- `DiscretePDF::propagateSumsUp(n)`: the root afterwards. -/
def propagateSumsUp : Node T → List (Frame T) → Node T
  | n, [] => n.setSum
  | n, f :: fs => propagateSumsUp (plug f n.setSum) fs

section Ordered

variable [LinearOrder T]

/-- `DiscretePDF::lookup(item)`: the pointer found (null when the item is absent), with the
frames of the nodes passed. -/
def lookup (item : T) : Node T → List (Frame T) → Node T × List (Frame T)
  | nil, ctx => (nil, ctx)
  | node m k w s l r, ctx =>
    if k = item then (node m k w s l r, ctx)
    else if item < k then lookup item l (⟨Dir.left, m, k, w, s, r⟩ :: ctx)
    else lookup item r (⟨Dir.right, m, k, w, s, l⟩ :: ctx)

/-- `DiscretePDF::inTree`. -/
def inTree (item : T) (root : Node T) : Bool := !(lookup item root []).1.isNil

/-- `DiscretePDF::getWeight`; `none` when `assert(n)` fails. -/
def getWeight (item : T) (root : Node T) : Option ℚ :=
  match (lookup item root []).1 with
  | nil => none
  | node _ _ w _ _ _ => some w

/-- The `while (n)` loop of `insert`: the frames above the null position reached; `none` when
the item is met (the assertion), `split` fails, or the fuel runs out. -/
def insertLoop (item : T) : Nat → Node T → List (Frame T) → Option (List (Frame T))
  | 0, _, _ => none
  | _ + 1, nil, ctx => some ctx
  | fuel + 1, node m k w s l r, ctx =>
    match (if !l.isBlack && !r.isBlack then split (node m k w s l r) ctx
           else some (node m k w s l r, ctx)) with
    | none => none
    | some (nil, _) => none
    | some (node m1 k1 w1 s1 l1 r1, ctx1) =>
      if k1 = item then none
      else if item < k1 then insertLoop item fuel l1 (⟨Dir.left, m1, k1, w1, s1, r1⟩ :: ctx1)
      else insertLoop item fuel r1 (⟨Dir.right, m1, k1, w1, s1, l1⟩ :: ctx1)

/-- `DiscretePDF::insert(item, weight)`: the root afterwards. -/
def insert (fuel : Nat) (item : T) (weight : ℚ) (root : Node T) : Option (Node T) :=
  match insertLoop item fuel root [] with
  | none => none
  | some [] => some (propagateSumsUp (node false item weight 0 nil nil) [])
  | some (p :: rest) =>
    match split (node false item weight 0 nil nil) (p :: rest) with
    | none => none
    | some (n, ctx) => some (propagateSumsUp n ctx)

/-- `DiscretePDF::update(item, weight)`: the root afterwards. -/
def update (item : T) (weight : ℚ) (root : Node T) : Option (Node T) :=
  match lookup item root [] with
  | (nil, _) => none
  | (node m k _ s l r, ctx) => some (propagateSumsUp (node m k weight s l r) ctx)

end Ordered

/-- The loop `while ((*leftMaxp)->right) leftMaxp = &(*leftMaxp)->right;` of `remove`: the
rightmost node below, with the frames passed. -/
def leftMax : Node T → List (Frame T) → Node T × List (Frame T)
  | nil, acc => (nil, acc)
  | node m k w s l nil, acc => (node m k w s l nil, acc)
  | node m k w s l (node rm rk rw rs rl rr), acc =>
    leftMax (node rm rk rw rs rl rr) (⟨Dir.right, m, k, w, s, l⟩ :: acc)

/-- The rotation of the sibling of `n` above the parent of `n`, as a pointer to `n`
afterwards: `rotate(sibling)` in `lengthen`. -/
def rotateSibling (n : Node T) (p : Frame T) (rest : List (Frame T)) :
    Option (Node T × List (Frame T)) :=
  match rotate p.sibling { p with dir := p.dir.other, sibling := n } with
  | none => none
  | some top =>
    match focusChild p.dir top with
    | none => none
    | some (p1, fs) =>
      match focusChild p.dir p1 with
      | none => none
      | some (n1, fp) => some (n1, fp :: fs :: rest)

/-- The first part of `lengthen(n)` for a black `n` below the parent frame `p0`: a red
sibling is marked black and rotated above the parent, which is marked red. The pointer to `n`
afterwards. -/
def redSibling (n : Node T) (p0 : Frame T) (rest0 : List (Frame T)) :
    Option (Node T × List (Frame T)) :=
  if !p0.sibling.isNil && !p0.sibling.isBlack then
    rotateSibling n { p0 with mark := true, sibling := p0.sibling.setMark false } rest0
  else some (n, p0 :: rest0)

/-- The pointer to the child on side `d` of the node that `lengthen(n->parent)` left as the
parent. -/
def refocus (d : Dir) : Option (Node T × List (Frame T)) → Option (Node T × List (Frame T))
  | none => none
  | some (pn, rest1) => (focusChild d pn).map fun c => (c.1, c.2 :: rest1)

/-- The last branch of `lengthen(n)`: the sibling `node sm sk sw ss sl sr` of `n` is black and
has a red child. The pointer to `n` afterwards; `none` for a read through a null pointer. -/
def farRotate (n1 : Node T) (p : Frame T) (rest : List (Frame T)) (sm : Bool) (sk : T)
    (sw ss : ℚ) (sl sr : Node T) : Option (Node T × List (Frame T)) :=
  let sibling : Option (Node T) :=
    if p.dir = Dir.left ∧ sr.isBlack then
      (rotate sl ⟨Dir.left, true, sk, sw, ss, sr⟩).map fun t => t.setMark false
    else if p.dir = Dir.right ∧ sl.isBlack then
      (rotate sr ⟨Dir.right, true, sk, sw, ss, sl⟩).map fun t => t.setMark false
    else some (node sm sk sw ss sl sr)
  match sibling with
  | none => none
  | some sib =>
    match rotate sib { p with dir := p.dir.other, sibling := n1 } with
    | none => none
    | some nil => none
    | some (node tm tk tw ts tl tr) =>
      if tl.isNil || tr.isNil then none
      else
        let top := node (if p.mark then true else tm) tk tw ts
          (tl.setMark false) (tr.setMark false)
        match focusChild p.dir top with
        | none => none
        | some (p1, fs) => (focusChild p.dir p1).map fun c => (c.1, c.2 :: fs :: rest)

/-- The part of `lengthen(n)` after the red sibling case, for `n` below the parent frame `p`;
`up p2` is the call `lengthen(n->parent)` with the parent as `p2` describes it. -/
def blackSibling (up : Frame T → Option (Node T × List (Frame T))) (n1 : Node T)
    (p : Frame T) (rest : List (Frame T)) : Option (Node T × List (Frame T)) :=
  match p.sibling with
  | nil => up p
  | node sm sk sw ss sl sr =>
    if sl.isBlack && sr.isBlack then
      if !p.mark then up { p with sibling := node true sk sw ss sl sr }
      else some (n1, { p with mark := false, sibling := node true sk sw ss sl sr } :: rest)
    else farRotate n1 p rest sm sk sw ss sl sr

/-- `DiscretePDF::lengthen(n)`: the pointer to `n` afterwards; `none` for a read through a null
pointer or when the fuel runs out. -/
def lengthen : Nat → Node T → List (Frame T) → Option (Node T × List (Frame T))
  | 0, _, _ => none
  | fuel + 1, n, ctx =>
    if !n.isBlack then some (n.setMark false, ctx)
    else
      match ctx with
      | [] => some (n, [])
      | p0 :: rest0 =>
        match redSibling n p0 rest0 with
        | none => none
        | some (_, []) => none
        | some (n1, p :: rest) =>
          blackSibling (fun p2 => refocus p2.dir (lengthen fuel (plug p2 n1) rest)) n1 p rest

/-- The end of `remove(item)` for the node `n` below the frames `nctx`, which has at most one
child: `*np = child`, `lengthen(child)` when there is a child and `n` is black, and
`propagateSumsUp(n->parent)`. The root afterwards. -/
def unlink (fuel : Nat) : Node T → List (Frame T) → Option (Node T)
  | nil, _ => none
  | node nm _ _ _ nl nr, nctx =>
    let child := if nl.isNil then nr else nl
    let after : Option (Node T × List (Frame T)) :=
      if !child.isNil && !nm then lengthen fuel child nctx else some (child, nctx)
    match after with
    | none => none
    | some (c, []) => some c
    | some (c, p :: rest) => some (propagateSumsUp (plug p c) rest)

section Ordered

variable [LinearOrder T]

/-- `DiscretePDF::remove(item)`: the root afterwards; `fuel` is for `lengthen`. When the node
found has a left child, the key and the weight of the rightmost node below that child are
copied into it and that node is the one taken out. -/
def remove (fuel : Nat) (item : T) (root : Node T) : Option (Node T) :=
  match lookup item root [] with
  | (nil, _) => none
  | (node m k w s l r, ctx) =>
    match l with
    | nil => unlink fuel (node m k w s l r) ctx
    | node _ _ _ _ _ _ =>
      match leftMax l [] with
      | (nil, _) => none
      | (node xm xk xw xs xl xr, acc) =>
        unlink fuel (node xm xk xw xs xl xr) (acc ++ ⟨Dir.left, m, xk, xw, s, r⟩ :: ctx)

end Ordered

/-- The loop of `choose`. -/
def chooseLoop : Node T → ℚ → Option T
  | nil, _ => none
  | node _ k w _ l r, x =>
    match l with
    | nil => if x < w ∨ r.isNil then some k else chooseLoop r (x - w)
    | node _ _ _ ls _ _ =>
      if x < ls then chooseLoop l x
      else if x - ls < w ∨ r.isNil then some k else chooseLoop r (x - ls - w)

/-- `DiscretePDF::choose(p)`; `none` when an assertion fails. The product `sumWeights * p`
and the subtractions of the loop are exact, where the source rounds them to `double`. -/
def choose (p : ℚ) (root : Node T) : Option T :=
  if p < 0 ∨ p ≥ 1 then none
  else
    match root with
    | nil => none
    | node m k w s l r => chooseLoop (node m k w s l r) (s * p)

end DiscretePDF

namespace DiscretePDF

variable {T : Type}

open Node

/-- The keys with their weights, in the order of the tree (left subtree, node, right subtree). -/
def toList : Node T → List (T × ℚ)
  | nil => []
  | node _ k w _ l r => toList l ++ (k, w) :: toList r

/-- What stands before the pointer in the order of the whole tree. -/
def ctxBefore : List (Frame T) → List (T × ℚ)
  | [] => []
  | f :: fs =>
    match f.dir with
    | Dir.left => ctxBefore fs
    | Dir.right => ctxBefore fs ++ (toList f.sibling ++ [(f.key, f.weight)])

/-- What stands after the pointer in the order of the whole tree. -/
def ctxAfter : List (Frame T) → List (T × ℚ)
  | [] => []
  | f :: fs =>
    match f.dir with
    | Dir.left => ((f.key, f.weight) :: toList f.sibling) ++ ctxAfter fs
    | Dir.right => ctxAfter fs

/-- Every node's `sumWeights` is its weight plus the `sumWeights` of its children. -/
def SumOK : Node T → Prop
  | nil => True
  | node _ _ w s l r => s = w + l.sum + r.sum ∧ SumOK l ∧ SumOK r

/-- The children of a node are consistent (the node itself need not be). -/
def KidsOK : Node T → Prop
  | nil => True
  | node _ _ _ _ l r => SumOK l ∧ SumOK r

/-- Every subtree hanging off the path to the root is consistent. -/
def CtxOK (ctx : List (Frame T)) : Prop := ∀ f ∈ ctx, SumOK f.sibling

/-- No red node of the subtree has a red child. -/
def RedOK : Node T → Prop
  | nil => True
  | node m _ _ _ l r => (m = true → l.isBlack = true ∧ r.isBlack = true) ∧ RedOK l ∧ RedOK r

/-- The colour conditions above a pointer whose node is black exactly when `b` holds: the root
is black, no red ancestor has a red child, and the subtrees hanging off the path satisfy
`RedOK`. -/
def CtxRedOK : Bool → List (Frame T) → Prop
  | b, [] => b = true
  | b, f :: fs =>
    RedOK f.sibling ∧ (f.mark = true → b = true ∧ f.sibling.isBlack = true) ∧
      CtxRedOK (!f.mark) fs

/-- The colour conditions of the whole tree, seen from a pointer. -/
def ColourOK (n : Node T) (ctx : List (Frame T)) : Prop := RedOK n ∧ CtxRedOK n.isBlack ctx

/-- Number of red nodes. -/
def reds : Node T → Nat
  | nil => 0
  | node m _ _ _ l r => (if m then 1 else 0) + reds l + reds r

/-- Number of nodes. -/
def size : Node T → Nat
  | nil => 0
  | node _ _ _ _ l r => 1 + size l + size r

/-- Number of red nodes on and beside the path to the root. -/
def ctxReds : List (Frame T) → Nat
  | [] => 0
  | f :: fs => (if f.mark then 1 else 0) + reds f.sibling + ctxReds fs

/-- Number of nodes on and beside the path to the root. -/
def ctxSize : List (Frame T) → Nat
  | [] => 0
  | f :: fs => 1 + size f.sibling + ctxSize fs

/-- Enough fuel for the loop of `insert` on the tree `root`. -/
def insertFuel (root : Node T) : Nat := reds root * (size root + 1) + size root + 1

/-- Enough fuel for `lengthen` in `remove` on the tree `root`. -/
def removeFuel (root : Node T) : Nat := size root + 2

/-- The keys of a list are strictly increasing. -/
def KeysSorted [LinearOrder T] (L : List (T × ℚ)) : Prop := L.Pairwise fun a b => a.1 < b.1

/-- The representation invariant of the tree: search order, consistent sums, colours. -/
def Valid [LinearOrder T] (t : Node T) : Prop :=
  KeysSorted (toList t) ∧ SumOK t ∧ ColourOK t []

end DiscretePDF

namespace DiscretePDF

variable {T : Type}

open Node

/-- A black node with black children. -/
def GoodBlack (c : Node T) : Prop :=
  ∃ k w s l r, c = node false k w s l r ∧ l.isBlack = true ∧ r.isBlack = true

/-- The child the loop of `insert` goes to from a node. -/
def itemChild [LinearOrder T] (item : T) : Node T → Node T
  | nil => nil
  | node _ k _ _ l r => if item < k then l else r

/-- The quantity that decreases along the loop of `insert`. -/
def insertPot (n : Node T) (ctx : List (Frame T)) : Nat :=
  (reds n + ctxReds ctx) * (size n + ctxSize ctx + 1) + size n

/-- What holds at a pointer on the search path of `item`, also between `split` and
`propagateSumsUp`: `L` is the content of the whole tree. -/
structure BaseInv [LinearOrder T] (item : T) (L : List (T × ℚ)) (n : Node T)
    (ctx : List (Frame T)) : Prop where
  content : toList (zip n ctx) = L
  sorted : KeysSorted L
  before : ∀ x ∈ ctxBefore ctx, x.1 < item
  after : ∀ x ∈ ctxAfter ctx, item < x.1
  kids : KidsOK n
  sumC : CtxOK ctx
  colour : ColourOK n ctx

/-- The invariant of the loop of `insert`. -/
structure LoopInv [LinearOrder T] (item : T) (L : List (T × ℚ)) (n : Node T)
    (ctx : List (Frame T)) : Prop where
  base : BaseInv item L n ctx
  absent : ∀ w, (item, w) ∉ L
  sumN : SumOK n
  uncle : ∀ f1 f2 rest, ctx = f1 :: f2 :: rest → f1.mark = true →
    f2.sibling.isBlack = false → GoodBlack n
  sib : ∀ f1 rest, ctx = f1 :: rest → n.isBlack = false →
    f1.sibling.isBlack = false → GoodBlack (itemChild item n)

end DiscretePDF

namespace DiscretePDF

variable {T : Type}

/-- What `lengthen` on the pointer `(n, ctx)` leaves as the pointer `(n1, ctx1)`: the node
with at most its mark changed, the same content around it, consistent sums beside the path,
and the colour conditions of the whole tree. -/
def LengthenPost (n : Node T) (ctx : List (Frame T)) (n1 : Node T) (ctx1 : List (Frame T)) :
    Prop :=
  (n1 = n ∨ n1 = n.setMark false) ∧ ctxBefore ctx1 = ctxBefore ctx ∧
    ctxAfter ctx1 = ctxAfter ctx ∧ (CtxOK ctx → CtxOK ctx1) ∧
    (RedOK n → CtxRedOK true ctx → ColourOK n1 ctx1)

end DiscretePDF

namespace Ticker

/-- A call of one of the two public methods that change the ticker. -/
inductive Call where
  | getCurrent
  | moveToNext
deriving DecidableEq, Repr

/-- The active slot is in range and has a positive quota, and the counter is below it. -/
def Active (ticks : List Nat) (t : Ticker) : Prop :=
  t.ticks = ticks ∧ t.index < ticks.length ∧ 0 < ticks.getD t.index 0 ∧
    t.counter < ticks.getD t.index 0

/-- A sequence of calls in order: the slots that the `getCurrent()` calls returned and the
ticker afterwards; `none` when an assertion fails or a loop runs out of fuel. -/
def run (fuel : Nat) : List Call → Ticker → Option (List Nat × Ticker)
  | [], t => some ([], t)
  | Call.getCurrent :: cs, t =>
    match getCurrent fuel t with
    | none => none
    | some (c, t1) => (run fuel cs t1).map fun r => (c :: r.1, r.2)
  | Call.moveToNext :: cs, t =>
    match moveToNext fuel t with
    | none => none
    | some t1 => run fuel cs t1

end Ticker

/-! ## ExecutionState::isStuck (`lib/Core/ExecutionState.h`) -/

/-- Wrap-around of the C++ `unsigned long long` type. -/
def u64 (n : Nat) : Nat := n % 18446744073709551616

/-- The data members of `ExecutionState` that `isStuck` reads: the two program counters (`none`
for a null pointer) and the visit counters per block, a block without an entry counting as 0
(what `multilevel[...]` gives for it). -/
structure LevelState where
  prevPC : Option KInstruction
  pc : Option KInstruction
  multilevel : Nat → Nat

namespace LevelState

/-- `ExecutionState::getPCBlock`, for a state whose `prevPC` is `prev`. -/
def getPCBlock (s : LevelState) (prev : KInstruction) : Nat :=
  match s.pc with
  | some pc => pc.parent
  | none => prev.parent

/-- `ExecutionState::isStuck(bound)`; `isTerminator` is `inst->isTerminator()` of an
instruction, and `bound - 1` is computed in `unsigned long long`. -/
def isStuck (isTerminator : KInstruction → Bool) (s : LevelState) (bound : Nat) : Bool :=
  match s.prevPC with
  | none => false
  | some prev =>
    isTerminator prev && decide (s.multilevel (s.getPCBlock prev) > u64 (bound + 18446744073709551615))

end LevelState

/-! ## DistanceCalculator (`lib/Core/DistanceCalculator.cpp`, `DistanceCalculator.h`) -/

/-- `WeightResult`. -/
inductive WeightResult where
  | Done
  | Continue
  | Miss
deriving DecidableEq, Repr

/-- `DistanceResult`. -/
structure DistanceResult where
  result : WeightResult
  weight : Nat
  isInsideFunction : Bool
deriving DecidableEq, Repr

namespace DistanceCalculator

/-- `DistanceCalculator::TargetKind`. -/
inductive TargetKind where
  | LocalTarget
  | PreTarget
  | PostTarget
  | NoneTarget
deriving DecidableEq, Repr

/-- The value of the enumerator. -/
def TargetKind.toNat : TargetKind → Nat
  | TargetKind.LocalTarget => 0
  | TargetKind.PreTarget => 1
  | TargetKind.PostTarget => 2
  | TargetKind.NoneTarget => 3

/-- `SpeculativeState::computeHash`, in `unsigned`; `kb` is the value of the block pointer and
`magic` the constant `SymbolicSource::MAGIC_HASH_CONSTANT`. -/
def computeHash (magic kb : Nat) (kind : TargetKind) (reversed : Bool) : Nat :=
  u32 (u32 (kb * magic + kind.toNat) * magic + (if reversed then 1 else 0))

/-- `SpeculativeState`, as its constructor builds it. -/
structure SpeculativeState where
  hashValue : Nat
  kb : Nat
  kind : TargetKind
  reversed : Bool
deriving DecidableEq, Repr

/-- The constructor `SpeculativeState(kb, kind, reversed)`. -/
def SpeculativeState.init (magic kb : Nat) (kind : TargetKind) (reversed : Bool) :
    SpeculativeState :=
  { hashValue := computeHash magic kb kind reversed, kb := kb, kind := kind,
    reversed := reversed }

/-- `SpeculativeStateHash::operator()`: its return type is `bool`. -/
def SpeculativeStateHash (a : SpeculativeState) : Bool := decide (a.hashValue ≠ 0)

/-- `SpeculativeStateCompare::operator()`. -/
def SpeculativeStateCompare (a b : SpeculativeState) : Bool :=
  decide (a.kb = b.kb) && decide (a.kind = b.kind)

/-- The entry of a `SpeculativeStateToDistanceResultMap` that a lookup of `k` finds: one with
the hash of `k` that the key comparison takes for `k`. -/
def findSpec (m : List (SpeculativeState × DistanceResult)) (k : SpeculativeState) :
    Option DistanceResult :=
  (m.find? fun e =>
    decide (SpeculativeStateHash e.1 = SpeculativeStateHash k) &&
      SpeculativeStateCompare e.1 k).map fun e => e.2

/-- `distanceResultCache`: for each target block the map of that target. -/
abbrev Cache := List (Nat × List (SpeculativeState × DistanceResult))

/-- The map of a target block, if the cache has one. -/
def findTarget (c : Cache) (target : Nat) :
    Option (List (SpeculativeState × DistanceResult)) :=
  (c.find? fun e => decide (e.1 = target)).map fun e => e.2

/-- The statement `distanceResultCache[target][specState] = result` when no entry of the map of
`target` is found for `specState`. -/
def store (c : Cache) (target : Nat) (k : SpeculativeState) (r : DistanceResult) : Cache :=
  match findTarget c target with
  | none => (target, [(k, r)]) :: c
  | some _ => c.map fun e => if e.1 = target then (e.1, (k, r) :: e.2) else e

/-- `DistanceCalculator::getDistance(kb, kind, target, reversed)` over the function
`computeDistance`: the value returned and the cache afterwards; `none` when `at` throws. -/
def getDistance (computeDistance : Nat → TargetKind → Nat → Bool → DistanceResult)
    (magic : Nat) (c : Cache) (kb : Nat) (kind : TargetKind) (target : Nat) (reversed : Bool) :
    Option (DistanceResult × Cache) :=
  let specState := SpeculativeState.init magic kb kind reversed
  let c1 : Cache :=
    if (findTarget c target).isNone ||
        ((findTarget c target).bind fun m => findSpec m specState).isNone then
      store c target specState (computeDistance kb kind target reversed)
    else c
  ((findTarget c1 target).bind fun m => findSpec m specState).map fun r => (r, c1)

end DistanceCalculator

/-! ## BidirectionalSearcher::selectStep (`lib/Core/BidirectionalSearcher.cpp`) -/

namespace BidirectionalSearcher

/-- `BidirectionalSearcher::StepKind`. -/
inductive StepKind where
  | Forward
  | Branch
  | Backward
  | Initialize
deriving DecidableEq, Repr

/-- The slot of the ticker that stands for a step kind. -/
def StepKind.slot : StepKind → Nat
  | StepKind.Forward => 0
  | StepKind.Branch => 1
  | StepKind.Backward => 2
  | StepKind.Initialize => 3

/-- What `empty()` of the four delegates returns. -/
structure Delegates where
  forwardEmpty : Bool
  branchEmpty : Bool
  backwardEmpty : Bool
  initializerEmpty : Bool
deriving DecidableEq, Repr

/-- What `empty()` of the delegate of a step kind returns. -/
def Delegates.emptyOf (d : Delegates) : StepKind → Bool
  | StepKind.Forward => d.forwardEmpty
  | StepKind.Branch => d.branchEmpty
  | StepKind.Backward => d.backwardEmpty
  | StepKind.Initialize => d.initializerEmpty

/-- The ticker that the constructor builds. -/
def defaultTicks : List Nat := [0, 30, 30, 30]

/-- `BidirectionalSearcher::empty`; `none` when `ticks.at` throws. -/
def empty (d : Delegates) (ticks : List Nat) : Option Bool :=
  match ticks.get? 0, ticks.get? 1, ticks.get? 2, ticks.get? 3 with
  | some t0, some t1, some t2, some t3 =>
    some ((d.forwardEmpty || decide (t0 = 0)) && (d.branchEmpty || decide (t1 = 0)) &&
      (d.backwardEmpty || decide (t2 = 0)) && (d.initializerEmpty || decide (t3 = 0)))
  | _, _, _, _ => none

/-- The `switch (choice)` of `selectStep`: the step kind it returns, `none` when it breaks. -/
def switchChoice (d : Delegates) (choice : Nat) : Option StepKind :=
  match choice with
  | 0 => if !d.forwardEmpty then some StepKind.Forward else none
  | 1 => if !d.branchEmpty then some StepKind.Branch else none
  | 2 => if !d.backwardEmpty then some StepKind.Backward else none
  | 3 => if !d.initializerEmpty then some StepKind.Initialize else none
  | _ => none

/-- The `do ... while (choice != initial_choice)` loop of `selectStep`; `none` when the final
assertion is reached, an assertion of the ticker fails, or the fuel runs out (`tf` is the fuel
of the loops of the ticker). -/
def selectLoop (tf : Nat) (d : Delegates) (initial : Nat) :
    Nat → Nat → Ticker → Option (StepKind × Ticker)
  | 0, _, _ => none
  | fuel + 1, choice, t =>
    match switchChoice d choice with
    | some k => some (k, t)
    | none =>
      match Ticker.moveToNext tf t with
      | none => none
      | some t1 =>
        match Ticker.getCurrent tf t1 with
        | none => none
        | some (choice1, t2) =>
          if choice1 ≠ initial then selectLoop tf d initial fuel choice1 t2 else none

/-- `BidirectionalSearcher::selectStep`: the step kind and the ticker afterwards. -/
def selectStep (fuel : Nat) (d : Delegates) (t : Ticker) : Option (StepKind × Ticker) :=
  match Ticker.getCurrent fuel t with
  | none => none
  | some (initial, t1) => selectLoop fuel d initial fuel initial t1

end BidirectionalSearcher

/-! ## PathConstraints::addConstraint (`lib/Expr/Constraints.cpp`) -/

/-- What `addConstraint` uses of the expression library, which is not part of the sources at
hand: the tests `isa<ConstantExpr>`, `ConstantExpr::isTrue` and `ConstantExpr::isFalse`,
`Expr::splitAnds`, `Simplificator::simplifyExpr` over a constraint set (its `simplified`
component), and the block under `if (RewriteEqualities != None)` as a function of the
constraints and the simplification map. -/
structure ExprOps (Expr : Type) where
  isConstant : Expr → Bool
  isTrue : Expr → Bool
  isFalse : Expr → Bool
  splitAnds : Expr → List Expr
  simplifyExpr : List Expr → Expr → Expr
  rewrite : List Expr × List (Expr × List Expr) → List Expr × List (Expr × List Expr)

/-- The data members of `PathConstraints` that `addConstraint` touches; sets are lists without
repetitions, maps are association lists, and `bindings` are the bindings of the
concretization of the constraint set. -/
structure PathConstraints (Expr : Type) where
  constraints : List Expr
  bindings : List (Nat × Nat)
  original : List Expr
  pathIndexes : List (Expr × Nat)
  simplificationMap : List (Expr × List Expr)
  orderedConstraints : List (Nat × List Expr)

namespace PathConstraints

variable {Expr : Type} [DecidableEq Expr]

/-- Insertion into a set. -/
def setAdd (x : Expr) (s : List Expr) : List Expr := if x ∈ s then s else s ++ [x]

/-- The statement `m[key].insert(x)` on a map to sets. -/
def mapSetAdd {K : Type} [DecidableEq K] (key : K) (x : Expr) :
    List (K × List Expr) → List (K × List Expr)
  | [] => [(key, [x])]
  | (k, s) :: rest =>
    if k = key then (k, setAdd x s) :: rest else (k, s) :: mapSetAdd key x rest

/-- The statement `m[key].push_back(x)` on a map to vectors. -/
def mapPush {K : Type} [DecidableEq K] (key : K) (x : Expr) :
    List (K × List Expr) → List (K × List Expr)
  | [] => [(key, [x])]
  | (k, s) :: rest =>
    if k = key then (k, s ++ [x]) :: rest else (k, s) :: mapPush key x rest

/-- The statement `m.insert({key, v})` on a map: nothing happens when the key is present. -/
def mapInsert (key : Expr) (v : Nat) (m : List (Expr × Nat)) : List (Expr × Nat) :=
  if m.any (fun e => decide (e.1 = key)) then m else m ++ [(key, v)]

/-- `ConstraintSet::addConstraint(e, delta)` on the constraints and the bindings. -/
def csAdd (e : Expr) (delta : List (Nat × Nat)) (cs : List Expr × List (Nat × Nat)) :
    List Expr × List (Nat × Nat) :=
  (setAdd e cs.1,
    delta.foldl (fun b i => (b.filter fun j => decide (j.1 ≠ i.1)) ++ [i]) cs.2)

/-- The loop over the conjuncts in `addConstraint`: the set `added` and the object afterwards;
`none` when the assertion `Expression simplified to false` fails. -/
def addLoop (ops : ExprOps Expr) (delta : List (Nat × Nat)) (currIndex : Nat) :
    List Expr → List Expr × PathConstraints Expr → Option (List Expr × PathConstraints Expr)
  | [], acc => some acc
  | expr :: rest, (added, pc) =>
    if ops.isConstant expr then
      if ops.isTrue expr then addLoop ops delta currIndex rest (added, pc) else none
    else
      let cs := csAdd expr delta (pc.constraints, pc.bindings)
      addLoop ops delta currIndex rest
        (setAdd expr added,
          { constraints := cs.1, bindings := cs.2, original := setAdd expr pc.original,
            pathIndexes := mapInsert expr currIndex pc.pathIndexes,
            simplificationMap := mapSetAdd expr expr pc.simplificationMap,
            orderedConstraints := mapPush currIndex expr pc.orderedConstraints })

/-- `PathConstraints::addConstraint(e, delta, currIndex)`: the set returned and the object
afterwards; `none` when an assertion fails. `rewriteEqualities` tells whether the option
`RewriteEqualities` is other than `None`. -/
def addConstraint (ops : ExprOps Expr) (rewriteEqualities : Bool) (pc : PathConstraints Expr)
    (e : Expr) (delta : List (Nat × Nat)) (currIndex : Nat) :
    Option (List Expr × PathConstraints Expr) :=
  let simplified := ops.simplifyExpr pc.constraints e
  if ops.isConstant simplified then
    if ops.isTrue simplified then some ([], pc) else none
  else
    match addLoop ops delta currIndex (ops.splitAnds simplified) ([], pc) with
    | none => none
    | some (added, pc1) =>
      if rewriteEqualities then
        let r := ops.rewrite (pc1.constraints, pc1.simplificationMap)
        some (added, { pc1 with constraints := r.1, simplificationMap := r.2 })
      else some (added, pc1)

/-- The expression library for natural numbers as expressions: 0 is the constant false, 1 the
constant true, nothing is split and nothing is simplified. -/
def natOps : ExprOps Nat :=
  { isConstant := fun e => decide (e ≤ 1)
    isTrue := fun e => decide (e = 1)
    isFalse := fun e => decide (e = 0)
    splitAnds := fun e => [e]
    simplifyExpr := fun _ e => e
    rewrite := fun r => r }

end PathConstraints

/-! ## CodeGraphDistance (`lib/Module/CodeGraphDistance.cpp`) -/

namespace CodeGraphDistance

/-- `std::unordered_set::insert`. -/
def hashInsert (x : Nat) (s : List Nat) : List Nat := if x ∈ s then s else s ++ [x]

/-- The inner `for` loop of `getNearestPredicateSatisfying` over the neighbours of the current
block: the deque `nodes` and the set `queued` afterwards. -/
def pushNew (visited : List Nat) : List Nat → List Nat × List Nat → List Nat × List Nat
  | [], acc => acc
  | s :: rest, (nodes, queued) =>
    if !decide (s ∈ visited) && !decide (s ∈ queued) then
      pushNew visited rest (nodes ++ [s], hashInsert s queued)
    else pushNew visited rest (nodes, queued)

/-- The `while (!nodes.empty())` loop of `getNearestPredicateSatisfying`; `next` gives the
successors of a block when `forward` is set and its predecessors otherwise. The set `result`
at the end, ordered by id; `none` when the fuel runs out. -/
def nearestLoop (next : Nat → List Nat) (predicate : Nat → Bool) :
    Nat → List Nat → List Nat → List Nat → List Nat → Bool → Option (List Nat)
  | 0, _, _, _, _, _ => none
  | _ + 1, [], _, _, result, _ => some result
  | fuel + 1, currBB :: rest, visited, queued, result, firstIteration =>
    let visited1 := if !firstIteration then hashInsert currBB visited else visited
    if predicate currBB && !firstIteration then
      nearestLoop next predicate fuel rest visited1 queued (setInsert currBB result) false
    else
      let pushed := pushNew visited1 (next currBB) (currBB :: rest, queued)
      nearestLoop next predicate fuel pushed.1.tail visited1 pushed.2 result false

/-- `CodeGraphDistance::getNearestPredicateSatisfying(from, predicate, forward)` on the graph
whose edges in the chosen direction are `next`. -/
def getNearestPredicateSatisfying (fuel : Nat) (next : Nat → List Nat)
    (predicate : Nat → Bool) (source : Nat) : Option (List Nat) :=
  nearestLoop next predicate fuel [source] [] [] [] true

/-- The `for (auto to : nearest)` loop of `dismantleFunction`: the vector `dismantled` and the
queue afterwards. -/
def pushEdges (kblock : Nat) (used : List Nat) :
    List Nat → List (Nat × Nat) × List Nat → List (Nat × Nat) × List Nat
  | [], acc => acc
  | dst :: rest, (dismantled, queue) =>
    pushEdges kblock used rest
      (dismantled ++ [(kblock, dst)], if dst ∈ used then queue else queue ++ [dst])

/-- The `while (!queue.empty())` loop of `dismantleFunction`; `nf` is the fuel of the inner
search. -/
def dismantleLoop (nf : Nat) (successors : Nat → List Nat) (predicate : Nat → Bool) :
    Nat → List Nat → List Nat → List (Nat × Nat) → Option (List (Nat × Nat))
  | 0, _, _, _ => none
  | _ + 1, [], _, dismantled => some dismantled
  | fuel + 1, kblock :: rest, used, dismantled =>
    match getNearestPredicateSatisfying nf successors predicate kblock with
    | none => none
    | some nearest =>
      let pushed := pushEdges kblock (setInsert kblock used) nearest (dismantled, rest)
      dismantleLoop nf successors predicate fuel pushed.2 (setInsert kblock used) pushed.1

/-- `CodeGraphDistance::dismantleFunction(kf, predicate)` for the function with entry block
`entry`, final blocks `finalKBlocks` and successor edges `successors`. -/
def dismantleFunction (fuel nf : Nat) (successors : Nat → List Nat) (entry : Nat)
    (finalKBlocks : List Nat) (predicate : Nat → Bool) : Option (List (Nat × Nat)) :=
  if entry ∈ finalKBlocks then some [(entry, entry)]
  else dismantleLoop nf successors predicate fuel [entry] [] []

/-- There is a non-empty path from `a` to `t` along `next` all of whose intermediate blocks
fail the predicate. -/
inductive NearPath (next : Nat → List Nat) (predicate : Nat → Bool) : Nat → Nat → Prop
  | edge {a t : Nat} : t ∈ next a → NearPath next predicate a t
  | step {a m t : Nat} : m ∈ next a → predicate m = false → NearPath next predicate m t →
      NearPath next predicate a t

/-- The graph `0 → 1, 0 → 2, 1 → 3, 2 → 3, 3 → 4`. -/
def diamond : Nat → List Nat
  | 0 => [1, 2]
  | 1 => [3]
  | 2 => [3]
  | 3 => [4]
  | _ => []

end CodeGraphDistance
namespace CodeGraphDistance

/-- The invariant of the loop of `getNearestPredicateSatisfying` from `src` on a graph whose
blocks have ids below `n`. -/
def NearInv (next : Nat → List Nat) (predicate : Nat → Bool) (src n : Nat)
    (nodes visited queued result : List Nat) (firstIteration : Bool) : Prop :=
  (firstIteration = true → nodes = [src] ∧ visited = [] ∧ queued = [] ∧ result = []) ∧
  (firstIteration = false →
    (∀ x ∈ nodes, x ∈ queued) ∧
    (∀ x ∈ queued, NearPath next predicate src x ∧ x < n) ∧ queued.Nodup ∧
    (∀ x ∈ queued, x ∈ nodes ∨ x ∈ visited) ∧
    (∀ x ∈ visited, x ∈ queued ∧ ((predicate x = true ∧ x ∈ result) ∨
      (predicate x = false ∧ ∀ s ∈ next x, s ∈ queued))) ∧
    (∀ s ∈ next src, s ∈ queued) ∧
    (∀ x ∈ result, predicate x = true ∧ x ∈ visited))

end CodeGraphDistance

namespace CodeGraphDistance

/-- The block `b` is a nearest block of `a` that satisfies the predicate. -/
def Nearest (successors : Nat → List Nat) (predicate : Nat → Bool) (a b : Nat) : Prop :=
  predicate b = true ∧ NearPath successors predicate a b

/-- The block is the entry block or the end of a chain of nearest blocks that starts at the
entry block. -/
inductive ChainReach (successors : Nat → List Nat) (predicate : Nat → Bool) (entry : Nat) :
    Nat → Prop
  | start : ChainReach successors predicate entry entry
  | step {a b : Nat} : ChainReach successors predicate entry a →
      Nearest successors predicate a b → ChainReach successors predicate entry b

/-- A bound on the number of blocks that the loop of `dismantleFunction` takes from the queue
while `v` blocks are still unused, on a graph of `n` blocks: a block can enter the queue several
times before it is used. -/
def dismantleBound (n : Nat) : Nat → Nat
  | 0 => 1
  | v + 1 => 1 + n * dismantleBound n v

/-- The share of a queued block in the bound. -/
def queueWeight (n : Nat) (used : List Nat) (y : Nat) : Nat :=
  dismantleBound n (n - used.length - (if y ∈ used then 0 else 1))

/-- The invariant of the loop of `dismantleFunction`. -/
def DismantleInv (successors : Nat → List Nat) (predicate : Nat → Bool) (entry n : Nat)
    (queue used : List Nat) (dismantled : List (Nat × Nat)) : Prop :=
  (∀ x ∈ queue, ChainReach successors predicate entry x ∧ x < n) ∧
  (∀ x ∈ used, ChainReach successors predicate entry x ∧ x < n) ∧
  used.Pairwise (fun a b => a < b) ∧
  (∀ e ∈ dismantled, e.1 ∈ used ∧ Nearest successors predicate e.1 e.2) ∧
  (∀ a ∈ used, ∀ b, Nearest successors predicate a b →
    (a, b) ∈ dismantled ∧ (b ∈ used ∨ b ∈ queue)) ∧
  (entry ∈ used ∨ entry ∈ queue)

end CodeGraphDistance

namespace CodeGraphDistance

/-- The entry of a distance map for a block, if there is one; the map lists its entries in the
order of insertion (the order of `blockSortedDistance`). -/
def distOf (dist : List (Nat × Nat)) (b : Nat) : Option Nat :=
  (dist.find? fun e => decide (e.1 = b)).map fun e => e.2

/-- The `for` loop of `calculateDistance` over the neighbours of the current block, whose
distance is `d`: the deque `nodes` and the map `dist` afterwards. -/
def relax (d : Nat) : List Nat → List Nat × List (Nat × Nat) → List Nat × List (Nat × Nat)
  | [], acc => acc
  | s :: rest, (nodes, dist) =>
    if (distOf dist s).isNone then relax d rest (nodes ++ [s], dist ++ [(s, u32 (d + 1))])
    else relax d rest (nodes, dist)

/-- The `while (!nodes.empty())` loop of `calculateDistance` and `calculateBackwardDistance`;
`next` gives the successors or the predecessors of a block. `none` when the fuel runs out or
the current block has no entry in `dist`. -/
def distanceLoop (next : Nat → List Nat) :
    Nat → List Nat → List (Nat × Nat) → Option (List (Nat × Nat))
  | 0, _, _ => none
  | _ + 1, [], dist => some dist
  | fuel + 1, currBB :: rest, dist =>
    match distOf dist currBB with
    | none => none
    | some d =>
      let r := relax d (next currBB) (currBB :: rest, dist)
      distanceLoop next fuel r.1.tail r.2

/-- `CodeGraphDistance::calculateDistance(bb)` (with the successors as `next`) and
`calculateBackwardDistance(bb)` (with the predecessors): the map computed. -/
def calculateDistance (fuel : Nat) (next : Nat → List Nat) (bb : Nat) :
    Option (List (Nat × Nat)) :=
  distanceLoop next fuel [bb] [(bb, 0)]

/-- `CodeGraphDistance::getDistance(kb)` and `getBackwardDistance(kb)` over the cache
`blockDistance` (`blockBackwardDistance`): the map returned and the cache afterwards. -/
def getDistance (fuel : Nat) (next : Nat → List Nat)
    (cache : List (Nat × List (Nat × Nat))) (kb : Nat) :
    Option (List (Nat × Nat) × List (Nat × List (Nat × Nat))) :=
  match cache.find? fun e => decide (e.1 = kb) with
  | some e => some (e.2, cache)
  | none => (calculateDistance fuel next kb).map fun d => (d, cache ++ [(kb, d)])

/-- There is a path of `k` edges from `a` to `b`. -/
inductive Walk (next : Nat → List Nat) (a : Nat) : Nat → Nat → Prop
  | zero : Walk next a a 0
  | snoc {m b k : Nat} : Walk next a m k → b ∈ next m → Walk next a b (k + 1)

/-- The number `d` is the number of edges of a shortest path from `a` to `b`. -/
def IsDist (next : Nat → List Nat) (a b d : Nat) : Prop :=
  Walk next a b d ∧ ∀ k, Walk next a b k → d ≤ k

/-- Every map of the cache is what `calculateDistance` computes for its block. -/
def CacheOK (fuel : Nat) (next : Nat → List Nat) (cache : List (Nat × List (Nat × Nat))) :
    Prop :=
  ∀ e ∈ cache, calculateDistance fuel next e.1 = some e.2

/-- The invariant of the loop of `calculateDistance` from `src` on a graph of `n` blocks: `p`
are the entries of the blocks already taken from the deque and `q` those of the blocks in
it. -/
def DistInv (next : Nat → List Nat) (src n : Nat) (p q : List (Nat × Nat)) : Prop :=
  ((p ++ q).map fun e => e.1).Nodup ∧
  (∀ e ∈ p ++ q, Walk next src e.1 e.2 ∧ e.1 < n ∧ e.2 < (p ++ q).length) ∧
  ((p ++ q).map fun e => e.2).Pairwise (fun a b => a ≤ b) ∧
  (∀ h ∈ q.head?, ∀ e ∈ p ++ q, e.2 ≤ h.2 + 1) ∧
  (∀ u ∈ p, ∀ v ∈ next u.1, ∃ dv, (v, dv) ∈ p ++ q ∧ dv ≤ u.2 + 1) ∧
  (src, 0) ∈ p ++ q

/-- The successors in the graph with the single edge `0 → 1`. -/
def oneEdge (x : Nat) : List Nat := if x = 0 then [1] else []

/-- The predecessors in the graph with the single edge `0 → 1`. -/
def oneEdgeRev (x : Nat) : List Nat := if x = 1 then [0] else []

end CodeGraphDistance

namespace DiscretePDF

variable {T : Type}

/-- The sum of the weights of a list of keys with weights. -/
def weightSum (L : List (T × ℚ)) : ℚ := (L.map fun x => x.2).sum

/-- The key at which the running sum of the weights, taken in the order of the list, first
exceeds `x`. -/
def pick : List (T × ℚ) → ℚ → Option T
  | [], _ => none
  | (k, w) :: rest, x => if x < w then some k else pick rest (x - w)

end DiscretePDF

namespace DiscretePDF

variable {T : Type}

/-- A call of one of the three public methods that change the tree. -/
inductive Op (T : Type) where
  | insert (item : T) (weight : ℚ)
  | update (item : T) (weight : ℚ)
  | remove (item : T)
deriving DecidableEq, Repr

/-- The key a call is about. -/
def Op.key : Op T → T
  | Op.insert k _ => k
  | Op.update k _ => k
  | Op.remove k => k

section Ordered

variable [LinearOrder T]

/-- One call on the tree `root`: the root afterwards; `fuel` bounds the loop of `insert` and
the recursion of `lengthen`. -/
def applyOp (fuel : Nat) : Op T → Node T → Option (Node T)
  | Op.insert k w, root => insert fuel k w root
  | Op.update k w, root => update k w root
  | Op.remove k, root => remove fuel k root

/-- A sequence of calls in order. -/
def runOps (fuel : Nat) : List (Op T) → Node T → Option (Node T)
  | [], root => some root
  | op :: ops, root =>
    match applyOp fuel op root with
    | none => none
    | some root1 => runOps fuel ops root1

/-- The precondition of a call on a tree whose keys and weights are `L`: `insert` of an absent
key, `update` and `remove` of a present key. -/
def Op.pre (L : List (T × ℚ)) : Op T → Bool
  | Op.insert k _ => !L.any fun x => decide (x.1 = k)
  | Op.update k _ => L.any fun x => decide (x.1 = k)
  | Op.remove k => L.any fun x => decide (x.1 = k)

/-- A call on a finite map kept as the list of its keys with their weights, in the order of
the keys. -/
def Op.model (L : List (T × ℚ)) : Op T → List (T × ℚ)
  | Op.insert k w =>
    L.filter (fun x => decide (x.1 < k)) ++ (k, w) :: L.filter (fun x => decide (k < x.1))
  | Op.update k w => L.map fun x => if x.1 = k then (k, w) else x
  | Op.remove k => L.filter fun x => decide (x.1 ≠ k)

/-- A sequence of calls on the finite map. -/
def modelRun : List (Op T) → List (T × ℚ) → List (T × ℚ)
  | [], L => L
  | op :: ops, L => modelRun ops (op.model L)

/-- Every call of the sequence meets its precondition in the map it is made on. -/
def OpsOK : List (Op T) → List (T × ℚ) → Prop
  | [], _ => True
  | op :: ops, L => op.pre L = true ∧ OpsOK ops (op.model L)

end Ordered

/-- Enough fuel for a sequence of calls that starts on the empty tree. -/
def opsFuel (ops : List (Op T)) : Nat := (ops.length + 2) * (ops.length + 2)

end DiscretePDF

/-! ## TargetForest (`lib/Module/TargetForest.cpp`)

A `ref<Target>` is a number and an `UnorderedTargetsSet` the list of its targets; both are
content-uniqued in the code, so equal values stand for the same object. The maps `forest` and
`targetsToVector` of a layer are association lists in iteration order. The members `targets`
and `confidence` of a layer are left out: the functions below only write them. -/

namespace TargetForest

/-- `TargetForest::Layer`: `forest` maps a target set to the layer below it, and
`targetsToVector` a target to the target sets of this layer it is filed under. -/
inductive Layer where
  | mk (forest : List (List Nat × Layer)) (targetsToVector : List (Nat × List (List Nat))) :
      Layer
deriving Repr

namespace Layer

/-- The member `forest`. -/
def forest : Layer → List (List Nat × Layer)
  | mk f _ => f

/-- The member `targetsToVector`. -/
def targetsToVector : Layer → List (Nat × List (List Nat))
  | mk _ v => v

/-- Modelled from the spec: `Layer::empty()`, declared in `TargetForest.h`; the forest is a
map from target set to child forest, and a layer is empty when this map has no entry. -/
def empty (l : Layer) : Bool := l.forest.isEmpty

end Layer

/-- The statement `m.find(key)` on a map: the value found. -/
def find {K V : Type} [DecidableEq K] (key : K) : List (K × V) → Option V
  | [] => none
  | (k, v) :: rest => if k = key then some v else find key rest

/-- The statement `m.erase(key)` on a map. -/
def erase {K V : Type} [DecidableEq K] (key : K) (m : List (K × V)) : List (K × V) :=
  m.filter fun e => decide (e.1 ≠ key)

/-- The statement `it->second = v` for the entry of `key`. -/
def assign {K V : Type} [DecidableEq K] (key : K) (v : V) : List (K × V) → List (K × V)
  | [] => []
  | (k, v0) :: rest => if k = key then (k, v) :: rest else (k, v0) :: assign key v rest

/-- The loop `for (target : child->getTargets())` that takes the set `child` out of the entries
of its targets in `targetsToVector` and erases the entries that become empty. -/
def unfile (child : List Nat) (index : List (Nat × List (List Nat))) :
    List (Nat × List (List Nat)) :=
  child.foldl (fun ix target =>
    match find target ix with
    | none => ix
    | some sets =>
      if (sets.filter fun s => decide (s ≠ child)).isEmpty then erase target ix
      else assign target (sets.filter fun s => decide (s ≠ child)) ix) index

/-- The loop `for (target : child->getTargets())` that files the set `child` under each of its
targets: `targetsToVector[target].insert(child)`. -/
def file (child : List Nat) (index : List (Nat × List (List Nat))) :
    List (Nat × List (List Nat)) :=
  child.foldl (fun ix target =>
    match find target ix with
    | none => ix ++ [(target, [child])]
    | some sets => if child ∈ sets then ix else assign target (sets ++ [child]) ix) index

/-- `Layer::removeTarget(target)`: the layer afterwards. -/
def removeTarget (target : Nat) (l : Layer) : Layer :=
  match find target l.targetsToVector with
  | none => l
  | some targetsVectors =>
    let index := erase target l.targetsToVector
    Layer.mk
      (targetsVectors.foldl (fun f targetsVec =>
        if targetsVec.all fun localTarget => (find localTarget index).isNone then
          erase targetsVec f
        else f) l.forest)
      index

/-- `Layer::removeChild(ref<UnorderedTargetsSet> child)`. -/
def removeChild (child : List Nat) (l : Layer) : Layer :=
  Layer.mk (erase child l.forest) (unfile child l.targetsToVector)

/-- The first loop of `Layer::unionWith(other)` over the entries of `other->forest`; `union` is
`unionWith` on a copy of the layer found under the same set. -/
def unionForest (union : Layer → Layer → Option Layer) :
    List (List Nat × Layer) → List (List Nat × Layer) → Option (List (List Nat × Layer))
  | [], f => some f
  | kv :: rest, f =>
    match find kv.1 f with
    | none => unionForest union rest (f ++ [kv])
    | some below =>
      match union below kv.2 with
      | none => none
      | some layer => unionForest union rest (assign kv.1 layer f)

/-- The second loop of `Layer::unionWith(other)` over the entries of
`other->targetsToVector`. -/
def unionIndex (other index : List (Nat × List (List Nat))) : List (Nat × List (List Nat)) :=
  other.foldl (fun ix kv =>
    match find kv.1 ix with
    | none => ix ++ [kv]
    | some sets => assign kv.1 (sets ++ kv.2.filter fun s => decide (s ∉ sets)) ix) index

/-- `Layer::unionWith(other)`: the layer afterwards; `none` when the fuel runs out. -/
def unionWith : Nat → Layer → Layer → Option Layer
  | 0, _, _ => none
  | fuel + 1, l, other =>
    if other.forest.isEmpty then some l
    else
      match unionForest (unionWith fuel) other.forest l.forest with
      | none => none
      | some f => some (Layer.mk f (unionIndex other.targetsToVector l.targetsToVector))

/-- The loop of `Layer::block(target)` over the entries of `forest`: the entries kept and
`targetsToVector` afterwards; `blockLeaf` is `blockLeaf(target)` on the layer of an entry. -/
def blockEntries (blockLeaf : Layer → Option Layer) :
    List (List Nat × Layer) → List (Nat × List (List Nat)) →
      Option (List (List Nat × Layer) × List (Nat × List (List Nat)))
  | [], index => some ([], index)
  | (targetsVec, below) :: rest, index =>
    match blockLeaf below with
    | none => none
    | some layer =>
      if layer.empty then blockEntries blockLeaf rest (unfile targetsVec index)
      else
        match blockEntries blockLeaf rest index with
        | none => none
        | some (f, ix) => some ((targetsVec, layer) :: f, ix)

/-- `Layer::block(target)`: the layer afterwards. -/
def blockLayer (blockLeaf : Layer → Option Layer) (target : Nat) (l : Layer) : Option Layer :=
  if l.empty then some l
  else
    match blockEntries blockLeaf (removeTarget target l).forest
        (removeTarget target l).targetsToVector with
    | none => none
    | some (f, ix) => some (Layer.mk f ix)

/-- `Layer::blockLeafInChild(ref<UnorderedTargetsSet> child, leaf)`; `block` is `block(leaf)`
on a copy of the layer below `child`. `none` when the assertion fails. -/
def blockLeafInChild (block : Layer → Option Layer) (union : Layer → Layer → Option Layer)
    (child : List Nat) (leaf : Nat) (l : Layer) : Option Layer :=
  match find child l.forest with
  | none => none
  | some subtree =>
    if subtree.forest.isEmpty then
      match find leaf l.targetsToVector with
      | none => some l
      | some targetsVectors =>
        if child ∈ targetsVectors then some (removeTarget leaf l) else some l
    else
      match block subtree with
      | none => none
      | some sublayer =>
        if sublayer.empty then some (removeChild child l)
        else union (removeChild child l) (Layer.mk [(child, sublayer)] (file child []))

/-- The loop of `Layer::blockLeaf(leaf)` over the entries of `forest`. -/
def blockLeafLoop (step : List Nat → Layer → Option Layer) :
    List (List Nat × Layer) → Layer → Option Layer
  | [], result => some result
  | kv :: rest, result =>
    match step kv.1 result with
    | none => none
    | some result1 => blockLeafLoop step rest result1

/-- `Layer::blockLeaf(leaf)`; `none` when an assertion fails or the fuel runs out. -/
def blockLeaf : Nat → Nat → Layer → Option Layer
  | 0, _, _ => none
  | fuel + 1, leaf, l =>
    if l.forest.isEmpty then some l
    else
      blockLeafLoop
        (fun child result =>
          blockLeafInChild (blockLayer (blockLeaf fuel leaf) leaf) (unionWith (fuel + 1))
            child leaf result)
        l.forest l

/-- The loop of `Layer::deepFind(target)` over the entries of `forest`. -/
def deepFindAny (deepFind : Layer → Option Bool) : List (List Nat × Layer) → Option Bool
  | [] => some false
  | kv :: rest =>
    match deepFind kv.2 with
    | none => none
    | some true => some true
    | some false => deepFindAny deepFind rest

/-- `Layer::deepFind(target)`; `none` when the fuel runs out. -/
def deepFind : Nat → Nat → Layer → Option Bool
  | 0, _, _ => none
  | fuel + 1, target, l =>
    if l.empty then some false
    else if (find target l.targetsToVector).isSome then some true
    else deepFindAny (deepFind fuel target) l.forest

/-- `TargetForest::block(target)` on the member `forest`: the forest afterwards. -/
def block (fuel : Nat) (target : Nat) (forest : Layer) : Option Layer :=
  match deepFind fuel target forest with
  | none => none
  | some false => some forest
  | some true => blockLeaf fuel target forest

/-- A layer without children. -/
def leaf : Layer := Layer.mk [] []

/-- The layer with the one child `child`, above the layer `below`. -/
def single (child : List Nat) (below : Layer) : Layer :=
  Layer.mk [(child, below)] (file child [])

end TargetForest

namespace TargetForest

/-- The index `targetsToVector` of a layer agrees with its children: a target is filed under
the sets of the children that contain it, and under nothing else. -/
def Filed (l : Layer) : Prop :=
  (∀ u sets, find u l.targetsToVector = some sets →
    sets ≠ [] ∧ ∀ s ∈ sets, u ∈ s ∧ (find s l.forest).isSome) ∧
  ∀ c ∈ l.forest, ∀ u ∈ c.1, ∃ sets, find u l.targetsToVector = some sets ∧ c.1 ∈ sets

/-- The target set holds `t` and nothing else. -/
def Only (t : Nat) (s : List Nat) : Prop := t ∈ s ∧ ∀ u ∈ s, u = t

end TargetForest

namespace TargetForest

mutual
/-- The number of layers below the layer. -/
def Layer.depth : Layer → Nat
  | Layer.mk f _ => depthForest f
/-- The greatest number of layers from an entry of the map down. -/
def depthForest : List (List Nat × Layer) → Nat
  | [] => 0
  | (_, l) :: rest => max (Layer.depth l + 1) (depthForest rest)
end

/-- The set `s` is filed under the target `u` in the index `targetsToVector`. -/
def FiledUnder (index : List (Nat × List (List Nat))) (u : Nat) (s : List Nat) : Prop :=
  ∃ sets, find u index = some sets ∧ s ∈ sets

/-- The target sets of the children of the layer are distinct. -/
def KeysDistinct (l : Layer) : Prop := (l.forest.map Prod.fst).Nodup

/-- No entry of the index holds the empty set of target sets. -/
def SetsNonempty (index : List (Nat × List (List Nat))) : Prop :=
  ∀ u sets, find u index = some sets → sets ≠ []

/-- The invariant of the loop of `blockLeaf(t)` on the layer `l`: `r` is the running result,
`rest` the children still to visit, `fired` tells whether `removeChild(t)` has run, and `B` is
`block(t)` on a copy of the layer below a child. -/
structure LoopInv (B : Layer → Option Layer) (t : Nat) (l r : Layer)
    (rest : List (List Nat × Layer)) (fired : Bool) : Prop where
  keyed : KeysDistinct r
  unvisited : ∀ kv ∈ rest, ∀ v, (kv.1, v) ∈ r.forest → v = kv.2
  origin : ∀ c ∈ r.forest, (c ∈ l.forest ∧ (c.2.forest = [] ∨ c ∈ rest)) ∨
    (c.2.forest ≠ [] ∧ ∃ c0 ∈ l.forest, c0.1 = c.1 ∧ c0.2.forest ≠ [] ∧ B c0.2 = some c.2)
  index : ∀ u s, FiledUnder r.targetsToVector u s → u ∈ s ∧ (find s r.forest).isSome
  nonempty : SetsNonempty r.targetsToVector
  filed : ∀ c ∈ r.forest, ∀ u ∈ c.1, (u ≠ t ∨ fired = false) →
    FiledUnder r.targetsToVector u c.1
  leaves : ∀ c ∈ l.forest, c.2.forest = [] → (c ∈ r.forest ↔ ¬ (fired = true ∧ Only t c.1))
  done : ∀ c ∈ l.forest, c.2.forest = [] → (fired = true ∨ c ∉ rest) →
    ¬ FiledUnder r.targetsToVector t c.1
  others : ∀ u, u ≠ t → ∀ c ∈ l.forest, c.2.forest = [] →
    (FiledUnder r.targetsToVector u c.1 ↔ FiledUnder l.targetsToVector u c.1)

end TargetForest

namespace TargetForest

/-- The first loop of `Layer::replaceChildWith(ref<Target> child, other)`: the layers below the
sets of `other`; `none` when the assertion fails. -/
def findAll (forest : List (List Nat × Layer)) : List (List Nat) → Option (List Layer)
  | [] => some []
  | targetsVec :: rest =>
    match find targetsVec forest with
    | none => none
    | some layer =>
      match findAll forest rest with
      | none => none
      | some layers => some (layer :: layers)

/-- The last loop of `Layer::replaceChildWith(ref<Target> child, other)`:
`result->unionWith(layer)` for each of the layers. -/
def unionAll (fuel : Nat) : List Layer → Layer → Option Layer
  | [], result => some result
  | layer :: rest, result =>
    match unionWith fuel result layer with
    | none => none
    | some result1 => unionAll fuel rest result1

/-- `Layer::replaceChildWith(ref<Target> child, other)`. -/
def replaceChildWith (fuel : Nat) (other : List (List Nat)) (l : Layer) : Option Layer :=
  match findAll l.forest other with
  | none => none
  | some layers => unionAll fuel layers (other.foldl (fun result s => removeChild s result) l)

/-- `TargetForest::stepTo(loc)` on the member `forest`; `forest->find(loc)` is the entry of
`loc` in `targetsToVector`. The member `history` is left out. -/
def stepTo (fuel : Nat) (loc : Nat) (forest : Layer) : Option Layer :=
  if forest.empty then some forest
  else
    match find loc forest.targetsToVector with
    | none => some forest
    | some sets => replaceChildWith fuel sets forest

/-- `TargetForest::remove(target)` on the member `forest`. -/
def remove (target : Nat) (forest : Layer) : Layer :=
  match find target forest.targetsToVector with
  | none => forest
  | some _ => removeTarget target forest

/-- `TargetForest::add(ref<UnorderedTargetsSet> target)` on the member `forest`. -/
def add (child : List Nat) (forest : Layer) : Layer :=
  if (find child forest.forest).isSome then forest
  else Layer.mk (forest.forest ++ [(child, leaf)]) (file child forest.targetsToVector)

/-- Modelled from the spec: `TargetForest::contains(target)`, declared in `TargetForest.h`;
the forest is keyed by target sets, and it contains a target that one of the sets of its top
layer is filed under. -/
def contains (target : Nat) (forest : Layer) : Bool :=
  (find target forest.targetsToVector).isSome

/-- Modelled from the spec: `TargetForest::getTargets()`, declared in `TargetForest.h`: the
targets of the sets of the top layer. -/
def getTargets (forest : Layer) : List Nat := forest.targetsToVector.map fun e => e.1

end TargetForest

/-! ## TargetManager::updateTargets (`lib/Core/TargetManager.cpp`, `TargetManager.h`) -/

namespace TargetManager

open TargetForest

/-- The values of `ReachWithError` that `isReachedTarget` tells apart. -/
inductive StateError where
  | None
  | MayBeNullPointerException
  | MustBeNullPointerException
  | other (code : Nat)
deriving DecidableEq, Repr

/-- What `isReachedTarget` reads of a target. The target classes are declared in `Target.h`;
`sameAsIn` and `thatError` are `isTheSameAsIn` and `isThatError` of a
`ReproduceErrorTarget`, the only target with `shouldFailOnThisTarget()`. -/
inductive TargetInfo where
  | reachBlock (block : Nat) (atEnd : Bool)
  | coverBranch (block : Nat) (branchCase : Nat)
  | reproduceError (block : Nat) (sameAsIn : KInstruction → Bool)
      (thatError : StateError → Bool)

/-- `Target::shouldFailOnThisTarget()`. -/
def TargetInfo.shouldFailOnThisTarget : TargetInfo → Bool
  | TargetInfo.reproduceError _ _ _ => true
  | _ => false

/-- The members of `ExecutionState` that `updateTargets` and the functions it calls read or
write; `path` is `constraints.path()`. -/
structure TargetedState where
  isolated : Bool
  targeted : Bool
  path : Path
  error : StateError
  prevPC : KInstruction
  pc : KInstruction
  targets : List Nat
  forest : Layer

/-- What `updateTargets` reads besides the state: the module, `successor ki i` for the block of
`ki->inst->getSuccessor(i)`, the target behind each `ref<Target>`, whether the guidance is
`CoverageGuidance`, whether the state is in `states`, `state.isStuck(MaxCyclesBeforeStuck)`,
the result of `targetCalculator.calculate(state)`, and what `distance` returns for a target
that `isReachedTarget` does not classify (the cached or the calculated result). -/
structure Env where
  module : KModule
  successor : KInstruction → Nat → Nat
  info : Nat → TargetInfo
  coverage : Bool
  inStates : Bool
  stuck : Bool
  calculated : List Nat
  calculatorResult : Nat → WeightResult

/-- The three-argument `TargetManager::isReachedTarget`: `some none` for `false`,
`some (some r)` for `true` with `result = r`, `none` when the assertion of
`Path::getLastInstruction` fails. -/
def isReachedTarget (env : Env) (s : TargetedState) : TargetInfo → Option (Option WeightResult)
  | TargetInfo.reachBlock block atEnd =>
    if s.path.empty && decide (s.error = StateError.None) then some none
    else if atEnd then
      if s.prevPC.parent = block ∨ s.pc.parent = block then
        match s.path.getLastInstruction env.module with
        | none => none
        | some last =>
          if some last = env.module.getLastInstruction block then
            some (some WeightResult.Done)
          else some (some WeightResult.Continue)
      else some none
    else if some s.pc = env.module.getFirstInstruction block then some (some WeightResult.Done)
    else some none
  | TargetInfo.coverBranch block branchCase =>
    if s.path.empty && decide (s.error = StateError.None) then some none
    else if s.prevPC.parent = block then
      if some s.prevPC = env.module.getLastInstruction block ∧
          env.successor s.prevPC branchCase = s.pc.parent then
        some (some WeightResult.Done)
      else some (some WeightResult.Continue)
    else some none
  | TargetInfo.reproduceError block sameAsIn thatError =>
    if s.path.empty && decide (s.error = StateError.None) then some none
    else if s.pc.parent = block then
      if sameAsIn s.pc && thatError s.error then some (some WeightResult.Done)
      else if s.isolated && sameAsIn s.pc &&
          decide (s.error = StateError.MayBeNullPointerException) &&
          thatError StateError.MustBeNullPointerException then
        some (some WeightResult.Done)
      else some (some WeightResult.Continue)
    else some none

/-- The two-argument `TargetManager::isReachedTarget`. -/
def isReached (env : Env) (s : TargetedState) (target : Nat) : Bool :=
  match isReachedTarget env s (env.info target) with
  | some (some WeightResult.Done) => true
  | _ => false

/-- The field `result` of `TargetManager::distance(state, target)`. -/
def distance (env : Env) (s : TargetedState) (target : Nat) : Option WeightResult :=
  match isReachedTarget env s (env.info target) with
  | none => none
  | some (some r) => some r
  | some none => some (env.calculatorResult target)

/-- A call of one of the three functions that `updateTargets` classifies a target with. -/
inductive Call where
  | updateContinue (target : Nat)
  | updateMiss (target : Nat)
  | updateDone (target : Nat)
deriving DecidableEq, Repr

/-- `setTargets(state, stateTargetForest.getTargets())`, as far as the state goes. -/
def setTargets (s : TargetedState) (forest : Layer) : TargetedState :=
  { s with forest := forest, targets := getTargets forest }

/-- The statement `if (guidance == CoverageGuidance) if (targets(state).size() == 0)
state.setTargeted(false)`. -/
def untarget (env : Env) (s : TargetedState) : TargetedState :=
  if env.coverage && s.targets.isEmpty then { s with targeted := false } else s

/-- `TargetManager::updateMiss(state, target)`. -/
def updateMiss (env : Env) (target : Nat) (s : TargetedState) : TargetedState :=
  let s1 := setTargets s (remove target s.forest)
  if s1.isolated then s1 else untarget env s1

/-- `TargetManager::updateDone(state, target)`, as far as the state itself goes: of the loop
over `states` only the turn of the state itself, when it is in `states`, changes it. `none`
when an assertion fails or the fuel runs out. -/
def updateDone (env : Env) (fuel : Nat) (target : Nat) (s : TargetedState) :
    Option TargetedState :=
  match stepTo fuel target s.forest with
  | none => none
  | some stepped =>
    let s1 := setTargets s stepped
    if s1.isolated then some s1
    else
      let turn : Option TargetedState :=
        if (env.coverage || (env.info target).shouldFailOnThisTarget) && env.inStates &&
            s1.targeted then
          match block fuel target s1.forest with
          | none => none
          | some blocked => some (untarget env (setTargets s1 blocked))
        else some s1
      match turn with
      | none => none
      | some s2 => some (untarget env s2)

/-- The first statement of `updateTargets(state)`: under coverage guidance a stuck state
without targets becomes targeted, and a targeted state without targets gets the calculated
ones. -/
def prepare (env : Env) (s : TargetedState) : TargetedState :=
  if !s.isolated && env.coverage then
    let s1 := if s.targets.isEmpty && env.stuck then { s with targeted := true } else s
    if s1.targeted && s1.targets.isEmpty then
      if !env.calculated.isEmpty then setTargets s1 (add env.calculated s1.forest) else s1
    else s1
  else s

/-- The loop of `updateTargets(state)` over the copy `stateTargets`: the calls made, and the
state afterwards, `none` when an assertion failed or the fuel ran out. -/
def updateLoop (env : Env) (fuel : Nat) :
    List Nat → TargetedState → List Call → List Call × Option TargetedState
  | [], s, log => (log, some s)
  | target :: rest, s, log =>
    if !contains target s.forest then updateLoop env fuel rest s log
    else
      match distance env s target with
      | none => (log, none)
      | some WeightResult.Continue =>
        updateLoop env fuel rest s (log ++ [Call.updateContinue target])
      | some WeightResult.Miss =>
        updateLoop env fuel rest (updateMiss env target s) (log ++ [Call.updateMiss target])
      | some WeightResult.Done =>
        match updateDone env fuel target s with
        | none => (log ++ [Call.updateDone target], none)
        | some s1 => updateLoop env fuel rest s1 (log ++ [Call.updateDone target])

/-- `TargetManager::updateTargets(state)`: the calls of `updateContinue`, `updateMiss` and
`updateDone` it makes for the state, in order, and the state afterwards. -/
def updateTargets (env : Env) (fuel : Nat) (s : TargetedState) :
    List Call × Option TargetedState :=
  if !(prepare env s).targeted then ([], some (prepare env s))
  else updateLoop env fuel (prepare env s).targets (prepare env s) []

/-- The target a call is about. -/
def Call.target : Call → Nat
  | Call.updateContinue t => t
  | Call.updateMiss t => t
  | Call.updateDone t => t

/-- The two states agree in what `isReachedTarget` reads. -/
def SameView (s s1 : TargetedState) : Prop :=
  s1.isolated = s.isolated ∧ s1.path = s.path ∧ s1.error = s.error ∧ s1.prevPC = s.prevPC ∧
    s1.pc = s.pc

/-- The state of the counterexample: it has just taken branch 0 from the end of block 0 to the
start of block 1, and its forest has the one leaf child with the given targets. -/
def branchState (targets : List Nat) : TargetedState :=
  { isolated := false, targeted := true,
    path := { first := 0, last := 0,
              path := [⟨0, TransitionKind.None⟩, ⟨1, TransitionKind.None⟩], next := none },
    error := StateError.None, prevPC := ⟨0, 1⟩, pc := ⟨1, 0⟩, targets := targets,
    forest := single targets leaf }

/-- The surroundings of the counterexample: blocks of two instructions, target 1 the branch 0
of block 0 and target 2 the start of block 1, coverage guidance. -/
def branchEnv : Env :=
  { module := { numInstructions := fun _ => 2, blockType := fun _ => KBlockType.Base,
                blockFunction := fun _ => 0, calledFunctions := fun _ => [],
                regularFunctionPredicate := fun _ => false },
    successor := fun _ _ => 1,
    info := fun t => if t = 1 then TargetInfo.coverBranch 0 0 else TargetInfo.reachBlock 1 false,
    coverage := true, inStates := true, stuck := false, calculated := [],
    calculatorResult := fun _ => WeightResult.Continue }

end TargetManager

namespace ObjectManager

/-- The arena of proof obligations is a forest: the ids are distinct, every child of an object
is an object whose `parent` is that object, every `parent` is an object that has the object
among its `children`, and `children` is a set. -/
def HeapOK (h : ObjectManager) : Prop :=
  (h.pobHeap.map fun p => p.id).Nodup ∧
  (∀ p ∈ h.pobHeap, ∀ c ∈ p.children, ∃ pc, h.getPob c = some pc ∧ pc.parent = some p.id) ∧
  (∀ p ∈ h.pobHeap, ∀ q, p.parent = some q → ∃ pq, h.getPob q = some pq ∧ p.id ∈ pq.children) ∧
  ∀ p ∈ h.pobHeap, p.children.Nodup

/-- The obligation `x` is in the subtree of the obligation `r`: `r` itself, or a child of an
obligation in the subtree. -/
inductive Descends (h : ObjectManager) (r : Nat) : Nat → Prop
  | root : Descends h r r
  | child {x c : Nat} {p : ProofObligation} :
      Descends h r x → h.getPob x = some p → c ∈ p.children → Descends h r c

/-- The invariant of the loop of `getSubtree` from the parentless obligation `r`. -/
structure SubtreeInv (h : ObjectManager) (r : Nat) (queue subtree : List Nat) : Prop where
  nodupQ : queue.Nodup
  sorted : subtree.Pairwise (fun a b => a < b)
  disjoint : ∀ x ∈ queue, x ∉ subtree
  descends : ∀ x, x ∈ queue ∨ x ∈ subtree → Descends h r x ∧ ∃ p, h.getPob x = some p
  parent : ∀ x, x ∈ queue ∨ x ∈ subtree →
    x = r ∨ ∃ p q, h.getPob x = some p ∧ p.parent = some q ∧ q ∈ subtree
  closed : ∀ x ∈ subtree, ∀ p, h.getPob x = some p → ∀ c ∈ p.children, c ∈ queue ∨ c ∈ subtree
  hasRoot : r ∈ queue ∨ r ∈ subtree

/-- What a run of `removePob` steps over the obligations `l` does besides what `RemEffect`
says: `pobs`, `leafPobs`, the propagations and the pending additions are untouched, the
parentless obligations of `l` leave `rootPobs`, and the propagations of the obligations of `l`
are pending removal. -/
structure CloseEffect (h h1 : ObjectManager) (l : List Nat) : Prop where
  heap : h1.pobHeap = h.pobHeap
  pobs : h1.pobs = h.pobs
  leafPobs : h1.leafPobs = h.leafPobs
  propagations : h1.propagations = h.propagations
  propagationCount : h1.propagationCount = h.propagationCount
  addedPobs : h1.addedPobs = h.addedPobs
  addedPropagations : h1.addedPropagations = h.addedPropagations
  roots : ∀ x, x ∈ h1.rootPobs ↔
    x ∈ h.rootPobs ∧ ¬ (x ∈ l ∧ ∃ p, h.getPob x = some p ∧ p.parent = none)
  sorted : h.removedPobs.Pairwise (fun a b => a < b) →
    h1.removedPobs.Pairwise (fun a b => a < b)
  props : ∀ prop, prop ∈ h1.removedPropagations ↔
    prop ∈ h.removedPropagations ∨
      (prop.pob ∈ l ∧ ∃ p, h.getPob prop.pob = some p ∧ prop ∈ h.propagations p.location)
  propsNodup : h.removedPropagations.Nodup → h1.removedPropagations.Nodup

/-- The obligation `r` is closed by forward reach: it has no parent and is filed in `pobs`
under the location target of an added state or of the current state. -/
def Reached (h : ObjectManager) (r : Nat) : Prop :=
  ∃ st s L p, (st ∈ h.addedStates ∨ h.current = some st) ∧ h.getState st = some s ∧
    s.locationTarget = some L ∧ r ∈ h.pobs L ∧ h.getPob r = some p ∧ p.parent = none

/-- The members that hold proof obligations are the same in two hubs. -/
def PobSide (h h1 : ObjectManager) : Prop :=
  h1.pobHeap = h.pobHeap ∧ h1.pobs = h.pobs ∧ h1.leafPobs = h.leafPobs ∧
    h1.rootPobs = h.rootPobs ∧ h1.pathedPobs = h.pathedPobs ∧ h1.removedPobs = h.removedPobs ∧
    h1.addedPobs = h.addedPobs

/-- Every obligation filed in `pobs` is in the arena and filed under its location. -/
def PobsOK (h : ObjectManager) : Prop :=
  ∀ L id, id ∈ h.pobs L → ∃ p, h.getPob id = some p ∧ p.location = L

/-- The invariant of the loop of `updateSubscribers` over `removedPobs`, with the hub `h` before
the loop, the set `C` of the obligations to remove and those still to come in `rest`. -/
structure DelInv (h hc : ObjectManager) (C rest : List Nat) : Prop where
  nodup : (hc.pobHeap.map fun p => p.id).Nodup
  sub : ∀ x ∈ rest, x ∈ C
  alive : ∀ x ∈ rest, ∃ p, hc.getPob x = some p
  orig : ∀ p ∈ hc.pobHeap, ∃ p0, h.getPob p.id = some p0 ∧ p.location = p0.location ∧
    (p.parent = none ∨ p.parent = p0.parent)
  parents : ∀ p ∈ hc.pobHeap, ∀ q, p.parent = some q →
    ∃ pq, hc.getPob q = some pq ∧ p.id ∈ pq.children
  removed : hc.removedPobs = C
  gone : ∀ x ∈ C, x ∉ rest → hc.getPob x = none
  kept : ∀ x, x ∉ C → ∀ p, h.getPob x = some p → ∃ p1, hc.getPob x = some p1
  pobs : ∀ L id, id ∈ hc.pobs L ↔ id ∈ h.pobs L ∧ ¬ (id ∈ C ∧ id ∉ rest)
  leaf : ∀ id, id ∈ hc.leafPobs ↔ id ∈ h.leafPobs ∧ ¬ (id ∈ C ∧ id ∉ rest)
  roots : hc.rootPobs = h.rootPobs
  pathed : hc.pathedPobs = h.pathedPobs

/-- The obligation `id` is in the subtree of an obligation closed by forward reach. -/
def Closed (h : ObjectManager) (id : Nat) : Prop := ∃ r, Reached h r ∧ Descends h r id

/-- Nothing but the update of the states is pending in the hub. -/
def OnlyStatesPending (h : ObjectManager) : Prop :=
  h.addedPobs = [] ∧ h.removedPobs = [] ∧ h.addedPropagations = [] ∧
    h.removedPropagations = []

/-- The counter of an obligation is at least the number of its propagations. -/
def CountsOK (h : ObjectManager) : Prop :=
  ∀ id p, h.getPob id = some p →
    ((h.propagations p.location).filter fun q => decide (q.pob = id)).length ≤
      h.propagationCount id

/-- A hub with the root obligation `rootPob` filed under its location, target 7, and a pending
update of regular states whose one added state is at that target. -/
def closingHub : ObjectManager :=
  { init false with
    pobHeap := [rootPob]
    stateHeap := [{ regularState with locationTarget := some (Target.reachBlock 7 false) }]
    nextStateID := 1
    leafPobs := [0]
    pobs := fun L => if L = Target.reachBlock 7 false then [0] else []
    pathedPobs := [((Path.ofNext none, Target.reachBlock 7 false), 0)]
    statesUpdated := true
    stateUpdateKind := StateKind.Regular
    addedStates := [0] }

end ObjectManager

/-! ## ExecutionStack (`lib/Core/ExecutionState.cpp`) -/

/-- A `StackFrame` as built by `StackFrame(kf)`: the function, no allocas, `numRegisters` fresh
cells and no varargs object. -/
structure StackFrame where
  kf : Nat
  allocas : List Nat
  locals : List Nat
  varargs : Option Nat
deriving DecidableEq, Repr

/-- An `InfoStackFrame` as built by `InfoStackFrame(kf)`. -/
structure InfoStackFrame where
  kf : Nat
  callPathNode : Option Nat
  minDistToUncoveredOnReturn : Nat
deriving DecidableEq, Repr

/-- The data members of `ExecutionStack`; the vectors have their back at the end of the list. -/
structure ExecutionStack where
  valueStack : List StackFrame
  callStack : List CallStackFrame
  infoStack : List InfoStackFrame
  uniqueFrames : List CallStackFrame
  stackBalance : Int
deriving DecidableEq, Repr

namespace ExecutionStack

/-- A default-constructed `ExecutionStack`. -/
def init : ExecutionStack := ⟨[], [], [], [], 0⟩

/-- `ExecutionStack::pushFrame(caller, kf)`; `numRegisters` is `kf->numRegisters`. Its two
assertions compare the sizes of the stacks; `none` when one fails. -/
def pushFrame (numRegisters : Nat → Nat) (s : ExecutionStack) (caller : Option Nat) (kf : Nat) :
    Option ExecutionStack :=
  let valueStack := s.valueStack ++ [⟨kf, [], List.replicate (numRegisters kf) 0, none⟩]
  let uniqueFrames :=
    if (s.callStack.find? fun f => decide (f = ⟨caller, kf⟩)) = none then
      s.uniqueFrames ++ [⟨caller, kf⟩]
    else s.uniqueFrames
  let callStack := s.callStack ++ [⟨caller, kf⟩]
  let infoStack := s.infoStack ++ [⟨kf, none, 0⟩]
  if valueStack.length = callStack.length ∧ valueStack.length = infoStack.length then
    some ⟨valueStack, callStack, infoStack, uniqueFrames, s.stackBalance + 1⟩
  else none

/-- `ExecutionStack::popFrame()`; `none` when an assertion fails (the first one is that the call
stack is not empty). -/
def popFrame (s : ExecutionStack) : Option ExecutionStack :=
  match s.callStack.getLast? with
  | none => none
  | some back =>
    let valueStack := s.valueStack.dropLast
    let callStack := s.callStack.dropLast
    let infoStack := s.infoStack.dropLast
    let uniqueFrames :=
      if (callStack.find? fun f => decide (f = ⟨back.caller, back.kf⟩)) = none then
        s.uniqueFrames.dropLast
      else s.uniqueFrames
    if valueStack.length = callStack.length ∧ valueStack.length = infoStack.length then
      some ⟨valueStack, callStack, infoStack, uniqueFrames, s.stackBalance - 1⟩
    else none

/-- A call on the stack. -/
inductive Op where
  | push (caller : Option Nat) (kf : Nat)
  | pop
deriving DecidableEq, Repr

/-- A sequence of calls, from left to right. -/
def run (numRegisters : Nat → Nat) : List Op → ExecutionStack → Option ExecutionStack
  | [], s => some s
  | Op.push caller kf :: rest, s =>
    (pushFrame numRegisters s caller kf).bind (run numRegisters rest)
  | Op.pop :: rest, s => (popFrame s).bind (run numRegisters rest)

/-- The frames of a call stack with every repeated frame reduced to its first occurrence, in
order. -/
def firstOccurrences (l : List CallStackFrame) : List CallStackFrame :=
  l.foldl (fun acc f => if f ∈ acc then acc else acc ++ [f]) []

/-- The invariant of the stack: equal depths, and `uniqueFrames` holds the first occurrences. -/
def Inv (s : ExecutionStack) : Prop :=
  s.valueStack.length = s.callStack.length ∧ s.infoStack.length = s.callStack.length ∧
    s.uniqueFrames = firstOccurrences s.callStack

end ExecutionStack

/-! ## Path::getStack (`lib/Expr/Path.cpp`) -/

namespace Path

/-- `Path::getCalledFunction(index)`; `none` when an assertion fails. -/
def getCalledFunction (m : KModule) (p : Path) (index : Nat) : Option Nat :=
  match p.path[index]? with
  | none => none
  | some e =>
    if m.blockType e.block = KBlockType.Call then
      if index + 1 < p.path.length then
        p.path[index + 1]?.map fun e1 => m.blockFunction e1.block
      else p.next.map fun ki => m.blockFunction ki.parent
    else none

/-- `Path::getCallsiteFromReturn(index)`; `kcallInstruction` gives the call instruction of a
call block. `none` when an assertion fails or the cast gives a null pointer. -/
def getCallsiteFromReturn (m : KModule) (kcallInstruction : Nat → Nat) (p : Path)
    (index : Nat) : Option Nat :=
  if index + 1 < p.path.length then
    match p.path[index + 1]? with
    | none => none
    | some e =>
      if m.blockType e.block = KBlockType.Call then some (kcallInstruction e.block) else none
  else none

/-- One iteration of the loop of `Path::getStack(reversed)`, for the loop counter `i`. -/
def getStackStep (m : KModule) (kcallInstruction : Nat → Nat) (p : Path) ( reversed : Bool)
    (stack : Option (List CallStackFrame)) (i : Nat) : Option (List CallStackFrame) :=
  match stack with
  | none => none
  | some stack =>
    let index := if reversed then p.path.length - 1 - i else i
    match p.path[index]? with
    | none => none
    | some current =>
      if i = 0 then some (stack ++ [⟨none, m.blockFunction current.block⟩])
      else if reversed then
        if current.kind = TransitionKind.In then some stack.dropLast
        else if m.blockType current.block = KBlockType.Return then
          match blockCompleted m p index with
          | none => none
          | some true =>
            (getCallsiteFromReturn m kcallInstruction p index).map fun cs =>
              stack ++ [⟨some cs, m.blockFunction current.block⟩]
          | some false => some stack
        else some stack
      else
        if current.kind = TransitionKind.In then
          if m.blockType current.block = KBlockType.Call then
            (getCalledFunction m p index).map fun kf =>
              stack ++ [⟨some (kcallInstruction current.block), kf⟩]
          else none
        else if m.blockType current.block = KBlockType.Return then
          match blockCompleted m p index with
          | none => none
          | some true => some stack.dropLast
          | some false => some stack
        else some stack

/-- `Path::getStack(reversed)`, the back of the vector being the end of the list; `none` when an
assertion fails or a null pointer is used. -/
def getStack (m : KModule) (kcallInstruction : Nat → Nat) (p : Path) ( reversed : Bool) :
    Option (List CallStackFrame) :=
  (List.range p.path.length).foldl (getStackStep m kcallInstruction p reversed) (some [])

/-- The function called at the entry `i` of kind `In`: the function of the next entry's block,
or of the block of `next` at the end of the path. -/
def calledAt (m : KModule) (p : Path) (i : Nat) : Nat :=
  match p.path[i + 1]? with
  | some e => m.blockFunction e.block
  | none =>
    match p.next with
    | some ki => m.blockFunction ki.parent
    | none => 0

/-- Whether the entry `i` is completed: it is not the last one, or `last` is the index of the
first instruction of its block for the kind `In` and of the last instruction otherwise. -/
def completedAt (m : KModule) (p : Path) (i : Nat) : Bool :=
  if i + 1 < p.path.length then true
  else
    match p.path[i]? with
    | none => false
    | some e =>
      if e.kind = TransitionKind.In then decide (p.last = 0)
      else decide (p.last = m.numInstructions e.block - 1)

/-- The scan of the specification at the entry `i`: a frame is pushed at an entry of kind `In`
and one is popped at a completed return block. -/
def scanStep (m : KModule) (kcallInstruction : Nat → Nat) (p : Path)
    (stack : List CallStackFrame) (i : Nat) : List CallStackFrame :=
  match p.path[i]? with
  | none => stack
  | some e =>
    if e.kind = TransitionKind.In then
      stack ++ [⟨some (kcallInstruction e.block), calledAt m p i⟩]
    else if m.blockType e.block = KBlockType.Return ∧ completedAt m p i = true then
      stack.dropLast
    else stack

/-- The stack of the specification: from the frame of the first block's function, the scan of
the entries `start`, `start + 1`, ... up to the end. -/
def scanStack (m : KModule) (kcallInstruction : Nat → Nat) (p : Path) (start : Nat) :
    List CallStackFrame :=
  match p.path.head? with
  | none => []
  | some e =>
    (List.range' start (p.path.length - start)).foldl (scanStep m kcallInstruction p)
      [⟨none, m.blockFunction e.block⟩]

/-- What `getStack(false)` takes for granted at the entries after the first: an entry of kind
`In` is a call block, followed by an entry or by `next`, and a last return block has an
instruction. -/
def StackReadable (m : KModule) (p : Path) : Prop :=
  ∀ i e, 1 ≤ i → p.path[i]? = some e →
    (e.kind = TransitionKind.In →
      m.blockType e.block = KBlockType.Call ∧ (i + 1 = p.path.length → p.next ≠ none)) ∧
    (e.kind ≠ TransitionKind.In → m.blockType e.block = KBlockType.Return →
      i + 1 = p.path.length → 0 < m.numInstructions e.block)

/-- A module with a call block 1 (of function 0) and blocks 5 and 6 of the called function 1,
6 being its return block; only calls of block 1 pass `RegularFunctionPredicate`. -/
def callModule : KModule :=
  { numInstructions := fun _ => 2
    blockType := fun b =>
      if b = 1 then KBlockType.Call else if b = 6 then KBlockType.Return else KBlockType.Base
    blockFunction := fun b => if b = 5 ∨ b = 6 then 1 else 0
    calledFunctions := fun b => if b = 1 then [1] else []
    regularFunctionPredicate := fun b => decide (b = 1) }

end Path

/-! ## RecencyRankedSearcher (`lib/Core/BackwardSearcher.cpp`) -/

/-- The data members of `RecencyRankedSearcher`; the two `std::list`s in insertion order. -/
structure RecencyRankedSearcher where
  maxPropagations : Nat
  propagations : List Propagation
  pausedPropagations : List Propagation
deriving DecidableEq, Repr

namespace RecencyRankedSearcher

/-- The constructor `RecencyRankedSearcher(maxPropagation)`. -/
def init (maxPropagation : Nat) : RecencyRankedSearcher := ⟨maxPropagation, [], []⟩

/-- The loop of `selectAction` over the rest of the list, with the values of `leastUsed` and
`chosen` (`none` for the pair of null pointers); `count` reads
`pob->propagationCount[state]`. -/
def selectLoop (count : Propagation → Nat) :
    List Propagation → Nat → Option Propagation → Option Propagation
  | [], _, chosen => chosen
  | i :: rest, leastUsed, chosen =>
    if count i < leastUsed then
      if count i = 0 then some i else selectLoop count rest (count i) (some i)
    else selectLoop count rest leastUsed chosen

/-- `RecencyRankedSearcher::selectAction()`; `none` when the assertion on `chosen` fails.
`UINT_MAX` is 4294967295. -/
def selectAction (count : Propagation → Nat) (s : RecencyRankedSearcher) : Option Propagation :=
  selectLoop count s.propagations 4294967295 none

/-- `RecencyRankedSearcher::update(addedPropagations, removedPropagations)`; `std::list::remove`
takes out every equal element. -/
def update (count : Propagation → Nat) (s : RecencyRankedSearcher)
    (addedPropagations removedPropagations : List Propagation) : RecencyRankedSearcher :=
  let s1 := removedPropagations.foldl
    (fun (acc : RecencyRankedSearcher) propagation =>
      { acc with
        propagations := acc.propagations.filter fun q => decide (q ≠ propagation)
        pausedPropagations := acc.pausedPropagations.filter fun q => decide (q ≠ propagation) })
    s
  addedPropagations.foldl
    (fun (acc : RecencyRankedSearcher) propagation =>
      if count propagation ≤ acc.maxPropagations then
        { acc with propagations := acc.propagations ++ [propagation] }
      else { acc with pausedPropagations := acc.pausedPropagations ++ [propagation] })
    s1

/-- A sequence of `update` calls (added, removed) on a searcher. -/
def run (count : Propagation → Nat) (s : RecencyRankedSearcher) :
    List (List Propagation × List Propagation) → RecencyRankedSearcher
  | [] => s
  | (added, removed) :: rest => run count (update count s added removed) rest

/-- Every active propagation has a count within the limit, every paused one a count above. -/
def Sorted (count : Propagation → Nat) (s : RecencyRankedSearcher) : Prop :=
  (∀ p ∈ s.propagations, count p ≤ s.maxPropagations) ∧
    ∀ p ∈ s.pausedPropagations, s.maxPropagations < count p

end RecencyRankedSearcher

/-! ## ConflictCoreInitializer (`lib/Core/Initializer.{h,cpp}`) -/

/-- What the initializer reads from its collaborators: the results of
`cgd->getNearestPredicateSatisfying(block, PredicateAdapter(predicate), forward)`, the predicate
and its `isInterestingCallBlock`, the block of an error target and whether it is the error
`Reachable`, the flag `ReachBlockTarget::create(block)` gives a block (`Target.h` is not part of
the sources), and the function, entry block, call blocks and called functions of the IR shadow
model. -/
structure InitializerEnv where
  nearest : Nat → Bool → List Nat
  predicate : Nat → Bool
  isInterestingCallBlock : Nat → Bool
  errorBlock : Nat → Nat
  isReachableError : Nat → Bool
  atEnd : Nat → Bool
  blockFunction : Nat → Nat
  entryKBlock : Nat → Nat
  kCallBlocks : Nat → List Nat
  calledFunctions : Nat → List Nat

/-- The data members of `ConflictCoreInitializer` that change. `knownTargets` lists its keys
with their counts; the maps to sets are functions to lists without repetitions, an absent key
standing for the empty set; the two `std::list`s are in insertion order. -/
structure ConflictCoreInitializer where
  knownTargets : List (Target × Nat)
  targetMap : KInstruction → List Target
  instructionMap : Target → List KInstruction
  awaiting : List KInstruction
  queued : List KInstruction
  initialized : KInstruction → List Target
  allowed : List Nat

namespace ConflictCoreInitializer

/-- A freshly constructed initializer. -/
def init : ConflictCoreInitializer :=
  { knownTargets := [], targetMap := fun _ => [], instructionMap := fun _ => []
    awaiting := [], queued := [], initialized := fun _ => [], allowed := [] }

/-- `Target::getBlock()`. -/
def getBlock (env : InitializerEnv) : Target → Nat
  | Target.reachBlock block _ => block
  | Target.other id => env.errorBlock id

/-- `ReachBlockTarget::create(block)`. -/
def reachBlockTarget (env : InitializerEnv) (block : Nat) : Target :=
  Target.reachBlock block (env.atEnd block)

/-- The value `knownTargets[target]` (0 for an absent key). -/
def knownCount (known : List (Target × Nat)) (target : Target) : Nat :=
  match known.find? fun e => decide (e.1 = target) with
  | none => 0
  | some e => e.2

/-- The assignment `knownTargets[target] = c`. -/
def setKnown (target : Target) (c : Nat) : List (Target × Nat) → List (Target × Nat)
  | [] => [(target, c)]
  | (k, v) :: rest => if k = target then (k, c) :: rest else (k, v) :: setKnown target c rest

/-- `knownTargets.count(target)`: whether the key is present. -/
def knownKey (known : List (Target × Nat)) (target : Target) : Bool :=
  known.any fun e => decide (e.1 = target)

/-- `std::set::insert` on a set kept as a list. -/
def setAdd {α : Type} [DecidableEq α] (x : α) (l : List α) : List α :=
  if x ∈ l then l else l ++ [x]

/-- `ConflictCoreInitializer::addInit(from, to)`. -/
def addInit (s : ConflictCoreInitializer) (source : KInstruction) (dst : Target) :
    ConflictCoreInitializer :=
  if dst ∈ s.initialized source then s
  else
    let s1 : ConflictCoreInitializer :=
      { s with
        initialized := fun ki => if ki = source then setAdd dst (s.initialized ki)
          else s.initialized ki
        targetMap := fun ki => if ki = source then setAdd dst (s.targetMap ki)
          else s.targetMap ki
        instructionMap := fun t => if t = dst then setAdd source (s.instructionMap t)
          else s.instructionMap t }
    let awaits := decide (source ∈ s.awaiting)
    let enqueued := decide (source ∈ s.queued)
    if !awaits && !enqueued then
      if knownKey s.knownTargets dst then { s1 with queued := s1.queued ++ [source] }
      else { s1 with awaiting := s1.awaiting ++ [source] }
    else if awaits then
      if knownKey s.knownTargets dst then
        { s1 with
          awaiting := s1.awaiting.filter fun ki => decide (ki ≠ source)
          queued := s1.queued ++ [source] }
      else s1
    else s1

/-- The instruction `from->instructions[1]` or `from->instructions[0]` an init starts at. -/
def fromInst (env : InitializerEnv) (block : Nat) : KInstruction :=
  ⟨block, if env.isInterestingCallBlock block then 1 else 0⟩

/-- The calls of `addInit` that `addPob` makes for a pob at `target`, in order. -/
def pobInits (env : InitializerEnv) (allowed : List Nat) (target : Target) :
    List (KInstruction × Target) :=
  let block := getBlock env target
  if env.entryKBlock (env.blockFunction block) ≠ block then
    (env.nearest block false).flatMap fun source =>
      ((env.nearest source true).map fun dst => (fromInst env source, reachBlockTarget env dst))
        ++ [(fromInst env source, target)]
  else
    allowed.flatMap fun i =>
      (env.kCallBlocks i).flatMap fun kcallblock =>
        if env.blockFunction block ∈ env.calledFunctions kcallblock then
          [((⟨kcallblock, 0⟩ : KInstruction), reachBlockTarget env block),
            ((⟨kcallblock, 0⟩ : KInstruction), target)]
        else []

/-- A sequence of `addInit` calls. -/
def addInits (s : ConflictCoreInitializer) (inits : List (KInstruction × Target)) :
    ConflictCoreInitializer :=
  inits.foldl (fun acc e => addInit acc e.1 e.2) s

/-- The second loop of `addPob`: every instruction of `enqueue` leaves `awaiting` and is pushed
on `queued`. -/
def enqueueAll (s : ConflictCoreInitializer) (enqueue : List KInstruction) :
    ConflictCoreInitializer :=
  enqueue.foldl
    (fun acc ki =>
      { acc with
        awaiting := acc.awaiting.filter fun k => decide (k ≠ ki)
        queued := acc.queued ++ [ki] })
    s

/-- `ConflictCoreInitializer::addPob(pob)` for a pob whose `location` is `target`; the counter
is an `unsigned`. -/
def addPob (env : InitializerEnv) (s : ConflictCoreInitializer) (target : Target) :
    ConflictCoreInitializer :=
  let c := u32 (knownCount s.knownTargets target + 1)
  let s1 := { s with knownTargets := setKnown target c s.knownTargets }
  if c > 1 then s1
  else
    let s2 := addInits s1 (pobInits env s1.allowed target)
    enqueueAll s2 (s2.awaiting.filter fun ki => decide (target ∈ s2.targetMap ki))

/-- The test `noKnown` of `removePob` for an instruction. -/
def noKnown (s : ConflictCoreInitializer) (ki : KInstruction) : Bool :=
  !(s.knownTargets.any fun e => decide (e.2 ≠ 0) && decide (e.1 ∈ s.targetMap ki))

/-- The second loop of `removePob`: every instruction of `dequeue` is pushed on `awaiting` and
leaves `queued`. -/
def dequeueAll (s : ConflictCoreInitializer) (dequeue : List KInstruction) :
    ConflictCoreInitializer :=
  dequeue.foldl
    (fun acc ki =>
      { acc with
        awaiting := acc.awaiting ++ [ki]
        queued := acc.queued.filter fun k => decide (k ≠ ki) })
    s

/-- `ConflictCoreInitializer::removePob(pob)` for a pob whose `location` is `target`; `none`
when the assertion fails. -/
def removePob (s : ConflictCoreInitializer) (target : Target) : Option ConflictCoreInitializer :=
  if knownCount s.knownTargets target = 0 then none
  else
    let c := knownCount s.knownTargets target - 1
    let s1 := { s with knownTargets := setKnown target c s.knownTargets }
    if c > 0 then some s1
    else some (dequeueAll s1 (s1.queued.filter fun ki => noKnown s1 ki))

/-- `ConflictCoreInitializer::update(added, removed)`, the pobs given by their locations. -/
def update (env : InitializerEnv) (s : ConflictCoreInitializer) (added removed : List Target) :
    Option ConflictCoreInitializer :=
  removed.foldl (fun acc t => acc.bind fun s1 => removePob s1 t)
    (some (added.foldl (addPob env) s))

/-- The calls of `addInit` that `addErrorInit` makes for one block of `nearest`. -/
def errorInitsAt (env : InitializerEnv) (errorTarget : Target) (id i : Nat) :
    List (KInstruction × Target) :=
  ((env.nearest i true).map fun dst => (fromInst env i, reachBlockTarget env dst)) ++
    [(fromInst env i,
      if env.isReachableError id then reachBlockTarget env (getBlock env errorTarget)
      else errorTarget)]

/-- `ConflictCoreInitializer::addErrorInit(errorTarget)`; `none` when the null pointer that the
cast gives for a target other than a `ReproduceErrorTarget` is used. -/
def addErrorInit (env : InitializerEnv) (s : ConflictCoreInitializer) (errorTarget : Target) :
    Option ConflictCoreInitializer :=
  match errorTarget with
  | Target.reachBlock block _ =>
    if env.predicate block then none
    else if env.nearest block false = [] then some s else none
  | Target.other id =>
    let location := env.errorBlock id
    let nearest :=
      if env.predicate location && !env.isReachableError id then [location]
      else env.nearest location false
    some (addInits s (nearest.flatMap fun i => errorInitsAt env (Target.other id) id i))

/-- `ConflictCoreInitializer::selectAction()`: the pair returned and the initializer afterwards;
`none` when the queue is empty or the assertion fails. -/
def selectAction (s : ConflictCoreInitializer) :
    Option ((KInstruction × List Target) × ConflictCoreInitializer) :=
  match s.queued with
  | [] => none
  | ki :: rest =>
    let targets := s.targetMap ki
    if targets = [] then none
    else
      some ((ki, targets),
        { s with
          queued := rest
          targetMap := fun k => if k = ki then [] else s.targetMap k
          instructionMap := fun t =>
            if t ∈ targets then (s.instructionMap t).filter fun k => decide (k ≠ ki)
            else s.instructionMap t })

/-- A call on the initializer. -/
inductive Op where
  | update (added removed : List Target)
  | addErrorInit (errorTarget : Target)
  | initializeFunctions (functions : List Nat)
  | selectAction

/-- A sequence of calls, from left to right, with the actions emitted so far; `none` when a
call fails. -/
def run (env : InitializerEnv) :
    List Op → ConflictCoreInitializer × List (KInstruction × List Target) →
      Option (ConflictCoreInitializer × List (KInstruction × List Target))
  | [], acc => some acc
  | Op.update added removed :: rest, (s, emitted) =>
    (update env s added removed).bind fun s1 => run env rest (s1, emitted)
  | Op.addErrorInit errorTarget :: rest, (s, emitted) =>
    (addErrorInit env s errorTarget).bind fun s1 => run env rest (s1, emitted)
  | Op.initializeFunctions functions :: rest, (s, emitted) =>
    run env rest ({ s with allowed := functions }, emitted)
  | Op.selectAction :: rest, (s, emitted) =>
    (selectAction s).bind fun r => run env rest (r.2, emitted ++ [r.1])

/-- The (instruction, target) pairs of a list of emitted actions. -/
def pairs (emitted : List (KInstruction × List Target)) : List (KInstruction × Target) :=
  emitted.flatMap fun e => e.2.map fun t => (e.1, t)

/-- The invariant behind the emitted actions: the two lists share no instruction and repeat
none, a listed instruction has a scheduled target, scheduled targets are initialized and not
repeated, and an emitted pair is initialized and no longer scheduled. -/
def Inv (s : ConflictCoreInitializer) (emitted : List (KInstruction × List Target)) : Prop :=
  (s.queued ++ s.awaiting).Nodup ∧
  (∀ ki ∈ s.queued ++ s.awaiting, s.targetMap ki ≠ []) ∧
  (∀ ki t, t ∈ s.targetMap ki → t ∈ s.initialized ki) ∧
  (∀ ki, (s.targetMap ki).Nodup) ∧
  (∀ p ∈ pairs emitted, p.2 ∈ s.initialized p.1 ∧ p.2 ∉ s.targetMap p.1) ∧
  (pairs emitted).Nodup ∧
  ∀ e ∈ emitted, e.2 ≠ []

/-- The successors of the blocks of the function of the concrete runs: the entry block 0
branches to block 2, which branches to block 3. -/
def sampleSuccessors (b : Nat) : List Nat := if b = 0 then [2] else if b = 2 then [3] else []

/-- The predecessors of the same blocks. -/
def samplePredecessors (b : Nat) : List Nat := if b = 3 then [2] else if b = 2 then [0] else []

/-- A graph for concrete runs: one function with the blocks 0 (entry), 2 and 3 in a chain;
the predicate holds of the blocks 2 and 3; the error target 7 sits in block 2. What `nearest`
gives is what the loop of `getNearestPredicateSatisfying` returns on this graph. -/
def sampleEnv : InitializerEnv :=
  { nearest := fun b forward =>
      (CodeGraphDistance.getNearestPredicateSatisfying 8
        (if forward then sampleSuccessors else samplePredecessors)
        (fun x => decide (x = 2 ∨ x = 3)) b).getD []
    predicate := fun b => decide (b = 2 ∨ b = 3)
    isInterestingCallBlock := fun _ => false
    errorBlock := fun _ => 2
    isReachableError := fun _ => false
    atEnd := fun _ => false
    blockFunction := fun _ => 0
    entryKBlock := fun _ => 0
    kCallBlocks := fun _ => []
    calledFunctions := fun _ => [] }

end ConflictCoreInitializer

/-! ## leafPobs across the proof-obligations step of `updateSubscribers` -/

namespace ObjectManager

/-- What the destructor of the obligation `p` (with id `x`) does to another object `q`: a child
loses its parent, and the parent loses the child. -/
def relink (p : ProofObligation) (x : Nat) (q : ProofObligation) : ProofObligation :=
  let q1 := if q.id ∈ p.children then { q with parent := none } else q
  if some q1.id = p.parent then { q1 with children := setErase x q1.children } else q1

/-- The obligation `y` of the set `R` has been taken out by the loop over `removedPobs`, whose
rest is `rest`. -/
def Swept (R rest : List Nat) (y : Nat) : Prop := y ∈ R ∧ y ∉ rest

/-- The obligation `id` is filed in `pobs`. -/
def Filed (h : ObjectManager) (id : Nat) : Prop := ∃ L, id ∈ h.pobs L

/-- The obligation `id` is an object without children. -/
def Childless (h : ObjectManager) (id : Nat) : Prop :=
  ∃ p, h.getPob id = some p ∧ p.children = []

/-- The invariant of the loop of `updateSubscribers` over `removedPobs` in general: `h` is the
hub before the loop, `R` its `removedPobs`, and `rest` the obligations still to come. -/
structure SweepInv (h hc : ObjectManager) (R rest : List Nat) : Prop where
  removed : hc.removedPobs = R
  sub : ∀ x ∈ rest, x ∈ R
  gone : ∀ y, Swept R rest y → hc.getPob y = none
  absent : ∀ y, h.getPob y = none → hc.getPob y = none
  kept : ∀ y q0, ¬ Swept R rest y → h.getPob y = some q0 →
    ∃ q, hc.getPob y = some q ∧ q.location = q0.location ∧
      (∀ z, q.parent = some z ↔ q0.parent = some z ∧ ¬ Swept R rest z) ∧
      (∀ c, c ∈ q.children ↔ c ∈ q0.children ∧ ¬ Swept R rest c) ∧ q.children.Nodup
  pobs : ∀ L id, id ∈ hc.pobs L ↔ id ∈ h.pobs L ∧ ¬ Swept R rest id
  leaf : ∀ x, x ∈ hc.leafPobs ↔ ¬ Swept R rest x ∧
    (x ∈ h.leafPobs ∨
      (x ∉ R ∧ ∃ q0, h.getPob x = some q0 ∧ q0.children ≠ [] ∧
        ∀ c ∈ q0.children, Swept R rest c))

/-- The state of `leafPobs` the step relies on: a leaf is filed, a filed object without
children is a leaf, and the children of a leaf are pending (added or removed). -/
def LeafPre (h : ObjectManager) : Prop :=
  (∀ x ∈ h.leafPobs, Filed h x) ∧ (∀ x, Filed h x → Childless h x → x ∈ h.leafPobs) ∧
  ∀ x ∈ h.leafPobs, ∀ p, h.getPob x = some p → ∀ c ∈ p.children,
    c ∈ h.addedPobs ∨ c ∈ h.removedPobs

/-- Every object of the arena is filed in `pobs` or pending (added or removed). -/
def AllKnown (h : ObjectManager) : Prop :=
  ∀ p ∈ h.pobHeap, Filed h p.id ∨ p.id ∈ h.addedPobs ∨ p.id ∈ h.removedPobs

end ObjectManager
namespace ObjectManager

/-- The members `pobs`, `leafPobs` and `addedPobs` are the same in two hubs. -/
def LeafSide (h h1 : ObjectManager) : Prop :=
  h1.pobs = h.pobs ∧ h1.leafPobs = h.leafPobs ∧ h1.addedPobs = h.addedPobs

end ObjectManager
namespace ObjectManager

/-- The obligation `ProofObligation::create` builds from `rootPob` for a state with id 0 whose
path starts in block 4. -/
def childPob : ProofObligation :=
  { id := 2, parent := some 0, root := 0, children := [], stack := []
    propagationCount := [(0, 1)], location := Target.reachBlock 4 false
    path := Path.ofNext none, constraints := 9, nullPointerExpr := none }

/-- A root obligation at target 9 that has been built and passed to `addPob`. -/
def freshPob : ProofObligation :=
  { id := 5, parent := none, root := 5, children := [], stack := [], propagationCount := []
    location := Target.reachBlock 9 false, path := Path.ofNext none, constraints := 0
    nullPointerExpr := none }

/-- A hub in which `rootPob` and its only child `childPob` are filed, the child is the leaf and
has been passed to `removePob`, and the root obligation `freshPob` has been built and passed
to `addPob`. -/
def leafHub : ObjectManager :=
  { init false with
    pobHeap := [{ rootPob with children := [2] }, childPob, freshPob]
    leafPobs := [2]
    pobs := fun L =>
      if L = Target.reachBlock 7 false then [0]
      else if L = Target.reachBlock 4 false then [2] else []
    pathedPobs :=
      [((Path.ofNext none, Target.reachBlock 7 false), 0),
        ((Path.ofNext none, Target.reachBlock 9 false), 5)]
    addedPobs := [5]
    removedPobs := [2] }

/-- A hub in which `rootPob` has the two children `childPob` and a sibling with id 3, both
filed leaves, and both have been passed to `removePob`. -/
def siblingHub : ObjectManager :=
  { init false with
    pobHeap :=
      [{ rootPob with children := [2, 3] }, childPob,
        { childPob with id := 3, location := Target.reachBlock 5 false }]
    leafPobs := [2, 3]
    pobs := fun L =>
      if L = Target.reachBlock 7 false then [0]
      else if L = Target.reachBlock 4 false then [2]
      else if L = Target.reachBlock 5 false then [3] else []
    pathedPobs := [((Path.ofNext none, Target.reachBlock 7 false), 0)]
    removedPobs := [2, 3] }

end ObjectManager

namespace DiscretePDF

variable {T : Type}

open Node

/-- The number of black nodes on every path from the node to a missing child, when all these
paths hold the same number; `none` when two of them differ. -/
def blackHeight : Node T → Option Nat
  | nil => some 0
  | node m _ _ _ l r =>
    match blackHeight l, blackHeight r with
    | some a, some b => if a = b then some (a + if m then 0 else 1) else none
    | _, _ => none

/-- The colours of the nodes with their keys, in the shape of the tree. -/
def shape : Node T → Node T
  | nil => nil
  | node m k _ _ l r => node m k 0 0 (shape l) (shape r)

end DiscretePDF

/-! ## Simplificator (`lib/Expr/Constraints.cpp`)

The sets `constraints_ty` and `ExprHashSet` are lists without repetitions and the maps
`ExprHashMap` association lists with distinct keys. The order in which a `constraints_ty` is
walked is the order of `ref<Expr>`, which is not part of the sources: it is the parameter
`order`, a function that lists the members of a set in the order of the walk. -/

namespace Simplificator

/-- Modelled from the spec: the binary operators (`Expr.h` is not part of the sources): one
arithmetic operator, one comparison, the equality and the conjunction. -/
inductive BinOp where
  | Add | Ult | Eq | And
deriving DecidableEq, Repr

/-- Modelled from the spec: the expressions (`Expr.h` is not part of the sources), with the
variants the simplifier tells apart: a constant of a width, a read of a symbolic value of a
width, a binary operator, `Not` and `Select`. -/
inductive Expr where
  | const (width value : Nat)
  | read (width id : Nat)
  | binary (op : BinOp) (l r : Expr)
  | not (e : Expr)
  | select (c t f : Expr)
deriving DecidableEq, Repr

namespace Expr

/-- `Expr::createTrue()`. -/
def createTrue : Expr := const 1 1

/-- `Expr::createFalse()`. -/
def createFalse : Expr := const 1 0

/-- `isa<ConstantExpr>(e)`. -/
def isConstant : Expr → Bool
  | const _ _ => true
  | _ => false

/-- `ConstantExpr::isTrue()` on an expression that is a constant. -/
def isTrue : Expr → Bool
  | const w v => decide (w = 1 ∧ v = 1)
  | _ => false

/-- Modelled from the spec: the bit width an expression carries. -/
def width : Expr → Nat
  | const w _ => w
  | read w _ => w
  | binary BinOp.Add l r => max l.width r.width
  | binary BinOp.And l r => max l.width r.width
  | binary BinOp.Ult _ _ => 1
  | binary BinOp.Eq _ _ => 1
  | not e => e.width
  | select _ t f => max t.width f.width

/-- Modelled from the spec: the value of an expression under an assignment of values to the
symbolic reads. -/
def eval (a : Nat → Nat) : Expr → Nat
  | const _ v => v
  | read w id => a id % 2 ^ w
  | binary BinOp.Add l r => (l.eval a + r.eval a) % 2 ^ max l.width r.width
  | binary BinOp.And l r => l.eval a &&& r.eval a
  | binary BinOp.Ult l r => if l.eval a < r.eval a then 1 else 0
  | binary BinOp.Eq l r => if l.width = r.width ∧ l.eval a = r.eval a then 1 else 0
  | not e => 2 ^ e.width - 1 - e.eval a
  | select c t f => if c.width = 1 ∧ c.eval a = 1 then t.eval a else f.eval a

/-- Modelled from the spec: an assignment satisfies a constraint when the constraint is a
condition (of width 1) with the value 1. -/
def holds (a : Nat → Nat) (e : Expr) : Prop := e.width = 1 ∧ e.eval a = 1

instance instDecidableHolds (a : Nat → Nat) (e : Expr) : Decidable (holds a e) := by
  unfold holds; infer_instance

/-- Modelled from the spec: `NotExpr::create`, which folds a constant. -/
def mkNot : Expr → Expr
  | const w v => const w (2 ^ w - 1 - v)
  | e => not e

/-- Modelled from the spec: an equality with the constant `const w v` as one operand: the
constant is put on the left, and comparing a condition with true gives the condition. -/
def mkEqConst (w v : Nat) (r : Expr) : Expr :=
  if w = 1 ∧ v = 1 ∧ r.width = 1 then r else binary BinOp.Eq (const w v) r

/-- Modelled from the spec: the `create` functions of the binary operators: two constants
are folded; equal operands of an equality give true and a constant operand of an equality is
put on the left, as the example of the specification shows (`y = x + 1` becomes `y = 6`, which
then replaces `y`). -/
def mkBinary : BinOp → Expr → Expr → Expr
  | BinOp.Add, const w1 v1, const w2 v2 => const (max w1 w2) ((v1 + v2) % 2 ^ max w1 w2)
  | BinOp.And, const w1 v1, const w2 v2 => const (max w1 w2) (v1 &&& v2)
  | BinOp.Ult, const _ v1, const _ v2 => const 1 (if v1 < v2 then 1 else 0)
  | BinOp.Eq, const w1 v1, const w2 v2 => const 1 (if w1 = w2 ∧ v1 = v2 then 1 else 0)
  | BinOp.Eq, const w v, r => mkEqConst w v r
  | BinOp.Eq, l, const w v => mkEqConst w v l
  | BinOp.Eq, l, r => if l = r then createTrue else binary BinOp.Eq l r
  | op, l, r => binary op l r

/-- Modelled from the spec: `SelectExpr::create`: a constant condition selects a branch and
equal branches give the branch. -/
def mkSelect (c t f : Expr) : Expr :=
  if c.isConstant then (if c.isTrue then t else f)
  else if t = f then t else select c t f

/-- Modelled from the spec: `Expr::splitAnds`. -/
def splitAnds : Expr → List Expr
  | binary BinOp.And l r => splitAnds l ++ splitAnds r
  | e => [e]

/-- Number of nodes of an expression that are not constants. -/
def weight : Expr → Nat
  | const _ _ => 0
  | read _ _ => 1
  | binary _ l r => 1 + l.weight + r.weight
  | not e => 1 + e.weight
  | select c t f => 1 + c.weight + t.weight + f.weight

/-- An expression as the `create` functions build it: every constant is within its width, the
operands of a binary operator and the branches of a `Select` have one width, the condition of
a `Select` has the width 1, and no equality compares a condition with the constant true. -/
def canon : Expr → Bool
  | const w v => decide (v < 2 ^ w)
  | read _ _ => true
  | binary op l r =>
    l.canon && r.canon && decide (l.width = r.width) &&
      !(decide (op = BinOp.Eq) && decide (l = createTrue))
  | not e => e.canon
  | select c t f =>
    c.canon && t.canon && f.canon && decide (c.width = 1) && decide (t.width = f.width)

/-- A constraint: an expression of the width 1 as the `create` functions build it. -/
def isCondition (e : Expr) : Bool := e.canon && decide (e.width = 1)

end Expr

open Expr

/-- `enum class RewriteEqualitiesPolicy`. -/
inductive RewriteEqualitiesPolicy where
  | None | Simple | Full
deriving DecidableEq, Repr

/-- `struct Simplificator::Replacements`. -/
structure Replacements where
  equalities : List (Expr × Expr)
  equalitiesParents : List (Expr × Expr)
deriving DecidableEq, Repr

/-- `m.count(key)` and `m.at(key)` on a map. -/
def mapFind {β : Type} (key : Expr) : List (Expr × β) → Option β
  | [] => none
  | (k, v) :: rest => if k = key then some v else mapFind key rest

/-- `m.insert({key, value})`: nothing happens when the key is present. -/
def mapInsert {β : Type} (key : Expr) (value : β) (m : List (Expr × β)) : List (Expr × β) :=
  if (mapFind key m).isSome then m else m ++ [(key, value)]

/-- `m.erase(key)`. -/
def mapErase {β : Type} (key : Expr) (m : List (Expr × β)) : List (Expr × β) :=
  m.filter fun e => decide (e.1 ≠ key)

/-- `s.insert(x)` on a set. -/
def setAdd (x : Expr) (s : List Expr) : List Expr := if x ∈ s then s else s ++ [x]

/-- `Simplificator::addReplacement`. -/
def addReplacement (replacements : Replacements) (expr : Expr) : Replacements :=
  match expr with
  | binary BinOp.Eq (const w v) right =>
    { equalities := mapInsert right (const w v) replacements.equalities
      equalitiesParents := mapInsert right expr replacements.equalitiesParents }
  | _ =>
    { equalities := mapInsert expr createTrue replacements.equalities
      equalitiesParents := mapInsert expr expr replacements.equalitiesParents }

/-- `Simplificator::removeReplacement`. -/
def removeReplacement (replacements : Replacements) (expr : Expr) : Replacements :=
  match expr with
  | binary BinOp.Eq (const _ _) right =>
    { equalities := mapErase right replacements.equalities
      equalitiesParents := mapErase right replacements.equalitiesParents }
  | _ =>
    { equalities := mapErase expr replacements.equalities
      equalitiesParents := mapErase expr replacements.equalitiesParents }

/-- `Simplificator::gatherReplacements` over the constraints in the order of the walk; its
loop body is that of `addReplacement`. -/
def gatherReplacements (constraints : List Expr) : Replacements :=
  constraints.foldl addReplacement ⟨[], []⟩

/-- `visitExpr` and `visitExprPost` of `ExprReplaceVisitor2` and `ExprReplaceVisitor3`: the
replacement of a node that is a key, with the parent of the key entered in
`replacementDependency`; `none` stands for `Action::doChildren()`. -/
def visitExpr (replacements : Replacements) (e : Expr) (dependency : List Expr) :
    Option (Expr × List Expr) :=
  match mapFind e replacements.equalities with
  | some replacement =>
    match mapFind e replacements.equalitiesParents with
    | some parent => some (replacement, setAdd parent dependency)
    | none => some (replacement, dependency)
  | none => none

/-- Modelled from the spec: the end of `ExprVisitor::visit` (the class is not part of the
sources) for a node whose children have been visited: the node itself when no child changed
and the rebuilt node otherwise, then `visitExprPost` unless the result is a constant. -/
def finish (replacements : Replacements) (e rebuilt : Expr) (changed : Bool)
    (dependency : List Expr) : Expr × List Expr :=
  let e1 := if changed then rebuilt else e
  if e1.isConstant then (e1, dependency)
  else
    match visitExpr replacements e1 dependency with
    | some r => r
    | none => (e1, dependency)

/-- Modelled from the spec: `ExprVisitor::visit` (the class is not part of the sources) with
the hooks of the two visitors: a constant is returned as it is; a node that is a key is
replaced (`visitExpr`); otherwise the children are visited from left to right, the node is
rebuilt when one of them changed, and `visitExprPost` is tried on the result. With `full` a
`Select` goes through `ExprReplaceVisitor2::visitSelect`, which is translated from the
source. The argument `dependency` is the member `replacementDependency`. The second pass of
the class over a rebuilt node is not modelled. -/
def visit (full : Bool) (replacements : Replacements) :
    Expr → List Expr → Expr × List Expr
  | Expr.const w v, dependency => (Expr.const w v, dependency)
  | Expr.read w id, dependency =>
    match visitExpr replacements (Expr.read w id) dependency with
    | some res => res
    | none => finish replacements (Expr.read w id) (Expr.read w id) false dependency
  | Expr.binary op l r, dependency =>
    match visitExpr replacements (Expr.binary op l r) dependency with
    | some res => res
    | none =>
      let l1 := visit full replacements l dependency
      let r1 := visit full replacements r l1.2
      finish replacements (Expr.binary op l r) (mkBinary op l1.1 r1.1)
        (decide (l1.1 ≠ l) || decide (r1.1 ≠ r)) r1.2
  | Expr.not e, dependency =>
    match visitExpr replacements (Expr.not e) dependency with
    | some res => res
    | none =>
      let e1 := visit full replacements e dependency
      finish replacements (Expr.not e) (mkNot e1.1) (decide (e1.1 ≠ e)) e1.2
  | Expr.select c t f, dependency =>
    match visitExpr replacements (Expr.select c t f) dependency with
    | some res => res
    | none =>
      let c1 := visit full replacements c dependency
      let t1 := visit full replacements t c1.2
      if full then
        if c1.1.isConstant then
          if c1.1.isTrue then t1 else visit full replacements f c1.2
        else
          let f1 := visit full replacements f t1.2
          if t1.1 ≠ t ∨ f1.1 ≠ f then
            let seres := mkSelect c1.1 t1.1 f1.1
            match visitExpr replacements seres f1.2 with
            | some res => res
            | none => (seres, f1.2)
          else (Expr.select c t f, f1.2)
      else
        let f1 := visit full replacements f t1.2
        finish replacements (Expr.select c t f) (mkSelect c1.1 t1.1 f1.1)
          (decide (c1.1 ≠ c) || decide (t1.1 ≠ t) || decide (f1.1 ≠ f)) f1.2

/-- `m[key].insert(x)` on a map to sets. -/
def mapSetAdd (key x : Expr) : List (Expr × List Expr) → List (Expr × List Expr)
  | [] => [(key, [x])]
  | (k, s) :: rest =>
    if k = key then (k, setAdd x s) :: rest else (k, s) :: mapSetAdd key x rest

/-- `Simplificator::composeExprDependencies(upper, lower)`; `none` when `upper.at` throws. -/
def composeExprDependencies (upper lower : List (Expr × List Expr)) :
    Option (List (Expr × List Expr)) :=
  lower.foldlM
    (fun result dependent =>
      dependent.2.foldlM
        (fun result dependency =>
          (mapFind dependency upper).map fun ups =>
            ups.foldl (fun result upperDependency =>
              mapSetAdd dependent.1 upperDependency result) result)
        result)
    []

/-- The state of one round of the loop of `simplify`. -/
structure Round where
  replacements : Replacements
  currentSimplified : List Expr
  currentDependencies : List (Expr × List Expr)
  changed : Bool
deriving DecidableEq, Repr

/-- The loop over `andsSplit` in `simplify`. -/
def addParts (constraint : Expr) (dependency : List Expr) (andsSplit : List Expr)
    (acc : List Expr × List (Expr × List Expr)) : List Expr × List (Expr × List Expr) :=
  andsSplit.foldl
    (fun acc part =>
      (setAdd part acc.1, mapSetAdd part constraint (mapInsert part dependency acc.2)))
    acc

/-- The body of the `for` loop of `simplify` for one constraint. -/
def roundStep (full : Bool) (st : Round) (constraint : Expr) : Round :=
  let removed := removeReplacement st.replacements constraint
  let visited := visit full removed constraint []
  let andsSplit := splitAnds visited.1
  let acc := addParts constraint visited.2 andsSplit
    (st.currentSimplified, st.currentDependencies)
  { replacements := addReplacement removed constraint
    currentSimplified := acc.1
    currentDependencies := acc.2
    changed := st.changed || decide (constraint ≠ visited.1) ||
      decide (andsSplit.length > 1) }

/-- One round of the `while` loop of `simplify` over the constraints in the order of the
walk. -/
def roundOn (full : Bool) (walk : List Expr) : Round :=
  walk.foldl (roundStep full)
    { replacements := gatherReplacements walk
      currentSimplified := [], currentDependencies := [], changed := false }

/-- The `while (changed)` loop of `simplify`; `none` when the fuel runs out or
`composeExprDependencies` throws. -/
def simplifyLoop (order : List Expr → List Expr) (full : Bool) :
    Nat → List Expr → List (Expr × List Expr) → Option (List Expr × List (Expr × List Expr))
  | 0, _, _ => none
  | fuel + 1, simplified, dependencies =>
    let r := roundOn full (order simplified)
    if r.changed then
      match composeExprDependencies dependencies r.currentDependencies with
      | none => none
      | some composed => simplifyLoop order full fuel r.currentSimplified composed
    else some (simplified, dependencies)

/-- The initialization of `simplify`. -/
def initial (walk : List Expr) : List Expr × List (Expr × List Expr) :=
  walk.foldl
    (fun acc constraint =>
      (setAdd constraint acc.1, mapInsert constraint [constraint] acc.2))
    ([], [])

/-- `Simplificator::simplify(constraints, policy)`: the pair of `simplified` and
`dependency`; `none` when the fuel runs out or the assertion `policy != None` fails. -/
def simplify (order : List Expr → List Expr) (policy : RewriteEqualitiesPolicy) (fuel : Nat)
    (constraints : List Expr) : Option (List Expr × List (Expr × List Expr)) :=
  let init := initial (order constraints)
  if policy = RewriteEqualitiesPolicy.None ∧ init.1 ≠ [] then none
  else
    (simplifyLoop order (decide (policy = RewriteEqualitiesPolicy.Full)) fuel init.1 init.2).map
      fun r =>
        (r.1.filter fun e => decide (e ≠ createTrue), mapErase createTrue r.2)

/-- The set a map gives for a key (empty for an absent key). -/
def depsOf (m : List (Expr × List Expr)) (key : Expr) : List Expr :=
  (mapFind key m).getD []

/-- The key under which `addReplacement` enters a constraint. -/
def keyOf : Expr → Expr
  | binary BinOp.Eq (const _ _) right => right
  | e => e

/-- The value with which `addReplacement` enters a constraint. -/
def valOf : Expr → Expr
  | binary BinOp.Eq (const w v) _ => const w v
  | _ => createTrue

/-- The measure of a constraint set: each constraint counts twice its weight plus one. -/
def measure (s : List Expr) : Nat := (s.map fun e => 2 * e.weight + 1).sum

/-- Every value of the replacements is a constant. -/
def Vals (R : Replacements) : Prop :=
  ∀ k v, mapFind k R.equalities = some v → v.isConstant = true

/-- The constraint `p` is the parent of a key of the replacements that is the expression `e`
or weighs less. -/
def Hit (R : Replacements) (e p : Expr) : Prop :=
  ∃ k, mapFind k R.equalitiesParents = some p ∧ (mapFind k R.equalities).isSome = true ∧
    (k.weight < e.weight ∨ k = e)

/-- Every key of the replacements is the key of a constraint of `l`, which is its parent and
gives its value. -/
def RepOK (l : List Expr) (R : Replacements) : Prop :=
  ∀ k, (mapFind k R.equalities = none ∧ mapFind k R.equalitiesParents = none) ∨
    ∃ p ∈ l, keyOf p = k ∧ mapFind k R.equalities = some (valOf p) ∧
      mapFind k R.equalitiesParents = some p

/-- What holds of the state of a round after the constraints `pre` of the walk `walk`. -/
structure RoundInv (full : Bool) (walk pre : List Expr) (st : Round) : Prop where
  rep : RepOK walk st.replacements
  keys : (st.currentDependencies.map Prod.fst).Nodup
  measure_le : measure st.currentSimplified ≤ measure pre
  measure_lt : st.changed = true → measure st.currentSimplified < measure pre
  found : ∀ k, (mapFind k st.currentDependencies).isSome = true ↔ k ∈ st.currentSimplified
  origin : ∀ e ∈ st.currentSimplified, ∃ c ∈ pre, ∃ R, RepOK walk R ∧
    mapFind (keyOf c) R.equalities = none ∧ e ∈ splitAnds (visit full R c []).1 ∧
    c ∈ depsOf st.currentDependencies e ∧
    ∀ p ∈ (visit full R c []).2, p ∈ depsOf st.currentDependencies e
  cover : ∀ c ∈ pre, ∃ R, RepOK walk R ∧ mapFind (keyOf c) R.equalities = none ∧
    ∀ e ∈ splitAnds (visit full R c []).1, e ∈ st.currentSimplified
  sub : ∀ k x, x ∈ depsOf st.currentDependencies k → x ∈ walk

/-- The constraint `x = 5` of the example of the specification. -/
def exampleX : Expr := binary BinOp.Eq (const 32 5) (read 32 0)

/-- The constraint `y = x + 1` of the example, with the constant of the sum on the left. -/
def exampleY : Expr := binary BinOp.Eq (read 32 1) (binary BinOp.Add (const 32 1) (read 32 0))

/-- The constraint `z = y + 2` of the example, with the constant of the sum on the left. -/
def exampleZ : Expr := binary BinOp.Eq (read 32 2) (binary BinOp.Add (const 32 2) (read 32 1))

/-- The constraint `y = 6`. -/
def exampleY6 : Expr := binary BinOp.Eq (const 32 6) (read 32 1)

/-- The constraint `z = 8`. -/
def exampleZ8 : Expr := binary BinOp.Eq (const 32 8) (read 32 2)

end Simplificator

namespace Simplificator
open Expr

/-- The result `out` of a visit of `e` is an expression as the `create` functions build it,
of the width of `e`, and has the value of `e` under every assignment that satisfies the
recorded dependencies. -/
def Sound (e : Expr) (out : Expr × List Expr) : Prop :=
  out.1.canon = true ∧ out.1.width = e.width ∧
    ∀ a, (∀ p ∈ out.2, holds a p) → out.1.eval a = e.eval a

/-- What the loop of `simplify` keeps of the set `S` and the map `D` for the constraints
`C` it was called with. -/
structure LoopInv (C S : List Expr) (D : List (Expr × List Expr)) : Prop where
  cond : ∀ s ∈ S, s.canon = true ∧ s.width = 1
  equiv : ∀ a, (∀ c ∈ C, holds a c) ↔ (∀ s ∈ S, holds a s)
  nonempty : ∀ s ∈ S, depsOf D s ≠ []
  sub : ∀ s ∈ S, ∀ d ∈ depsOf D s, d ∈ C
  sound : ∀ s ∈ S, ∀ a, (∀ d ∈ depsOf D s, holds a d) → holds a s

end Simplificator

/-! # Theorems -/

namespace Ticker

theorem length_cycleFrom (ticks : List Nat) (b : Nat) :
    (cycleFrom ticks b).length = ticks.sum := by
  induction ticks generalizing b with
  | nil => rfl
  | cons x xs ih => simp [cycleFrom, ih]

theorem getD_replicate_lt (x n c : Nat) (h : c < n) : (List.replicate n x).getD c 0 = x := by
  rw [List.getD_eq_getElem _ _ (by simpa using h)]
  simp

theorem getD_cycleFrom (ticks : List Nat) (b i c : Nat) (hi : i < ticks.length)
    (hc : c < ticks.getD i 0) :
    (cycleFrom ticks b).getD ((ticks.take i).sum + c) 0 = b + i := by
  induction ticks generalizing b i with
  | nil => simp at hi
  | cons x xs ih =>
    cases i with
    | zero =>
      simp only [List.getD_cons_zero] at hc
      simp only [cycleFrom, List.take_zero, List.sum_nil, Nat.zero_add, Nat.add_zero]
      rw [List.getD_append _ _ _ _ (by simpa using hc)]
      exact getD_replicate_lt b x c hc
    | succ j =>
      simp only [List.getD_cons_succ] at hc
      have hj : j < xs.length := by simpa using hi
      simp only [cycleFrom, List.take_succ_cons, List.sum_cons]
      rw [List.getD_append_right _ _ _ _ (by simp; omega)]
      have : x + (List.take j xs).sum + c - (List.replicate x b).length
          = (List.take j xs).sum + c := by simp; omega
      rw [this, ih (b + 1) j hj hc]
      omega

theorem mem_cycleFrom (ticks : List Nat) (b v : Nat) (h : v ∈ cycleFrom ticks b) :
    ∃ i, i < ticks.length ∧ v = b + i ∧ 0 < ticks.getD i 0 := by
  induction ticks generalizing b with
  | nil => simp [cycleFrom] at h
  | cons x xs ih =>
    simp only [cycleFrom, List.mem_append] at h
    rcases h with h | h
    · rcases List.mem_replicate.1 h with ⟨hx, rfl⟩
      exact ⟨0, by simp, rfl, by simpa using Nat.pos_of_ne_zero hx⟩
    · obtain ⟨i, hi, hv, hp⟩ := ih (b + 1) h
      exact ⟨i + 1, by simpa using hi, by omega, by simpa using hp⟩

theorem prefix_lt_sum (ticks : List Nat) (i c : Nat) (hi : i < ticks.length)
    (hc : c < ticks.getD i 0) : (ticks.take i).sum + c < ticks.sum := by
  have h1 := List.sum_take_succ ticks i hi
  have h2 := List.sum_take_add_sum_drop ticks (i + 1)
  rw [List.getD_eq_getElem _ _ hi] at hc
  omega

theorem u32_of_lt (a : Nat) (h : a < 4294967296) : u32 a = a := Nat.mod_eq_of_lt h

theorem skipZero_spec (ticks : List Nat) (hlen : ticks.length < 4294967296) :
    ∀ (fuel a d : Nat), a < ticks.length → d < fuel →
      0 < ticks.getD ((a + d) % ticks.length) 0 →
      (∀ e, e < d → ticks.getD ((a + e) % ticks.length) 0 = 0) →
      skipZero ticks fuel a = some ((a + d) % ticks.length) := by
  intro fuel
  induction fuel with
  | zero => intro a d _ hd; omega
  | succ f ih =>
    intro a d ha hd hp hz
    cases d with
    | zero =>
      simp only [Nat.add_zero, Nat.mod_eq_of_lt ha] at hp ⊢
      simp only [skipZero]
      rw [if_neg (Nat.ne_of_gt hp)]
    | succ d1 =>
      have h0 := hz 0 (Nat.succ_pos _)
      rw [Nat.add_zero, Nat.mod_eq_of_lt ha] at h0
      have hu : u32 (a + 1) = a + 1 := u32_of_lt _ (by omega)
      have hn : 0 < ticks.length := by omega
      have key : ∀ e, ((a + 1) % ticks.length + e) % ticks.length
          = (a + (e + 1)) % ticks.length := by
        intro e
        rw [Nat.mod_add_mod]
        congr 1
        omega
      simp only [skipZero, h0, if_true, hu]
      rw [ih ((a + 1) % ticks.length) d1 (Nat.mod_lt _ hn) (by omega)
        (by rw [key]; exact hp) (by intro e he; rw [key]; exact hz (e + 1) (by omega))]
      rw [key]

theorem ctorSkip_spec (ticks : List Nat) :
    ∀ (fuel a d : Nat), d < fuel → a + d < 4294967296 →
      0 < ticks.getD (a + d) 0 → (∀ e, e < d → ticks.getD (a + e) 0 = 0) →
      ctorSkip ticks fuel a = some (a + d) := by
  intro fuel
  induction fuel with
  | zero => intro a d hd; omega
  | succ f ih =>
    intro a d hd hb hp hz
    cases d with
    | zero =>
      simp only [Nat.add_zero] at hp ⊢
      simp only [ctorSkip]
      rw [if_neg (Nat.ne_of_gt hp)]
    | succ d1 =>
      have h0 := hz 0 (Nat.succ_pos _)
      rw [Nat.add_zero] at h0
      have hu : u32 (a + 1) = a + 1 := u32_of_lt _ (by omega)
      simp only [ctorSkip, h0, if_true, hu]
      rw [ih (a + 1) d1 (by omega) (by omega) (by rw [show a + 1 + d1 = a + (d1 + 1) by omega]; exact hp)
        (by intro e he; rw [show a + 1 + e = a + (e + 1) by omega]; exact hz (e + 1) (by omega))]
      congr 1
      omega

theorem exists_next (ticks : List Nat) (a : Nat) (ha : a < ticks.length)
    (hpos : ∃ x ∈ ticks, 0 < x) :
    ∃ d, d < ticks.length ∧ 0 < ticks.getD ((a + d) % ticks.length) 0 ∧
      ∀ e, e < d → ticks.getD ((a + e) % ticks.length) 0 = 0 := by
  obtain ⟨x, hx, hx0⟩ := hpos
  obtain ⟨p, hp, rfl⟩ := List.getElem_of_mem hx
  have hex : ∃ d, d < ticks.length ∧ 0 < ticks.getD ((a + d) % ticks.length) 0 := by
    by_cases hap : a ≤ p
    · refine ⟨p - a, by omega, ?_⟩
      rw [show a + (p - a) = p by omega, Nat.mod_eq_of_lt hp, List.getD_eq_getElem _ _ hp]
      exact hx0
    · refine ⟨p + ticks.length - a, by omega, ?_⟩
      rw [show a + (p + ticks.length - a) = p + ticks.length by omega, Nat.add_mod_right,
        Nat.mod_eq_of_lt hp, List.getD_eq_getElem _ _ hp]
      exact hx0
  classical
  refine ⟨Nat.find hex, (Nat.find_spec hex).1, (Nat.find_spec hex).2, ?_⟩
  intro e he
  have hmin := Nat.find_min hex he
  have hlt : e < ticks.length := lt_trans he (Nat.find_spec hex).1
  by_contra hne
  exact hmin ⟨hlt, Nat.pos_of_ne_zero hne⟩

theorem succ_sum (ticks : List Nat) (m : Nat) (hm : m < ticks.length) :
    Nat.ModEq ticks.sum ((ticks.take ((m + 1) % ticks.length)).sum)
      ((ticks.take m).sum + ticks.getD m 0) := by
  rw [List.getD_eq_getElem _ _ hm, ← List.sum_take_succ ticks m hm]
  by_cases h : m + 1 < ticks.length
  · rw [Nat.mod_eq_of_lt h]
  · have h1 : m + 1 = ticks.length := by omega
    rw [h1, Nat.mod_self, List.take_length, List.take_zero, List.sum_nil]
    unfold Nat.ModEq
    simp

theorem zero_run_sum (ticks : List Nat) (a : Nat) (ha : a < ticks.length) :
    ∀ d, (∀ e, e < d → ticks.getD ((a + e) % ticks.length) 0 = 0) →
      Nat.ModEq ticks.sum ((ticks.take ((a + d) % ticks.length)).sum) ((ticks.take a).sum) := by
  intro d
  induction d with
  | zero => intro _; rw [Nat.add_zero, Nat.mod_eq_of_lt ha]
  | succ d ih =>
    intro hz
    have hn : 0 < ticks.length := by omega
    have h1 := succ_sum ticks ((a + d) % ticks.length) (Nat.mod_lt _ hn)
    rw [hz d (Nat.lt_succ_self d), Nat.add_zero, Nat.mod_add_mod] at h1
    exact h1.trans (ih fun e he => hz e (by omega))

theorem Inv.value {ticks : List Nat} {k : Nat} {t : Ticker} (h : Inv ticks k t) :
    (cycle ticks).getD (k % (cycle ticks).length) 0 = t.index := by
  obtain ⟨_, hi, hc, hk⟩ := h
  have hlt := prefix_lt_sum ticks t.index t.counter hi hc
  have : k % ticks.sum = (ticks.take t.index).sum + t.counter := by
    have := hk
    unfold Nat.ModEq at this
    rw [Nat.mod_eq_of_lt hlt] at this
    exact this.symm
  unfold cycle
  rw [length_cycleFrom, this, getD_cycleFrom ticks 0 t.index t.counter hi hc]
  omega

theorem moveToNext_spec (ticks : List Nat) (fuel : Nat) (t : Ticker)
    (hpos : ∃ x ∈ ticks, 0 < x) (hlen : ticks.length < 4294967296)
    (hfuel : ticks.length ≤ fuel) (ht : t.ticks = ticks) (hi : t.index < ticks.length)
    (hq : ticks.getD t.index 0 ≠ 0) (hc : t.counter ≠ 0) :
    ∃ d, d < ticks.length ∧
      moveToNext fuel t
        = some { ticks := ticks, index := (t.index + (d + 1)) % ticks.length, counter := 0 } ∧
      0 < ticks.getD ((t.index + (d + 1)) % ticks.length) 0 ∧
      (∀ e, e < d → ticks.getD ((t.index + (e + 1)) % ticks.length) 0 = 0) := by
  have hn : 0 < ticks.length := by omega
  obtain ⟨d, hd, hp, hz⟩ := exists_next ticks ((t.index + 1) % ticks.length) (Nat.mod_lt _ hn) hpos
  have key : ∀ e, ((t.index + 1) % ticks.length + e) % ticks.length
      = (t.index + (e + 1)) % ticks.length := by
    intro e
    rw [Nat.mod_add_mod]
    congr 1
    omega
  refine ⟨d, hd, ?_, by rw [← key]; exact hp, fun e he => by rw [← key]; exact hz e he⟩
  have hs := skipZero_spec ticks hlen fuel ((t.index + 1) % ticks.length) d (Nat.mod_lt _ hn)
    (by omega) hp hz
  have hu : u32 (t.index + 1) = t.index + 1 := u32_of_lt _ (by omega)
  unfold moveToNext
  rw [ht, if_neg hq, if_pos hc]
  simp only [hu, hs, Option.map_some', key, ht]

theorem getCurrent_step (ticks : List Nat) (fuel k : Nat) (t : Ticker)
    (hpos : ∃ x ∈ ticks, 0 < x) (hb : ∀ x ∈ ticks, x < 4294967296)
    (hlen : ticks.length < 4294967296) (hfuel : ticks.length ≤ fuel) (h : Inv ticks k t) :
    ∃ t1, getCurrent fuel t = some (t.index, t1) ∧ Inv ticks (k + 1) t1 := by
  obtain ⟨tk, idx, cnt⟩ := t
  obtain ⟨ht, hi, hc, hk⟩ := h
  simp only at ht hi hc hk
  subst ht
  have hq : tk.getD idx 0 < 4294967296 := by
    rw [List.getD_eq_getElem _ _ hi]
    exact hb _ (List.getElem_mem _)
  have hu : u32 (cnt + 1) = cnt + 1 := u32_of_lt _ (by omega)
  unfold getCurrent
  simp only [hu]
  by_cases hfull : cnt + 1 = tk.getD idx 0
  · rw [if_pos hfull]
    obtain ⟨d, hd, hmove, hp, hz⟩ := moveToNext_spec tk fuel
      { ticks := tk, index := idx, counter := cnt + 1 } hpos hlen hfuel rfl hi
      (by simp only; omega) (by simp)
    simp only at hmove hp hz
    rw [hmove]
    refine ⟨_, rfl, rfl, Nat.mod_lt _ (by omega), hp, ?_⟩
    simp only [Nat.add_zero]
    have hn : 0 < tk.length := by omega
    have key : (idx + (d + 1)) % tk.length = ((idx + 1) % tk.length + d) % tk.length := by
      rw [Nat.mod_add_mod]
      congr 1
      omega
    have h1 := zero_run_sum tk ((idx + 1) % tk.length) (Nat.mod_lt _ hn) d
      (by
        intro e he
        rw [Nat.mod_add_mod, show idx + 1 + e = idx + (e + 1) by omega]
        exact hz e he)
    rw [key]
    refine h1.trans ((succ_sum tk idx hi).trans ?_)
    rw [← hfull, ← Nat.add_assoc]
    exact hk.add_right 1
  · rw [if_neg hfull]
    refine ⟨_, rfl, rfl, hi, by simp only; omega, ?_⟩
    simp only
    rw [← Nat.add_assoc]
    exact hk.add_right 1

theorem calls_spec (ticks : List Nat) (fuel : Nat)
    (hpos : ∃ x ∈ ticks, 0 < x) (hb : ∀ x ∈ ticks, x < 4294967296)
    (hlen : ticks.length < 4294967296) (hfuel : ticks.length ≤ fuel) :
    ∀ (m k : Nat) (t : Ticker), Inv ticks k t →
      calls fuel m t = some ((List.range m).map fun j =>
        (cycle ticks).getD ((k + j) % (cycle ticks).length) 0) := by
  intro m
  induction m with
  | zero => intro k t _; rfl
  | succ m ih =>
    intro k t h
    obtain ⟨t1, hg, h1⟩ := getCurrent_step ticks fuel k t hpos hb hlen hfuel h
    simp only [calls, hg, ih (k + 1) t1 h1, Option.map_some', List.range_succ_eq_map,
      List.map_cons, List.map_map, Nat.add_zero, h.value]
    congr 2
    apply List.map_congr_left
    intro j _
    simp only [Function.comp, Nat.succ_eq_add_one]
    rw [show k + 1 + j = k + (j + 1) by omega]

theorem init_spec (ticks : List Nat) (fuel : Nat)
    (hpos : ∃ x ∈ ticks, 0 < x) (hlen : ticks.length < 4294967296)
    (hfuel : ticks.length ≤ fuel) :
    ∃ t0, init fuel ticks = some t0 ∧ Inv ticks 0 t0 := by
  obtain ⟨x, hx, hx0⟩ := hpos
  have hn : 0 < ticks.length := List.length_pos_of_mem hx
  obtain ⟨d, hd, hp, hz⟩ := exists_next ticks 0 hn ⟨x, hx, hx0⟩
  simp only [Nat.zero_add] at hp hz
  rw [Nat.mod_eq_of_lt hd] at hp
  have hz1 : ∀ e, e < d → ticks.getD (0 + e) 0 = 0 := by
    intro e he
    have := hz e he
    rwa [Nat.mod_eq_of_lt (by omega), ← Nat.zero_add e] at this
  have hs := ctorSkip_spec ticks fuel 0 d (by omega) (by omega) (by simpa using hp) hz1
  have hany : ticks.any (fun i => decide (0 < i)) = true := by
    rw [List.any_eq_true]
    exact ⟨x, hx, by simpa using hx0⟩
  refine ⟨{ ticks := ticks, index := d, counter := 0 }, ?_, rfl, hd, hp, ?_⟩
  · unfold init
    rw [if_pos hany, hs]
    simp
  · simp only [Nat.add_zero]
    have := zero_run_sum ticks 0 hn d (by simpa using hz)
    simpa [Nat.mod_eq_of_lt hd] using this

/-- C3: on a fresh ticker over a tick vector with a positive entry the ticker is built, and the
first `k` values of `getCurrent()` are the first `k` values of the periodic repetition of
`cycle ticks` (slot `i` listed `ticks[i]` times, in index order); when slot `i` is the only
positive one every call returns `i`. -/
theorem ticker_getCurrent_periodic (ticks : List Nat) (fuel : Nat)
    (hpos : ∃ x ∈ ticks, 0 < x) (hb : ∀ x ∈ ticks, x < 4294967296)
    (hlen : ticks.length < 4294967296) (hfuel : ticks.length ≤ fuel) :
    ∃ t0, init fuel ticks = some t0 ∧
      (∀ k, calls fuel k t0 = some (expected ticks k)) ∧
      (∀ i, (∀ j, 0 < ticks.getD j 0 → j = i) →
        ∀ k, calls fuel k t0 = some (List.replicate k i)) := by
  obtain ⟨t0, h0, hinv⟩ := init_spec ticks fuel hpos hlen hfuel
  have hcalls : ∀ k, calls fuel k t0 = some (expected ticks k) := by
    intro k
    rw [calls_spec ticks fuel hpos hb hlen hfuel k 0 t0 hinv]
    simp [expected]
  refine ⟨t0, h0, hcalls, ?_⟩
  intro i honly k
  rw [hcalls k]
  congr 1
  apply List.eq_replicate_iff.2
  refine ⟨by simp [expected], ?_⟩
  intro v hv
  simp only [expected, List.mem_map, List.mem_range] at hv
  obtain ⟨j, _, rfl⟩ := hv
  have hL : 0 < (cycle ticks).length := by
    unfold cycle
    rw [length_cycleFrom]
    obtain ⟨x, hx, hx0⟩ := hpos
    exact lt_of_lt_of_le hx0 (List.single_le_sum (by simp) x hx)
  have hj : j % (cycle ticks).length < (cycle ticks).length := Nat.mod_lt _ hL
  rw [List.getD_eq_getElem _ _ hj]
  obtain ⟨i', _, hv, hp⟩ := mem_cycleFrom ticks 0 _ (List.getElem_mem hj)
  rw [hv, Nat.zero_add]
  exact honly i' hp

/-- Witness for C3: `Ticker({0, 30, 30, 30})`. -/
theorem ticker_getCurrent_periodic_witness :
    ∃ t0, init 4 [0, 30, 30, 30] = some t0 ∧
      (∀ k, calls 4 k t0 = some (expected [0, 30, 30, 30] k)) ∧
      (∀ i, (∀ j, 0 < [0, 30, 30, 30].getD j 0 → j = i) →
        ∀ k, calls 4 k t0 = some (List.replicate k i)) :=
  ticker_getCurrent_periodic [0, 30, 30, 30] 4 ⟨30, by decide, by decide⟩ (by decide)
    (by decide) (by decide)

theorem add_mod_ne_self (n i m : Nat) (hi : i < n) (hm0 : 0 < m) (hm : m < n) :
    (i + m) % n ≠ i := by
  by_cases h : i + m < n
  · rw [Nat.mod_eq_of_lt h]; omega
  · rw [Nat.mod_eq_sub_mod (by omega), Nat.mod_eq_of_lt (by omega)]; omega

theorem exists_offset (n i j : Nat) (hi : i < n) (hj : j < n) (hne : j ≠ i) :
    ∃ e, e + 1 < n ∧ (i + (e + 1)) % n = j := by
  by_cases h : i < j
  · exact ⟨j - i - 1, by omega, by rw [show i + (j - i - 1 + 1) = j by omega, Nat.mod_eq_of_lt hj]⟩
  · refine ⟨j + n - i - 1, by omega, ?_⟩
    rw [show i + (j + n - i - 1 + 1) = j + n by omega, Nat.add_mod_right, Nat.mod_eq_of_lt hj]

/-- C20 (as amended): in a ticker state of the shape `getCurrent()` produces (slot in range,
counter below the slot's quota), `moveToNext()` leaves the ticker unchanged when the counter
is 0; when the counter is not 0 it moves to the next slot, cyclically, whose quota is positive
and resets the counter, the following `getCurrent()` returns that slot, and the slot differs from
the old one when another slot has a positive quota. -/
theorem ticker_moveToNext_amended (ticks : List Nat) (fuel : Nat) (t : Ticker)
    (hb : ∀ x ∈ ticks, x < 4294967296) (hlen : ticks.length < 4294967296)
    (hfuel : ticks.length ≤ fuel) (ht : t.ticks = ticks) (hi : t.index < ticks.length)
    (hc : t.counter < ticks.getD t.index 0) :
    (t.counter = 0 → moveToNext fuel t = some t) ∧
    (t.counter ≠ 0 → ∃ d, d < ticks.length ∧
      moveToNext fuel t
        = some { ticks := ticks, index := (t.index + (d + 1)) % ticks.length, counter := 0 } ∧
      0 < ticks.getD ((t.index + (d + 1)) % ticks.length) 0 ∧
      (∀ e, e < d → ticks.getD ((t.index + (e + 1)) % ticks.length) 0 = 0) ∧
      (∃ t2, getCurrent fuel
          { ticks := ticks, index := (t.index + (d + 1)) % ticks.length, counter := 0 }
        = some ((t.index + (d + 1)) % ticks.length, t2)) ∧
      ((∃ j, j < ticks.length ∧ j ≠ t.index ∧ 0 < ticks.getD j 0) →
        (t.index + (d + 1)) % ticks.length ≠ t.index)) := by
  have hpos : ∃ x ∈ ticks, 0 < x := by
    refine ⟨ticks.getD t.index 0, ?_, by omega⟩
    rw [List.getD_eq_getElem _ _ hi]
    exact List.getElem_mem _
  have hq : ticks.getD t.index 0 ≠ 0 := by omega
  constructor
  · intro h0
    obtain ⟨tk, idx, cnt⟩ := t
    simp only at ht hi hc h0 hq
    subst ht
    subst h0
    have hs := skipZero_spec tk hlen fuel idx 0 hi (by omega)
      (by rw [Nat.add_zero, Nat.mod_eq_of_lt hi]; omega) (by intro e he; omega)
    rw [Nat.add_zero, Nat.mod_eq_of_lt hi] at hs
    unfold moveToNext
    simp only [if_neg hq, ne_eq, not_true_eq_false, if_false, hs, Option.map_some']
  · intro hne
    obtain ⟨d, hd, hmove, hp, hz⟩ := moveToNext_spec ticks fuel t hpos hlen hfuel ht hi hq hne
    refine ⟨d, hd, hmove, hp, hz, ?_, ?_⟩
    · have hinv : Inv ticks ((ticks.take ((t.index + (d + 1)) % ticks.length)).sum + 0)
          { ticks := ticks, index := (t.index + (d + 1)) % ticks.length, counter := 0 } :=
        ⟨rfl, Nat.mod_lt _ (by omega), hp, Nat.ModEq.refl _⟩
      obtain ⟨t2, h2, _⟩ := getCurrent_step ticks fuel _ _ hpos hb hlen hfuel hinv
      exact ⟨t2, h2⟩
    · rintro ⟨j, hj, hji, hjp⟩ heq
      by_cases hd1 : d + 1 < ticks.length
      · exact add_mod_ne_self ticks.length t.index (d + 1) hi (by omega) hd1 heq
      · obtain ⟨e, he, hej⟩ := exists_offset ticks.length t.index j hi hj hji
        have := hz e (by omega)
        rw [hej] at this
        omega

/-- Witness for the amended C20: the ticker `{2, 0, 3}` after one `getCurrent()`. -/
theorem ticker_moveToNext_amended_witness :
    (Ticker.counter ⟨[2, 0, 3], 0, 1⟩ = 0 →
      moveToNext 3 ⟨[2, 0, 3], 0, 1⟩ = some ⟨[2, 0, 3], 0, 1⟩) ∧
    (Ticker.counter ⟨[2, 0, 3], 0, 1⟩ ≠ 0 → ∃ d, d < [2, 0, 3].length ∧
      moveToNext 3 ⟨[2, 0, 3], 0, 1⟩
        = some { ticks := [2, 0, 3], index := (0 + (d + 1)) % [2, 0, 3].length, counter := 0 } ∧
      0 < [2, 0, 3].getD ((0 + (d + 1)) % [2, 0, 3].length) 0 ∧
      (∀ e, e < d → [2, 0, 3].getD ((0 + (e + 1)) % [2, 0, 3].length) 0 = 0) ∧
      (∃ t2, getCurrent 3
          { ticks := [2, 0, 3], index := (0 + (d + 1)) % [2, 0, 3].length, counter := 0 }
        = some ((0 + (d + 1)) % [2, 0, 3].length, t2)) ∧
      ((∃ j, j < [2, 0, 3].length ∧ j ≠ 0 ∧ 0 < [2, 0, 3].getD j 0) →
        (0 + (d + 1)) % [2, 0, 3].length ≠ 0)) :=
  ticker_moveToNext_amended [2, 0, 3] 3 ⟨[2, 0, 3], 0, 1⟩ (by decide) (by decide) (by decide)
    rfl (by decide) (by decide)

/-- Counterexample to C20 as stated: the fresh ticker over `{1, 1}` has two positive slots,
`moveToNext()` leaves it at slot 0 and the following `getCurrent()` returns 0, not slot 1. -/
theorem ticker_moveToNext_counterexample :
    init 2 [1, 1] = some ⟨[1, 1], 0, 0⟩ ∧
    moveToNext 2 ⟨[1, 1], 0, 0⟩ = some ⟨[1, 1], 0, 0⟩ ∧
    (getCurrent 2 ⟨[1, 1], 0, 0⟩).map Prod.fst = some 0 := by
  decide

end Ticker

/-! ## checkStack -/

theorem checkStackLoop_iff :
    ∀ (n : Nat) (xs ys : List CallStackFrame), n ≤ xs.length → n ≤ ys.length →
      (checkStackLoop n xs ys = true ↔
        ∀ i f g, i < n → xs[i]? = some f → ys[i]? = some g →
          f.kf = g.kf ∧ (g.caller = none ∨ g.caller = f.caller)) := by
  intro n
  induction n with
  | zero => intro xs ys _ _; simp [checkStackLoop]
  | succ n ih =>
    intro xs ys hx hy
    match xs, ys, hx, hy with
    | [], _, hx, _ => simp at hx
    | _ :: _, [], _, hy => simp at hy
    | x :: xs, y :: ys, hx, hy =>
      have hx1 : n ≤ xs.length := by simpa using hx
      have hy1 : n ≤ ys.length := by simpa using hy
      simp only [checkStackLoop]
      constructor
      · intro h
        split at h
        · exact absurd h (by simp)
        · rename_i hc
          have hc1 : x.kf = y.kf ∧ (y.caller = none ∨ y.caller = x.caller) := by
            constructor
            · by_contra hne; exact hc (Or.inl hne)
            · by_contra hne
              push_neg at hne
              exact hc (Or.inr ⟨Option.isSome_iff_ne_none.2 hne.1, hne.2⟩)
          intro i f g hi hf hg
          cases i with
          | zero =>
            simp only [List.getElem?_cons_zero, Option.some.injEq] at hf hg
            subst hf; subst hg; exact hc1
          | succ j =>
            simp only [List.getElem?_cons_succ] at hf hg
            exact (ih xs ys hx1 hy1).1 h j f g (by omega) hf hg
      · intro h
        have h0 := h 0 x y (Nat.succ_pos _) (by simp) (by simp)
        rw [if_neg]
        · exact (ih xs ys hx1 hy1).2 fun i f g hi hf hg =>
            h (i + 1) f g (by omega) (by simpa using hf) (by simpa using hg)
        · rintro (hne | ⟨hs, hne⟩)
          · exact hne h0.1
          · rcases h0.2 with h1 | h1
            · rw [h1] at hs; exact absurd hs (by simp)
            · exact hne h1

/-- C6: `checkStack` is true exactly when, for every `i < min(|c| - 1, |s|)`, the `i`-th frames
from the top of the state's call stack `c` and of the pob's stack `s` have the same function and
the pob frame's call site is null or equal to the state frame's; on the example of the
specification it is true for `s = [(c2, g)]` and false for `s = [(c3, g)]`. -/
theorem checkStack_iff (c s : List CallStackFrame) :
    (checkStack c s = true ↔
      ∀ i f g, i < min (c.length - 1) s.length →
        c.get? (c.length - 1 - i) = some f → s.get? (s.length - 1 - i) = some g →
        f.kf = g.kf ∧ (g.caller = none ∨ g.caller = f.caller)) ∧
    checkStack [⟨none, 0⟩, ⟨some 1, 1⟩, ⟨some 2, 2⟩] [⟨some 2, 2⟩] = true ∧
    checkStack [⟨none, 0⟩, ⟨some 1, 1⟩, ⟨some 2, 2⟩] [⟨some 3, 2⟩] = false := by
  refine ⟨?_, by decide, by decide⟩
  unfold checkStack
  by_cases hc : c.length = 0
  · rw [if_pos hc]
    simp [hc]
  · rw [if_neg hc]
    simp only
    rw [checkStackLoop_iff _ _ _ (by simp) (by simp)]
    constructor
    · intro h i f g hi hf hg
      refine h i f g hi ?_ ?_
      · rw [List.getElem?_reverse (by omega), ← List.get?_eq_getElem?]; exact hf
      · rw [List.getElem?_reverse (by omega), ← List.get?_eq_getElem?]; exact hg
    · intro h i f g hi hf hg
      refine h i f g hi ?_ ?_
      · rw [List.getElem?_reverse (by omega), ← List.get?_eq_getElem?] at hf; exact hf
      · rw [List.getElem?_reverse (by omega), ← List.get?_eq_getElem?] at hg; exact hg

/-! ## WeightedQueue -/

namespace WeightedQueue

variable {T : Type} [DecidableEq T]

theorem mem_pushBack_self (w : Nat) (i : T) (m : List (Nat × List T)) :
    ∃ b, (w, b) ∈ pushBack w i m ∧ i ∈ b := by
  induction m with
  | nil => exact ⟨[i], by simp [pushBack], by simp⟩
  | cons e rest ih =>
    obtain ⟨k, q⟩ := e
    simp only [pushBack]
    split
    · exact ⟨[i], by simp, by simp⟩
    · split
      · rename_i h; subst h; exact ⟨q ++ [i], by simp, by simp⟩
      · obtain ⟨b, hb, hi⟩ := ih
        exact ⟨b, List.mem_cons_of_mem _ hb, hi⟩

theorem mem_pushBack_of_mem (w : Nat) (i : T) (m : List (Nat × List T)) (k : Nat) (b : List T)
    (x : T) (hb : (k, b) ∈ m) (hx : x ∈ b) : ∃ b1, (k, b1) ∈ pushBack w i m ∧ x ∈ b1 := by
  induction m with
  | nil => simp at hb
  | cons e rest ih =>
    obtain ⟨k1, q⟩ := e
    simp only [pushBack]
    split
    · exact ⟨b, List.mem_cons_of_mem _ hb, hx⟩
    · split
      · rcases List.mem_cons.1 hb with h | h
        · cases h
          exact ⟨b ++ [i], by simp, by simp [hx]⟩
        · exact ⟨b, List.mem_cons_of_mem _ h, hx⟩
      · rcases List.mem_cons.1 hb with h | h
        · cases h
          exact ⟨b, by simp, hx⟩
        · obtain ⟨b1, h1, h2⟩ := ih h
          exact ⟨b1, List.mem_cons_of_mem _ h1, h2⟩

theorem key_mem_pushBack (w : Nat) (i : T) (m : List (Nat × List T)) (k : Nat)
    (h : k ∈ (pushBack w i m).map Prod.fst) : k = w ∨ k ∈ m.map Prod.fst := by
  induction m with
  | nil => simp [pushBack] at h; exact Or.inl h
  | cons e rest ih =>
    obtain ⟨k1, q⟩ := e
    simp only [pushBack] at h
    split at h
    · simp only [List.map_cons, List.mem_cons] at h ⊢
      tauto
    · split at h
      · simp only [List.map_cons, List.mem_cons] at h ⊢
        tauto
      · simp only [List.map_cons, List.mem_cons] at h ⊢
        rcases h with h | h
        · tauto
        · rcases ih h with h1 | h1 <;> tauto

theorem pairwise_pushBack (w : Nat) (i : T) (m : List (Nat × List T))
    (h : (m.map Prod.fst).Pairwise (· < ·)) : ((pushBack w i m).map Prod.fst).Pairwise (· < ·) := by
  induction m with
  | nil => simp [pushBack]
  | cons e rest ih =>
    obtain ⟨k1, q⟩ := e
    simp only [List.map_cons, List.pairwise_cons] at h
    simp only [pushBack]
    split
    · rename_i hlt
      simp only [List.map_cons, List.pairwise_cons, List.mem_cons]
      refine ⟨?_, h.1, h.2⟩
      rintro a (rfl | ha)
      · exact hlt
      · exact lt_trans hlt (h.1 a ha)
    · split
      · simpa only [List.map_cons, List.pairwise_cons] using h
      · rename_i h1 h2
        simp only [List.map_cons, List.pairwise_cons]
        refine ⟨?_, ih h.2⟩
        intro a ha
        rcases key_mem_pushBack w i rest a ha with rfl | h3
        · omega
        · exact h.1 a h3

theorem nonempty_pushBack (w : Nat) (i : T) (m : List (Nat × List T))
    (h : ∀ e ∈ m, e.2 ≠ []) : ∀ e ∈ pushBack w i m, e.2 ≠ [] := by
  induction m with
  | nil => simp [pushBack]
  | cons e rest ih =>
    obtain ⟨k1, q⟩ := e
    simp only [pushBack]
    split
    · intro e he
      rcases List.mem_cons.1 he with rfl | he
      · simp
      · exact h e he
    · split
      · intro e he
        rcases List.mem_cons.1 he with rfl | he
        · simp
        · exact h e (List.mem_cons_of_mem _ he)
      · intro e he
        rcases List.mem_cons.1 he with rfl | he
        · exact h _ (List.mem_cons_self _ _)
        · exact ih (fun e he => h e (List.mem_cons_of_mem _ he)) e he

theorem eraseFrom_sublist (w : Nat) (i : T) (m m1 : List (Nat × List T))
    (h : eraseFrom w i m = some m1) : (m1.map Prod.fst).Sublist (m.map Prod.fst) := by
  induction m generalizing m1 with
  | nil => simp [eraseFrom] at h
  | cons e rest ih =>
    obtain ⟨k1, q⟩ := e
    simp only [eraseFrom] at h
    split at h
    · split at h
      · cases h
        split
        · exact List.sublist_cons_self _ _
        · exact List.Sublist.refl _
      · cases h
    · cases hr : eraseFrom w i rest with
      | none => rw [hr] at h; cases h
      | some m2 =>
        rw [hr] at h
        cases h
        exact (ih m2 hr).cons₂ _

theorem eraseFrom_nonempty (w : Nat) (i : T) (m m1 : List (Nat × List T))
    (h : eraseFrom w i m = some m1) (hne : ∀ e ∈ m, e.2 ≠ []) : ∀ e ∈ m1, e.2 ≠ [] := by
  induction m generalizing m1 with
  | nil => simp [eraseFrom] at h
  | cons e rest ih =>
    obtain ⟨k1, q⟩ := e
    simp only [eraseFrom] at h
    split at h
    · split at h
      · cases h
        split
        · exact fun e he => hne e (List.mem_cons_of_mem _ he)
        · rename_i hemp
          intro e he
          rcases List.mem_cons.1 he with rfl | he
          · simpa [List.isEmpty_iff] using hemp
          · exact hne e (List.mem_cons_of_mem _ he)
      · cases h
    · cases hr : eraseFrom w i rest with
      | none => rw [hr] at h; cases h
      | some m2 =>
        rw [hr] at h
        cases h
        intro e he
        rcases List.mem_cons.1 he with rfl | he
        · exact hne _ (List.mem_cons_self _ _)
        · exact ih m2 hr (fun e he => hne e (List.mem_cons_of_mem _ he)) e he

theorem eraseFrom_mem (w : Nat) (i : T) (m m1 : List (Nat × List T))
    (h : eraseFrom w i m = some m1) (k : Nat) (b : List T) (x : T) (hb : (k, b) ∈ m)
    (hx : x ∈ b) (hxi : x ≠ i) : ∃ b1, (k, b1) ∈ m1 ∧ x ∈ b1 := by
  induction m generalizing m1 with
  | nil => simp at hb
  | cons e rest ih =>
    obtain ⟨k1, q⟩ := e
    simp only [eraseFrom] at h
    split at h
    · split at h
      · cases h
        rcases List.mem_cons.1 hb with hb | hb
        · cases hb
          have hx1 : x ∈ b.erase i := (List.mem_erase_of_ne hxi).2 hx
          split
          · rename_i hemp
            rw [List.isEmpty_iff] at hemp
            rw [hemp] at hx1
            simp at hx1
          · exact ⟨b.erase i, List.mem_cons_self _ _, hx1⟩
        · split
          · exact ⟨b, hb, hx⟩
          · exact ⟨b, List.mem_cons_of_mem _ hb, hx⟩
      · cases h
    · cases hr : eraseFrom w i rest with
      | none => rw [hr] at h; cases h
      | some m2 =>
        rw [hr] at h
        cases h
        rcases List.mem_cons.1 hb with hb | hb
        · cases hb
          exact ⟨b, List.mem_cons_self _ _, hx⟩
        · obtain ⟨b1, h1, h2⟩ := ih m2 hr hb
          exact ⟨b1, List.mem_cons_of_mem _ h1, h2⟩

theorem weightOf_none_or (q : WeightedQueue T) (item : T) (w : Nat)
    (h : q.weightOf item = some w) : (item, w) ∈ q.valueToWeight := by
  unfold weightOf at h
  cases hf : q.valueToWeight.find? (fun e => decide (e.1 = item)) with
  | none => rw [hf] at h; cases h
  | some e =>
    rw [hf] at h
    simp only [Option.map_some', Option.some.injEq] at h
    have h1 := List.find?_some hf
    have h2 := List.mem_of_find?_eq_some hf
    simp only [decide_eq_true_eq] at h1
    obtain ⟨a, b⟩ := e
    simp only at h h1
    subst h; subst h1
    exact h2

theorem WF.of_insert {q q1 : WeightedQueue T} {item : T} {weight : Nat} (hq : WF q)
    (h : insert item weight q = some q1) : WF q1 := by
  unfold WeightedQueue.insert at h
  split at h
  · cases h
  · cases h
    obtain ⟨h1, h2, h3⟩ := hq
    refine ⟨pairwise_pushBack _ _ _ h1, nonempty_pushBack _ _ _ h2, ?_⟩
    intro e he
    rcases List.mem_cons.1 he with rfl | he
    · exact mem_pushBack_self weight item _
    · obtain ⟨b, hb, hx⟩ := h3 e he
      exact mem_pushBack_of_mem _ _ _ _ b _ hb hx

theorem WF.of_remove {q q1 : WeightedQueue T} {item : T} (hq : WF q)
    (h : remove item q = some q1) : WF q1 := by
  unfold WeightedQueue.remove at h
  split at h
  · cases h
  · rename_i weight hw
    cases hr : eraseFrom weight item q.weightToQueue with
    | none => rw [hr] at h; cases h
    | some m =>
      rw [hr] at h
      cases h
      obtain ⟨h1, h2, h3⟩ := hq
      refine ⟨h1.sublist (eraseFrom_sublist _ _ _ _ hr), eraseFrom_nonempty _ _ _ _ hr h2, ?_⟩
      intro e he
      simp only [List.mem_filter, decide_eq_true_eq] at he
      obtain ⟨b, hb, hx⟩ := h3 e he.1
      exact eraseFrom_mem _ _ _ _ hr _ b _ hb hx he.2

theorem WF.of_update {q q1 : WeightedQueue T} {item : T} {weight : Nat} (hq : WF q)
    (h : update item weight q = some q1) : WF q1 := by
  unfold WeightedQueue.update at h
  split at h
  · cases h
  · rename_i oldWeight hw
    split at h
    · cases hr : eraseFrom oldWeight item q.weightToQueue with
      | none => rw [hr] at h; cases h
      | some m =>
        rw [hr] at h
        cases h
        obtain ⟨h1, h2, h3⟩ := hq
        refine ⟨pairwise_pushBack _ _ _ (h1.sublist (eraseFrom_sublist _ _ _ _ hr)),
          nonempty_pushBack _ _ _ (eraseFrom_nonempty _ _ _ _ hr h2), ?_⟩
        intro e he
        rcases List.mem_cons.1 he with rfl | he
        · exact mem_pushBack_self weight item _
        · simp only [List.mem_filter, decide_eq_true_eq] at he
          obtain ⟨b, hb, hx⟩ := h3 e he.1
          obtain ⟨b1, hb1, hx1⟩ := eraseFrom_mem _ _ _ _ hr _ b _ hb hx he.2
          exact mem_pushBack_of_mem _ _ _ _ b1 _ hb1 hx1
    · cases h
      exact hq

theorem Reachable.wf {q : WeightedQueue T} (h : Reachable q) : WF q := by
  induction h with
  | empty =>
    exact ⟨by simp [WeightedQueue.empty], by simp [WeightedQueue.empty],
      by simp [WeightedQueue.empty]⟩
  | insert item weight _ h ih => exact ih.of_insert h
  | remove item _ h ih => exact ih.of_remove h
  | update item weight _ h ih => exact ih.of_update h

theorem chooseLoop_spec (p : Nat) (m : List (Nat × List T))
    (h1 : (m.map Prod.fst).Pairwise (· < ·)) (h2 : ∀ e ∈ m, e.2 ≠ [])
    (h3 : ∃ e ∈ m, p ≤ e.1) :
    ∃ k x b, (k, x :: b) ∈ m ∧ p ≤ k ∧ (∀ e ∈ m, p ≤ e.1 → k ≤ e.1) ∧
      chooseLoop p m = some x := by
  induction m with
  | nil => obtain ⟨e, he, _⟩ := h3; simp at he
  | cons e rest ih =>
    obtain ⟨k1, q⟩ := e
    simp only [List.map_cons, List.pairwise_cons] at h1
    simp only [chooseLoop]
    by_cases hp : p ≤ k1
    · rw [if_pos hp]
      cases q with
      | nil => exact absurd rfl (h2 _ (List.mem_cons_self _ _))
      | cons x b =>
        refine ⟨k1, x, b, List.mem_cons_self _ _, hp, ?_, rfl⟩
        intro e he _
        rcases List.mem_cons.1 he with rfl | he
        · exact le_refl _
        · exact le_of_lt (h1.1 e.1 (List.mem_map_of_mem _ he))
    · rw [if_neg hp]
      have h3r : ∃ e ∈ rest, p ≤ e.1 := by
        obtain ⟨e, he, hpe⟩ := h3
        rcases List.mem_cons.1 he with rfl | he
        · exact absurd hpe hp
        · exact ⟨e, he, hpe⟩
      obtain ⟨k, x, b, hm, hpk, hmin, hc⟩ :=
        ih h1.2 (fun e he => h2 e (List.mem_cons_of_mem _ he)) h3r
      refine ⟨k, x, b, List.mem_cons_of_mem _ hm, hpk, ?_, hc⟩
      intro e he hpe
      rcases List.mem_cons.1 he with rfl | he
      · exact absurd hpe hp
      · exact hmin e he hpe

/-- C16 (as amended): on every non-empty queue built by `insert`, `remove` and `update`, if
`p >= maxWeight()` then `choose(p)` returns the front of the bucket with the least weight;
otherwise it returns the front of the bucket with the least weight `w` such that `p <= w`. Within
a bucket items stand in the order in which they entered it. -/
theorem weightedQueue_choose_amended (q : WeightedQueue T) (p : Nat) (hq : Reachable q)
    (hne : q.valueToWeight ≠ []) :
    (q.maxWeight ≤ p → ∃ k x b rest, q.weightToQueue = (k, x :: b) :: rest ∧
      (∀ e ∈ q.weightToQueue, k ≤ e.1) ∧ choose p q = some x) ∧
    (p < q.maxWeight → ∃ k x b, (k, x :: b) ∈ q.weightToQueue ∧ p ≤ k ∧
      (∀ e ∈ q.weightToQueue, p ≤ e.1 → k ≤ e.1) ∧ choose p q = some x) := by
  obtain ⟨h1, h2, h3⟩ := hq.wf
  obtain ⟨v, hv⟩ := List.exists_mem_of_ne_nil _ hne
  obtain ⟨b0, hb0, _⟩ := h3 v hv
  obtain ⟨vs, m, hvm⟩ : ∃ vs m, q = ⟨m, vs⟩ := ⟨q.valueToWeight, q.weightToQueue, rfl⟩
  subst hvm
  simp only at h1 h2 hb0
  cases m with
  | nil => simp at hb0
  | cons e rest =>
    obtain ⟨k, b⟩ := e
    constructor
    · intro hp
      cases b with
      | nil => exact absurd rfl (h2 _ (List.mem_cons_self _ _))
      | cons x b =>
        refine ⟨k, x, b, rest, rfl, ?_, ?_⟩
        · simp only [List.map_cons, List.pairwise_cons] at h1
          intro e he
          rcases List.mem_cons.1 he with rfl | he
          · exact le_refl _
          · exact le_of_lt (h1.1 e.1 (List.mem_map_of_mem _ he))
        · simp only [choose]
          rw [if_pos hp]
          rfl
    · intro hp
      have hlast : ∃ e ∈ (k, b) :: rest, p ≤ e.1 := by
        have hl : ((k, b) :: rest).getLast? = some (((k, b) :: rest).getLast (by simp)) :=
          List.getLast?_eq_getLast _ _
        refine ⟨_, List.getLast_mem (l := (k, b) :: rest) (by simp), ?_⟩
        simp only [maxWeight, hl] at hp
        exact le_of_lt hp
      obtain ⟨k1, x, b1, hm, hpk, hmin, hc⟩ := chooseLoop_spec p _ h1 h2 hlast
      refine ⟨k1, x, b1, hm, hpk, hmin, ?_⟩
      simp only [choose]
      rw [if_neg (by omega)]
      exact hc

/-- Witness for the amended C16: the queue after `insert(0, 1)` and `insert(1, 5)`. -/
theorem weightedQueue_choose_amended_witness :
    (maxWeight (T := Nat) ⟨[(1, [0]), (5, [1])], [(1, 5), (0, 1)]⟩ ≤ 7 →
      ∃ k x b rest, [(1, [0]), (5, [1])] = (k, x :: b) :: rest ∧
      (∀ e ∈ [(1, [0]), (5, [1])], k ≤ e.1) ∧
      choose 7 ⟨[(1, [0]), (5, [1])], [(1, 5), (0, 1)]⟩ = some x) ∧
    (7 < maxWeight (T := Nat) ⟨[(1, [0]), (5, [1])], [(1, 5), (0, 1)]⟩ →
      ∃ k x b, (k, x :: b) ∈ [(1, [0]), (5, [1])] ∧ 7 ≤ k ∧
      (∀ e ∈ [(1, [0]), (5, [1])], 7 ≤ e.1 → k ≤ e.1) ∧
      choose 7 ⟨[(1, [0]), (5, [1])], [(1, 5), (0, 1)]⟩ = some x) :=
  weightedQueue_choose_amended ⟨[(1, [0]), (5, [1])], [(1, 5), (0, 1)]⟩ 7
    (Reachable.insert 1 5 (Reachable.insert 0 1 Reachable.empty rfl) rfl) (by simp)

/-- Counterexample to C16 as stated: after `insert(0, 1)` and `insert(1, 5)` the maximum weight
is 5 and its bucket holds item 1, yet `choose(7)` and `choose(5)` return item 0, the front of
the bucket of weight 1. -/
theorem weightedQueue_choose_counterexample :
    ((insert 0 1 (empty : WeightedQueue Nat)).bind (insert 1 5))
      = some ⟨[(1, [0]), (5, [1])], [(1, 5), (0, 1)]⟩ ∧
    maxWeight (T := Nat) ⟨[(1, [0]), (5, [1])], [(1, 5), (0, 1)]⟩ = 5 ∧
    choose 7 (⟨[(1, [0]), (5, [1])], [(1, 5), (0, 1)]⟩ : WeightedQueue Nat) = some 0 ∧
    choose 5 (⟨[(1, [0]), (5, [1])], [(1, 5), (0, 1)]⟩ : WeightedQueue Nat) = some 0 := by
  decide

end WeightedQueue

/-! ## Paths -/

namespace Path

theorem getLast?_append_singleton {α : Type} (l : List α) (a : α) :
    (l ++ [a]).getLast? = some a := by
  simp

/-- Where the round trip works: `stepInstruction(prev, pc)` followed by `retractInstruction()`
gives back the path `P` (with `P.next = prev`, `prev` an instruction of its block) in three
cases: `P` is a
fresh empty path; `prev` is the instruction after `P.last` in the tail block, that block does
not pass `RegularFunctionPredicate`, and `P` is not a one-entry path whose `first` is `prev`'s
index; `prev` is in another block than the tail, whose block `P` completed, and `prev` is the
first instruction of its block or lies in a block passing `RegularFunctionPredicate`. -/
theorem path_step_retract_regular (m : KModule) (P : Path) (prev : KInstruction)
    (pc : Option KInstruction) (hnext : P.next = some prev)
    (hvalid : prev.index < m.numInstructions prev.parent)
    (hcase : (P.path = [] ∧ P.first = 0 ∧ P.last = 0) ∨
      (∃ e, P.path.getLast? = some e ∧ e.block = prev.parent ∧ prev.index = P.last + 1 ∧
        m.regularFunctionPredicate prev.parent = false ∧
        ¬(P.path.length = 1 ∧ P.first = prev.index)) ∨
      (∃ e, P.path.getLast? = some e ∧ e.block ≠ prev.parent ∧ tailCompleted m P = some true ∧
        (m.regularFunctionPredicate prev.parent = true ∨ prev.index = 0))) :
    (stepInstruction m P prev pc).bind (retractInstruction m) = some P := by
  obtain ⟨pf, pl, pp, pn⟩ := P
  obtain ⟨pb, pi⟩ := prev
  simp only at hnext hvalid hcase
  subst hnext
  have hinst : m.instruction pb pi = some ⟨pb, pi⟩ := by
    simp [KModule.instruction, hvalid]
  rcases hcase with ⟨h1, h2, h3⟩ | ⟨e, he, hb, hi, hreg, hne⟩ | ⟨e, he, hb, hcomp, hk⟩
  · subst h1; subst h2; subst h3
    simp [stepInstruction, retractInstruction, getLastInstruction, hinst]
  · subst hi
    have hstep : stepInstruction m ⟨pf, pl, pp, some ⟨pb, pl + 1⟩⟩ ⟨pb, pl + 1⟩ pc
        = some ⟨pf, pl + 1, pp, pc⟩ := by
      simp [stepInstruction, he, hb]
    rw [hstep]
    show retractInstruction m _ = _
    simp only [retractInstruction, getLastInstruction, he, hb, hinst]
    rw [if_neg hne]
    have hkind : getTransitionKindFromInst m ⟨pb, pl + 1⟩ = TransitionKind.None := by
      simp [getTransitionKindFromInst, hreg]
    have hfirst : m.getFirstInstruction pb ≠ some ⟨pb, pl + 1⟩ := by
      unfold KModule.getFirstInstruction KModule.instruction
      split <;> simp
    simp only [hkind]
    rw [if_neg (by simp [hfirst])]
    rw [if_pos (by omega)]
    simp
  · have hstep : stepInstruction m ⟨pf, pl, pp, some ⟨pb, pi⟩⟩ ⟨pb, pi⟩ pc
        = some ⟨pf, pi, pp ++ [⟨pb, getTransitionKindFromInst m ⟨pb, pi⟩⟩], pc⟩ := by
      simp only [stepInstruction, he]
      simp [Ne.symm hb]
    rw [hstep]
    have hlen : pp ≠ [] := by
      intro h; subst h; simp at he
    have hlen1 : ¬((pp ++ [(⟨pb, getTransitionKindFromInst m ⟨pb, pi⟩⟩ : PathEntry)]).length = 1
        ∧ pf = pi) := by
      have : 0 < pp.length := List.length_pos.2 hlen
      simp only [List.length_append, List.length_singleton]
      omega
    show retractInstruction m _ = _
    simp only [retractInstruction, getLastInstruction, getLast?_append_singleton, hinst]
    rw [if_neg hlen1]
    have hcond : getTransitionKindFromInst m ⟨pb, pi⟩ = TransitionKind.In ∨
        getTransitionKindFromInst m ⟨pb, pi⟩ = TransitionKind.Out ∨
        m.getFirstInstruction pb = some ⟨pb, pi⟩ := by
      rcases hk with hk | hk
      · unfold getTransitionKindFromInst
        simp only [hk, if_true]
        split <;> simp
      · subst hk
        exact Or.inr (Or.inr hinst)
    rw [if_pos hcond]
    simp only [List.dropLast_concat, he]
    have hlast : ∃ ki, getLastInstructionFromPathEntry m e = some ki ∧ pl = ki.index := by
      simp only [tailCompleted, he] at hcomp
      unfold getLastInstructionFromPathEntry
      cases hkind : e.kind <;> simp only [hkind] at hcomp ⊢
      all_goals
        cases hx : (m.getFirstInstruction e.block) <;> cases hy : (m.getLastInstruction e.block)
        all_goals simp [hx, hy] at hcomp ⊢
        all_goals exact hcomp
    obtain ⟨ki, hki, hpl⟩ := hlast
    simp [hki, hpl]

/-- A round trip that works: a block entered at its first instruction after a completed
block. -/
theorem path_step_retract_regular_example :
    (stepInstruction plainModule ⟨0, 2, [⟨1, TransitionKind.None⟩], some ⟨2, 0⟩⟩ ⟨2, 0⟩
        (some ⟨2, 1⟩)).bind (retractInstruction plainModule)
      = some ⟨0, 2, [⟨1, TransitionKind.None⟩], some ⟨2, 0⟩⟩ :=
  path_step_retract_regular plainModule ⟨0, 2, [⟨1, TransitionKind.None⟩], some ⟨2, 0⟩⟩ ⟨2, 0⟩
    (some ⟨2, 1⟩) rfl (by decide)
    (Or.inr (Or.inr ⟨⟨1, TransitionKind.None⟩, rfl, by decide, by decide, Or.inr rfl⟩))

/-- C4: the round trip `stepInstruction` then `retractInstruction` fails on a block that
branches to itself. Block 0 has three instructions; the path that executed it once (entries
`[0]`, `first = 0`, `last = 2`) has `next` at its first instruction, in the same block as the
tail entry. `stepInstruction` pushes no entry and sets `last = 0`; `retractInstruction` then
finds one entry with `first == last`, takes the branch for a single executed instruction
although four were executed, and returns the empty path instead of the original one. -/
theorem path_step_retract_counterexample :
    (stepInstruction plainModule ⟨0, 2, [⟨0, TransitionKind.None⟩], some ⟨0, 0⟩⟩ ⟨0, 0⟩
        (some ⟨0, 1⟩)).bind (retractInstruction plainModule)
      = some ⟨0, 0, [], some ⟨0, 0⟩⟩ ∧
    (⟨0, 0, [], some ⟨0, 0⟩⟩ : Path) ≠ ⟨0, 2, [⟨0, TransitionKind.None⟩], some ⟨0, 0⟩⟩ := by
  decide

theorem blockCompleted_last (m : KModule) (l : Path) (h : l.path ≠ []) :
    blockCompleted m l (l.path.length - 1) = tailCompleted m l := by
  have : 0 < l.path.length := List.length_pos.2 h
  unfold blockCompleted
  rw [if_pos (by omega), if_neg (by omega)]

theorem tailCompleted_isSome (m : KModule) (l : Path) (h : l.path ≠ [])
    (hwf : ∀ b, 0 < m.numInstructions b) : ∃ c, tailCompleted m l = some c := by
  obtain ⟨e, he⟩ : ∃ e, l.path.getLast? = some e :=
    ⟨l.path.getLast h, List.getLast?_eq_getLast _ h⟩
  have h1 : ∃ ki, m.getFirstInstruction e.block = some ki := by
    simp [KModule.getFirstInstruction, KModule.instruction, hwf]
  have h2 : ∃ ki, m.getLastInstruction e.block = some ki := by
    have := hwf e.block
    simp only [KModule.getLastInstruction, KModule.instruction]
    rw [if_neg (by omega), if_pos (by omega)]
    exact ⟨_, rfl⟩
  obtain ⟨k1, hk1⟩ := h1
  obtain ⟨k2, hk2⟩ := h2
  unfold tailCompleted
  simp only [he]
  cases e.kind <;> simp [hk1, hk2]

/-- C5 (as amended): for paths `l` and `r` that both have entries and meet the precondition of
`concat` (`l.next` is `r`'s first instruction; or `l.next` is null, `l` completed its tail
block, a return block, and `r` starts with an `Out` entry at a call block that calls the
function of that return block), `concat(l, r)` has `first = l.first`, `last = r.last`,
`next = r.next`; its entries are all of `l`'s followed by all of `r`'s when `l` completed its
tail block, and `l`'s followed by `r`'s without `r`'s head entry (the two are coalesced) when
`l` did not complete its tail block. -/
theorem path_concat_amended (m : KModule) (l r : Path) (hwf : ∀ b, 0 < m.numInstructions b)
    (hl : l.path ≠ []) (hr : r.path ≠ [])
    (hpre : (∃ ki, l.next = some ki ∧ getFirstInstruction m r = some ki) ∨
      (l.next = none ∧ tailCompleted m l = some true ∧
        ∃ lb rf, l.path.getLast? = some lb ∧ r.path.head? = some rf ∧
          m.blockType lb.block = KBlockType.Return ∧ rf.kind = TransitionKind.Out ∧
          m.blockType rf.block = KBlockType.Call ∧
          m.blockFunction lb.block ∈ m.calledFunctions rf.block)) :
    ∃ c, concat m l r = some c ∧ c.first = l.first ∧ c.last = r.last ∧ c.next = r.next ∧
      ((tailCompleted m l = some true ∧ c.path = l.path ++ r.path) ∨
        (tailCompleted m l = some false ∧ c.path = l.path ++ r.path.tail)) := by
  obtain ⟨w, hw⟩ := tailCompleted_isSome m l hl hwf
  have hle : l.empty = false := by simpa [empty, List.isEmpty_iff] using hl
  have hre : r.empty = false := by simpa [empty, List.isEmpty_iff] using hr
  have hlen : l.emptyWithNext = false := by simp [emptyWithNext, List.isEmpty_iff, hl]
  have hren : r.emptyWithNext = false := by simp [emptyWithNext, List.isEmpty_iff, hr]
  have hass : concatAsserts m l r = true := by
    unfold concatAsserts
    rcases hpre with ⟨ki, h1, h2⟩ | ⟨h1, h2, lb, rf, h3, h4, h5, h6, h7, h8⟩
    · simp [h1, h2]
    · simp [h1, blockCompleted_last m l hl, h2, h3, h4, h5, h6, h7, h8]
  unfold concat
  simp only [hle, hre, hlen, hren, hass, blockCompleted_last m l hl, hw, if_true, Bool.false_eq_true,
    if_false]
  refine ⟨_, rfl, rfl, rfl, rfl, ?_⟩
  cases w
  · right; simp
  · left; simp

/-- Witness for the amended C5: `l` stops at a completed block, `r` starts at the next one. -/
theorem path_concat_amended_witness :
    ∃ c, concat plainModule ⟨0, 2, [⟨1, TransitionKind.None⟩], some ⟨2, 0⟩⟩
        ⟨0, 1, [⟨2, TransitionKind.None⟩], some ⟨2, 2⟩⟩ = some c ∧
      c.first = 0 ∧ c.last = 1 ∧ c.next = some ⟨2, 2⟩ ∧
      ((tailCompleted plainModule ⟨0, 2, [⟨1, TransitionKind.None⟩], some ⟨2, 0⟩⟩ = some true ∧
          c.path = [⟨1, TransitionKind.None⟩] ++ [⟨2, TransitionKind.None⟩]) ∨
        (tailCompleted plainModule ⟨0, 2, [⟨1, TransitionKind.None⟩], some ⟨2, 0⟩⟩ = some false ∧
          c.path = [⟨1, TransitionKind.None⟩] ++ [(⟨2, TransitionKind.None⟩ : PathEntry)].tail)) :=
  path_concat_amended plainModule ⟨0, 2, [⟨1, TransitionKind.None⟩], some ⟨2, 0⟩⟩
    ⟨0, 1, [⟨2, TransitionKind.None⟩], some ⟨2, 2⟩⟩ (fun _ => Nat.succ_pos 2) (by decide) (by decide)
    (Or.inl ⟨⟨2, 0⟩, rfl, rfl⟩)

/-- Counterexample to C5 as stated: `l` completed its tail block (block 1, last index 2) and
the two entries are kept apart; `l1` did not complete it (last index 0) and the tail of `l1` and
the head of `r1` are coalesced into one entry. -/
theorem path_concat_counterexample :
    tailCompleted plainModule ⟨0, 2, [⟨1, TransitionKind.None⟩], some ⟨2, 0⟩⟩ = some true ∧
    concat plainModule ⟨0, 2, [⟨1, TransitionKind.None⟩], some ⟨2, 0⟩⟩
        ⟨0, 1, [⟨2, TransitionKind.None⟩], some ⟨2, 2⟩⟩
      = some ⟨0, 1, [⟨1, TransitionKind.None⟩, ⟨2, TransitionKind.None⟩], some ⟨2, 2⟩⟩ ∧
    tailCompleted plainModule ⟨0, 0, [⟨1, TransitionKind.None⟩], some ⟨1, 1⟩⟩ = some false ∧
    concat plainModule ⟨0, 0, [⟨1, TransitionKind.None⟩], some ⟨1, 1⟩⟩
        ⟨1, 2, [⟨1, TransitionKind.None⟩], some ⟨2, 0⟩⟩
      = some ⟨0, 2, [⟨1, TransitionKind.None⟩], some ⟨2, 0⟩⟩ := by
  decide

end Path

/-! ## Object manager -/

namespace ObjectManager

theorem getState_id {h : ObjectManager} {id : Nat} {s : ExecutionState}
    (hs : h.getState id = some s) : s ∈ h.stateHeap ∧ s.id = id := by
  unfold getState at hs
  exact ⟨List.mem_of_find?_eq_some hs, by simpa using List.find?_some hs⟩

theorem PendingInv.step {h h1 : ObjectManager} {c : StateCall} (hinv : PendingInv h)
    (hguard : ∀ s, c = StateCall.removeState s → s ∉ h.addedStates)
    (hstep : applyCall h c = some h1) : PendingInv h1 := by
  obtain ⟨hheap, hadd, hrem, hdis⟩ := hinv
  cases c with
  | setCurrentState st =>
    simp only [applyCall, setCurrentState] at hstep
    split at hstep
    · cases hstep
      exact ⟨hheap, hadd, hrem, hdis⟩
    · cases hstep
  | branchState st =>
    simp only [applyCall, branchState] at hstep
    split at hstep
    · cases hstep
    · split at hstep
      · simp only [Option.map_some', Option.some.injEq] at hstep
        subst hstep
        refine ⟨?_, ?_, ?_, ?_⟩
        · intro s hs
          simp only [List.mem_append, List.mem_singleton] at hs
          rcases hs with hs | rfl
          · exact Nat.lt_succ_of_lt (hheap s hs)
          · exact Nat.lt_succ_self _
        · intro x hx
          simp only [List.mem_append, List.mem_singleton] at hx
          rcases hx with hx | rfl
          · exact Nat.lt_succ_of_lt (hadd x hx)
          · exact Nat.lt_succ_self _
        · intro x hx
          exact Nat.lt_succ_of_lt (hrem x hx)
        · intro x hx hx2
          simp only [List.mem_append, List.mem_singleton] at hx
          rcases hx with hx | rfl
          · exact hdis x hx hx2
          · exact absurd (hrem _ hx2) (Nat.lt_irrefl _)
      · cases hstep
  | removeState st =>
    have hg := hguard st rfl
    simp only [applyCall, removeState] at hstep
    split at hstep
    · cases hstep
    · rename_i s0 hs0
      have hlt : st < h.nextStateID := by
        obtain ⟨hm, hid⟩ := getState_id hs0
        rw [← hid]
        exact hheap s0 hm
      have key : ∀ h2 : ObjectManager, h2.stateHeap = h.stateHeap →
          h2.nextStateID = h.nextStateID → h2.addedStates = h.addedStates →
          h2.removedStates = h.removedStates ++ [st] → PendingInv h2 := by
        intro h2 e1 e2 e3 e4
        refine ⟨by rw [e1, e2]; exact hheap, by rw [e2, e3]; exact hadd, ?_, ?_⟩
        · rw [e2, e4]
          intro x hx
          simp only [List.mem_append, List.mem_singleton] at hx
          rcases hx with hx | rfl
          · exact hrem x hx
          · exact hlt
        · rw [e3, e4]
          intro x hx hx2
          simp only [List.mem_append, List.mem_singleton] at hx2
          rcases hx2 with hx2 | rfl
          · exact hdis x hx hx2
          · exact hg hx
      split at hstep
      · cases hstep
      · split at hstep
        · cases hstep
          exact key _ rfl rfl rfl rfl
        · split at hstep
          · cases hstep
            exact key _ rfl rfl rfl rfl
          · cases hstep
  | initializeState fresh =>
    simp only [applyCall, initializeState, Option.some.injEq] at hstep
    subst hstep
    refine ⟨?_, ?_, ?_, ?_⟩
    · intro s hs
      simp only [List.mem_append, List.mem_singleton] at hs
      rcases hs with hs | rfl
      · exact Nat.lt_succ_of_lt (hheap s hs)
      · exact Nat.lt_succ_self _
    · intro x hx
      simp only [List.mem_append, List.mem_singleton] at hx
      rcases hx with hx | rfl
      · exact Nat.lt_succ_of_lt (hadd x hx)
      · exact Nat.lt_succ_self _
    · intro x hx
      exact Nat.lt_succ_of_lt (hrem x hx)
    · intro x hx hx2
      simp only [List.mem_append, List.mem_singleton] at hx
      rcases hx with hx | rfl
      · exact hdis x hx hx2
      · exact absurd (hrem _ hx2) (Nat.lt_irrefl _)

theorem PendingInv.run {calls : List StateCall} :
    ∀ {h h1 : ObjectManager}, PendingInv h → NoFreshRemoval h calls →
      applyCalls h calls = some h1 → PendingInv h1 := by
  induction calls with
  | nil =>
    intro h h1 hinv _ hrun
    simp only [applyCalls, List.foldlM, pure, Option.some.injEq] at hrun
    subst hrun
    exact hinv
  | cons c cs ih =>
    intro h h1 hinv hg hrun
    simp only [applyCalls, List.foldlM_cons] at hrun
    cases hc : applyCall h c with
    | none => rw [hc] at hrun; cases hrun
    | some h2 =>
      rw [hc] at hrun
      exact ih (hinv.step hg.1 hc) (hg.2 h2 hc) hrun

/-- C11 (as amended): starting from a hub with no pending state and running any sequence of
`setCurrentState`, `branchState`, `removeState` and `initializeState` calls in which
`removeState` is never called on a state that is in `addedStates` (one returned by `branchState`
or `initializeState` since the last `updateSubscribers()`), no state is in both `addedStates`
and `removedStates`. -/
theorem hub_added_removed_disjoint_amended (h h1 : ObjectManager) (calls : List StateCall)
    (hstart : StatesSettled h) (hguard : NoFreshRemoval h calls)
    (hrun : applyCalls h calls = some h1) :
    ∀ s, ¬(s ∈ h1.addedStates ∧ s ∈ h1.removedStates) := by
  have hinv : PendingInv h := by
    obtain ⟨h1, h2, h3⟩ := hstart
    exact ⟨h3, by simp [h1], by simp [h2], by simp [h1]⟩
  intro s hs
  exact (hinv.run hguard hrun).2.2.2 s hs.1 hs.2

/-- Witness for the amended C11: the current state is branched and the current state itself is
removed. -/
theorem hub_added_removed_disjoint_amended_witness :
    ¬(1 ∈ [1] ∧ 1 ∈ [0]) := by
  have h0 : StatesSettled { init false with stateHeap := [regularState], nextStateID := 1 } :=
    ⟨rfl, rfl, by simp [init, regularState]⟩
  have hg : NoFreshRemoval { init false with stateHeap := [regularState], nextStateID := 1 }
      [StateCall.setCurrentState 0, StateCall.branchState 0, StateCall.removeState 0] := by
    refine ⟨by simp, ?_⟩
    intro h1 e1
    cases e1
    refine ⟨by simp, ?_⟩
    intro h2 e2
    cases e2
    refine ⟨?_, ?_⟩
    · intro s hs
      cases hs
      decide
    · intro h3 _
      trivial
  exact hub_added_removed_disjoint_amended _
    { init false with
      stateHeap := [regularState, { regularState with id := 1 }], nextStateID := 2
      statesUpdated := true, stateUpdateKind := StateKind.Regular, current := some 0
      addedStates := [1], removedStates := [0] }
    [StateCall.setCurrentState 0, StateCall.branchState 0, StateCall.removeState 0] h0 hg rfl 1

/-- Counterexample to C11 as stated: the current state is branched and the new state is removed
in the same tick; it is then in `addedStates` and in `removedStates`. -/
theorem hub_added_removed_counterexample :
    ∃ h1, applyCalls { init false with stateHeap := [regularState], nextStateID := 1 }
        [StateCall.setCurrentState 0, StateCall.branchState 0, StateCall.removeState 1] = some h1 ∧
      1 ∈ h1.addedStates ∧ 1 ∈ h1.removedStates :=
  ⟨_, rfl, by decide, by decide⟩

theorem removePobStep_sameSets {h h1 : ObjectManager} {pob : Nat}
    (hs : removePobStep h pob = some h1) : SameSets h h1 := by
  unfold removePobStep at hs
  split at hs
  · cases hs
  · cases hs
    exact ⟨rfl, rfl, rfl, rfl, rfl⟩

theorem foldlM_removePobStep_sameSets (l : List Nat) :
    ∀ {h h1 : ObjectManager}, l.foldlM removePobStep h = some h1 → SameSets h h1 := by
  induction l with
  | nil =>
    intro h h1 hs
    simp only [List.foldlM, pure, Option.some.injEq] at hs
    subst hs
    exact ⟨rfl, rfl, rfl, rfl, rfl⟩
  | cons x xs ih =>
    intro h h1 hs
    simp only [List.foldlM_cons] at hs
    cases hx : removePobStep h x with
    | none => rw [hx] at hs; cases hs
    | some h2 =>
      rw [hx] at hs
      obtain ⟨a1, a2, a3, a4, a5⟩ := removePobStep_sameSets hx
      obtain ⟨b1, b2, b3, b4, b5⟩ := ih hs
      exact ⟨b1.trans a1, b2.trans a2, b3.trans a3, b4.trans a4, b5.trans a5⟩

/-- C13 (as amended): `branchState`, `removeState` and `removePropagation` change none of
`states`, `isolatedStates`, `pobs`, `leafPobs`, `rootPobs`, `pathedPobs`, `propagations`;
`addPob` and `removePob` change none of `states`, `isolatedStates`, `pobs`, `leafPobs`,
`propagations`, and `addPob` enters the obligation in `pathedPobs` at once. -/
theorem hub_pending_frame_amended (h : ObjectManager) :
    (∀ s h1 n, branchState h s = some (h1, n) →
      SameSets h h1 ∧ h1.rootPobs = h.rootPobs ∧ h1.pathedPobs = h.pathedPobs) ∧
    (∀ s h1, removeState h s = some h1 →
      SameSets h h1 ∧ h1.rootPobs = h.rootPobs ∧ h1.pathedPobs = h.pathedPobs) ∧
    (∀ prop, SameSets h (removePropagation h prop) ∧
      (removePropagation h prop).rootPobs = h.rootPobs ∧
      (removePropagation h prop).pathedPobs = h.pathedPobs) ∧
    (∀ pob h1, addPob h pob = some h1 → SameSets h h1 ∧
      ∃ p, h.getPob pob = some p ∧ h1.pathedPobs = h.pathedPobs ++ [((p.path, p.location), pob)]) ∧
    (∀ pob h1, removePob h pob = some h1 → SameSets h h1) := by
  refine ⟨?_, ?_, ?_, ?_, ?_⟩
  · intro s h1 n hs
    unfold branchState at hs
    split at hs
    · cases hs
    · split at hs
      · cases hs
        exact ⟨⟨rfl, rfl, rfl, rfl, rfl⟩, rfl, rfl⟩
      · cases hs
  · intro s h1 hs
    unfold removeState at hs
    split at hs
    · cases hs
    · split at hs
      · cases hs
      · split at hs
        · cases hs
          exact ⟨⟨rfl, rfl, rfl, rfl, rfl⟩, rfl, rfl⟩
        · split at hs
          · cases hs
            exact ⟨⟨rfl, rfl, rfl, rfl, rfl⟩, rfl, rfl⟩
          · cases hs
  · intro prop
    exact ⟨⟨rfl, rfl, rfl, rfl, rfl⟩, rfl, rfl⟩
  · intro pob h1 hs
    unfold addPob at hs
    split at hs
    · cases hs
    · rename_i p hp
      split at hs
      · cases hs
      · cases hs
        exact ⟨⟨rfl, rfl, rfl, rfl, rfl⟩, p, hp, rfl⟩
  · intro pob h1 hs
    unfold removePob at hs
    split at hs
    · cases hs
    · exact foldlM_removePobStep_sameSets _ hs

/-- Counterexample to C13 as stated: `addPob` changes `pathedPobs` before any
`updateSubscribers()`. -/
theorem hub_pending_frame_counterexample :
    ∃ h1, addPob { init false with pobHeap := [rootPob] } 0 = some h1 ∧
      h1.pathedPobs ≠ (init false).pathedPobs :=
  ⟨_, rfl, by decide⟩

/-- The behaviour of `addPob` behind C14: with the debug flag `RootPob` unset the parentless
obligation 0 is added but `rootPobs` stays empty; with the flag set it is entered. -/
theorem hub_addPob_rootPobs_debug :
    (∃ h1, addPob { init false with pobHeap := [rootPob] } 0 = some h1 ∧
      rootPob.parent = none ∧ h1.addedPobs = [0] ∧ h1.rootPobs = []) ∧
    (∃ h1, addPob { init true with pobHeap := [rootPob] } 0 = some h1 ∧ h1.rootPobs = [0]) :=
  ⟨⟨_, rfl, rfl, rfl, rfl⟩, ⟨_, rfl, rfl⟩⟩

end ObjectManager

/-! ## ProofObligation::create -/

theorem subtractFramesRev_spec :
    ∀ (ms ss : List CallStackFrame),
      (∀ i, i < min (ss.length - 1) ms.length → ss[i]? = ms[i]?) →
      (ss.length - 1 < ms.length → ∀ f, ss.getLast? = some f → f.caller = none) →
      subtractFramesRev ms ss = some (ms.drop (min (ss.length - 1) ms.length)) := by
  intro ms
  induction ms with
  | nil => intro ss _ _; simp [subtractFramesRev]
  | cons m ms ih =>
    intro ss hf hb
    match ss, hf, hb with
    | [], _, _ => simp [subtractFramesRev]
    | [s], _, hb =>
      have := hb (by simp) s (by simp)
      simp [subtractFramesRev, this]
    | s :: s2 :: ss, hf, hb =>
      have h0 := hf 0 (by simp)
      simp only [List.getElem?_cons_zero, Option.some.injEq] at h0
      subst h0
      simp only [subtractFramesRev, if_true]
      rw [ih (s2 :: ss)
        (by
          intro i hi
          have := hf (i + 1) (by simp only [List.length_cons] at hi ⊢; omega)
          simpa using this)
        (by
          intro hlt f hfl
          exact hb (by simp only [List.length_cons] at hlt ⊢; omega) f
            (by rw [List.getLast?_cons_cons]; exact hfl))]
      congr 1
      have : min ((s :: s2 :: ss).length - 1) (s :: ms).length
          = min ((s2 :: ss).length - 1) ms.length + 1 := by
        simp only [List.length_cons]
        omega
      rw [this, List.drop_succ_cons]

theorem subtractFrames_spec (ps cs : List CallStackFrame)
    (hf : ∀ i, i < min (cs.length - 1) ps.length →
      cs[cs.length - 1 - i]? = ps[ps.length - 1 - i]?)
    (hb : cs.length - 1 < ps.length → ∀ f, cs.head? = some f → f.caller = none) :
    subtractFrames ps cs = some (ps.take (ps.length - min (cs.length - 1) ps.length)) := by
  unfold subtractFrames
  rw [subtractFramesRev_spec ps.reverse cs.reverse
    (by
      intro i hi
      simp only [List.length_reverse] at hi
      rw [List.getElem?_reverse (by omega), List.getElem?_reverse (by omega)]
      exact hf i hi)
    (by
      intro hlt f hfl
      simp only [List.length_reverse] at hlt
      rw [List.getLast?_reverse] at hfl
      exact hb hlt f hfl)]
  simp only [List.length_reverse, Option.map_some', List.drop_reverse, List.reverse_reverse]

theorem countOf_bumpCount_self (state : Nat) (m : List (Nat × Nat)) :
    countOf (bumpCount state m) state = u32 (countOf m state + 1) := by
  induction m with
  | nil => simp [bumpCount, countOf]
  | cons e rest ih =>
    obtain ⟨k, v⟩ := e
    by_cases hk : k = state
    · simp [bumpCount, countOf, hk]
    · simp only [bumpCount, if_neg hk]
      simp only [countOf, List.find?_cons, hk, decide_False] at ih ⊢
      exact ih

theorem countOf_bumpCount_other (state s : Nat) (m : List (Nat × Nat)) (hs : s ≠ state) :
    countOf (bumpCount state m) s = countOf m s := by
  induction m with
  | nil => simp [bumpCount, countOf, Ne.symm hs]
  | cons e rest ih =>
    obtain ⟨k, v⟩ := e
    by_cases hk : k = state
    · subst hk
      simp [bumpCount, countOf, Ne.symm hs]
    · simp only [bumpCount, if_neg hk]
      by_cases hks : k = s
      · simp [countOf, hks]
      · simp only [countOf, List.find?_cons, hks, decide_False] at ih ⊢
        exact ih

theorem find?_id_map (heap : List ProofObligation) (f : ProofObligation → ProofObligation)
    (hf : ∀ q, (f q).id = q.id) (k : Nat) :
    (heap.map f).find? (fun p => decide (p.id = k))
      = (heap.find? fun p => decide (p.id = k)).map f := by
  rw [List.find?_map]
  congr 1
  congr 1
  funext q
  simp [Function.comp, hf]

theorem find?_id_none (heap : List ProofObligation) (k : Nat) (h : ∀ q ∈ heap, q.id ≠ k) :
    heap.find? (fun p => decide (p.id = k)) = none := by
  rw [List.find?_eq_none]
  intro q hq
  simpa using h q hq

theorem mem_setInsert (x y : Nat) (l : List Nat) : y ∈ setInsert x l ↔ y = x ∨ y ∈ l := by
  induction l with
  | nil => simp [setInsert]
  | cons z zs ih =>
    simp only [setInsert]
    split
    · simp
    · split
      · rename_i h; subst h; simp
      · simp only [List.mem_cons, ih]
        tauto

theorem mem_setErase (x y : Nat) (l : List Nat) : y ∈ setErase x l ↔ y ≠ x ∧ y ∈ l := by
  simp [setErase, and_comm]

/-- C15: when the parent exists, the state's path gives a place, the frames `subtractFrames`
compares are equal (its assertions) and the counter does not overflow, `create` returns a new
obligation `c` with `c.parent = parent`, `c` in the parent's `children`, the parent's root, the
location `ReachBlock(place, not at end)`, the composed constraints, the parent's stack without
its last `min(|state call stack| - 1, |parent.stack|)` frames, and the parent's propagation
counts with the entry of the state one larger; the parent's stack and counts are unchanged. -/
theorem pob_create_spec (heap : List ProofObligation) (nextID parent : Nat)
    (state : ExecutionState) (composed : Nat) (composedPath : Path) (npe : Option Nat)
    (par : ProofObligation) (place : Nat)
    (hpar : heap.find? (fun p => decide (p.id = parent)) = some par)
    (hids : ∀ q ∈ heap, q.id < nextID)
    (hplace : (∃ e, state.path.path.head? = some e ∧ place = e.block) ∨
      (state.path.path = [] ∧ ∃ ki, state.path.next = some ki ∧ place = ki.parent))
    (hf : ∀ i, i < min (state.callStack.length - 1) par.stack.length →
      state.callStack[state.callStack.length - 1 - i]? = par.stack[par.stack.length - 1 - i]?)
    (hb : state.callStack.length - 1 < par.stack.length →
      ∀ f, state.callStack.head? = some f → f.caller = none)
    (hcount : countOf par.propagationCount state.id + 1 < 4294967296) :
    ∃ heap1 c par1,
      ProofObligation.create heap nextID parent state composed composedPath npe
        = some (heap1, nextID + 2, c.id) ∧
      heap1.find? (fun p => decide (p.id = c.id)) = some c ∧
      heap1.find? (fun p => decide (p.id = parent)) = some par1 ∧
      (∀ q ∈ heap, q.id ≠ c.id) ∧
      c.parent = some parent ∧ c.id ∈ par1.children ∧ c.root = par.root ∧
      c.location = Target.reachBlock place false ∧ c.constraints = composed ∧
      c.stack = par.stack.take
        (par.stack.length - min (state.callStack.length - 1) par.stack.length) ∧
      countOf c.propagationCount state.id = countOf par.propagationCount state.id + 1 ∧
      (∀ s, s ≠ state.id → countOf c.propagationCount s = countOf par.propagationCount s) ∧
      par1.stack = par.stack ∧ par1.propagationCount = par.propagationCount := by
  have hparid : par.id = parent := by simpa using List.find?_some hpar
  have hparlt : parent < nextID := by
    rw [← hparid]
    exact hids par (List.mem_of_find?_eq_some hpar)
  have hplace1 : (match state.path.path.head? with
      | none => state.path.next.map fun ki => ki.parent
      | some e => some e.block) = some place := by
    rcases hplace with ⟨e, he, rfl⟩ | ⟨he, ki, hki, rfl⟩
    · simp [he]
    · simp [he, hki]
  have hsub := subtractFrames_spec par.stack state.callStack hf hb
  have hnew : ∀ q ∈ heap, q.id ≠ nextID + 1 := fun q hq => by
    have := hids q hq
    omega
  refine ⟨((heap.map fun (q : ProofObligation) =>
        if q.id = par.id then { q with children := setInsert (nextID + 1) q.children } else q) ++
      [({ id := nextID + 1, parent := some par.id, root := par.root, children := []
          stack := [], propagationCount := par.propagationCount
          location := Target.reachBlock place false, path := Path.ofNext none
          constraints := 0, nullPointerExpr := none } : ProofObligation)]).map
      fun (q : ProofObligation) =>
      if q.id = nextID + 1 then
        { id := nextID + 1, parent := some par.id, root := par.root, children := []
          stack := par.stack.take
            (par.stack.length - min (state.callStack.length - 1) par.stack.length)
          propagationCount := bumpCount state.id par.propagationCount
          location := Target.reachBlock place false, path := composedPath
          constraints := composed, nullPointerExpr := npe }
      else q,
    { id := nextID + 1, parent := some par.id, root := par.root, children := []
      stack := par.stack.take
        (par.stack.length - min (state.callStack.length - 1) par.stack.length)
      propagationCount := bumpCount state.id par.propagationCount
      location := Target.reachBlock place false, path := composedPath
      constraints := composed, nullPointerExpr := npe },
    { par with children := setInsert (nextID + 1) par.children }, ?_, ?_, ?_, hnew, ?_⟩
  · unfold ProofObligation.create
    simp only [hpar, hplace1, ProofObligation.makeChild, hsub]
  · rw [find?_id_map _ _ (by intro q; split <;> simp_all), List.find?_append,
      find?_id_map _ _ (by intro q; split <;> rfl), find?_id_none heap _ hnew]
    simp
  · rw [find?_id_map _ _ (by intro q; split <;> simp_all), List.find?_append,
      find?_id_map _ _ (by intro q; split <;> rfl), hpar]
    simp only [Option.map_some', Option.or_some, hparid, if_true]
    rw [if_neg (by omega)]
  · refine ⟨by simp [hparid], ?_, rfl, rfl, rfl, rfl, ?_, ?_, rfl, rfl⟩
    · simp only
      exact (mem_setInsert _ _ _).2 (Or.inl rfl)
    · simp only [countOf_bumpCount_self]
      exact Ticker.u32_of_lt _ hcount
    · intro s hs
      exact countOf_bumpCount_other _ _ _ hs

/-- Witness for C15: a root obligation with stack `[(c1, f)]`, and a state with the call stack
`[(null, main), (c1, f)]` whose path starts at block 4. -/
theorem pob_create_spec_witness :
    ∃ heap1 c par1,
      ProofObligation.create [{ ObjectManager.rootPob with stack := [⟨some 1, 1⟩] }] 1 0
          { ObjectManager.regularState with
            callStack := [⟨none, 0⟩, ⟨some 1, 1⟩]
            path := ⟨0, 0, [⟨4, TransitionKind.None⟩], none⟩ } 9 (Path.ofNext none) none
        = some (heap1, 1 + 2, c.id) ∧
      heap1.find? (fun p => decide (p.id = c.id)) = some c ∧
      heap1.find? (fun p => decide (p.id = 0)) = some par1 ∧
      (∀ q ∈ [{ ObjectManager.rootPob with stack := [⟨some 1, 1⟩] }], q.id ≠ c.id) ∧
      c.parent = some 0 ∧ c.id ∈ par1.children ∧ c.root = 0 ∧
      c.location = Target.reachBlock 4 false ∧ c.constraints = 9 ∧
      c.stack = ([⟨some 1, 1⟩] : List CallStackFrame).take (1 - min (2 - 1) 1) ∧
      countOf c.propagationCount 0 = countOf [] 0 + 1 ∧
      (∀ s, s ≠ 0 → countOf c.propagationCount s = countOf [] s) ∧
      par1.stack = [⟨some 1, 1⟩] ∧ par1.propagationCount = [] :=
  pob_create_spec [{ ObjectManager.rootPob with stack := [⟨some 1, 1⟩] }] 1 0
    { ObjectManager.regularState with
      callStack := [⟨none, 0⟩, ⟨some 1, 1⟩]
      path := ⟨0, 0, [⟨4, TransitionKind.None⟩], none⟩ } 9 (Path.ofNext none) none
    { ObjectManager.rootPob with stack := [⟨some 1, 1⟩] } 4 rfl (by decide)
    (Or.inl ⟨⟨4, TransitionKind.None⟩, rfl, rfl⟩) (by decide) (by decide) (by decide)

/-! ## pathedPobs -/

namespace ObjectManager

theorem getPob_congr {h h1 : ObjectManager} (e : h1.pobHeap = h.pobHeap) (id : Nat) :
    h1.getPob id = h.getPob id := by
  unfold getPob
  rw [e]

theorem getSubtreeLoop_congr {h h1 : ObjectManager} (e : h1.pobHeap = h.pobHeap) :
    ∀ (fuel : Nat) (queue subtree : List Nat),
      getSubtreeLoop h1 fuel queue subtree = getSubtreeLoop h fuel queue subtree := by
  intro fuel
  induction fuel with
  | zero => intro _ _; rfl
  | succ f ih =>
    intro queue subtree
    cases queue with
    | nil => rfl
    | cons c q =>
      simp only [getSubtreeLoop, getPob_congr e]
      cases h.getPob c with
      | none => rfl
      | some p => exact ih _ _

theorem getSubtree_congr {h h1 : ObjectManager} (e : h1.pobHeap = h.pobHeap) (pob : Nat) :
    h1.getSubtree pob = h.getSubtree pob := by
  unfold getSubtree
  rw [getSubtreeLoop_congr e, e]

theorem RemEffect.nil_effect (h : ObjectManager) : RemEffect h h [] :=
  ⟨rfl, by simp, by simp, List.Sublist.refl _, by simp⟩

theorem RemEffect.append_effect {h h1 h2 : ObjectManager} {l1 l2 : List Nat}
    (a : RemEffect h h1 l1) (b : RemEffect h1 h2 l2) : RemEffect h h2 (l1 ++ l2) := by
  obtain ⟨a1, a2, a3, a4, a5⟩ := a
  obtain ⟨b1, b2, b3, b4, b5⟩ := b
  refine ⟨b1.trans a1, ?_, ?_, b4.trans a4, ?_⟩
  · intro q hq
    rcases List.mem_append.1 hq with hq | hq
    · exact a2 q hq
    · rw [← getPob_congr a1]; exact b2 q hq
  · intro e
    rw [b3, a3]
    simp only [getPob_congr a1, List.mem_append]
    constructor
    · rintro ⟨⟨h1, h2⟩, h3⟩
      exact ⟨h1, fun q hq => hq.elim (h2 q) (h3 q)⟩
    · rintro ⟨h1, h2⟩
      exact ⟨⟨h1, fun q hq => h2 q (Or.inl hq)⟩, fun q hq => h2 q (Or.inr hq)⟩
  · intro x
    rw [b5, a5, List.mem_append, or_assoc]

theorem removePobStep_effect {h h1 : ObjectManager} {pob : Nat}
    (hs : removePobStep h pob = some h1) : RemEffect h h1 [pob] := by
  unfold removePobStep at hs
  split at hs
  · cases hs
  · rename_i p hp
    cases hs
    refine ⟨rfl, ?_, ?_, List.filter_sublist _, ?_⟩
    · intro q hq
      rw [List.mem_singleton.1 hq]
      exact ⟨p, hp⟩
    · intro e
      simp only [List.mem_filter, decide_eq_true_eq, List.mem_singleton, forall_eq, hp,
        Option.some.injEq, keyOf]
      constructor
      · rintro ⟨h1, h2⟩
        exact ⟨h1, fun p1 hp1 => by rw [← hp1]; exact h2⟩
      · rintro ⟨h1, h2⟩
        exact ⟨h1, h2 p rfl⟩
    · intro x
      simp only [mem_setInsert, List.mem_singleton]
      tauto

theorem foldlM_removePobStep_effect (l : List Nat) :
    ∀ {h h1 : ObjectManager}, l.foldlM removePobStep h = some h1 → RemEffect h h1 l := by
  induction l with
  | nil =>
    intro h h1 hs
    simp only [List.foldlM, pure, Option.some.injEq] at hs
    subst hs
    exact RemEffect.nil_effect h
  | cons x xs ih =>
    intro h h1 hs
    simp only [List.foldlM_cons] at hs
    cases hx : removePobStep h x with
    | none => rw [hx] at hs; cases hs
    | some h2 =>
      rw [hx] at hs
      exact (removePobStep_effect hx).append_effect (ih hs)

theorem removePob_effect {h h1 : ObjectManager} {pob : Nat} (hs : removePob h pob = some h1) :
    RemEffect h h1 ((getSubtree h pob).getD []) := by
  unfold removePob at hs
  split at hs
  · cases hs
  · rename_i subtree hsub
    rw [hsub]
    exact foldlM_removePobStep_effect _ hs

theorem foldlM_removePob_effect (roots : List Nat) :
    ∀ {h h1 : ObjectManager}, roots.foldlM removePob h = some h1 →
      RemEffect h h1 (roots.flatMap fun r => (getSubtree h r).getD []) := by
  induction roots with
  | nil =>
    intro h h1 hs
    simp only [List.foldlM, pure, Option.some.injEq] at hs
    subst hs
    exact RemEffect.nil_effect h
  | cons x xs ih =>
    intro h h1 hs
    simp only [List.foldlM_cons] at hs
    cases hx : removePob h x with
    | none => rw [hx] at hs; cases hs
    | some h2 =>
      rw [hx] at hs
      have e1 := removePob_effect hx
      have e2 := ih hs
      have : (xs.flatMap fun r => (getSubtree h2 r).getD [])
          = xs.flatMap fun r => (getSubtree h r).getD [] := by
        congr 1
        funext r
        rw [getSubtree_congr e1.1]
      rw [this] at e2
      simpa [List.flatMap_cons] using e1.append_effect e2

theorem Keyed.after_remove {h h1 : ObjectManager} {live l : List Nat} (hk : Keyed h live)
    (he : RemEffect h h1 l) (hl : ∀ x ∈ l, x ∈ live) :
    Keyed h1 (live.filter fun x => decide (x ∉ l)) := by
  obtain ⟨k1, k2, k3, k4⟩ := hk
  obtain ⟨e1, e2, e3, e4, e5⟩ := he
  refine ⟨?_, ?_, ?_, ?_⟩
  · intro e hm
    obtain ⟨hm1, hm2⟩ := (e3 e).1 hm
    obtain ⟨hlive, p, hp, hkey⟩ := k1 e hm1
    refine ⟨?_, p, by rw [getPob_congr e1]; exact hp, hkey⟩
    simp only [List.mem_filter, decide_eq_true_eq]
    exact ⟨hlive, fun hin => hm2 e.2 hin p hp hkey⟩
  · intro id hid
    simp only [List.mem_filter, decide_eq_true_eq] at hid
    obtain ⟨p, hp, hm⟩ := k2 id hid.1
    refine ⟨p, by rw [getPob_congr e1]; exact hp, (e3 _).2 ⟨hm, ?_⟩⟩
    intro q hq pq hpq hkey
    obtain ⟨pq1, hpq1, hmq⟩ := k2 q (hl q hq)
    rw [hpq] at hpq1
    cases hpq1
    simp only at hkey
    have : (keyOf p, id) = (keyOf pq, q) := by
      have h1 := List.inj_on_of_nodup_map k3 hm hmq
      exact h1 hkey
    exact hid.2 (by rw [(Prod.mk.inj this).2]; exact hq)
  · exact k3.sublist (e4.map _)
  · intro id hid
    simp only [List.mem_filter, decide_eq_true_eq] at hid
    rw [e5]
    rintro (h | h)
    · exact k4 id hid.1 h
    · exact hid.2 h

theorem Keyed.after_add {h h1 : ObjectManager} {live : List Nat} {pob : Nat} (hk : Keyed h live)
    (hs : addPob h pob = some h1) (hfresh : pob ∉ h.removedPobs) : Keyed h1 (pob :: live) := by
  obtain ⟨k1, k2, k3, k4⟩ := hk
  unfold addPob at hs
  split at hs
  · cases hs
  · rename_i p hp
    split at hs
    · cases hs
    · rename_i hex
      cases hs
      have hnot : ∀ e ∈ h.pathedPobs, e.1 ≠ keyOf p := by
        intro e he heq
        apply hex
        simp only [pobExists, List.any_eq_true, decide_eq_true_eq]
        exact ⟨e, he, heq⟩
      refine ⟨?_, ?_, ?_, ?_⟩
      · intro e he
        simp only [List.mem_append, List.mem_singleton] at he
        rcases he with he | rfl
        · obtain ⟨a, b⟩ := k1 e he
          exact ⟨List.mem_cons_of_mem _ a, b⟩
        · exact ⟨List.mem_cons_self _ _, p, hp, rfl⟩
      · intro id hid
        rcases List.mem_cons.1 hid with rfl | hid
        · exact ⟨p, hp, by simp [keyOf]⟩
        · obtain ⟨q, hq, hm⟩ := k2 id hid
          exact ⟨q, hq, List.mem_append_left _ hm⟩
      · simp only [List.map_append, List.map_cons, List.map_nil]
        rw [List.nodup_append]
        refine ⟨k3, by simp, ?_⟩
        intro a ha hb
        simp only [List.mem_singleton] at hb
        obtain ⟨e, he, rfl⟩ := List.mem_map.1 ha
        exact hnot e he hb
      · intro id hid
        rcases List.mem_cons.1 hid with rfl | hid
        · exact hfresh
        · exact k4 id hid

theorem foldlM_rel {α : Type} (f : ObjectManager → α → Option ObjectManager)
    (P : ObjectManager → ObjectManager → Prop) (hrefl : ∀ h, P h h)
    (htrans : ∀ h h1 h2, P h h1 → P h1 h2 → P h h2) (l : List α)
    (hf : ∀ h a h1, a ∈ l → f h a = some h1 → P h h1) :
    ∀ {h h1 : ObjectManager}, l.foldlM f h = some h1 → P h h1 := by
  induction l with
  | nil =>
    intro h h1 hs
    simp only [List.foldlM, pure, Option.some.injEq] at hs
    subst hs
    exact hrefl h
  | cons x xs ih =>
    intro h h1 hs
    simp only [List.foldlM_cons] at hs
    cases hx : f h x with
    | none => rw [hx] at hs; cases hs
    | some h2 =>
      rw [hx] at hs
      exact htrans _ _ _ (hf h x h2 (List.mem_cons_self _ _) hx)
        (ih (fun h a h1 ha => hf h a h1 (List.mem_cons_of_mem _ ha)) hs)

theorem foldl_rel {α β : Type} (f : ObjectManager × β → α → ObjectManager × β)
    (P : ObjectManager → ObjectManager → Prop) (hrefl : ∀ h, P h h)
    (htrans : ∀ h h1 h2, P h h1 → P h1 h2 → P h h2)
    (hf : ∀ s a, P s.1 (f s a).1) (l : List α) :
    ∀ s : ObjectManager × β, P s.1 (l.foldl f s).1 := by
  induction l with
  | nil => intro s; exact hrefl _
  | cons x xs ih =>
    intro s
    simp only [List.foldl_cons]
    exact htrans _ _ _ (hf s x) (ih (f s x))

theorem PobFrame.frame_refl (h : ObjectManager) : PobFrame h h := ⟨rfl, rfl, rfl⟩

theorem PobFrame.frame_trans {h h1 h2 : ObjectManager} (a : PobFrame h h1) (b : PobFrame h1 h2) :
    PobFrame h h2 :=
  ⟨b.1.trans a.1, b.2.1.trans a.2.1, b.2.2.trans a.2.2⟩

theorem PobFrame.remEffect {h h1 : ObjectManager} (a : PobFrame h h1) : RemEffect h h1 [] := by
  obtain ⟨a1, a2, a3⟩ := a
  exact ⟨a1, by simp, by simp [a2], by rw [a2], by simp [a3]⟩

theorem removeState_pobFrame {h h1 : ObjectManager} {st : Nat}
    (hs : removeState h st = some h1) : PobFrame h h1 := by
  unfold removeState at hs
  split at hs
  · cases hs
  · split at hs
    · cases hs
    · split at hs
      · cases hs; exact ⟨rfl, rfl, rfl⟩
      · split at hs
        · cases hs; exact ⟨rfl, rfl, rfl⟩
        · cases hs

theorem checkReachedState_pobFrame (h : ObjectManager) (st : Nat) :
    PobFrame h (checkReachedState h st).1 := by
  unfold checkReachedState
  split
  · exact ⟨rfl, rfl, rfl⟩
  · split
    · exact ⟨rfl, rfl, rfl⟩
    · exact ⟨rfl, rfl, rfl⟩

theorem checkReachedStates_pobFrame {h h1 : ObjectManager}
    (hs : checkReachedStates h = some h1) : PobFrame h h1 := by
  unfold checkReachedStates at hs
  split at hs
  · simp only at hs
    refine PobFrame.frame_trans ?_ (foldlM_rel _ PobFrame PobFrame.frame_refl
      (fun _ _ _ => PobFrame.frame_trans) _ ?_ hs)
    · refine foldl_rel (β := List Nat) _ PobFrame PobFrame.frame_refl (fun _ _ _ => PobFrame.frame_trans)
        ?_ _ (h, [])
      intro s a
      have := checkReachedState_pobFrame s.1 a
      cases hc : checkReachedState s.1 a
      rw [hc] at this
      exact this
    · intro h2 a h3 _ hstep
      split at hstep
      · cases hstep; exact PobFrame.frame_refl _
      · exact removeState_pobFrame hstep
  · cases hs

theorem updateStates_effect {h h1 : ObjectManager} (hs : updateStates h = some h1) :
    RemEffect h h1 (closedPobs h) := by
  unfold updateStates at hs
  unfold closedPobs
  by_cases hu : h.statesUpdated = true
  · rw [if_pos hu] at hs
    split at hs
    · cases hs
    · by_cases hk : h.stateUpdateKind = StateKind.Isolated
      · simp only [hk, decide_True, if_true] at hs
        cases hc : checkReachedStates h with
        | none => rw [hc] at hs; cases hs
        | some h2 =>
          rw [hc] at hs
          cases hs
          rw [if_neg (by simp [hk])]
          obtain ⟨a1, a2, a3⟩ := checkReachedStates_pobFrame hc
          exact PobFrame.remEffect ⟨a1, a2, a3⟩
      · simp only [hk, decide_False, Bool.false_eq_true, if_false] at hs
        cases hc : checkReachedPobs h with
        | none => rw [hc] at hs; cases hs
        | some h2 =>
          rw [hc] at hs
          cases hs
          unfold checkReachedPobs at hc
          split at hc
          · rename_i hreg
            rw [if_pos hreg]
            obtain ⟨e1, e2, e3, e4, e5⟩ := foldlM_removePob_effect _ hc
            exact ⟨e1, e2, e3, e4, e5⟩
          · cases hc
  · rw [if_neg hu] at hs
    cases hs
    rw [if_neg (by simp [hu])]
    exact RemEffect.nil_effect h

theorem updatePropagations_pobFrame {h h1 : ObjectManager}
    (hs : updatePropagations h = some h1) : PobFrame h h1 := by
  unfold updatePropagations at hs
  simp only at hs
  split at hs
  · cases hs
  · rename_i h2 hadd
    split at hs
    · cases hs
    · rename_i h3 hdel
      cases hs
      have f1 : PobFrame h h2 := by
        refine foldlM_rel _ PobFrame PobFrame.frame_refl (fun _ _ _ => PobFrame.frame_trans) _ ?_ hadd
        intro h4 a h5 _ hstep
        split at hstep
        · cases hstep
        · cases hstep; exact ⟨rfl, rfl, rfl⟩
      have f2 : PobFrame h2 h3 := by
        refine foldlM_rel _ PobFrame PobFrame.frame_refl (fun _ _ _ => PobFrame.frame_trans) _ ?_ hdel
        intro h4 a h5 _ hstep
        split at hstep
        · cases hstep
        · split at hstep
          · cases hstep; exact ⟨rfl, rfl, rfl⟩
          · cases hstep
      obtain ⟨a1, a2, a3⟩ := f1.frame_trans f2
      exact ⟨a1, a2, a3⟩

theorem KeyStable.stable_refl (ex : List Nat) (h : ObjectManager) : KeyStable ex h h :=
  ⟨rfl, rfl, fun _ _ p hp => ⟨p, hp, rfl⟩⟩

theorem KeyStable.stable_trans {ex : List Nat} {h h1 h2 : ObjectManager} (a : KeyStable ex h h1)
    (b : KeyStable ex h1 h2) : KeyStable ex h h2 := by
  refine ⟨b.1.trans a.1, b.2.1.trans a.2.1, ?_⟩
  intro id hid p hp
  obtain ⟨p1, hp1, hk1⟩ := a.2.2 id hid p hp
  obtain ⟨p2, hp2, hk2⟩ := b.2.2 id hid p1 hp1
  exact ⟨p2, hp2, hk2.trans hk1⟩

theorem PobFrame.keyStable {h h1 : ObjectManager} (ex : List Nat) (a : PobFrame h h1) :
    KeyStable ex h h1 :=
  ⟨a.2.1, a.2.2, fun id _ p hp => ⟨p, by rw [getPob_congr a.1]; exact hp, rfl⟩⟩

theorem deletePob_keyStable (h : ObjectManager) (pob : Nat) :
    KeyStable [pob] h (deletePob h pob) := by
  unfold deletePob
  split
  · exact KeyStable.stable_refl _ h
  · rename_i pp hpp
    refine ⟨rfl, rfl, ?_⟩
    intro id hid p hp
    have hne : id ≠ pob := by simpa using hid
    unfold getPob at hp ⊢
    simp only
    rw [find?_id_map _ _ (by intro q; split <;> split <;> rfl), List.find?_filter]
    have : (fun a : ProofObligation => decide (decide (a.id ≠ pob) = true ∧ decide (a.id = id) = true))
        = fun a => decide (a.id = id) := by
      funext a
      by_cases ha : a.id = id
      · simp [ha, hne]
      · simp [ha]
    rw [this, hp]
    refine ⟨_, rfl, ?_⟩
    simp only [keyOf]
    split <;> split <;> rfl

theorem updatePobs_keyStable {h h1 : ObjectManager} (hs : updatePobs h = some h1) :
    h1.pathedPobs = h.pathedPobs ∧ h1.removedPobs = [] ∧
      ∀ id, id ∉ h.removedPobs → ∀ p, h.getPob id = some p →
        ∃ p1, h1.getPob id = some p1 ∧ keyOf p1 = keyOf p := by
  unfold updatePobs at hs
  simp only at hs
  split at hs
  · cases hs
  · rename_i h2 hadd
    split at hs
    · cases hs
    · rename_i h3 hdel
      cases hs
      have f1 : PobFrame h h2 := by
        refine foldlM_rel _ PobFrame PobFrame.frame_refl (fun _ _ _ => PobFrame.frame_trans) _ ?_ hadd
        intro h4 a h5 _ hstep
        split at hstep
        · cases hstep
        · cases hstep; exact ⟨rfl, rfl, rfl⟩
      have f2 : KeyStable h2.removedPobs h2 h3 := by
        refine foldlM_rel _ (KeyStable h2.removedPobs) (KeyStable.stable_refl _)
          (fun _ _ _ => KeyStable.stable_trans) _ ?_ hdel
        intro h4 a h5 ha hstep
        split at hstep
        · cases hstep
        · split at hstep
          · cases hstep
          · cases hstep
            obtain ⟨d1, d2, d3⟩ := deletePob_keyStable
              { h4 with leafPobs := _, pobs := _ } a
            refine ⟨d1, d2, ?_⟩
            intro id hid p hp
            exact d3 id (by
              simp only [List.mem_singleton]
              rintro rfl
              exact hid ha) p hp
      obtain ⟨g1, g2, g3⟩ := (f1.keyStable h2.removedPobs).stable_trans f2
      refine ⟨g1, rfl, ?_⟩
      intro id hid p hp
      exact g3 id (by rw [f1.2.2]; exact hid) p hp

theorem Keyed.after_update {h h1 : ObjectManager} {live : List Nat} (hk : Keyed h live)
    (hs : updateSubscribers h = some h1) (hl : ∀ x ∈ closedPobs h, x ∈ live) :
    Keyed h1 (live.filter fun x => decide (x ∉ closedPobs h)) := by
  unfold updateSubscribers at hs
  cases h2e : updateStates h with
  | none => rw [h2e] at hs; cases hs
  | some h2 =>
    rw [h2e] at hs
    simp only [Option.bind_some, Option.some_bind] at hs
    cases h3e : updatePropagations h2 with
    | none => rw [h3e] at hs; cases hs
    | some h3 =>
      rw [h3e] at hs
      simp only [Option.bind_some, Option.some_bind] at hs
      obtain ⟨k1, k2, k3, k4⟩ := hk.after_remove (updateStates_effect h2e) hl
      obtain ⟨f1, f2, f3⟩ := updatePropagations_pobFrame h3e
      obtain ⟨u1, u2, u3⟩ := updatePobs_keyStable hs
      refine ⟨?_, ?_, ?_, ?_⟩
      · intro e he
        rw [u1, f2] at he
        obtain ⟨a, p, hp, hkey⟩ := k1 e he
        obtain ⟨p1, hp1, hk1⟩ := u3 e.2 (by rw [f3]; exact k4 e.2 a) p
          (by rw [getPob_congr f1]; exact hp)
        exact ⟨a, p1, hp1, by rw [hk1]; exact hkey⟩
      · intro id hid
        obtain ⟨p, hp, hm⟩ := k2 id hid
        obtain ⟨p1, hp1, hk1⟩ := u3 id (by rw [f3]; exact k4 id hid) p
          (by rw [getPob_congr f1]; exact hp)
        exact ⟨p1, hp1, by rw [u1, f2, hk1]; exact hm⟩
      · rw [u1, f2]; exact k3
      · intro id _
        rw [u2]
        simp

/-- C12 (as amended): along every sequence of `addPob`, `removePob` and `updateSubscribers()`
calls in which no obligation's path or location is changed after it was added (no
`propagateToReturn` on an added obligation), obligations are added while not pending removal
and every removed subtree is live, `pathedPobs` keeps exactly one entry per live obligation,
under that obligation's `(path, location)`, and no other entry. -/
theorem pathedPobs_keyed_amended (calls : List PobCall) :
    ∀ (h h1 : ObjectManager) (live live1 : List Nat), Keyed h live →
      PobDiscipline h live calls → applyPobCalls h live calls = some (h1, live1) →
      Keyed h1 live1 := by
  induction calls with
  | nil =>
    intro h h1 live live1 hk _ hrun
    simp only [applyPobCalls, Option.some.injEq, Prod.mk.injEq] at hrun
    obtain ⟨rfl, rfl⟩ := hrun
    exact hk
  | cons c cs ih =>
    intro h h1 live live1 hk hd hrun
    simp only [applyPobCalls] at hrun
    cases hc : applyPobCall h live c with
    | none => rw [hc] at hrun; cases hrun
    | some r =>
      obtain ⟨h2, live2⟩ := r
      rw [hc] at hrun
      refine ih h2 h1 live2 live1 ?_ (hd.2 h2 live2 hc) hrun
      have hd1 := hd.1
      cases c with
      | addPob pob =>
        simp only [applyPobCall] at hc
        cases ha : addPob h pob with
        | none => rw [ha] at hc; cases hc
        | some h3 =>
          rw [ha] at hc
          cases hc
          exact hk.after_add ha hd1
      | removePob pob =>
        simp only [applyPobCall] at hc
        cases ha : removePob h pob with
        | none => rw [ha] at hc; cases hc
        | some h3 =>
          rw [ha] at hc
          cases hc
          exact hk.after_remove (removePob_effect ha) hd1
      | updateSubscribers =>
        simp only [applyPobCall] at hc
        cases ha : updateSubscribers h with
        | none => rw [ha] at hc; cases hc
        | some h3 =>
          rw [ha] at hc
          cases hc
          exact hk.after_update ha hd1

/-- Witness for the amended C12: one root obligation is added to a fresh hub. -/
theorem pathedPobs_keyed_amended_witness :
    Keyed { init false with
        pobHeap := [rootPob], addedPobs := [0]
        pathedPobs := [((Path.ofNext none, Target.reachBlock 7 false), 0)] } [0] :=
  pathedPobs_keyed_amended [PobCall.addPob 0] { init false with pobHeap := [rootPob] } _ [] [0]
    ⟨by simp [init], by simp, by simp [init], by simp⟩
    ⟨by simp [init], fun _ _ _ => trivial⟩ rfl

/-- Counterexample to C12 as stated: obligation 0 is added and is live; after
`propagateToReturn` its location is another target, and `pathedPobs` has no entry under its
current `(path, location)`. -/
theorem pathedPobs_keyed_counterexample :
    ∃ h1, addPob { init false with pobHeap := [rootPob] } 0 = some h1 ∧
      0 ∈ h1.addedPobs ∧ 0 ∉ h1.removedPobs ∧
      ∃ p, (propagateToReturn h1 0 5 1 (Target.reachBlock 9 true)).getPob 0 = some p ∧
        (keyOf p, 0) ∉ (propagateToReturn h1 0 5 1 (Target.reachBlock 9 true)).pathedPobs :=
  ⟨_, rfl, by decide, by decide, _, rfl, by decide⟩

end ObjectManager

/-! ## DiscretePDF: the tree operations keep the representation invariant -/

namespace DiscretePDF

variable {T : Type}

open Node

@[simp] theorem setMark_node (b m : Bool) (k : T) (w s : ℚ) (l r : Node T) :
    (node m k w s l r).setMark b = node b k w s l r := rfl

@[simp] theorem toList_setMark (m : Bool) (n : Node T) : toList (n.setMark m) = toList n := by
  cases n <;> rfl

@[simp] theorem toList_setSum (n : Node T) : toList n.setSum = toList n := by
  cases n <;> rfl

theorem toList_plug (f : Frame T) (c : Node T) :
    toList (plug f c) = ctxBefore [f] ++ toList c ++ ctxAfter [f] := by
  unfold plug
  cases hd : f.dir <;> simp [ctxBefore, ctxAfter, hd, toList]

theorem toList_zip (n : Node T) (ctx : List (Frame T)) :
    toList (zip n ctx) = ctxBefore ctx ++ toList n ++ ctxAfter ctx := by
  induction ctx generalizing n with
  | nil => simp [zip, ctxBefore, ctxAfter]
  | cons f fs ih =>
    rw [zip, ih, toList_plug]
    cases hd : f.dir <;> simp [ctxBefore, ctxAfter, hd]

theorem toList_rotate {n t : Node T} {f : Frame T} (h : rotate n f = some t) :
    toList t = toList (plug f n) := by
  cases n with
  | nil => simp [rotate] at h
  | node nm nk nw ns nl nr =>
    unfold rotate at h
    unfold plug
    cases hd : f.dir <;> simp only [hd] at h ⊢ <;> cases h <;> simp [toList]

theorem focusChild_plug {d : Dir} {t c : Node T} {f : Frame T}
    (h : focusChild d t = some (c, f)) : plug f c = t ∧ f.dir = d := by
  cases t with
  | nil => simp [focusChild] at h
  | node m k w s l r =>
    cases d <;> simp only [focusChild, Option.some.injEq, Prod.mk.injEq] at h <;>
      obtain ⟨rfl, rfl⟩ := h <;> exact ⟨rfl, rfl⟩


theorem split_shape {n n1 : Node T} {ctx ctx1 : List (Frame T)}
    (h : split n ctx = some (n1, ctx1)) :
    (∃ m k w s l r m1 s1 l1 r1, n = node m k w s l r ∧ n1 = node m1 k w s1 l1 r1) ∧
    toList (zip n1 ctx1) = toList (zip n ctx) ∧
    (∀ x ∈ ctxBefore ctx1, x ∈ ctxBefore ctx) ∧ (∀ x ∈ ctxAfter ctx1, x ∈ ctxAfter ctx) := by
  cases n with
  | nil => simp [split] at h
  | node m k w s l r =>
    unfold split at h
    cases ctx with
    | nil =>
      simp only [Option.some.injEq, Prod.mk.injEq] at h
      obtain ⟨rfl, rfl⟩ := h
      exact ⟨⟨_, _, _, _, _, _, _, _, _, _, rfl, rfl⟩, by simp [zip, toList], by simp, by simp⟩
    | cons p rest =>
      simp only at h
      by_cases hp : p.mark = true
      · simp only [hp, Bool.not_true, Bool.false_eq_true, if_false] at h
        cases rest with
        | nil => simp at h
        | cons pp rest2 =>
          obtain ⟨pd, pm, pk, pw, ps, psib⟩ := p
          obtain ⟨ppd, ppm, ppk, ppw, pps, ppsib⟩ := pp
          simp only at hp
          subst hp
          cases pd <;> cases ppd <;>
            simp only [rotate, plug, focusChild, setMark_node, Option.map_some', if_true,
              Option.some.injEq, Prod.mk.injEq, reduceCtorEq, if_false] at h <;>
            obtain ⟨rfl, rfl⟩ := h <;>
            refine ⟨⟨_, _, _, _, _, _, _, _, _, _, rfl, rfl⟩, ?_, ?_, ?_⟩ <;>
            simp [toList_zip, toList, ctxBefore, ctxAfter] <;> tauto
      · simp only [hp, Bool.not_false, if_true, Option.some.injEq, Prod.mk.injEq] at h
        obtain ⟨rfl, rfl⟩ := h
        exact ⟨⟨_, _, _, _, _, _, _, _, _, _, rfl, rfl⟩, by simp [toList_zip, toList],
          fun x hx => hx, fun x hx => hx⟩



/-! ### Sums -/

@[simp] theorem sum_setMark (m : Bool) (n : Node T) : (n.setMark m).sum = n.sum := by
  cases n <;> rfl

@[simp] theorem sumOK_setMark (m : Bool) (n : Node T) : SumOK (n.setMark m) ↔ SumOK n := by
  cases n <;> simp [Node.setMark, SumOK]

theorem sumOK_kidsOK {n : Node T} (h : SumOK n) : KidsOK n := by
  cases n with
  | nil => trivial
  | node m k w s l r => exact h.2

theorem sumOK_setSum {n : Node T} (h : KidsOK n) : SumOK n.setSum := by
  cases n with
  | nil => trivial
  | node m k w s l r => exact ⟨rfl, h.1, h.2⟩

theorem ctxOK_cons {f : Frame T} {fs : List (Frame T)} :
    CtxOK (f :: fs) ↔ SumOK f.sibling ∧ CtxOK fs := by
  simp [CtxOK]

theorem kidsOK_plug {f : Frame T} {c : Node T} : KidsOK (plug f c) ↔ SumOK c ∧ SumOK f.sibling := by
  unfold plug
  cases f.dir <;> simp [KidsOK, and_comm]

theorem propagateSumsUp_sumOK {n : Node T} {ctx : List (Frame T)}
    (hn : KidsOK n) (hc : CtxOK ctx) : SumOK (propagateSumsUp n ctx) := by
  induction ctx generalizing n with
  | nil => exact sumOK_setSum hn
  | cons f fs ih =>
    rw [ctxOK_cons] at hc
    exact ih (kidsOK_plug.2 ⟨sumOK_setSum hn, hc.1⟩) hc.2

theorem toList_propagateSumsUp (n : Node T) (ctx : List (Frame T)) :
    toList (propagateSumsUp n ctx) = toList (zip n ctx) := by
  induction ctx generalizing n with
  | nil => simp [propagateSumsUp, zip]
  | cons f fs ih =>
    rw [propagateSumsUp, ih, zip, toList_zip, toList_zip, toList_plug, toList_plug, toList_setSum]

theorem split_sums {n n1 : Node T} {ctx ctx1 : List (Frame T)}
    (h : split n ctx = some (n1, ctx1)) (hn : KidsOK n) (hc : CtxOK ctx) :
    KidsOK n1 ∧ CtxOK ctx1 := by
  cases n with
  | nil => simp [split] at h
  | node m k w s l r =>
    unfold split at h
    cases ctx with
    | nil =>
      simp only [Option.some.injEq, Prod.mk.injEq] at h
      obtain ⟨rfl, rfl⟩ := h
      exact ⟨by simpa [KidsOK] using hn, hc⟩
    | cons p rest =>
      simp only at h
      by_cases hp : p.mark = true
      · simp only [hp, Bool.not_true, Bool.false_eq_true, if_false] at h
        cases rest with
        | nil => simp at h
        | cons pp rest2 =>
          obtain ⟨pd, pm, pk, pw, ps, psib⟩ := p
          obtain ⟨ppd, ppm, ppk, ppw, pps, ppsib⟩ := pp
          simp only at hp
          subst hp
          simp only [ctxOK_cons] at hc
          simp only [KidsOK] at hn
          cases pd <;> cases ppd <;>
            simp only [rotate, plug, focusChild, setMark_node, Option.map_some', if_true,
              Option.some.injEq, Prod.mk.injEq, reduceCtorEq, if_false] at h <;>
            obtain ⟨rfl, rfl⟩ := h <;>
            simp [KidsOK, SumOK, ctxOK_cons, Node.sum, hn, hc]
      · simp only [hp, Bool.not_false, if_true, Option.some.injEq, Prod.mk.injEq] at h
        obtain ⟨rfl, rfl⟩ := h
        exact ⟨by simpa [KidsOK] using hn, hc⟩

/-! ### Colours -/

@[simp] theorem isBlack_node (m : Bool) (k : T) (w s : ℚ) (l r : Node T) :
    (node m k w s l r).isBlack = !m := rfl

@[simp] theorem isBlack_nil : (nil : Node T).isBlack = true := rfl

@[simp] theorem isNil_node (m : Bool) (k : T) (w s : ℚ) (l r : Node T) :
    (node m k w s l r).isNil = false := rfl

@[simp] theorem isNil_nil : (nil : Node T).isNil = true := rfl

@[simp] theorem isBlack_setMark (m : Bool) (n : Node T) :
    (n.setMark m).isBlack = (n.isNil || !m) := by
  cases n <;> simp [Node.setMark, Node.isBlack, Node.isNil]

theorem redOK_setMark_false {n : Node T} (h : RedOK n) : RedOK (n.setMark false) := by
  cases n with
  | nil => trivial
  | node m k w s l r => exact ⟨by simp, h.2⟩

@[simp] theorem isBlack_setSum (n : Node T) : n.setSum.isBlack = n.isBlack := by
  cases n <;> rfl

@[simp] theorem redOK_setSum (n : Node T) : RedOK n.setSum ↔ RedOK n := by
  cases n <;> simp [Node.setSum, RedOK]

theorem ctxRedOK_mono {b : Bool} {ctx : List (Frame T)} (h : CtxRedOK b ctx) :
    CtxRedOK true ctx := by
  cases ctx with
  | nil => rfl
  | cons f fs => exact ⟨h.1, fun hm => ⟨rfl, (h.2.1 hm).2⟩, h.2.2⟩

@[simp] theorem isBlack_plug (f : Frame T) (c : Node T) : (plug f c).isBlack = !f.mark := by
  unfold plug
  cases f.dir <;> rfl

theorem colourOK_plug {f : Frame T} {fs : List (Frame T)} {c : Node T} :
    ColourOK (plug f c) fs ↔ ColourOK c (f :: fs) := by
  unfold ColourOK
  rw [isBlack_plug]
  unfold plug
  cases f.dir <;> simp only [RedOK, CtxRedOK] <;> tauto

theorem colourOK_zip {n : Node T} {ctx : List (Frame T)} :
    ColourOK (zip n ctx) [] ↔ ColourOK n ctx := by
  induction ctx generalizing n with
  | nil => rfl
  | cons f fs ih => rw [zip, ih, colourOK_plug]

theorem colourOK_setSum {n : Node T} {ctx : List (Frame T)} :
    ColourOK n.setSum ctx ↔ ColourOK n ctx := by
  simp [ColourOK]

theorem colourOK_propagateSumsUp {n : Node T} {ctx : List (Frame T)} :
    ColourOK (propagateSumsUp n ctx) [] ↔ ColourOK n ctx := by
  induction ctx generalizing n with
  | nil => exact colourOK_setSum
  | cons f fs ih => rw [propagateSumsUp, ih, colourOK_plug, colourOK_setSum]

/-! ### Measures -/

@[simp] theorem reds_setSum (n : Node T) : reds n.setSum = reds n := by
  cases n <;> rfl

@[simp] theorem size_setMark (m : Bool) (n : Node T) : size (n.setMark m) = size n := by
  cases n <;> rfl

theorem reds_plug (f : Frame T) (c : Node T) :
    reds (plug f c) = reds c + ((if f.mark then 1 else 0) + reds f.sibling) := by
  unfold plug
  cases f.dir <;> simp only [reds] <;> omega

theorem size_plug (f : Frame T) (c : Node T) :
    size (plug f c) = size c + (1 + size f.sibling) := by
  unfold plug
  cases f.dir <;> simp only [size] <;> omega

theorem reds_zip (n : Node T) (ctx : List (Frame T)) :
    reds (zip n ctx) = reds n + ctxReds ctx := by
  induction ctx generalizing n with
  | nil => rfl
  | cons f fs ih => rw [zip, ih, reds_plug, ctxReds]; omega

theorem size_zip (n : Node T) (ctx : List (Frame T)) :
    size (zip n ctx) = size n + ctxSize ctx := by
  induction ctx generalizing n with
  | nil => rfl
  | cons f fs ih => rw [zip, ih, size_plug, ctxSize]; omega

theorem reds_setMark_false_le (n : Node T) : reds (n.setMark false) ≤ reds n := by
  cases n with
  | nil => exact Nat.le_refl _
  | node m k w s l r => cases m <;> simp [reds]

theorem reds_setMark_false_red {n : Node T} (h : n.isBlack = false) :
    reds (n.setMark false) + 1 = reds n := by
  cases n with
  | nil => simp [Node.isBlack] at h
  | node m k w s l r =>
    simp only [Node.isBlack, Bool.not_eq_false'] at h
    subst h
    simp only [setMark_node, reds]
    simp
    omega

theorem split_measure {n n1 : Node T} {ctx ctx1 : List (Frame T)}
    {m : Bool} {k : T} {w s : ℚ} {l r : Node T} (hn : n = node m k w s l r)
    (hl : l.isBlack = false) (hr : r.isBlack = false)
    (h : split n ctx = some (n1, ctx1)) :
    reds n1 + ctxReds ctx1 < reds n + ctxReds ctx ∧
      size n1 + ctxSize ctx1 = size n + ctxSize ctx := by
  subst hn
  have hl1 := reds_setMark_false_red hl
  have hr1 := reds_setMark_false_red hr
  unfold split at h
  cases ctx with
  | nil =>
    simp only [Option.some.injEq, Prod.mk.injEq] at h
    obtain ⟨rfl, rfl⟩ := h
    cases m <;>
      simp only [reds, size, size_setMark, ctxReds, ctxSize, if_true, if_false,
        Bool.false_eq_true] <;>
      (refine ⟨?_, ?_⟩ <;> first | trivial | omega)
  | cons p rest =>
    simp only at h
    by_cases hp : p.mark = true
    · simp only [hp, Bool.not_true, Bool.false_eq_true, if_false] at h
      cases rest with
      | nil => simp at h
      | cons pp rest2 =>
        obtain ⟨pd, pm, pk, pw, ps, psib⟩ := p
        obtain ⟨ppd, ppm, ppk, ppw, pps, ppsib⟩ := pp
        simp only at hp
        subst hp
        cases m <;> cases ppm <;> cases pd <;> cases ppd <;>
          simp only [rotate, plug, focusChild, setMark_node, Option.map_some', if_true,
            Option.some.injEq, Prod.mk.injEq, reduceCtorEq, if_false] at h <;>
          obtain ⟨rfl, rfl⟩ := h <;>
          simp only [reds, size, size_setMark, ctxReds, ctxSize, if_true, if_false,
            Bool.false_eq_true] <;>
          (refine ⟨?_, ?_⟩ <;> first | trivial | omega)
    · simp only [hp, Bool.not_false, if_true, Option.some.injEq, Prod.mk.injEq] at h
      obtain ⟨rfl, rfl⟩ := h
      generalize ctxReds (p :: rest) = a
      generalize ctxSize (p :: rest) = b
      cases m <;>
        simp only [reds, size, size_setMark, if_true, if_false, Bool.false_eq_true] <;>
        (refine ⟨?_, ?_⟩ <;> first | trivial | omega)

theorem split_colour {k : T} {w s : ℚ} {l r : Node T} {ctx : List (Frame T)}
    (hl : RedOK l) (hr : RedOK r) (hc : CtxRedOK true ctx)
    (hu : ∀ f1 f2 rest, ctx = f1 :: f2 :: rest → f1.mark = true → f2.sibling.isBlack = true) :
    ∃ n1 ctx1, split (node false k w s l r) ctx = some (n1, ctx1) ∧ ColourOK n1 ctx1 ∧
      ((∃ m1, n1 = node m1 k w s (l.setMark false) (r.setMark false)) ∨
       (∃ s1 k1 w1 s2 a k2 w2 s3 d,
          n1 = node false k w s1 (node true k1 w1 s2 a (l.setMark false))
                (node true k2 w2 s3 (r.setMark false) d) ∧
          a.isBlack = true ∧ d.isBlack = true ∧
          (k1, w1) ∈ ctxBefore ctx ∧ (k2, w2) ∈ ctxAfter ctx)) := by
  have hl1 := redOK_setMark_false hl
  have hr1 := redOK_setMark_false hr
  unfold split
  cases ctx with
  | nil =>
    exact ⟨_, _, rfl, ⟨⟨by simp, hl1, hr1⟩, rfl⟩, Or.inl ⟨_, rfl⟩⟩
  | cons p rest =>
    by_cases hp : p.mark = true
    · cases rest with
      | nil => simp [CtxRedOK, hp] at hc
      | cons pp rest2 =>
        have hub := hu p pp rest2 rfl hp
        obtain ⟨pd, pm, pk, pw, ps, psib⟩ := p
        obtain ⟨ppd, ppm, ppk, ppw, pps, ppsib⟩ := pp
        simp only at hp hub
        subst hp
        simp only [CtxRedOK, true_implies, Bool.not_true, Bool.false_eq_true, false_and,
          imp_false, Bool.not_eq_true, true_and] at hc
        obtain ⟨hps, hpb, hpps, hppm, hrest⟩ := hc
        subst hppm
        simp only [Bool.not_false] at hrest
        cases pd <;> cases ppd <;>
          simp only [rotate, plug, focusChild, setMark_node, Option.map_some', if_true,
            Option.some.injEq, Prod.mk.injEq, reduceCtorEq, if_false, Bool.not_true,
            Bool.false_eq_true, exists_and_left, exists_eq_left', ColourOK]
        all_goals refine ⟨_, _, ⟨rfl, rfl⟩, ?_, ?_⟩
        all_goals first
          | exact Or.inl ⟨_, rfl⟩
          | exact Or.inr ⟨_, _, _, _, _, _, _, _, _, rfl, by assumption, by assumption,
              by simp [ctxBefore], by simp [ctxAfter]⟩
          | simp [RedOK, CtxRedOK, hl1, hr1, hps, hpps, hpb, hub, hrest]
    · have hp' : p.mark = false := by simpa using hp
      simp only [hp', Bool.not_false, if_true]
      refine ⟨_, _, rfl, ⟨⟨by simp, hl1, hr1⟩, ?_⟩, Or.inl ⟨_, rfl⟩⟩
      exact ⟨hc.1, by simp [hp'], hc.2.2⟩

/-! ### Search order -/

section Ordered
variable [LinearOrder T]

theorem keysSorted_append {A B : List (T × ℚ)} :
    KeysSorted (A ++ B) ↔ KeysSorted A ∧ KeysSorted B ∧ ∀ a ∈ A, ∀ b ∈ B, a.1 < b.1 := by
  unfold KeysSorted
  exact List.pairwise_append

theorem keysSorted_cons {a : T × ℚ} {B : List (T × ℚ)} :
    KeysSorted (a :: B) ↔ (∀ b ∈ B, a.1 < b.1) ∧ KeysSorted B := by
  unfold KeysSorted
  exact List.pairwise_cons

theorem keysSorted_focus {n : Node T} {ctx : List (Frame T)}
    (h : KeysSorted (toList (zip n ctx))) : KeysSorted (toList n) := by
  rw [toList_zip, keysSorted_append, keysSorted_append] at h
  exact h.1.2.1

theorem BaseInv.ne_item {item : T} {L : List (T × ℚ)} {m : Bool} {k : T} {w s : ℚ}
    {l r : Node T} {ctx : List (Frame T)} (h : BaseInv item L (node m k w s l r) ctx)
    (ha : ∀ w, (item, w) ∉ L) : k ≠ item := by
  intro hk
  apply ha w
  rw [← h.content, toList_zip, ← hk]
  simp [toList]

theorem BaseInv.descend_left {item : T} {L : List (T × ℚ)} {m : Bool} {k : T} {w s : ℚ}
    {l r : Node T} {ctx : List (Frame T)} (h : BaseInv item L (node m k w s l r) ctx)
    (hlt : item < k) : BaseInv item L l (⟨Dir.left, m, k, w, s, r⟩ :: ctx) ∧ SumOK l := by
  have hs : KeysSorted (toList (node m k w s l r)) := by
    have := h.sorted
    rw [← h.content] at this
    exact keysSorted_focus this
  rw [toList, keysSorted_append, keysSorted_cons] at hs
  refine ⟨⟨h.content, h.sorted, h.before, ?_, sumOK_kidsOK h.kids.1, ?_, ?_⟩, h.kids.1⟩
  · intro x hx
    simp only [ctxAfter, List.cons_append, List.mem_cons, List.mem_append] at hx
    rcases hx with rfl | hx | hx
    · exact hlt
    · exact lt_trans hlt (hs.2.1.1 x hx)
    · exact h.after x hx
  · exact ctxOK_cons.2 ⟨h.kids.2, h.sumC⟩
  · exact colourOK_plug.1 h.colour

theorem BaseInv.descend_right {item : T} {L : List (T × ℚ)} {m : Bool} {k : T} {w s : ℚ}
    {l r : Node T} {ctx : List (Frame T)} (h : BaseInv item L (node m k w s l r) ctx)
    (hlt : k < item) : BaseInv item L r (⟨Dir.right, m, k, w, s, l⟩ :: ctx) ∧ SumOK r := by
  have hs : KeysSorted (toList (node m k w s l r)) := by
    have := h.sorted
    rw [← h.content] at this
    exact keysSorted_focus this
  rw [toList, keysSorted_append, keysSorted_cons] at hs
  refine ⟨⟨h.content, h.sorted, ?_, h.after, sumOK_kidsOK h.kids.2, ?_, ?_⟩, h.kids.2⟩
  · intro x hx
    simp only [ctxBefore, List.mem_append, List.mem_singleton] at hx
    rcases hx with hx | hx | rfl
    · exact h.before x hx
    · exact lt_trans (hs.2.2 x hx (k, w) (List.mem_cons_self _ _)) hlt
    · exact hlt
  · exact ctxOK_cons.2 ⟨h.kids.1, h.sumC⟩
  · exact colourOK_plug.1 h.colour

theorem BaseInv.of_split {item : T} {L : List (T × ℚ)} {n n1 : Node T}
    {ctx ctx1 : List (Frame T)} (h : BaseInv item L n ctx)
    (hs : split n ctx = some (n1, ctx1)) (hc : ColourOK n1 ctx1) : BaseInv item L n1 ctx1 := by
  obtain ⟨_, hcont, hb, ha⟩ := split_shape hs
  obtain ⟨hk, hcx⟩ := split_sums hs h.kids h.sumC
  exact ⟨hcont.trans h.content, h.sorted, fun x hx => h.before x (hb x hx),
    fun x hx => h.after x (ha x hx), hk, hcx, hc⟩

theorem goodBlack_setMark_of_red {l : Node T} (hl : RedOK l) (hr : l.isBlack = false) :
    GoodBlack (l.setMark false) := by
  cases l with
  | nil => simp at hr
  | node m k w s a b =>
    simp only [isBlack_node, Bool.not_eq_false'] at hr
    exact ⟨k, w, s, a, b, rfl, hl.1 hr⟩

theorem not_goodBlack_of_red_child {m : Bool} {k : T} {w s : ℚ} {l r : Node T}
    (h : l.isBlack = false ∨ r.isBlack = false) : ¬ GoodBlack (node m k w s l r) := by
  rintro ⟨k1, w1, s1, l1, r1, he, hl, hr⟩
  cases he
  rcases h with h | h
  · rw [hl] at h; exact Bool.noConfusion h
  · rw [hr] at h; exact Bool.noConfusion h

end Ordered

theorem pot_lt {R1 R N a b : Nat} (h : R1 < R ∨ (R1 = R ∧ a < b)) (ha : a ≤ N) :
    R1 * (N + 1) + a < R * (N + 1) + b := by
  rcases h with h | ⟨rfl, h⟩
  · have h1 : (R1 + 1) * (N + 1) ≤ R * (N + 1) := Nat.mul_le_mul_right _ h
    rw [Nat.add_mul, Nat.one_mul] at h1
    omega
  · omega

theorem pot_step {n n1 c : Node T} {ctx ctx1 ctx2 : List (Frame T)}
    (hR : reds c + ctxReds ctx2 = reds n1 + ctxReds ctx1)
    (hN : size c + ctxSize ctx2 = size n1 + ctxSize ctx1)
    (hlt : size c < size n1)
    (h : reds n1 + ctxReds ctx1 < reds n + ctxReds ctx ∨ (n1 = n ∧ ctx1 = ctx))
    (hN2 : size n1 + ctxSize ctx1 = size n + ctxSize ctx) :
    insertPot c ctx2 < insertPot n ctx := by
  unfold insertPot
  rw [hR, hN, hN2]
  apply pot_lt
  · rcases h with h | ⟨rfl, rfl⟩
    · exact Or.inl h
    · exact Or.inr ⟨rfl, hlt⟩
  · omega

theorem pot_left {n1 n : Node T} {ctx ctx1 : List (Frame T)} {m : Bool} {k : T} {w s : ℚ}
    {l r : Node T} (hn : n1 = node m k w s l r)
    (h : reds n1 + ctxReds ctx1 < reds n + ctxReds ctx ∨ (n1 = n ∧ ctx1 = ctx))
    (hN2 : size n1 + ctxSize ctx1 = size n + ctxSize ctx) :
    insertPot l (⟨Dir.left, m, k, w, s, r⟩ :: ctx1) < insertPot n ctx := by
  subst hn
  refine pot_step ?_ ?_ ?_ h hN2 <;> simp only [reds, size, ctxReds, ctxSize] <;> omega

theorem pot_right {n1 n : Node T} {ctx ctx1 : List (Frame T)} {m : Bool} {k : T} {w s : ℚ}
    {l r : Node T} (hn : n1 = node m k w s l r)
    (h : reds n1 + ctxReds ctx1 < reds n + ctxReds ctx ∨ (n1 = n ∧ ctx1 = ctx))
    (hN2 : size n1 + ctxSize ctx1 = size n + ctxSize ctx) :
    insertPot r (⟨Dir.right, m, k, w, s, l⟩ :: ctx1) < insertPot n ctx := by
  subst hn
  refine pot_step ?_ ?_ ?_ h hN2 <;> simp only [reds, size, ctxReds, ctxSize] <;> omega

section Ordered
variable [LinearOrder T]

theorem insert_body {item : T} {L : List (T × ℚ)} {m : Bool} {k : T} {w s : ℚ}
    {l r : Node T} {ctx : List (Frame T)} (inv : LoopInv item L (node m k w s l r) ctx) :
    ∃ m1 k1 w1 s1 l1 r1 ctx1,
      (if !l.isBlack && !r.isBlack then split (node m k w s l r) ctx
        else some (node m k w s l r, ctx)) = some (node m1 k1 w1 s1 l1 r1, ctx1) ∧
      k1 ≠ item ∧
      (item < k1 → LoopInv item L l1 (⟨Dir.left, m1, k1, w1, s1, r1⟩ :: ctx1) ∧
        insertPot l1 (⟨Dir.left, m1, k1, w1, s1, r1⟩ :: ctx1) <
          insertPot (node m k w s l r) ctx) ∧
      (k1 < item → LoopInv item L r1 (⟨Dir.right, m1, k1, w1, s1, l1⟩ :: ctx1) ∧
        insertPot r1 (⟨Dir.right, m1, k1, w1, s1, l1⟩ :: ctx1) <
          insertPot (node m k w s l r) ctx) := by
  by_cases hsp : (!l.isBlack && !r.isBlack) = true
  · have hlr : l.isBlack = false ∧ r.isBlack = false := by simpa using hsp
    have hm : m = false := by
      cases m
      · rfl
      · have := (inv.base.colour.1.1 rfl).1
        rw [hlr.1] at this
        exact Bool.noConfusion this
    subst hm
    have hu : ∀ f1 f2 rest, ctx = f1 :: f2 :: rest → f1.mark = true →
        f2.sibling.isBlack = true := by
      intro f1 f2 rest he hf
      by_contra hb
      have hb1 : f2.sibling.isBlack = false := by simpa using hb
      exact not_goodBlack_of_red_child (Or.inl hlr.1) (inv.uncle f1 f2 rest he hf hb1)
    obtain ⟨n1, ctx1, hs, hcol, hshape⟩ := split_colour (k := k) (w := w) (s := s)
      inv.base.colour.1.2.1 inv.base.colour.1.2.2 (ctxRedOK_mono inv.base.colour.2) hu
    have hb := BaseInv.of_split inv.base hs hcol
    have hmeas := split_measure rfl hlr.1 hlr.2 hs
    have hgl := goodBlack_setMark_of_red inv.base.colour.1.2.1 hlr.1
    have hgr := goodBlack_setMark_of_red inv.base.colour.1.2.2 hlr.2
    rw [if_pos hsp, hs]
    rcases hshape with ⟨m1, rfl⟩ | ⟨s1, k1, w1, s2, a, k2, w2, s3, d, rfl, ha, hd, hk1, hk2⟩
    · refine ⟨m1, k, w, s, l.setMark false, r.setMark false, ctx1, rfl,
        hb.ne_item inv.absent, ?_, ?_⟩
      · intro hlt
        obtain ⟨hb1, hs1⟩ := hb.descend_left hlt
        exact ⟨⟨hb1, inv.absent, hs1, fun _ _ _ _ _ _ => hgl,
          fun _ _ _ h => by simp at h⟩, pot_left rfl (Or.inl hmeas.1) hmeas.2⟩
      · intro hlt
        obtain ⟨hb1, hs1⟩ := hb.descend_right hlt
        exact ⟨⟨hb1, inv.absent, hs1, fun _ _ _ _ _ _ => hgr,
          fun _ _ _ h => by simp at h⟩, pot_right rfl (Or.inl hmeas.1) hmeas.2⟩
    · have h1 : k1 < item := inv.base.before _ hk1
      have h2 : item < k2 := inv.base.after _ hk2
      refine ⟨_, _, _, _, _, _, ctx1, rfl, hb.ne_item inv.absent, ?_, ?_⟩
      · intro hlt
        obtain ⟨hb1, hs1⟩ := hb.descend_left hlt
        refine ⟨⟨hb1, inv.absent, hs1, ?_, ?_⟩, pot_left rfl (Or.inl hmeas.1) hmeas.2⟩
        · intro f1 f2 rest he hf
          simp only [List.cons.injEq] at he
          rw [← he.1] at hf
          exact Bool.noConfusion hf
        · intro f1 rest _ _ _
          simp only [itemChild, not_lt_of_gt h1, if_false]
          exact hgl
      · intro hlt
        obtain ⟨hb1, hs1⟩ := hb.descend_right hlt
        refine ⟨⟨hb1, inv.absent, hs1, ?_, ?_⟩, pot_right rfl (Or.inl hmeas.1) hmeas.2⟩
        · intro f1 f2 rest he hf
          simp only [List.cons.injEq] at he
          rw [← he.1] at hf
          exact Bool.noConfusion hf
        · intro f1 rest _ _ _
          simp only [itemChild, h2, if_true]
          exact hgr
  · rw [if_neg hsp]
    have hb := inv.base
    refine ⟨m, k, w, s, l, r, ctx, rfl, hb.ne_item inv.absent, ?_, ?_⟩
    · intro hlt
      obtain ⟨hb1, hs1⟩ := hb.descend_left hlt
      refine ⟨⟨hb1, inv.absent, hs1, ?_, ?_⟩, pot_left rfl (Or.inr ⟨rfl, rfl⟩) rfl⟩
      · intro f1 f2 rest he hf hu
        simp only [List.cons.injEq] at he
        obtain ⟨rfl, rfl⟩ := he
        have := inv.sib f2 rest rfl (by simpa using hf) hu
        simpa [itemChild, hlt] using this
      · intro f1 rest he h1 h2
        simp only [List.cons.injEq] at he
        obtain ⟨rfl, rfl⟩ := he
        exact absurd (by simp [h1, h2]) hsp
    · intro hlt
      obtain ⟨hb1, hs1⟩ := hb.descend_right hlt
      refine ⟨⟨hb1, inv.absent, hs1, ?_, ?_⟩, pot_right rfl (Or.inr ⟨rfl, rfl⟩) rfl⟩
      · intro f1 f2 rest he hf hu
        simp only [List.cons.injEq] at he
        obtain ⟨rfl, rfl⟩ := he
        have := inv.sib f2 rest rfl (by simpa using hf) hu
        simpa [itemChild, not_lt_of_gt hlt] using this
      · intro f1 rest he h1 h2
        simp only [List.cons.injEq] at he
        obtain ⟨rfl, rfl⟩ := he
        exact absurd (by simp [h1, h2]) hsp

theorem insertLoop_spec {item : T} {L : List (T × ℚ)} :
    ∀ (fuel : Nat) (n : Node T) (ctx : List (Frame T)), LoopInv item L n ctx →
      insertPot n ctx < fuel →
      ∃ ctx1, insertLoop item fuel n ctx = some ctx1 ∧ LoopInv item L nil ctx1 := by
  intro fuel
  induction fuel with
  | zero => intro n ctx _ h; exact absurd h (Nat.not_lt_zero _)
  | succ fuel ih =>
    intro n ctx inv hpot
    cases n with
    | nil => exact ⟨ctx, rfl, inv⟩
    | node m k w s l r =>
      obtain ⟨m1, k1, w1, s1, l1, r1, ctx1, hbody, hne, hl, hr⟩ := insert_body inv
      rw [insertLoop, hbody]
      simp only [if_neg hne]
      by_cases hlt : item < k1
      · rw [if_pos hlt]
        exact ih _ _ (hl hlt).1 (by have := (hl hlt).2; omega)
      · rw [if_neg hlt]
        have hgt : k1 < item := lt_of_le_of_ne (not_lt.1 hlt) hne
        exact ih _ _ (hr hgt).1 (by have := (hr hgt).2; omega)

end Ordered

section Ordered
variable [LinearOrder T]

theorem filter_mid {A B : List (T × ℚ)} {item : T}
    (hb : ∀ x ∈ B, x.1 < item) (ha : ∀ x ∈ A, item < x.1) :
    (B ++ A).filter (fun x => decide (x.1 < item)) = B ∧
      (B ++ A).filter (fun x => decide (item < x.1)) = A := by
  rw [List.filter_append, List.filter_append]
  have h1 : B.filter (fun x => decide (x.1 < item)) = B :=
    List.filter_eq_self.2 fun x hx => by simpa using hb x hx
  have h2 : A.filter (fun x => decide (x.1 < item)) = [] :=
    List.filter_eq_nil_iff.2 fun x hx => by simpa using le_of_lt (ha x hx)
  have h3 : B.filter (fun x => decide (item < x.1)) = [] :=
    List.filter_eq_nil_iff.2 fun x hx => by simpa using le_of_lt (hb x hx)
  have h4 : A.filter (fun x => decide (item < x.1)) = A :=
    List.filter_eq_self.2 fun x hx => by simpa using ha x hx
  rw [h1, h2, h3, h4]
  simp

theorem sorted_mid {A B : List (T × ℚ)} {item : T} (w : ℚ) (hs : KeysSorted (B ++ A))
    (hb : ∀ x ∈ B, x.1 < item) (ha : ∀ x ∈ A, item < x.1) :
    KeysSorted (B ++ (item, w) :: A) := by
  rw [keysSorted_append] at hs
  rw [keysSorted_append, keysSorted_cons]
  refine ⟨hs.1, ⟨ha, hs.2.1⟩, ?_⟩
  intro a haB b hb1
  rcases List.mem_cons.1 hb1 with rfl | hb1
  · exact hb a haB
  · exact hs.2.2 a haB b hb1

/-- What `insert` does to a valid tree that does not hold the item. -/
theorem insert_spec {item : T} {w : ℚ} {t : Node T} {fuel : Nat} (hv : Valid t)
    (ha : ∀ w1, (item, w1) ∉ toList t) (hf : insertFuel t ≤ fuel) :
    ∃ t1, insert fuel item w t = some t1 ∧ Valid t1 ∧
      toList t1 = (toList t).filter (fun x => decide (x.1 < item)) ++
        (item, w) :: (toList t).filter (fun x => decide (item < x.1)) := by
  obtain ⟨hsorted, hsum, hcol⟩ := hv
  have inv0 : LoopInv item (toList t) t [] :=
    ⟨⟨rfl, hsorted, fun _ h => by simp [ctxBefore] at h, fun _ h => by simp [ctxAfter] at h,
      sumOK_kidsOK hsum, fun _ h => by simp at h, hcol⟩, ha, hsum,
      fun _ _ _ h => by simp at h, fun _ _ h => by simp at h⟩
  obtain ⟨ctx, hloop, inv⟩ := insertLoop_spec fuel t [] inv0 (by
    unfold insertPot insertFuel at *
    simp only [ctxReds, ctxSize, Nat.add_zero]
    omega)
  have hL : toList t = ctxBefore ctx ++ ctxAfter ctx := by
    rw [← inv.base.content, toList_zip]
    simp [toList]
  have hfm := filter_mid inv.base.before inv.base.after
  have hsm := sorted_mid w (hL ▸ hsorted) inv.base.before inv.base.after
  rw [← hL] at hfm
  rw [hfm.1, hfm.2]
  unfold insert
  rw [hloop]
  cases ctx with
  | nil =>
    refine ⟨_, rfl, ⟨?_, ?_, ?_⟩, ?_⟩
    · simpa [propagateSumsUp, toList, ctxBefore, ctxAfter] using hsm
    · exact propagateSumsUp_sumOK (by simp [KidsOK, SumOK]) (fun _ h => by simp at h)
    · rw [colourOK_propagateSumsUp]
      exact ⟨by simp [RedOK], rfl⟩
    · simp [propagateSumsUp, toList, ctxBefore, ctxAfter, Node.setSum]
  | cons p rest =>
    have hu : ∀ f1 f2 rest1, p :: rest = f1 :: f2 :: rest1 → f1.mark = true →
        f2.sibling.isBlack = true := by
      intro f1 f2 rest1 he hm
      by_contra hb
      have hb1 : f2.sibling.isBlack = false := by simpa using hb
      obtain ⟨_, _, _, _, _, h, _⟩ := inv.uncle f1 f2 rest1 he hm hb1
      exact Node.noConfusion h
    obtain ⟨n1, ctx1, hs, hc, -⟩ := split_colour (k := item) (w := w) (s := 0)
      (l := nil) (r := nil) trivial trivial (ctxRedOK_mono inv.base.colour.2) hu
    obtain ⟨-, hcont, -, -⟩ := split_shape hs
    obtain ⟨hk, hcx⟩ := split_sums hs (by simp [KidsOK, SumOK]) inv.base.sumC
    simp only [hs]
    have htl : toList (propagateSumsUp n1 ctx1) =
        ctxBefore (p :: rest) ++ (item, w) :: ctxAfter (p :: rest) := by
      rw [toList_propagateSumsUp, hcont, toList_zip]
      simp [toList]
    refine ⟨_, rfl, ⟨?_, propagateSumsUp_sumOK hk hcx, colourOK_propagateSumsUp.2 hc⟩, htl⟩
    rw [htl]
    exact hsm

end Ordered

section Ordered
variable [LinearOrder T]

theorem keysSorted_unique {L : List (T × ℚ)} (hs : KeysSorted L) {k : T} {w1 w2 : ℚ}
    (h1 : (k, w1) ∈ L) (h2 : (k, w2) ∈ L) : w1 = w2 := by
  induction L with
  | nil => simp at h1
  | cons a L ih =>
    rw [keysSorted_cons] at hs
    rcases List.mem_cons.1 h1 with e1 | m1 <;> rcases List.mem_cons.1 h2 with e2 | m2
    · exact (Prod.mk.inj (e1.trans e2.symm)).2
    · subst e1
      exact absurd (hs.1 _ m2) (lt_irrefl _)
    · subst e2
      exact absurd (hs.1 _ m1) (lt_irrefl _)
    · exact ih hs.2 m1 m2

theorem lookup_zip (item : T) :
    ∀ (n : Node T) (ctx : List (Frame T)),
      zip (lookup item n ctx).1 (lookup item n ctx).2 = zip n ctx := by
  intro n
  induction n with
  | nil => intro ctx; rfl
  | node m k w s l r ihl ihr =>
    intro ctx
    unfold lookup
    by_cases hk : k = item
    · simp only [if_pos hk]
    · simp only [if_neg hk]
      by_cases hlt : item < k
      · simp only [if_pos hlt]
        rw [ihl]; rfl
      · simp only [if_neg hlt]
        rw [ihr]; rfl

theorem lookup_sums (item : T) :
    ∀ (n : Node T) (ctx : List (Frame T)), SumOK n → CtxOK ctx →
      SumOK (lookup item n ctx).1 ∧ CtxOK (lookup item n ctx).2 := by
  intro n
  induction n with
  | nil => intro ctx h1 h2; exact ⟨h1, h2⟩
  | node m k w s l r ihl ihr =>
    intro ctx h1 h2
    unfold lookup
    by_cases hk : k = item
    · simp only [if_pos hk]
      exact ⟨h1, h2⟩
    · simp only [if_neg hk]
      by_cases hlt : item < k
      · simp only [if_pos hlt]
        exact ihl _ h1.2.1 (ctxOK_cons.2 ⟨h1.2.2, h2⟩)
      · simp only [if_neg hlt]
        exact ihr _ h1.2.2 (ctxOK_cons.2 ⟨h1.2.1, h2⟩)

theorem lookup_found (item : T) :
    ∀ (n : Node T) (ctx : List (Frame T)) {m : Bool} {k : T} {w s : ℚ} {l r : Node T},
      (lookup item n ctx).1 = node m k w s l r → k = item := by
  intro n
  induction n with
  | nil => intro ctx m k w s l r h; exact Node.noConfusion h
  | node m0 k0 w0 s0 l0 r0 ihl ihr =>
    intro ctx m k w s l r h
    unfold lookup at h
    by_cases hk : k0 = item
    · simp only [if_pos hk] at h
      cases h
      exact hk
    · simp only [if_neg hk] at h
      by_cases hlt : item < k0
      · simp only [if_pos hlt] at h
        exact ihl _ h
      · simp only [if_neg hlt] at h
        exact ihr _ h

theorem lookup_absent (item : T) :
    ∀ (n : Node T) (ctx : List (Frame T)), KeysSorted (toList n) →
      (lookup item n ctx).1 = nil → ∀ w, (item, w) ∉ toList n := by
  intro n
  induction n with
  | nil => intro ctx _ _ w h; simp [toList] at h
  | node m0 k0 w0 s0 l0 r0 ihl ihr =>
    intro ctx hs h w hm
    rw [toList, keysSorted_append, keysSorted_cons] at hs
    unfold lookup at h
    simp only [toList, List.mem_append, List.mem_cons, Prod.mk.injEq] at hm
    by_cases hk : k0 = item
    · simp only [if_pos hk] at h
      exact Node.noConfusion h
    · simp only [if_neg hk] at h
      by_cases hlt : item < k0
      · simp only [if_pos hlt] at h
        rcases hm with hm | hm | hm
        · exact ihl _ hs.1 h w hm
        · exact hk hm.1.symm
        · exact absurd (lt_trans hlt (hs.2.1.1 _ hm)) (lt_irrefl _)
      · simp only [if_neg hlt] at h
        rcases hm with hm | hm | hm
        · exact hlt (hs.2.2 _ hm (k0, w0) (List.mem_cons_self _ _))
        · exact hk hm.1.symm
        · exact ihr _ hs.2.1.2 h w hm

theorem lookup_mem (item : T) (t : Node T) {m : Bool} {k : T} {w s : ℚ} {l r : Node T}
    (h : (lookup item t []).1 = node m k w s l r) : (item, w) ∈ toList t := by
  have hz := lookup_zip item t []
  have hk := lookup_found item t [] h
  rw [h] at hz
  simp only [zip] at hz
  rw [← hz, toList_zip, ← hk]
  simp [toList]

theorem getWeight_iff {item : T} {t : Node T} (hs : KeysSorted (toList t)) (w : ℚ) :
    getWeight item t = some w ↔ (item, w) ∈ toList t := by
  unfold getWeight
  cases h : (lookup item t []).1 with
  | nil =>
    simp only [reduceCtorEq, false_iff]
    exact lookup_absent item t [] hs h w
  | node m k w1 s l r =>
    have hm := lookup_mem item t h
    simp only [Option.some.injEq]
    constructor
    · rintro rfl; exact hm
    · intro h2; exact keysSorted_unique hs hm h2

theorem inTree_iff {item : T} {t : Node T} (hs : KeysSorted (toList t)) :
    inTree item t = true ↔ ∃ w, (item, w) ∈ toList t := by
  unfold inTree
  cases h : (lookup item t []).1 with
  | nil =>
    simp only [isNil_nil, Bool.not_true, Bool.false_eq_true, false_iff, not_exists]
    exact lookup_absent item t [] hs h
  | node m k w1 s l r =>
    simp only [isNil_node, Bool.not_false, true_iff]
    exact ⟨w1, lookup_mem item t h⟩

theorem map_mid {A B : List (T × ℚ)} {k : T} (w0 w : ℚ) (hs : KeysSorted (A ++ (k, w0) :: B)) :
    (A ++ (k, w0) :: B).map (fun x => if x.1 = k then (k, w) else x) = A ++ (k, w) :: B ∧
      KeysSorted (A ++ (k, w) :: B) := by
  rw [keysSorted_append, keysSorted_cons] at hs
  constructor
  · rw [List.map_append, List.map_cons]
    have h1 : A.map (fun x => if x.1 = k then (k, w) else x) = A := by
      conv_rhs => rw [← List.map_id A]
      apply List.map_congr_left
      intro x hx
      have := hs.2.2 x hx (k, w0) (List.mem_cons_self _ _)
      simp [ne_of_lt this]
    have h2 : B.map (fun x => if x.1 = k then (k, w) else x) = B := by
      conv_rhs => rw [← List.map_id B]
      apply List.map_congr_left
      intro x hx
      have := hs.2.1.1 x hx
      simp [ne_of_gt this]
    rw [h1, h2]
    simp
  · rw [keysSorted_append, keysSorted_cons]
    refine ⟨hs.1, ⟨hs.2.1.1, hs.2.1.2⟩, ?_⟩
    intro a ha b hb
    rcases List.mem_cons.1 hb with rfl | hb
    · exact hs.2.2 a ha (k, w0) (List.mem_cons_self _ _)
    · exact hs.2.2 a ha b (List.mem_cons_of_mem _ hb)

/-- What `update` does to a valid tree that holds the item. -/
theorem update_spec {item : T} {w : ℚ} {t : Node T} (hv : Valid t)
    (hin : ∃ w0, (item, w0) ∈ toList t) :
    ∃ t1, update item w t = some t1 ∧ Valid t1 ∧
      toList t1 = (toList t).map (fun x => if x.1 = item then (item, w) else x) := by
  obtain ⟨hsorted, hsum, hcol⟩ := hv
  obtain ⟨w0, hw0⟩ := hin
  have hz := lookup_zip item t []
  have hsums := lookup_sums item t [] hsum (fun _ h => by simp at h)
  unfold update
  rcases hlk : lookup item t [] with ⟨n, ctx⟩
  rw [hlk] at hz hsums
  cases n with
  | nil =>
    exact absurd hw0 (lookup_absent item t [] hsorted (by rw [hlk]) w0)
  | node m k w1 s l r =>
    have hk : k = item := lookup_found item t [] (by rw [hlk])
    subst hk
    simp only [zip] at hz
    have ht : toList t = (ctxBefore ctx ++ toList l) ++ (k, w1) :: (toList r ++ ctxAfter ctx) := by
      rw [← hz, toList_zip]
      simp [toList]
    have hmm := map_mid w1 w (ht ▸ hsorted)
    have htl : toList (propagateSumsUp (node m k w s l r) ctx) =
        (ctxBefore ctx ++ toList l) ++ (k, w) :: (toList r ++ ctxAfter ctx) := by
      rw [toList_propagateSumsUp, toList_zip]
      simp [toList]
    refine ⟨_, rfl, ⟨?_, ?_, ?_⟩, ?_⟩
    · rw [htl]; exact hmm.2
    · exact propagateSumsUp_sumOK hsums.1.2 hsums.2
    · rw [colourOK_propagateSumsUp]
      have : ColourOK (node m k w1 s l r) ctx := by
        rw [← colourOK_zip, hz]; exact hcol
      exact this
    · rw [htl, ht]; exact hmm.1.symm

end Ordered

/-! ### choose -/

@[simp] theorem sum_nil : (nil : Node T).sum = 0 := rfl

@[simp] theorem sum_node (m : Bool) (k : T) (w s : ℚ) (l r : Node T) :
    (node m k w s l r).sum = s := rfl

@[simp] theorem weightSum_nil : weightSum ([] : List (T × ℚ)) = 0 := rfl

@[simp] theorem weightSum_cons (a : T × ℚ) (L : List (T × ℚ)) :
    weightSum (a :: L) = a.2 + weightSum L := by
  simp [weightSum]

@[simp] theorem weightSum_append (A B : List (T × ℚ)) :
    weightSum (A ++ B) = weightSum A + weightSum B := by
  simp [weightSum]

theorem sum_eq_weightSum {t : Node T} (h : SumOK t) : t.sum = weightSum (toList t) := by
  induction t with
  | nil => rfl
  | node m k w s l r ihl ihr =>
    obtain ⟨hs, hl, hr⟩ := h
    show s = _
    rw [hs, ihl hl, ihr hr, toList, weightSum_append, weightSum_cons]
    ring

theorem weightSum_nonneg {L : List (T × ℚ)} (h : ∀ x ∈ L, 0 ≤ x.2) : 0 ≤ weightSum L := by
  induction L with
  | nil => simp
  | cons a L ih =>
    rw [weightSum_cons]
    have h1 := h a (List.mem_cons_self _ _)
    have h2 := ih (fun x hx => h x (List.mem_cons_of_mem _ hx))
    linarith

theorem pick_append_lt {A B : List (T × ℚ)} {x : ℚ} (h0 : 0 ≤ x) (hx : x < weightSum A) :
    pick (A ++ B) x = pick A x := by
  induction A generalizing x with
  | nil => simp at hx; linarith
  | cons a A ih =>
    obtain ⟨k, w⟩ := a
    simp only [List.cons_append, pick]
    by_cases h : x < w
    · simp [h]
    · simp only [h, if_false]
      rw [weightSum_cons] at hx
      exact ih (by linarith) (by simp only at hx; linarith)

theorem pick_append_ge {A B : List (T × ℚ)} {x : ℚ} (hA : ∀ a ∈ A, 0 ≤ a.2)
    (hx : weightSum A ≤ x) : pick (A ++ B) x = pick B (x - weightSum A) := by
  induction A generalizing x with
  | nil => simp
  | cons a A ih =>
    obtain ⟨k, w⟩ := a
    have hw : 0 ≤ w := hA (k, w) (List.mem_cons_self _ _)
    have hrest := weightSum_nonneg (fun y hy => hA y (List.mem_cons_of_mem _ hy))
    rw [weightSum_cons] at hx
    simp only at hx
    have h : ¬ x < w := by linarith
    rw [List.cons_append]
    show (if x < w then some k else pick (A ++ B) (x - w)) = _
    rw [if_neg h, ih (fun y hy => hA y (List.mem_cons_of_mem _ hy)) (by linarith),
      weightSum_cons]
    congr 1
    ring

theorem chooseLoop_eq_pick {t : Node T} (hs : SumOK t) (hw : ∀ a ∈ toList t, 0 ≤ a.2)
    {x : ℚ} (h0 : 0 ≤ x) (hx : x < t.sum) : chooseLoop t x = pick (toList t) x := by
  induction t generalizing x with
  | nil => simp at hx; linarith
  | node m k w s l r ihl ihr =>
    obtain ⟨hsum, hl, hr⟩ := hs
    have hwl : ∀ a ∈ toList l, 0 ≤ a.2 := fun a ha => hw a (by simp [toList, ha])
    have hwr : ∀ a ∈ toList r, 0 ≤ a.2 := fun a ha => hw a (by simp [toList, ha])
    have hls := sum_eq_weightSum hl
    have hxs : x < w + l.sum + r.sum := by rw [← hsum]; exact hx
    have hrnil : r.isNil = true → r.sum = 0 := by
      intro h; cases r <;> simp_all
    rw [toList]
    cases l with
    | nil =>
      simp only [chooseLoop, toList, List.nil_append, pick]
      simp only [sum_nil, add_zero] at hxs
      by_cases h : x < w
      · simp [h]
      · have hrn : r.isNil = false := by
          cases hr1 : r.isNil with
          | false => rfl
          | true => have := hrnil hr1; linarith
        simp only [h, hrn, false_or, Bool.false_eq_true, if_false]
        exact ihr hr hwr (by linarith) (by linarith)
    | node lm lk lw ls ll lr =>
      simp only [chooseLoop]
      have hls1 : ls = weightSum (toList (node lm lk lw ls ll lr)) := hls
      simp only [sum_node] at hxs
      by_cases h : x < ls
      · simp only [h, if_true]
        rw [pick_append_lt h0 (by rw [← hls1]; exact h)]
        exact ihl hl hwl h0 h
      · simp only [h, if_false]
        rw [pick_append_ge hwl (by rw [← hls1]; linarith), ← hls1]
        simp only [pick]
        by_cases h2 : x - ls < w
        · simp [h2]
        · have hrn : r.isNil = false := by
            cases hr1 : r.isNil with
            | false => rfl
            | true => have := hrnil hr1; linarith
          simp only [h2, hrn, false_or, Bool.false_eq_true, if_false]
          exact ihr hr hwr (by linarith) (by linarith)

theorem pick_spec {L : List (T × ℚ)} (hw : ∀ a ∈ L, 0 ≤ a.2) {x : ℚ} (h0 : 0 ≤ x)
    (hx : x < weightSum L) :
    ∃ k w A B, pick L x = some k ∧ L = A ++ (k, w) :: B ∧ weightSum A ≤ x ∧
      x < weightSum A + w := by
  induction L generalizing x with
  | nil => simp at hx; linarith
  | cons a L ih =>
    obtain ⟨k, w⟩ := a
    rw [weightSum_cons] at hx
    simp only at hx
    by_cases h : x < w
    · exact ⟨k, w, [], L, by simp [pick, h], rfl, by simpa using h0, by simpa using h⟩
    · obtain ⟨k1, w1, A, B, hp, hL, h1, h2⟩ :=
        ih (fun y hy => hw y (List.mem_cons_of_mem _ hy)) (x := x - w) (by linarith)
          (by linarith)
      refine ⟨k1, w1, (k, w) :: A, B, by simp [pick, h, hp], by simp [hL], ?_, ?_⟩
      · rw [weightSum_cons]; simp only; linarith
      · rw [weightSum_cons]; simp only; linarith

theorem size_eq_length (t : Node T) : size t = (toList t).length := by
  induction t with
  | nil => rfl
  | node m k w s l r ihl ihr =>
    simp only [size, toList, List.length_append, List.length_cons, ihl, ihr]
    omega

theorem reds_le_size (t : Node T) : reds t ≤ size t := by
  induction t with
  | nil => exact Nat.le_refl _
  | node m k w s l r ihl ihr =>
    simp only [reds, size]
    cases m <;> simp <;> omega

theorem insertFuel_le (t : Node T) :
    insertFuel t ≤ ((toList t).length + 1) * ((toList t).length + 1) := by
  unfold insertFuel
  rw [← size_eq_length]
  have h := reds_le_size t
  have h1 : reds t * (size t + 1) ≤ size t * (size t + 1) := Nat.mul_le_mul_right _ h
  have h2 : (size t + 1) * (size t + 1) = size t * (size t + 1) + size t + 1 := by ring
  omega

section Ordered
variable [LinearOrder T]

theorem filter_lt_mid {A B : List (T × ℚ)} {k : T} {w : ℚ}
    (hs : KeysSorted (A ++ (k, w) :: B)) :
    (A ++ (k, w) :: B).filter (fun x => decide (x.1 < k)) = A := by
  rw [keysSorted_append, keysSorted_cons] at hs
  rw [List.filter_append, List.filter_cons]
  have h1 : A.filter (fun x => decide (x.1 < k)) = A :=
    List.filter_eq_self.2 fun x hx => by
      simpa using hs.2.2 x hx (k, w) (List.mem_cons_self _ _)
  have h2 : B.filter (fun x => decide (x.1 < k)) = [] :=
    List.filter_eq_nil_iff.2 fun x hx => by simpa using le_of_lt (hs.2.1.1 x hx)
  rw [h1, h2]
  simp

theorem choose_eq_pick {t : Node T} (hs : SumOK t) (hw : ∀ a ∈ toList t, 0 ≤ a.2)
    (hpos : 0 < t.sum) {p : ℚ} (hp0 : 0 ≤ p) (hp1 : p < 1) :
    choose p t = pick (toList t) (t.sum * p) := by
  unfold choose
  have hc : ¬ (p < 0 ∨ p ≥ 1) := by
    rintro (h | h) <;> linarith
  rw [if_neg hc]
  cases t with
  | nil => simp at hpos
  | node m k w s l r =>
    simp only [sum_node] at hpos ⊢
    exact chooseLoop_eq_pick hs hw (mul_nonneg (le_of_lt hpos) hp0) (by
      simp only [sum_node]
      nlinarith)

/-- C2: on a tree that satisfies the representation invariant, with non-negative weights of
positive total `W`, for `0 ≤ p < 1`, `choose(p)` returns the key `k` of the tree for which the
sum of the weights of the smaller keys is at most `p * W` and below `p * W` plus the weight of
`k`; `W` is the sum of all weights, and every tree with the same keys and weights gives the
same key. -/
theorem choose_spec (t : Node T) (hv : Valid t) (hw : ∀ a ∈ toList t, 0 ≤ a.2)
    (hpos : 0 < t.sum) (p : ℚ) (hp0 : 0 ≤ p) (hp1 : p < 1) :
    ∃ k w, choose p t = some k ∧ (k, w) ∈ toList t ∧
      weightSum ((toList t).filter fun x => decide (x.1 < k)) ≤ p * t.sum ∧
      p * t.sum < weightSum ((toList t).filter fun x => decide (x.1 < k)) + w ∧
      t.sum = weightSum (toList t) ∧
      ∀ t2 : Node T, Valid t2 → toList t2 = toList t → choose p t2 = some k := by
  obtain ⟨hsorted, hsum, _⟩ := hv
  have hW := sum_eq_weightSum hsum
  have hx0 : 0 ≤ t.sum * p := mul_nonneg (le_of_lt hpos) hp0
  have hx1 : t.sum * p < weightSum (toList t) := by rw [← hW]; nlinarith
  obtain ⟨k, w, A, B, hp, hL, h1, h2⟩ := pick_spec hw hx0 hx1
  have hf : (toList t).filter (fun x => decide (x.1 < k)) = A := by
    rw [hL]; exact filter_lt_mid (hL ▸ hsorted)
  refine ⟨k, w, ?_, by rw [hL]; simp, ?_, ?_, hW, ?_⟩
  · rw [choose_eq_pick hsum hw hpos hp0 hp1, hp]
  · rw [hf, mul_comm]; exact h1
  · rw [hf, mul_comm]; exact h2
  · intro t2 hv2 he
    have hs2 := hv2.2.1
    have hW2 := sum_eq_weightSum hs2
    rw [he, ← hW] at hW2
    rw [choose_eq_pick hs2 (he ▸ hw) (hW2 ▸ hpos) hp0 hp1, he, hW2, hp]

end Ordered

theorem valid_two : Valid (node false 1 3 4 (node true 0 1 1 nil nil) nil : Node Nat) := by
  refine ⟨?_, ?_, ?_⟩
  · simp [KeysSorted, toList]
  · simp [SumOK]; norm_num
  · simp [ColourOK, RedOK, CtxRedOK]

/-- Witness for C2: the tree with the keys 0 and 1 of weights 1 and 3, and `p = 1/4`. -/
theorem choose_spec_witness :
    ∃ k w, choose (1 / 4) (node false 1 3 4 (node true 0 1 1 nil nil) nil : Node Nat) = some k ∧
      (k, w) ∈ toList (node false 1 3 4 (node true 0 1 1 nil nil) nil : Node Nat) ∧
      weightSum ((toList (node false 1 3 4 (node true 0 1 1 nil nil) nil : Node Nat)).filter
        fun x => decide (x.1 < k)) ≤
          1 / 4 * (node false 1 3 4 (node true 0 1 1 nil nil) nil : Node Nat).sum ∧
      1 / 4 * (node false 1 3 4 (node true 0 1 1 nil nil) nil : Node Nat).sum <
        weightSum ((toList (node false 1 3 4 (node true 0 1 1 nil nil) nil : Node Nat)).filter
          fun x => decide (x.1 < k)) + w ∧
      (node false 1 3 4 (node true 0 1 1 nil nil) nil : Node Nat).sum =
        weightSum (toList (node false 1 3 4 (node true 0 1 1 nil nil) nil : Node Nat)) ∧
      ∀ t2 : Node Nat, Valid t2 →
        toList t2 = toList (node false 1 3 4 (node true 0 1 1 nil nil) nil : Node Nat) →
        choose (1 / 4) t2 = some k :=
  choose_spec _ valid_two (by simp [toList]) (by simp) (1 / 4) (by norm_num) (by norm_num)

theorem insert_chain :
    ∃ t1 t2 t3 : Node Char, insert 16 'a' 1 nil = some t1 ∧ insert 16 'b' 3 t1 = some t2 ∧
      insert 16 'c' (1 / 1000) t2 = some t3 ∧ Valid t3 ∧
      toList t3 = [('a', 1), ('b', 3), ('c', 1 / 1000)] := by
  have v0 : Valid (nil : Node Char) :=
    ⟨by simp [KeysSorted, toList], trivial, trivial, rfl⟩
  obtain ⟨t1, h1, v1, l1⟩ := @insert_spec _ _ 'a' 1 _ 16 v0
    (by simp [toList]) (le_trans (insertFuel_le _) (by simp [toList]))
  simp only [toList, List.filter_nil, List.nil_append] at l1
  obtain ⟨t2, h2, v2, l2⟩ := @insert_spec _ _ 'b' 3 _ 16 v1
    (by rw [l1]; simp) (le_trans (insertFuel_le _) (by rw [l1]; simp))
  rw [l1] at l2
  have e2 : toList t2 = [('a', 1), ('b', 3)] := by
    rw [l2]; decide
  obtain ⟨t3, h3, v3, l3⟩ := @insert_spec _ _ 'c' (1 / 1000) _ 16 v2
    (by rw [e2]; simp) (le_trans (insertFuel_le _) (by rw [e2]; simp))
  rw [e2] at l3
  have e3 : toList t3 = [('a', 1), ('b', 3), ('c', 1 / 1000)] := by
    have ha : 'a' < 'c' := by decide
    have hb : 'b' < 'c' := by decide
    rw [l3]
    simp [List.filter, ha, hb, not_lt_of_gt ha, not_lt_of_gt hb]
  exact ⟨t1, t2, t3, h1, h2, h3, v3, e3⟩

theorem choose_chain (p : ℚ) (hp0 : 0 ≤ p) (hp1 : p < 1) :
    ∃ t1 t2 t3 : Node Char, insert 16 'a' 1 nil = some t1 ∧ insert 16 'b' 3 t1 = some t2 ∧
      insert 16 'c' (1 / 1000) t2 = some t3 ∧
      choose p t3 = pick [('a', 1), ('b', 3), ('c', 1 / 1000)] (4001 / 1000 * p) := by
  obtain ⟨t1, t2, t3, h1, h2, h3, v3, e3⟩ := insert_chain
  refine ⟨t1, t2, t3, h1, h2, h3, ?_⟩
  have hsum : t3.sum = 4001 / 1000 := by
    rw [sum_eq_weightSum v3.2.1, e3]
    simp [weightSum]
    norm_num
  have hw : ∀ a ∈ toList t3, 0 ≤ a.2 := by
    rw [e3]
    intro a ha
    simp only [List.mem_cons, List.mem_singleton, List.not_mem_nil, or_false] at ha
    rcases ha with rfl | rfl | rfl <;> norm_num
  rw [choose_eq_pick v3.2.1 hw (by rw [hsum]; norm_num) hp0 hp1, e3, hsum]

/-- C17 (as amended): after inserting the keys `a`, `b` and `c` with the weights 1, 3 and
1/1000 into an empty tree, `choose(0.24)` returns `a`, `choose(0.25)` returns `b` and
`choose(0.9999)` returns `c`. -/
theorem choose_example_amended :
    ∃ t1 t2 t3 : Node Char, insert 16 'a' 1 nil = some t1 ∧ insert 16 'b' 3 t1 = some t2 ∧
      insert 16 'c' (1 / 1000) t2 = some t3 ∧
      choose (24 / 100) t3 = some 'a' ∧ choose (1 / 4) t3 = some 'b' ∧
      choose (9999 / 10000) t3 = some 'c' := by
  obtain ⟨t1, t2, t3, h1, h2, h3, _, e3⟩ := insert_chain
  obtain ⟨a1, a2, a3, g1, g2, g3, c1⟩ := choose_chain (24 / 100) (by norm_num) (by norm_num)
  obtain ⟨b1, b2, b3, i1, i2, i3, c2⟩ := choose_chain (1 / 4) (by norm_num) (by norm_num)
  obtain ⟨d1, d2, d3, j1, j2, j3, c3⟩ :=
    choose_chain (9999 / 10000) (by norm_num) (by norm_num)
  rw [h1] at g1 i1 j1
  cases g1; cases i1; cases j1
  rw [h2] at g2 i2 j2
  cases g2; cases i2; cases j2
  rw [h3] at g3 i3 j3
  cases g3; cases i3; cases j3
  refine ⟨t1, t2, t3, h1, h2, h3, ?_, ?_, ?_⟩
  · rw [c1]; simp only [pick]; norm_num
  · rw [c2]; simp only [pick]; norm_num
  · rw [c3]; simp only [pick]; norm_num

/-- Counterexample to C17 as stated: with the keys `a`, `b` and `c` of weights 1, 3 and 1/1000
inserted, `0.9999 * 4.001` is above `1 + 3`, and `choose(0.9999)` returns `c`, not `b`. -/
theorem choose_example_counterexample :
    ∃ t1 t2 t3 : Node Char, insert 16 'a' 1 nil = some t1 ∧ insert 16 'b' 3 t1 = some t2 ∧
      insert 16 'c' (1 / 1000) t2 = some t3 ∧
      choose (9999 / 10000) t3 = some 'c' ∧ choose (9999 / 10000) t3 ≠ some 'b' := by
  obtain ⟨t1, t2, t3, h1, h2, h3, c3⟩ :=
    choose_chain (9999 / 10000) (by norm_num) (by norm_num)
  have hc : choose (9999 / 10000) t3 = some 'c' := by
    rw [c3]; simp only [pick]; norm_num
  refine ⟨t1, t2, t3, h1, h2, h3, hc, ?_⟩
  rw [hc]
  decide

/-! ### remove: the node that is unlinked -/

theorem zip_append (n : Node T) (a b : List (Frame T)) : zip n (a ++ b) = zip (zip n a) b := by
  induction a generalizing n with
  | nil => rfl
  | cons f fs ih => exact ih (plug f n)

theorem ctxBefore_append (a b : List (Frame T)) :
    ctxBefore (a ++ b) = ctxBefore b ++ ctxBefore a := by
  induction a with
  | nil => simp [ctxBefore]
  | cons f fs ih =>
    simp only [List.cons_append, ctxBefore]
    cases f.dir <;> simp [ih]

theorem ctxAfter_append (a b : List (Frame T)) :
    ctxAfter (a ++ b) = ctxAfter a ++ ctxAfter b := by
  induction a with
  | nil => simp [ctxAfter]
  | cons f fs ih =>
    simp only [List.cons_append, ctxAfter]
    cases f.dir <;> simp [ih]

theorem sumOK_plug {f : Frame T} {c : Node T} (h : SumOK (plug f c)) :
    SumOK c ∧ SumOK f.sibling := by
  unfold plug at h
  cases hd : f.dir <;> simp only [hd, SumOK] at h
  · exact ⟨h.2.1, h.2.2⟩
  · exact ⟨h.2.2, h.2.1⟩

theorem sumOK_zip {n : Node T} {ctx : List (Frame T)} (h : SumOK (zip n ctx)) :
    SumOK n ∧ CtxOK ctx := by
  induction ctx generalizing n with
  | nil => exact ⟨h, fun _ hf => by simp at hf⟩
  | cons f fs ih =>
    obtain ⟨h1, h2⟩ := ih (n := plug f n) h
    obtain ⟨h3, h4⟩ := sumOK_plug h1
    exact ⟨h3, ctxOK_cons.2 ⟨h4, h2⟩⟩

theorem length_le_ctxSize (ctx : List (Frame T)) : ctx.length ≤ ctxSize ctx := by
  induction ctx with
  | nil => exact Nat.le_refl _
  | cons f fs ih => simp only [List.length_cons, ctxSize]; omega

theorem leftMax_spec :
    ∀ (l : Node T) (acc : List (Frame T)), l.isNil = false →
      ∃ xm xk xw xs xl acc1, leftMax l acc = (node xm xk xw xs xl nil, acc1) ∧
        zip (node xm xk xw xs xl nil) acc1 = zip l acc ∧
        (ctxAfter acc = [] → ctxAfter acc1 = []) := by
  intro l
  induction l with
  | nil => intro _ h; simp at h
  | node m k w s a b _ ihb =>
    intro acc _
    cases b with
    | nil => exact ⟨m, k, w, s, a, acc, by simp [leftMax], rfl, fun h => h⟩
    | node bm bk bw bs bl br =>
      obtain ⟨xm, xk, xw, xs, xl, acc1, h1, h2, h3⟩ :=
        ihb (⟨Dir.right, m, k, w, s, a⟩ :: acc) rfl
      refine ⟨xm, xk, xw, xs, xl, acc1, ?_, ?_, ?_⟩
      · rw [leftMax, h1]
      · rw [h2]; rfl
      · intro h
        exact h3 (by simpa [ctxAfter] using h)

theorem colourOK_frame_congr {n : Node T} {f g : Frame T} {ctx : List (Frame T)}
    (hm : g.mark = f.mark) (hs : g.sibling = f.sibling) :
    ColourOK n (g :: ctx) ↔ ColourOK n (f :: ctx) := by
  unfold ColourOK
  simp only [CtxRedOK, hm, hs]

theorem colourOK_append_congr {n : Node T} {f g : Frame T} (a ctx : List (Frame T))
    (hm : g.mark = f.mark) (hs : g.sibling = f.sibling) (hd : g.dir = f.dir) :
    ColourOK n (a ++ g :: ctx) ↔ ColourOK n (a ++ f :: ctx) := by
  rw [← colourOK_zip, ← @colourOK_zip T n (a ++ f :: ctx), zip_append, zip_append, zip, zip,
    colourOK_zip, colourOK_zip]
  unfold ColourOK plug
  rw [hd]
  cases f.dir <;> simp only [RedOK, hm, hs, isBlack_node]

theorem ctxOK_append_congr {f g : Frame T} (a ctx : List (Frame T))
    (hs : g.sibling = f.sibling) : CtxOK (a ++ g :: ctx) ↔ CtxOK (a ++ f :: ctx) := by
  unfold CtxOK
  simp only [List.mem_append, List.mem_cons]
  constructor
  · intro h x hx
    rcases hx with hx | rfl | hx
    · exact h x (Or.inl hx)
    · rw [← hs]; exact h g (Or.inr (Or.inl rfl))
    · exact h x (Or.inr (Or.inr hx))
  · intro h x hx
    rcases hx with hx | rfl | hx
    · exact h x (Or.inl hx)
    · rw [hs]; exact h f (Or.inr (Or.inl rfl))
    · exact h x (Or.inr (Or.inr hx))

theorem ctxSize_append (a b : List (Frame T)) : ctxSize (a ++ b) = ctxSize a + ctxSize b := by
  induction a with
  | nil => simp [ctxSize]
  | cons f fs ih =>
    show 1 + size f.sibling + ctxSize (fs ++ b) = 1 + size f.sibling + ctxSize fs + ctxSize b
    rw [ih]; omega

/-! ### lengthen -/

theorem refocus_plug (f : Frame T) (c : Node T) (rest : List (Frame T)) :
    refocus f.dir (some (plug f c, rest)) = some (c, f :: rest) := by
  obtain ⟨d, m, k, w, s, sib⟩ := f
  cases d <;> rfl

theorem setMark_plug (b : Bool) (f : Frame T) (c : Node T) :
    (plug f c).setMark b = plug { f with mark := b } c := by
  obtain ⟨d, m, k, w, s, sib⟩ := f
  cases d <;> rfl

theorem ctxBefore_cons_congr {f g : Frame T} {r1 r2 : List (Frame T)} (hd : g.dir = f.dir)
    (hk : g.key = f.key) (hw : g.weight = f.weight) (hs : toList g.sibling = toList f.sibling)
    (hr : ctxBefore r1 = ctxBefore r2) : ctxBefore (g :: r1) = ctxBefore (f :: r2) := by
  simp only [ctxBefore, hd, hk, hw, hs, hr]

theorem ctxAfter_cons_congr {f g : Frame T} {r1 r2 : List (Frame T)} (hd : g.dir = f.dir)
    (hk : g.key = f.key) (hw : g.weight = f.weight) (hs : toList g.sibling = toList f.sibling)
    (hr : ctxAfter r1 = ctxAfter r2) : ctxAfter (g :: r1) = ctxAfter (f :: r2) := by
  simp only [ctxAfter, hd, hk, hw, hs, hr]

theorem redSibling_spec (n : Node T) (p0 : Frame T) (rest0 : List (Frame T)) :
    ∃ p rest, redSibling n p0 rest0 = some (n, p :: rest) ∧
      ctxBefore (p :: rest) = ctxBefore (p0 :: rest0) ∧
      ctxAfter (p :: rest) = ctxAfter (p0 :: rest0) ∧
      (CtxOK (p0 :: rest0) → CtxOK (p :: rest)) ∧
      (RedOK n → CtxRedOK true (p0 :: rest0) →
        CtxRedOK true (p :: rest) ∧ p.sibling.isBlack = true) ∧
      ((p = p0 ∧ rest = rest0) ∨ (p.mark = true ∧ rest.length = rest0.length + 1)) := by
  obtain ⟨d, pm, pk, pw, ps, sib⟩ := p0
  unfold redSibling
  cases sib with
  | nil =>
    refine ⟨_, _, by simp, rfl, rfl, fun h => h, fun _ h => ⟨h, rfl⟩, Or.inl ⟨rfl, rfl⟩⟩
  | node sm sk sw ss sl sr =>
    cases sm with
    | false =>
      refine ⟨_, _, by simp, rfl, rfl, fun h => h, fun _ h => ⟨h, rfl⟩, Or.inl ⟨rfl, rfl⟩⟩
    | true =>
      cases d with
      | left =>
        refine ⟨⟨Dir.left, true, pk, pw, pw + n.sum + sl.sum, sl⟩,
          ⟨Dir.left, false, sk, sw, sw + ps + sr.sum, sr⟩ :: rest0, ?_, ?_, ?_, ?_, ?_, ?_⟩
        · simp [rotateSibling, rotate, Dir.other, focusChild]
        · simp [ctxBefore]
        · simp [ctxAfter, toList]
        · intro h
          simp only [ctxOK_cons, SumOK] at h ⊢
          exact ⟨h.1.2.1, h.1.2.2, h.2⟩
        · intro _ h
          simp only [CtxRedOK, RedOK, isBlack_node, Bool.not_true, Bool.false_eq_true,
            and_false, imp_false, Bool.not_eq_true, true_implies, Bool.not_false] at h ⊢
          obtain ⟨⟨hk, hl, hr⟩, hpm, hrest⟩ := h
          subst hpm
          have hm := ctxRedOK_mono hrest
          simp [hl, hr, hk.1, hk.2, hm]
        · exact Or.inr ⟨rfl, rfl⟩
      | right =>
        refine ⟨⟨Dir.right, true, pk, pw, pw + sr.sum + n.sum, sr⟩,
          ⟨Dir.right, false, sk, sw, sw + sl.sum + ps, sl⟩ :: rest0, ?_, ?_, ?_, ?_, ?_, ?_⟩
        · simp [rotateSibling, rotate, Dir.other, focusChild]
        · simp [ctxBefore, toList]
        · simp [ctxAfter]
        · intro h
          simp only [ctxOK_cons, SumOK] at h ⊢
          exact ⟨h.1.2.2, h.1.2.1, h.2⟩
        · intro _ h
          simp only [CtxRedOK, RedOK, isBlack_node, Bool.not_true, Bool.false_eq_true,
            and_false, imp_false, Bool.not_eq_true, true_implies, Bool.not_false] at h ⊢
          obtain ⟨⟨hk, hl, hr⟩, hpm, hrest⟩ := h
          subst hpm
          have hm := ctxRedOK_mono hrest
          simp [hl, hr, hk.1, hk.2, hm]
        · exact Or.inr ⟨rfl, rfl⟩

theorem red_cases {n : Node T} (h : n.isBlack = false) :
    ∃ k w s l r, n = node true k w s l r := by
  cases n with
  | nil => simp at h
  | node m k w s l r =>
    simp only [isBlack_node, Bool.not_eq_false'] at h
    subst h
    exact ⟨k, w, s, l, r, rfl⟩

theorem farRotate_spec (n1 : Node T) (p : Frame T) (rest : List (Frame T)) (sm : Bool)
    (sk : T) (sw ss : ℚ) (sl sr : Node T) (hps : p.sibling = node sm sk sw ss sl sr)
    (hred : ¬ (sl.isBlack = true ∧ sr.isBlack = true)) :
    ∃ ctx2, farRotate n1 p rest sm sk sw ss sl sr = some (n1, ctx2) ∧
      ctxBefore ctx2 = ctxBefore (p :: rest) ∧ ctxAfter ctx2 = ctxAfter (p :: rest) ∧
      (CtxOK (p :: rest) → CtxOK ctx2) ∧
      (RedOK n1 → n1.isBlack = true → sm = false → CtxRedOK true (p :: rest) →
        CtxRedOK true ctx2) := by
  obtain ⟨d, pm, pk, pw, ps, sib⟩ := p
  simp only at hps
  subst hps
  unfold farRotate
  cases d with
  | left =>
    by_cases hsr : sr.isBlack = true
    · have hsl : sl.isBlack = false := by
        cases h : sl.isBlack with
        | false => rfl
        | true => exact absurd ⟨h, hsr⟩ hred
      obtain ⟨k, w, s, a, b, rfl⟩ := red_cases hsl
      simp [hsr, rotate, Dir.other, focusChild, ctxBefore, ctxAfter, toList, ctxOK_cons, SumOK,
        CtxRedOK, RedOK]
      tauto
    · have hsr1 : sr.isBlack = false := by simpa using hsr
      obtain ⟨k, w, s, a, b, rfl⟩ := red_cases hsr1
      cases sm <;> cases pm <;>
        simp [rotate, Dir.other, focusChild, ctxBefore, ctxAfter, toList, ctxOK_cons, SumOK,
          CtxRedOK, RedOK] <;>
        tauto
  | right =>
    by_cases hsl : sl.isBlack = true
    · have hsr : sr.isBlack = false := by
        cases h : sr.isBlack with
        | false => rfl
        | true => exact absurd ⟨hsl, h⟩ hred
      obtain ⟨k, w, s, a, b, rfl⟩ := red_cases hsr
      simp [hsl, rotate, Dir.other, focusChild, ctxBefore, ctxAfter, toList, ctxOK_cons, SumOK,
        CtxRedOK, RedOK]
      tauto
    · have hsl1 : sl.isBlack = false := by simpa using hsl
      obtain ⟨k, w, s, a, b, rfl⟩ := red_cases hsl1
      cases sm <;> cases pm <;>
        simp [rotate, Dir.other, focusChild, ctxBefore, ctxAfter, toList, ctxOK_cons, SumOK,
          CtxRedOK, RedOK] <;>
        tauto

theorem up_spec (fuel : Nat) (n1 : Node T) (p2 : Frame T) (rest : List (Frame T))
    (ih : ∃ pn rest1, lengthen fuel (plug p2 n1) rest = some (pn, rest1) ∧
      LengthenPost (plug p2 n1) rest pn rest1) :
    ∃ p3 rest1, refocus p2.dir (lengthen fuel (plug p2 n1) rest) = some (n1, p3 :: rest1) ∧
      ctxBefore (p3 :: rest1) = ctxBefore (p2 :: rest) ∧
      ctxAfter (p3 :: rest1) = ctxAfter (p2 :: rest) ∧
      (CtxOK (p2 :: rest) → CtxOK (p3 :: rest1)) ∧
      (RedOK (plug p2 n1) → CtxRedOK true rest → n1.isBlack = true →
        CtxRedOK true (p3 :: rest1)) := by
  obtain ⟨pn, rest1, he, hpn, hb, ha, hok, hcol⟩ := ih
  have key : ∀ p3 : Frame T, pn = plug p3 n1 → p3.dir = p2.dir → p3.key = p2.key →
      p3.weight = p2.weight → p3.sibling = p2.sibling →
      ∃ p3 rest1, refocus p2.dir (lengthen fuel (plug p2 n1) rest) = some (n1, p3 :: rest1) ∧
      ctxBefore (p3 :: rest1) = ctxBefore (p2 :: rest) ∧
      ctxAfter (p3 :: rest1) = ctxAfter (p2 :: rest) ∧
      (CtxOK (p2 :: rest) → CtxOK (p3 :: rest1)) ∧
      (RedOK (plug p2 n1) → CtxRedOK true rest → n1.isBlack = true →
        CtxRedOK true (p3 :: rest1)) := by
    intro p3 hp3 hd hk hw hs
    refine ⟨p3, rest1, ?_, ?_, ?_, ?_, ?_⟩
    · rw [he, hp3, ← hd, refocus_plug]
    · exact ctxBefore_cons_congr hd hk hw (by rw [hs]) hb
    · exact ctxAfter_cons_congr hd hk hw (by rw [hs]) ha
    · intro h
      rw [ctxOK_cons] at h ⊢
      exact ⟨hs ▸ h.1, hok h.2⟩
    · intro h1 h2 h3
      have hc := hcol h1 h2
      rw [hp3, colourOK_plug] at hc
      have := hc.2
      rw [h3] at this
      exact this
  rcases hpn with h | h
  · exact key p2 h rfl rfl rfl rfl
  · rw [setMark_plug] at h
    exact key _ h rfl rfl rfl rfl

theorem setMark_false_of_black {n : Node T} (h : n.isBlack = true) : n.setMark false = n := by
  cases n with
  | nil => rfl
  | node m k w s l r =>
    simp only [isBlack_node, Bool.not_eq_true'] at h
    subst h
    rfl

theorem isBlack_setMark_false (n : Node T) : (n.setMark false).isBlack = true := by
  cases n <;> rfl

theorem lengthen_spec :
    ∀ (fuel : Nat) (n : Node T) (ctx : List (Frame T)),
      ((n.isBlack = false ∧ 1 ≤ fuel) ∨ ctx.length + 1 ≤ fuel) →
      ∃ n1 ctx1, lengthen fuel n ctx = some (n1, ctx1) ∧ LengthenPost n ctx n1 ctx1 := by
  intro fuel
  induction fuel with
  | zero => intro n ctx h; omega
  | succ fuel ih =>
    intro n ctx hf
    unfold lengthen
    cases hnb : n.isBlack with
    | false =>
      refine ⟨n.setMark false, ctx, by simp, Or.inr rfl, rfl, rfl, fun h => h, ?_⟩
      intro h1 h2
      exact ⟨redOK_setMark_false h1, by rw [isBlack_setMark_false]; exact h2⟩
    | true =>
      have hf1 : ctx.length + 1 ≤ fuel + 1 := by
        rcases hf with h | h
        · rw [hnb] at h; exact absurd h.1 (by simp)
        · exact h
      cases ctx with
      | nil =>
        refine ⟨n, [], by simp, Or.inl rfl, rfl, rfl, fun h => h, ?_⟩
        intro h1 h2
        exact ⟨h1, by rw [hnb]; exact h2⟩
      | cons p0 rest0 =>
        obtain ⟨p, rest, hrs, hb, ha, hok, hcol, hshape⟩ := redSibling_spec n p0 rest0
        simp only [Bool.not_true, Bool.false_eq_true, ↓reduceIte, hrs]
        simp only [List.length_cons] at hf1
        -- the recursive call on the parent
        have hrec : ∀ p2 : Frame T, (p2.mark = p.mark) →
            ∃ pn rest1, lengthen fuel (plug p2 n) rest = some (pn, rest1) ∧
              LengthenPost (plug p2 n) rest pn rest1 := by
          intro p2 hm
          apply ih
          rcases hshape with ⟨_, h2⟩ | ⟨h1, h2⟩
          · right; rw [h2]; omega
          · left; rw [isBlack_plug, hm, h1]; exact ⟨rfl, by omega⟩
        -- common closing step
        have fin : ∀ ctx2 : List (Frame T),
            ctxBefore ctx2 = ctxBefore (p :: rest) → ctxAfter ctx2 = ctxAfter (p :: rest) →
            (CtxOK (p :: rest) → CtxOK ctx2) →
            (RedOK n → CtxRedOK true (p0 :: rest0) → CtxRedOK true ctx2) →
            LengthenPost n (p0 :: rest0) n ctx2 := by
          intro ctx2 h1 h2 h3 h4
          refine ⟨Or.inl rfl, h1.trans hb, h2.trans ha, fun h => h3 (hok h), ?_⟩
          intro hr hc
          exact ⟨hr, by rw [hnb]; exact h4 hr hc⟩
        unfold blackSibling
        cases hsib : p.sibling with
        | nil =>
          obtain ⟨p3, rest1, e1, e2, e3, e4, e5⟩ := up_spec fuel n p rest (hrec p rfl)
          refine ⟨n, p3 :: rest1, e1, fin _ e2 e3 e4 ?_⟩
          intro hr hc
          obtain ⟨hc1, hc2⟩ := hcol hr hc
          have hpl : ColourOK n (p :: rest) := ⟨hr, by rw [hnb]; exact hc1⟩
          exact e5 (colourOK_plug.2 hpl).1 (ctxRedOK_mono hc1.2.2) hnb
        | node sm sk sw ss sl sr =>
          by_cases hkids : sl.isBlack = true ∧ sr.isBlack = true
          · simp only [hkids.1, hkids.2, Bool.and_self, ↓reduceIte]
            cases hpm : p.mark with
            | false =>
              simp only [Bool.not_false, ↓reduceIte]
              obtain ⟨p3, rest1, e1, e2, e3, e4, e5⟩ :=
                up_spec fuel n ⟨p.dir, false, p.key, p.weight, p.sumWeights,
                  node true sk sw ss sl sr⟩ rest (hrec _ hpm.symm)
              refine ⟨n, p3 :: rest1, e1, fin _ ?_ ?_ ?_ ?_⟩
              · rw [e2]
                exact ctxBefore_cons_congr rfl rfl rfl (by rw [hsib]; simp [toList]) rfl
              · rw [e3]
                exact ctxAfter_cons_congr rfl rfl rfl (by rw [hsib]; simp [toList]) rfl
              · intro h
                apply e4
                rw [ctxOK_cons] at h ⊢
                rw [hsib] at h
                exact ⟨h.1, h.2⟩
              · intro hr hc
                obtain ⟨hc1, hc2⟩ := hcol hr hc
                have h1 := hc1.1
                rw [hsib] at h1
                have hpl : ColourOK n ((⟨p.dir, false, p.key, p.weight, p.sumWeights,
                    node true sk sw ss sl sr⟩ : Frame T) :: rest) := by
                  refine ⟨hr, ?_⟩
                  rw [hnb]
                  refine ⟨⟨fun _ => hkids, h1.2⟩, ?_, hpm ▸ hc1.2.2⟩
                  intro h; simp at h
                refine e5 (colourOK_plug.2 hpl).1 ?_ hnb
                have := hc1.2.2
                rw [hpm] at this
                exact this
            | true =>
              simp only [Bool.not_true, Bool.false_eq_true, ↓reduceIte]
              refine ⟨n, _, rfl, fin _ ?_ ?_ ?_ ?_⟩
              · exact ctxBefore_cons_congr rfl rfl rfl (by rw [hsib]; simp [toList]) rfl
              · exact ctxAfter_cons_congr rfl rfl rfl (by rw [hsib]; simp [toList]) rfl
              · intro h
                rw [ctxOK_cons] at h ⊢
                rw [hsib] at h
                exact ⟨h.1, h.2⟩
              · intro hr hc
                obtain ⟨hc1, hc2⟩ := hcol hr hc
                have h1 := hc1.1
                rw [hsib] at h1
                refine ⟨⟨fun _ => hkids, h1.2⟩, fun h => by simp at h, ?_⟩
                exact ctxRedOK_mono hc1.2.2
          · have hk2 : (sl.isBlack && sr.isBlack) = false := by
              cases h1 : sl.isBlack <;> cases h2 : sr.isBlack <;> simp_all
            simp only [hk2, Bool.false_eq_true, ↓reduceIte]
            obtain ⟨ctx2, e1, e2, e3, e4, e5⟩ :=
              farRotate_spec n p rest sm sk sw ss sl sr hsib hkids
            refine ⟨n, ctx2, e1, fin _ e2 e3 e4 ?_⟩
            intro hr hc
            obtain ⟨hc1, hc2⟩ := hcol hr hc
            rw [hsib] at hc2
            exact e5 hr hnb (by simpa using hc2) hc1

/-! ### remove -/

theorem finish_spec (c : Node T) (ctx1 : List (Frame T)) (hs : SumOK c) (hcol : ColourOK c ctx1)
    (hc : CtxOK ctx1) :
    ∃ t1, (match (some (c, ctx1) : Option (Node T × List (Frame T))) with
        | none => none
        | some (c, []) => some c
        | some (c, p :: rest) => some (propagateSumsUp (plug p c) rest)) = some t1 ∧
      SumOK t1 ∧ ColourOK t1 [] ∧ toList t1 = ctxBefore ctx1 ++ toList c ++ ctxAfter ctx1 := by
  cases ctx1 with
  | nil => exact ⟨c, rfl, hs, hcol, by simp [ctxBefore, ctxAfter]⟩
  | cons p rest =>
    rw [ctxOK_cons] at hc
    refine ⟨_, rfl, propagateSumsUp_sumOK (kidsOK_plug.2 ⟨hs, hc.1⟩) hc.2, ?_, ?_⟩
    · rw [colourOK_propagateSumsUp, colourOK_plug]
      exact hcol
    · rw [toList_propagateSumsUp, ← zip, toList_zip]

theorem unlink_spec (fuel : Nat) (nm : Bool) (nk : T) (nw ns : ℚ) (nl nr : Node T)
    (nctx : List (Frame T)) (hone : nl = nil ∨ nr = nil)
    (hcol : ColourOK (node nm nk nw ns nl nr) nctx) (hsl : SumOK nl) (hsr : SumOK nr)
    (hc : CtxOK nctx) (hf : nctx.length + 1 ≤ fuel) :
    ∃ t1, unlink fuel (node nm nk nw ns nl nr) nctx = some t1 ∧ SumOK t1 ∧ ColourOK t1 [] ∧
      toList t1 = ctxBefore nctx ++ (toList nl ++ toList nr) ++ ctxAfter nctx := by
  unfold unlink
  obtain ⟨child, hchild, hlist, hsc⟩ : ∃ child, (if nl.isNil then nr else nl) = child ∧
      toList child = toList nl ++ toList nr ∧ SumOK child := by
    rcases hone with h | h
    · subst h; exact ⟨nr, by simp, by simp [toList], hsr⟩
    · subst h
      cases nl with
      | nil => exact ⟨nil, by simp, by simp [toList], trivial⟩
      | node => exact ⟨_, by simp, by simp [toList], hsl⟩
  have hrc : RedOK child := by
    have h := hcol.1
    rw [← hchild]
    split
    · exact h.2.2
    · exact h.2.1
  have hbc : nm = true → child.isBlack = true := by
    intro hm
    have h := hcol.1.1 hm
    rw [← hchild]
    split
    · exact h.2
    · exact h.1
  have hctx : CtxRedOK true nctx := ctxRedOK_mono hcol.2
  simp only [hchild]
  have hafter : ∃ c ctx1, (if (!child.isNil && !nm) = true then lengthen fuel child nctx
        else some (child, nctx)) = some (c, ctx1) ∧ SumOK c ∧ ColourOK c ctx1 ∧ CtxOK ctx1 ∧
      toList c = toList child ∧ ctxBefore ctx1 = ctxBefore nctx ∧
      ctxAfter ctx1 = ctxAfter nctx := by
    by_cases hcase : (!child.isNil && !nm) = true
    · rw [if_pos hcase]
      obtain ⟨n1, ctx1, he, hn1, hb, ha, hok, hco⟩ := lengthen_spec fuel child nctx (Or.inr hf)
      refine ⟨n1, ctx1, he, ?_, hco hrc hctx, hok hc, ?_, hb, ha⟩
      · rcases hn1 with h | h <;> rw [h]
        · exact hsc
        · exact (sumOK_setMark _ _).2 hsc
      · rcases hn1 with h | h <;> rw [h]
        exact toList_setMark _ _
    · rw [if_neg hcase]
      refine ⟨child, nctx, rfl, hsc, ⟨hrc, ?_⟩, hc, rfl, rfl, rfl⟩
      have hb : child.isBlack = true := by
        cases nm with
        | true => exact hbc rfl
        | false =>
          cases child with
          | nil => rfl
          | node => simp at hcase
      rw [hb]
      exact hctx
  obtain ⟨c, ctx1, he, h1, h2, h3, h4, h5, h6⟩ := hafter
  rw [he]
  obtain ⟨t1, e1, e2, e3, e4⟩ := finish_spec c ctx1 h1 h2 h3
  exact ⟨t1, e1, e2, e3, by rw [e4, h4, h5, h6, hlist]⟩

variable [LinearOrder T]

theorem filter_ne_mid {A B : List (T × ℚ)} {k : T} {w : ℚ}
    (h : KeysSorted (A ++ (k, w) :: B)) :
    (A ++ (k, w) :: B).filter (fun x => decide (x.1 ≠ k)) = A ++ B := by
  rw [keysSorted_append, keysSorted_cons] at h
  obtain ⟨_, ⟨hB, _⟩, hA⟩ := h
  rw [List.filter_append, List.filter_cons]
  have h1 : A.filter (fun x => decide (x.1 ≠ k)) = A := by
    rw [List.filter_eq_self]
    intro a ha
    have := hA a ha (k, w) (List.mem_cons_self _ _)
    simpa using ne_of_lt this
  have h2 : B.filter (fun x => decide (x.1 ≠ k)) = B := by
    rw [List.filter_eq_self]
    intro b hb
    have := hB b hb
    simpa using (ne_of_lt this).symm
  rw [h1, h2]
  simp

theorem remove_spec {item : T} {t : Node T} {fuel : Nat} (hv : Valid t)
    (hin : ∃ w0, (item, w0) ∈ toList t) (hf : removeFuel t ≤ fuel) :
    ∃ t1, remove fuel item t = some t1 ∧ Valid t1 ∧
      toList t1 = (toList t).filter (fun x => decide (x.1 ≠ item)) := by
  obtain ⟨hsorted, hsum, hcol⟩ := hv
  unfold removeFuel at hf
  have hz := lookup_zip item t []
  unfold remove
  cases hl : lookup item t [] with
  | mk n ctx =>
    rw [hl] at hz
    simp only [zip] at hz
    cases n with
    | nil =>
      obtain ⟨w0, hw0⟩ := hin
      have := lookup_absent item t [] hsorted (by rw [hl]) w0
      exact absurd hw0 this
    | node m k w s l r =>
      have hk : k = item := lookup_found item t [] (by rw [hl])
      subst hk
      have hlist : toList t = ctxBefore ctx ++ (toList l ++ (k, w) :: toList r) ++ ctxAfter ctx := by
        rw [← hz, toList_zip, toList]
      have hfilt : (toList t).filter (fun x => decide (x.1 ≠ k)) =
          ctxBefore ctx ++ (toList l ++ toList r) ++ ctxAfter ctx := by
        have h1 : toList t = (ctxBefore ctx ++ toList l) ++ (k, w) :: (toList r ++ ctxAfter ctx) := by
          rw [hlist]; simp
        rw [h1, filter_ne_mid (h1 ▸ hsorted)]
        simp
      have hsz : size t = size (node m k w s l r) + ctxSize ctx := by rw [← hz, size_zip]
      have hso : SumOK (node m k w s l r) ∧ CtxOK ctx := sumOK_zip (hz ▸ hsum)
      have hco : ColourOK (node m k w s l r) ctx := colourOK_zip.1 (hz ▸ hcol)
      have wrap : ∀ t1, SumOK t1 → ColourOK t1 [] →
          toList t1 = ctxBefore ctx ++ (toList l ++ toList r) ++ ctxAfter ctx →
          Valid t1 ∧ toList t1 = (toList t).filter (fun x => decide (x.1 ≠ k)) := by
        intro t1 h1 h2 h3
        refine ⟨⟨?_, h1, h2⟩, h3.trans hfilt.symm⟩
        rw [h3, ← hfilt]
        exact List.Pairwise.sublist (List.filter_sublist _) hsorted
      cases l with
      | nil =>
        simp only
        have hlen := length_le_ctxSize ctx
        obtain ⟨t1, e1, e2, e3, e4⟩ := unlink_spec fuel m k w s nil r ctx (Or.inl rfl) hco
          trivial hso.1.2.2 hso.2 (by omega)
        exact ⟨t1, e1, wrap t1 e2 e3 e4⟩
      | node lm lk lw ls ll lr =>
        simp only
        obtain ⟨xm, xk, xw, xs, xl, acc1, hlm, hzx, hafter⟩ :=
          leftMax_spec (node lm lk lw ls ll lr) [] rfl
        rw [hlm]
        simp only
        have hafter1 : ctxAfter acc1 = [] := hafter rfl
        simp only [zip] at hzx
        -- the pointer to the rightmost node, before the key is overwritten
        have hzfull : zip (node xm xk xw xs xl nil)
            (acc1 ++ ⟨Dir.left, m, k, w, s, r⟩ :: ctx) = t := by
          rw [zip_append, hzx, zip]
          exact hz
        have hso1 := sumOK_zip (hzfull ▸ hsum)
        have hco1 : ColourOK (node xm xk xw xs xl nil)
            (acc1 ++ ⟨Dir.left, m, k, w, s, r⟩ :: ctx) := colourOK_zip.1 (hzfull ▸ hcol)
        have hco2 : ColourOK (node xm xk xw xs xl nil)
            (acc1 ++ ⟨Dir.left, m, xk, xw, s, r⟩ :: ctx) :=
          (colourOK_append_congr (g := ⟨Dir.left, m, k, w, s, r⟩) (f := ⟨Dir.left, m, xk, xw, s, r⟩) acc1 ctx rfl rfl rfl).1 hco1
        have hok2 : CtxOK (acc1 ++ ⟨Dir.left, m, xk, xw, s, r⟩ :: ctx) :=
          (ctxOK_append_congr (g := ⟨Dir.left, m, k, w, s, r⟩) (f := ⟨Dir.left, m, xk, xw, s, r⟩) acc1 ctx rfl).1 hso1.2
        have hlen : (acc1 ++ (⟨Dir.left, m, xk, xw, s, r⟩ : Frame T) :: ctx).length + 1 ≤ fuel := by
          have h1 := length_le_ctxSize (acc1 ++ (⟨Dir.left, m, k, w, s, r⟩ : Frame T) :: ctx)
          have h2 : size t = size (node xm xk xw xs xl nil) +
              ctxSize (acc1 ++ (⟨Dir.left, m, k, w, s, r⟩ : Frame T) :: ctx) := by
            rw [← hzfull, size_zip]
          simp only [List.length_append, List.length_cons] at h1 ⊢
          simp only [size] at h2
          omega
        obtain ⟨t1, e1, e2, e3, e4⟩ := unlink_spec fuel xm xk xw xs xl nil _ (Or.inr rfl) hco2
          hso1.1.2.1 trivial hok2 hlen
        refine ⟨t1, e1, wrap t1 e2 e3 ?_⟩
        rw [e4, ctxBefore_append, ctxAfter_append, hafter1]
        have hl2 : toList (node lm lk lw ls ll lr) = ctxBefore acc1 ++ (toList xl ++ [(xk, xw)]) := by
          rw [← hzx, toList_zip, hafter1]
          simp [toList]
        rw [hl2]
        simp [ctxBefore, ctxAfter, toList]

end DiscretePDF

/-! ## DiscretePDF: end of the lemmas -/

namespace Ticker

theorem Active.inv {ticks : List Nat} {t : Ticker} (h : Active ticks t) :
    Inv ticks ((ticks.take t.index).sum + t.counter) t :=
  ⟨h.1, h.2.1, h.2.2.2, Nat.ModEq.refl _⟩

theorem Inv.active {ticks : List Nat} {k : Nat} {t : Ticker} (h : Inv ticks k t) :
    Active ticks t :=
  ⟨h.1, h.2.1, Nat.lt_of_le_of_lt (Nat.zero_le _) h.2.2.1, h.2.2.1⟩

theorem moveToNext_active (ticks : List Nat) (fuel : Nat) (t : Ticker)
    (hpos : ∃ x ∈ ticks, 0 < x) (hlen : ticks.length < 4294967296)
    (hfuel : ticks.length ≤ fuel) (h : Active ticks t) :
    ∃ t1, moveToNext fuel t = some t1 ∧ Active ticks t1 := by
  obtain ⟨ht, hi, hq, hc⟩ := h
  by_cases hc0 : t.counter = 0
  · obtain ⟨tk, idx, cnt⟩ := t
    simp only at ht hi hq hc hc0
    subst ht
    subst hc0
    cases fuel with
    | zero => omega
    | succ f =>
      refine ⟨⟨tk, idx, 0⟩, ?_, rfl, hi, hq, hq⟩
      unfold moveToNext
      simp only [Nat.ne_of_gt hq, if_false, ne_eq, not_true_eq_false, skipZero, Option.map_some']
  · obtain ⟨d, _, hm, hp, _⟩ := moveToNext_spec ticks fuel t hpos hlen hfuel ht hi
      (Nat.ne_of_gt hq) hc0
    exact ⟨_, hm, rfl, Nat.mod_lt _ (by omega), hp, hp⟩

theorem run_active (ticks : List Nat) (fuel : Nat)
    (hpos : ∃ x ∈ ticks, 0 < x) (hb : ∀ x ∈ ticks, x < 4294967296)
    (hlen : ticks.length < 4294967296) (hfuel : ticks.length ≤ fuel) :
    ∀ (cs : List Call) (t : Ticker), Active ticks t →
      ∃ out t1, run fuel cs t = some (out, t1) ∧ Active ticks t1 ∧
        ∀ c ∈ out, 0 < ticks.getD c 0 := by
  intro cs
  induction cs with
  | nil => intro t h; exact ⟨[], t, rfl, h, fun _ hc => by simp at hc⟩
  | cons c cs ih =>
    intro t h
    cases c with
    | getCurrent =>
      obtain ⟨t1, hg, h1⟩ := getCurrent_step ticks fuel _ t hpos hb hlen hfuel h.inv
      obtain ⟨out, t2, hr, h2, hout⟩ := ih t1 h1.active
      refine ⟨t.index :: out, t2, ?_, h2, ?_⟩
      · simp only [run, hg, hr, Option.map_some']
      · intro c hc
        rcases List.mem_cons.1 hc with rfl | hc
        · exact h.2.2.1
        · exact hout c hc
    | moveToNext =>
      obtain ⟨t1, hm, h1⟩ := moveToNext_active ticks fuel t hpos hlen hfuel h
      obtain ⟨out, t2, hr, h2, hout⟩ := ih t1 h1
      exact ⟨out, t2, by simp only [run, hm, hr], h2, hout⟩

/-- C21: on a tick vector with a positive entry the ticker is built, and every sequence of
`getCurrent()` and `moveToNext()` calls runs to the end (no assertion fails and the skip loops
stop within one round), leaves the active slot with a positive quota and the counter below that
quota, and every slot returned by `getCurrent()` has a positive quota. -/
theorem ticker_active_invariant (ticks : List Nat) (fuel : Nat)
    (hpos : ∃ x ∈ ticks, 0 < x) (hb : ∀ x ∈ ticks, x < 4294967296)
    (hlen : ticks.length < 4294967296) (hfuel : ticks.length ≤ fuel) :
    ∃ t0, init fuel ticks = some t0 ∧ Active ticks t0 ∧
      ∀ cs : List Call, ∃ out t, run fuel cs t0 = some (out, t) ∧ Active ticks t ∧
        ∀ c ∈ out, 0 < ticks.getD c 0 := by
  obtain ⟨t0, h0, hinv⟩ := init_spec ticks fuel hpos hlen hfuel
  exact ⟨t0, h0, hinv.active, fun cs => run_active ticks fuel hpos hb hlen hfuel cs t0 hinv.active⟩

/-- Witness for C21: `Ticker({0, 30, 30, 30})`. -/
theorem ticker_active_invariant_witness :
    ∃ t0, init 4 [0, 30, 30, 30] = some t0 ∧ Active [0, 30, 30, 30] t0 ∧
      ∀ cs : List Call, ∃ out t, run 4 cs t0 = some (out, t) ∧ Active [0, 30, 30, 30] t ∧
        ∀ c ∈ out, 0 < [0, 30, 30, 30].getD c 0 :=
  ticker_active_invariant [0, 30, 30, 30] 4 ⟨30, by decide, by decide⟩ (by decide)
    (by decide) (by decide)

end Ticker

namespace Path

/-- What `concat` does for a block-less `l`: it returns `r` itself, whatever the next
pointers are; so the result of concatenating two block-less paths is block-less and
carries the next pointer of `r`, an empty path is an identity on the left, and
`concat(l, l) = l`. -/
theorem path_concat_blockless_value (m : KModule) (l r : Path) (hl : l.path = []) :
    concat m l r = some r ∧ (r.path = [] → ∀ p, concat m l r = some p → p.path = [] ∧
      p.next = r.next) ∧ concat m l l = some l := by
  have h : ∀ q, concat m l q = some q := by
    intro q
    unfold concat empty
    rw [hl]
    rfl
  refine ⟨h r, ?_, h l⟩
  intro hr p hp
  rw [h r] at hp
  cases hp
  exact ⟨hr, rfl⟩

/-- The empty path before a path that holds only a next pointer. -/
theorem path_concat_blockless_value_example :
    concat plainModule (ofNext none) (ofNext (some ⟨1, 0⟩)) = some (ofNext (some ⟨1, 0⟩)) ∧
      ((ofNext (some ⟨1, 0⟩)).path = [] → ∀ p,
        concat plainModule (ofNext none) (ofNext (some ⟨1, 0⟩)) = some p →
          p.path = [] ∧ p.next = (ofNext (some ⟨1, 0⟩)).next) ∧
      concat plainModule (ofNext none) (ofNext none) = some (ofNext none) :=
  path_concat_blockless_value plainModule (ofNext none) (ofNext (some ⟨1, 0⟩)) rfl

/-- C22: `concat` loses the next pointer of a block-less `l`. Here `l` holds only the next
pointer to instruction 0 of block 1 and `r` is the empty path; the first test `l.empty()` is
true for `l`, so `concat(l, r)` is `r`, the empty path: the next pointer that `l` has is lost
and the empty path is not an identity on the right. The branches of `concat` for
`l.emptyWithNext()`, which would return `l`, are never reached. -/
theorem path_concat_blockless_counterexample :
    (ofNext (some ⟨1, 0⟩)).path = [] ∧ (ofNext none).path = [] ∧
    concat plainModule (ofNext (some ⟨1, 0⟩)) (ofNext none) = some (ofNext none) ∧
    (ofNext none).next ≠ some ⟨1, 0⟩ ∧ ofNext none ≠ ofNext (some ⟨1, 0⟩) := by
  decide

end Path

namespace LevelState

/-- C23 (as amended): for a bound and visit counters that fit `unsigned long long`,
`isStuck(bound)` is true exactly when `prevPC` is non-null and a terminator, the bound is not 0
and the visit counter of the block of `pc` is at least the bound. -/
theorem isStuck_iff_amended (isTerminator : KInstruction → Bool) (s : LevelState) (bound : Nat)
    (hb : bound < 18446744073709551616) (hm : ∀ b, s.multilevel b < 18446744073709551616) :
    isStuck isTerminator s bound = true ↔
      ∃ prev, s.prevPC = some prev ∧ isTerminator prev = true ∧ 1 ≤ bound ∧
        bound ≤ s.multilevel (s.getPCBlock prev) := by
  unfold isStuck u64
  cases hp : s.prevPC with
  | none => simp
  | some prev =>
    simp only [Bool.and_eq_true, decide_eq_true_eq, Option.some.injEq, exists_eq_left']
    have h1 := hm (s.getPCBlock prev)
    constructor
    · rintro ⟨ht, hgt⟩
      refine ⟨ht, ?_⟩
      omega
    · rintro ⟨ht, h0, hle⟩
      refine ⟨ht, ?_⟩
      omega

/-- Witness for C23 as amended: bound 1 and a block visited once. -/
theorem isStuck_iff_amended_witness :
    isStuck (fun _ => true) ⟨some ⟨0, 2⟩, some ⟨1, 0⟩, fun _ => 1⟩ 1 = true ↔
      ∃ prev, (⟨some ⟨0, 2⟩, some ⟨1, 0⟩, fun _ => 1⟩ : LevelState).prevPC = some prev ∧
        (fun _ => true) prev = true ∧ 1 ≤ 1 ∧
        1 ≤ (⟨some ⟨0, 2⟩, some ⟨1, 0⟩, fun _ => 1⟩ : LevelState).multilevel
          ((⟨some ⟨0, 2⟩, some ⟨1, 0⟩, fun _ => 1⟩ : LevelState).getPCBlock prev) :=
  isStuck_iff_amended (fun _ => true) ⟨some ⟨0, 2⟩, some ⟨1, 0⟩, fun _ => 1⟩ 1 (by decide)
    (fun _ => by simp)

/-- Counterexample to C23 as stated: with `prevPC` a terminator, bound 1 and the block of `pc`
visited once, `isStuck(1)` is true although the counter is not greater than the bound; and
`isStuck(0)` is false although the counter is greater than 0. -/
theorem isStuck_counterexample :
    isStuck (fun _ => true) ⟨some ⟨0, 2⟩, some ⟨1, 0⟩, fun _ => 1⟩ 1 = true ∧
    ¬ ((⟨some ⟨0, 2⟩, some ⟨1, 0⟩, fun _ => 1⟩ : LevelState).multilevel 1 > 1) ∧
    isStuck (fun _ => true) ⟨some ⟨0, 2⟩, some ⟨1, 0⟩, fun _ => 1⟩ 0 = false ∧
    (⟨some ⟨0, 2⟩, some ⟨1, 0⟩, fun _ => 1⟩ : LevelState).multilevel 1 > 0 := by
  decide

end LevelState

namespace DistanceCalculator

/-- C26: the memoized `getDistance` is not `computeDistance`. The key comparison of the cache
leaves `reversed` out, so when the two keys `(kb, kind, false)` and `(kb, kind, true)` have the
same hash (as `bool`), a query for `reversed = true` that follows a query for
`reversed = false` on an empty cache returns `computeDistance(kb, kind, target, false)`. -/
theorem getDistance_reuses_reversed
    (computeDistance : Nat → TargetKind → Nat → Bool → DistanceResult)
    (magic kb : Nat) (kind : TargetKind) (target : Nat)
    (hh : SpeculativeStateHash (SpeculativeState.init magic kb kind false) =
      SpeculativeStateHash (SpeculativeState.init magic kb kind true)) :
    ∃ c1, getDistance computeDistance magic [] kb kind target false =
        some (computeDistance kb kind target false, c1) ∧
      getDistance computeDistance magic c1 kb kind target true =
        some (computeDistance kb kind target false, c1) := by
  refine ⟨[(target, [(SpeculativeState.init magic kb kind false,
    computeDistance kb kind target false)])], ?_, ?_⟩
  · simp [getDistance, findTarget, store, findSpec, SpeculativeStateCompare]
  · simp only [SpeculativeState.init] at hh
    simp [getDistance, findTarget, store, findSpec, SpeculativeStateCompare, hh,
      SpeculativeState.init]

/-- Witness for C26: a computation that returns `Done` for forward and `Miss` for reversed
queries, block pointer 1 and hash constant 1. -/
theorem getDistance_reuses_reversed_witness :
    ∃ c1, getDistance (fun _ _ _ r => if r then ⟨WeightResult.Miss, 0, true⟩
          else ⟨WeightResult.Done, 0, true⟩) 1 [] 1 TargetKind.LocalTarget 7 false =
        some ((fun _ _ _ r => if r then (⟨WeightResult.Miss, 0, true⟩ : DistanceResult)
          else ⟨WeightResult.Done, 0, true⟩) 1 TargetKind.LocalTarget 7 false, c1) ∧
      getDistance (fun _ _ _ r => if r then ⟨WeightResult.Miss, 0, true⟩
          else ⟨WeightResult.Done, 0, true⟩) 1 c1 1 TargetKind.LocalTarget 7 true =
        some ((fun _ _ _ r => if r then (⟨WeightResult.Miss, 0, true⟩ : DistanceResult)
          else ⟨WeightResult.Done, 0, true⟩) 1 TargetKind.LocalTarget 7 false, c1) :=
  getDistance_reuses_reversed _ 1 1 TargetKind.LocalTarget 7 (by decide)

end DistanceCalculator

namespace BidirectionalSearcher

theorem getCurrent_default_lt (fuel idx cnt : Nat) (hc : cnt + 1 < 30)
    (hi : idx = 1 ∨ idx = 2 ∨ idx = 3) :
    Ticker.getCurrent fuel ⟨defaultTicks, idx, cnt⟩ = some (idx, ⟨defaultTicks, idx, cnt + 1⟩) := by
  have hu : u32 (cnt + 1) = cnt + 1 := Ticker.u32_of_lt _ (by omega)
  unfold Ticker.getCurrent
  simp only [hu]
  rw [if_neg]
  rcases hi with rfl | rfl | rfl <;> simp [defaultTicks] <;> omega

theorem moveToNext_default (idx cnt : Nat) (hc : cnt ≠ 0) (hi : idx = 1 ∨ idx = 2 ∨ idx = 3) :
    Ticker.moveToNext 5 ⟨defaultTicks, idx, cnt⟩ =
      some ⟨defaultTicks, if idx = 3 then 1 else idx + 1, 0⟩ := by
  unfold Ticker.moveToNext
  rcases hi with rfl | rfl | rfl <;> simp [defaultTicks, hc] <;> decide

/-- C30: for the ticker `{0, 30, 30, 30}` in any state with a positive quota of the active slot
and the counter below it, when `empty()` is false `selectStep()` returns: the final assertion
is not reached, the step kind returned is not `Forward`, its quota is positive and its delegate
is not empty. -/
theorem selectStep_returns (d : Delegates) (idx cnt : Nat)
    (hi : idx < defaultTicks.length) (hq : 0 < defaultTicks.getD idx 0)
    (hc : cnt < defaultTicks.getD idx 0) (he : empty d defaultTicks = some false) :
    ∃ k t, selectStep 5 d ⟨defaultTicks, idx, cnt⟩ = some (k, t) ∧ k ≠ StepKind.Forward ∧
      0 < defaultTicks.getD k.slot 0 ∧ d.emptyOf k = false := by
  have hidx : idx = 1 ∨ idx = 2 ∨ idx = 3 := by
    simp only [defaultTicks, List.length_cons, List.length_nil] at hi
    rcases idx with _ | _ | _ | _ | n
    · simp [defaultTicks] at hq
    · exact Or.inl rfl
    · exact Or.inr (Or.inl rfl)
    · exact Or.inr (Or.inr rfl)
    · omega
  have hc30 : cnt < 30 := by
    rcases hidx with rfl | rfl | rfl <;> simpa [defaultTicks] using hc
  obtain ⟨f, b, bw, ini⟩ := d
  by_cases h29 : cnt = 29
  · subst h29
    rcases hidx with rfl | rfl | rfl <;> cases f <;> cases b <;> cases bw <;> cases ini <;>
      first
        | exact absurd he (by decide)
        | exact ⟨StepKind.Branch, _, rfl, by decide, by decide, rfl⟩
        | exact ⟨StepKind.Backward, _, rfl, by decide, by decide, rfl⟩
        | exact ⟨StepKind.Initialize, _, rfl, by decide, by decide, rfl⟩
  · have h1 := getCurrent_default_lt 5 idx cnt (by omega) hidx
    have h2 := moveToNext_default idx (cnt + 1) (Nat.succ_ne_zero _) hidx
    unfold selectStep
    rw [h1]
    simp only
    rcases hidx with rfl | rfl | rfl <;> cases f <;> cases b <;> cases bw <;> cases ini <;>
      first
        | exact absurd he (by decide)
        | exact ⟨StepKind.Branch, _, rfl, by decide, by decide, rfl⟩
        | exact ⟨StepKind.Backward, _, rfl, by decide, by decide, rfl⟩
        | exact ⟨StepKind.Initialize, _, rfl, by decide, by decide, rfl⟩
        | (simp only [selectLoop, switchChoice, h2]
           first
             | exact ⟨StepKind.Branch, _, rfl, by decide, by decide, rfl⟩
             | exact ⟨StepKind.Backward, _, rfl, by decide, by decide, rfl⟩)

/-- Witness for C30: a fresh ticker, only the branch searcher has work. -/
theorem selectStep_returns_witness :
    ∃ k t, selectStep 5 ⟨true, false, true, true⟩ ⟨defaultTicks, 1, 0⟩ = some (k, t) ∧
      k ≠ StepKind.Forward ∧ 0 < defaultTicks.getD k.slot 0 ∧
      (⟨true, false, true, true⟩ : Delegates).emptyOf k = false :=
  selectStep_returns ⟨true, false, true, true⟩ 1 0 (by decide) (by decide) (by decide)
    (by decide)

end BidirectionalSearcher

namespace PathConstraints

variable {Expr : Type} [DecidableEq Expr]

theorem addLoop_none_iff (ops : ExprOps Expr) (delta : List (Nat × Nat)) (currIndex : Nat) :
    ∀ (exprs : List Expr) (acc : List Expr × PathConstraints Expr),
      addLoop ops delta currIndex exprs acc = none ↔
        ∃ c ∈ exprs, ops.isConstant c = true ∧ ops.isTrue c = false := by
  intro exprs
  induction exprs with
  | nil => intro acc; simp [addLoop]
  | cons x xs ih =>
    intro acc
    obtain ⟨added, pc⟩ := acc
    unfold addLoop
    by_cases hc : ops.isConstant x = true
    · by_cases ht : ops.isTrue x = true
      · simp only [hc, ht, if_true, ih, List.mem_cons, exists_eq_or_imp]
        simp
      · have ht1 : ops.isTrue x = false := by simpa using ht
        simp [hc, ht1]
    · have hc1 : ops.isConstant x = false := by simpa using hc
      simp only [hc1, Bool.false_eq_true, if_false, List.mem_cons, exists_eq_or_imp, false_and,
        false_or]
      exact ih _

/-- C24: when every constant is the constant true or the constant false, `addConstraint` fails
an assertion exactly when `e` simplifies to the constant false or to an expression one of whose
conjuncts is the constant false; and when `e` simplifies to the constant true it returns the
empty set and leaves the object as it is. -/
theorem addConstraint_assert_iff (ops : ExprOps Expr) (rewriteOn : Bool) (pc : PathConstraints Expr)
    (e : Expr) (delta : List (Nat × Nat)) (currIndex : Nat)
    (hbool : ∀ c, ops.isConstant c = true → (ops.isFalse c = true ↔ ops.isTrue c = false))
    (hfalse : ∀ c, ops.isFalse c = true → ops.isConstant c = true) :
    (addConstraint ops rewriteOn pc e delta currIndex = none ↔
      ops.isFalse (ops.simplifyExpr pc.constraints e) = true ∨
      (ops.isConstant (ops.simplifyExpr pc.constraints e) = false ∧
        ∃ c ∈ ops.splitAnds (ops.simplifyExpr pc.constraints e), ops.isFalse c = true)) ∧
    (ops.isConstant (ops.simplifyExpr pc.constraints e) = true →
      ops.isTrue (ops.simplifyExpr pc.constraints e) = true →
      addConstraint ops rewriteOn pc e delta currIndex = some ([], pc)) := by
  constructor
  · unfold addConstraint
    simp only
    by_cases hc : ops.isConstant (ops.simplifyExpr pc.constraints e) = true
    · rw [if_pos hc]
      by_cases ht : ops.isTrue (ops.simplifyExpr pc.constraints e) = true
      · rw [if_pos ht]
        have : ¬ ops.isFalse (ops.simplifyExpr pc.constraints e) = true := by
          rw [hbool _ hc]; simp [ht]
        simp [this, hc]
      · rw [if_neg ht]
        have : ops.isFalse (ops.simplifyExpr pc.constraints e) = true := by
          rw [hbool _ hc]; simpa using ht
        simp [this]
    · rw [if_neg hc]
      have hnf : ¬ ops.isFalse (ops.simplifyExpr pc.constraints e) = true :=
        fun h => hc (hfalse _ h)
      have hc1 : ops.isConstant (ops.simplifyExpr pc.constraints e) = false := by
        simpa using hc
      cases hl : addLoop ops delta currIndex
          (ops.splitAnds (ops.simplifyExpr pc.constraints e)) ([], pc) with
      | none =>
        simp only [true_iff]
        obtain ⟨c, hcm, hcc, hct⟩ := (addLoop_none_iff ops delta currIndex _ _).1 hl
        exact Or.inr ⟨hc1, c, hcm, (hbool c hcc).2 hct⟩
      | some r =>
        obtain ⟨added, pc1⟩ := r
        have hsome : ¬ (∃ c ∈ ops.splitAnds (ops.simplifyExpr pc.constraints e),
            ops.isConstant c = true ∧ ops.isTrue c = false) := by
          rw [← addLoop_none_iff ops delta currIndex _ ([], pc), hl]
          simp
        constructor
        · intro h
          cases rewriteOn <;> simp at h
        · rintro (h | ⟨_, c, hcm, hcf⟩)
          · exact absurd h hnf
          · exact absurd ⟨c, hcm, hfalse c hcf, (hbool c (hfalse c hcf)).1 hcf⟩ hsome
  · intro hc ht
    unfold addConstraint
    simp only [hc, ht, if_true]

/-- Witness for C24: adding the constant false to an empty object. -/
theorem addConstraint_assert_iff_witness :
    (addConstraint natOps true ⟨[], [], [], [], [], []⟩ 0 [] 0 = none ↔
      natOps.isFalse (natOps.simplifyExpr [] 0) = true ∨
      (natOps.isConstant (natOps.simplifyExpr [] 0) = false ∧
        ∃ c ∈ natOps.splitAnds (natOps.simplifyExpr [] 0), natOps.isFalse c = true)) ∧
    (natOps.isConstant (natOps.simplifyExpr [] 0) = true →
      natOps.isTrue (natOps.simplifyExpr [] 0) = true →
      addConstraint natOps true ⟨[], [], [], [], [], []⟩ 0 [] 0 =
        some ([], ⟨[], [], [], [], [], []⟩)) :=
  addConstraint_assert_iff natOps true ⟨[], [], [], [], [], []⟩ 0 [] 0
    (fun c hc => by
      have h1 : c ≤ 1 := by simpa [natOps] using hc
      rcases Nat.le_one_iff_eq_zero_or_eq_one.1 h1 with rfl | rfl <;> simp [natOps])
    (fun c hc => by
      have h1 : c = 0 := by simpa [natOps] using hc
      simp [natOps, h1])

end PathConstraints

namespace CodeGraphDistance

theorem mem_hashInsert {x y : Nat} {s : List Nat} : y ∈ hashInsert x s ↔ y = x ∨ y ∈ s := by
  unfold hashInsert
  by_cases h : x ∈ s
  · rw [if_pos h]
    constructor
    · exact Or.inr
    · rintro (rfl | h1)
      · exact h
      · exact h1
  · rw [if_neg h]
    simp [or_comm]

theorem NearPath.snoc {next : Nat → List Nat} {p : Nat → Bool} {a m s : Nat}
    (h : NearPath next p a m) (hm : p m = false) (hs : s ∈ next m) : NearPath next p a s := by
  induction h with
  | edge he => exact NearPath.step he hm (NearPath.edge hs)
  | step he hp _ ih => exact NearPath.step he hp (ih hm hs)

theorem pushNew_spec (visited : List Nat) :
    ∀ (l nodes queued : List Nat),
      ∃ new, pushNew visited l (nodes, queued) = (nodes ++ new, queued ++ new) ∧
        (queued.Nodup → (queued ++ new).Nodup) ∧
        (∀ x ∈ new, x ∈ l ∧ x ∉ visited) ∧
        (∀ x ∈ l, x ∈ visited ∨ x ∈ queued ++ new) := by
  intro l
  induction l with
  | nil =>
    intro nodes queued
    exact ⟨[], by simp [pushNew], by simp, by simp, by simp⟩
  | cons s rest ih =>
    intro nodes queued
    unfold pushNew
    by_cases hv : s ∈ visited
    · obtain ⟨new, he, hn, hm, hc⟩ := ih nodes queued
      refine ⟨new, by simp [hv, he], hn, fun x hx => ⟨List.mem_cons_of_mem _ (hm x hx).1,
        (hm x hx).2⟩, ?_⟩
      intro x hx
      rcases List.mem_cons.1 hx with rfl | hx
      · exact Or.inl hv
      · exact hc x hx
    · by_cases hq : s ∈ queued
      · obtain ⟨new, he, hn, hm, hc⟩ := ih nodes queued
        refine ⟨new, by simp [hv, hq, he], hn, fun x hx => ⟨List.mem_cons_of_mem _ (hm x hx).1,
          (hm x hx).2⟩, ?_⟩
        intro x hx
        rcases List.mem_cons.1 hx with rfl | hx
        · exact Or.inr (List.mem_append_left _ hq)
        · exact hc x hx
      · obtain ⟨new, he, hn, hm, hc⟩ := ih (nodes ++ [s]) (queued ++ [s])
        refine ⟨s :: new, ?_, ?_, ?_, ?_⟩
        · simp [hv, hq, hashInsert, he]
        · intro hnd
          have h1 : (queued ++ [s]).Nodup := by
            rw [List.nodup_append]
            exact ⟨hnd, by simp, by
              intro a ha hb
              rw [List.mem_singleton] at hb
              subst hb
              exact hq ha⟩
          have := hn h1
          simpa using this
        · intro x hx
          rcases List.mem_cons.1 hx with rfl | hx
          · exact ⟨List.mem_cons_self _ _, hv⟩
          · exact ⟨List.mem_cons_of_mem _ (hm x hx).1, (hm x hx).2⟩
        · intro x hx
          rcases List.mem_cons.1 hx with rfl | hx
          · exact Or.inr (by simp)
          · rcases hc x hx with h | h
            · exact Or.inl h
            · exact Or.inr (by simpa using h)

theorem length_le_of_nodup_lt {l : List Nat} {n : Nat} (hn : l.Nodup) (hb : ∀ x ∈ l, x < n) :
    l.length ≤ n := by
  have h1 : l.toFinset ⊆ Finset.range n := by
    intro x hx
    rw [List.mem_toFinset] at hx
    exact Finset.mem_range.2 (hb x hx)
  have h2 := Finset.card_le_card h1
  rw [List.toFinset_card_of_nodup hn, Finset.card_range] at h2
  exact h2

end CodeGraphDistance

namespace CodeGraphDistance

theorem nearestLoop_spec (next : Nat → List Nat) (p : Nat → Bool) (src n : Nat)
    (hb : ∀ a, ∀ s ∈ next a, s < n) :
    ∀ (fuel : Nat) (nodes visited queued result : List Nat) (first : Bool),
      NearInv next p src n nodes visited queued result first →
      nodes.length + 2 * (n - queued.length) < fuel →
      ∃ r, nearestLoop next p fuel nodes visited queued result first = some r ∧
        ∀ t, t ∈ r ↔ p t = true ∧ NearPath next p src t := by
  intro fuel
  induction fuel with
  | zero => intro _ _ _ _ _ _ h; exact absurd h (Nat.not_lt_zero _)
  | succ fuel ih =>
    intro nodes visited queued result first inv hfuel
    cases nodes with
    | nil =>
      cases first with
      | true => exact absurd (inv.1 rfl).1 (by simp)
      | false =>
        obtain ⟨_, hq, _, hc, hd, he, hf⟩ := inv.2 rfl
        refine ⟨result, rfl, fun t => ⟨fun ht => ⟨(hf t ht).1, (hq t (hd t (hf t ht).2).1).1⟩, ?_⟩⟩
        rintro ⟨hpt, hpath⟩
        have hvis : ∀ x ∈ queued, x ∈ visited := fun x hx =>
          (hc x hx).resolve_left (by simp)
        have key : ∀ a t, NearPath next p a t → (∀ s ∈ next a, s ∈ queued) → t ∈ queued := by
          intro a t h
          induction h with
          | edge h1 => intro h2; exact h2 _ h1
          | step h1 h2 _ ih1 =>
            intro h3
            apply ih1
            rcases (hd _ (hvis _ (h3 _ h1))).2 with ⟨h4, _⟩ | ⟨_, h5⟩
            · rw [h2] at h4; exact Bool.noConfusion h4
            · exact h5
        have htq := key src t hpath he
        rcases (hd _ (hvis _ htq)).2 with ⟨_, h4⟩ | ⟨h5, _⟩
        · exact h4
        · rw [hpt] at h5; exact Bool.noConfusion h5
    | cons curr rest =>
      cases first with
      | true =>
        obtain ⟨hn, hv, hq, hr⟩ := inv.1 rfl
        cases hn
        subst hv hq hr
        obtain ⟨new, hpush, hnd, hnew, hcov⟩ := pushNew_spec [] (next src) [src] []
        have hnd1 : new.Nodup := by simpa using hnd List.nodup_nil
        have hlen := length_le_of_nodup_lt hnd1 (fun x hx => hb src x (hnew x hx).1)
        have inv1 : NearInv next p src n new [] new [] false := by
          refine ⟨fun h => Bool.noConfusion h, fun _ => ⟨fun x hx => hx,
            fun x hx => ⟨NearPath.edge (hnew x hx).1, hb src x (hnew x hx).1⟩, hnd1,
            fun x hx => Or.inl hx, fun x hx => by simp at hx, ?_, fun x hx => by simp at hx⟩⟩
          intro s hs
          rcases hcov s hs with h | h
          · simp at h
          · simpa using h
        obtain ⟨r, hr, hspec⟩ := ih new [] new [] false inv1 (by
          simp only [List.length_cons, List.length_nil] at hfuel
          omega)
        refine ⟨r, ?_, hspec⟩
        rw [← hr]
        simp [nearestLoop, hpush]
      | false =>
        obtain ⟨ha, hq, hnd, hc, hd, he, hf⟩ := inv.2 rfl
        have hcq : curr ∈ queued := ha curr (List.mem_cons_self _ _)
        have hqlen := length_le_of_nodup_lt hnd (fun x hx => (hq x hx).2)
        by_cases hp : p curr = true
        · have inv1 : NearInv next p src n rest (hashInsert curr visited) queued
              (setInsert curr result) false := by
            refine ⟨fun h => Bool.noConfusion h, fun _ => ⟨fun x hx =>
              ha x (List.mem_cons_of_mem _ hx), hq, hnd, ?_, ?_, he, ?_⟩⟩
            · intro x hx
              rcases hc x hx with h | h
              · rcases List.mem_cons.1 h with rfl | h
                · exact Or.inr (mem_hashInsert.2 (Or.inl rfl))
                · exact Or.inl h
              · exact Or.inr (mem_hashInsert.2 (Or.inr h))
            · intro x hx
              rcases mem_hashInsert.1 hx with rfl | hx
              · exact ⟨hcq, Or.inl ⟨hp, (mem_setInsert _ _ _).2 (Or.inl rfl)⟩⟩
              · refine ⟨(hd x hx).1, ?_⟩
                rcases (hd x hx).2 with ⟨h1, h2⟩ | h
                · exact Or.inl ⟨h1, (mem_setInsert _ _ _).2 (Or.inr h2)⟩
                · exact Or.inr h
            · intro x hx
              rcases (mem_setInsert _ _ _).1 hx with rfl | hx
              · exact ⟨hp, mem_hashInsert.2 (Or.inl rfl)⟩
              · exact ⟨(hf x hx).1, mem_hashInsert.2 (Or.inr (hf x hx).2)⟩
          obtain ⟨r, hr, hspec⟩ := ih rest _ queued _ false inv1 (by
            simp only [List.length_cons] at hfuel
            omega)
          refine ⟨r, ?_, hspec⟩
          rw [← hr]
          simp [nearestLoop, hp]
        · have hp1 : p curr = false := by simpa using hp
          obtain ⟨new, hpush, hnd1, hnew, hcov⟩ :=
            pushNew_spec (hashInsert curr visited) (next curr) (curr :: rest) queued
          have hqn : ∀ x ∈ queued ++ new, NearPath next p src x ∧ x < n := by
            intro x hx
            rcases List.mem_append.1 hx with h | h
            · exact hq x h
            · exact ⟨(hq curr hcq).1.snoc hp1 (hnew x h).1, hb curr x (hnew x h).1⟩
          have hqlen1 := length_le_of_nodup_lt (hnd1 hnd) (fun x hx => (hqn x hx).2)
          have inv1 : NearInv next p src n (rest ++ new) (hashInsert curr visited)
              (queued ++ new) result false := by
            refine ⟨fun h => Bool.noConfusion h, fun _ => ⟨?_, hqn, hnd1 hnd, ?_, ?_, ?_, ?_⟩⟩
            · intro x hx
              rcases List.mem_append.1 hx with h | h
              · exact List.mem_append_left _ (ha x (List.mem_cons_of_mem _ h))
              · exact List.mem_append_right _ h
            · intro x hx
              rcases List.mem_append.1 hx with h | h
              · rcases hc x h with h1 | h1
                · rcases List.mem_cons.1 h1 with rfl | h1
                  · exact Or.inr (mem_hashInsert.2 (Or.inl rfl))
                  · exact Or.inl (List.mem_append_left _ h1)
                · exact Or.inr (mem_hashInsert.2 (Or.inr h1))
              · exact Or.inl (List.mem_append_right _ h)
            · intro x hx
              rcases mem_hashInsert.1 hx with rfl | hx
              · refine ⟨List.mem_append_left _ hcq, Or.inr ⟨hp1, ?_⟩⟩
                intro s hs
                rcases hcov s hs with h | h
                · rcases mem_hashInsert.1 h with rfl | h
                  · exact List.mem_append_left _ hcq
                  · exact List.mem_append_left _ (hd s h).1
                · exact h
              · refine ⟨List.mem_append_left _ (hd x hx).1, ?_⟩
                rcases (hd x hx).2 with h | ⟨h1, h2⟩
                · exact Or.inl h
                · exact Or.inr ⟨h1, fun s hs => List.mem_append_left _ (h2 s hs)⟩
            · exact fun s hs => List.mem_append_left _ (he s hs)
            · exact fun x hx => ⟨(hf x hx).1, mem_hashInsert.2 (Or.inr (hf x hx).2)⟩
          obtain ⟨r, hr, hspec⟩ := ih (rest ++ new) _ (queued ++ new) result false inv1 (by
            simp only [List.length_cons, List.length_append] at hfuel hqlen1 ⊢
            omega)
          refine ⟨r, ?_, hspec⟩
          rw [← hr]
          simp [nearestLoop, hp1, hpush]

/-- C28: on a graph whose blocks have ids below `n`, with fuel above `2 * n + 1`,
`getNearestPredicateSatisfying(from, predicate, forward)` returns, and a block `t` is in the
result exactly when it satisfies the predicate and there is a non-empty path from `from` to
`t` (along `next`: successor edges when `forward` is set, predecessor edges otherwise) all of
whose intermediate blocks fail the predicate; this holds for `t = from` as well. -/
theorem getNearestPredicateSatisfying_spec (next : Nat → List Nat) (p : Nat → Bool)
    (src n fuel : Nat) (hb : ∀ a, ∀ s ∈ next a, s < n) (hfuel : 2 * n + 1 < fuel) :
    ∃ r, getNearestPredicateSatisfying fuel next p src = some r ∧
      ∀ t, t ∈ r ↔ p t = true ∧ NearPath next p src t := by
  unfold getNearestPredicateSatisfying
  apply nearestLoop_spec next p src n hb
  · exact ⟨fun _ => ⟨rfl, rfl, rfl, rfl⟩, fun h => Bool.noConfusion h⟩
  · simp only [List.length_cons, List.length_nil]
    omega

end CodeGraphDistance

namespace CodeGraphDistance

theorem diamond_lt (a : Nat) : ∀ s ∈ diamond a, s < 5 := by
  intro s hs
  unfold diamond at hs
  split at hs <;> simp at hs <;> omega

/-- Witness for C28: the search from block 0 of the graph `diamond` for the blocks 0 and 3. -/
theorem getNearestPredicateSatisfying_spec_witness :
    ∃ r, getNearestPredicateSatisfying 12 diamond (fun x => decide (x = 3 ∨ x = 0)) 0 = some r ∧
      ∀ t, t ∈ r ↔ (fun x => decide (x = 3 ∨ x = 0)) t = true ∧
        NearPath diamond (fun x => decide (x = 3 ∨ x = 0)) 0 t :=
  getNearestPredicateSatisfying_spec diamond (fun x => decide (x = 3 ∨ x = 0)) 0 5 12
    diamond_lt (by decide)

end CodeGraphDistance

namespace CodeGraphDistance

theorem setInsert_sorted (x : Nat) :
    ∀ l : List Nat, l.Pairwise (fun a b => a < b) →
      (setInsert x l).Pairwise (fun a b => a < b) := by
  intro l
  induction l with
  | nil => intro _; simp [setInsert]
  | cons y ys ih =>
    intro h
    rw [List.pairwise_cons] at h
    unfold setInsert
    by_cases h1 : x < y
    · rw [if_pos h1]
      rw [List.pairwise_cons]
      refine ⟨?_, List.pairwise_cons.2 h⟩
      intro b hb
      rcases List.mem_cons.1 hb with rfl | hb
      · exact h1
      · exact lt_trans h1 (h.1 b hb)
    · rw [if_neg h1]
      by_cases h2 : x = y
      · rw [if_pos h2]
        exact List.pairwise_cons.2 h
      · rw [if_neg h2, List.pairwise_cons]
        refine ⟨?_, ih h.2⟩
        intro b hb
        rcases (mem_setInsert _ _ _).1 hb with rfl | hb
        · omega
        · exact h.1 b hb

theorem setInsert_length (x : Nat) :
    ∀ l : List Nat, l.Pairwise (fun a b => a < b) →
      (setInsert x l).length = l.length + (if x ∈ l then 0 else 1) := by
  intro l
  induction l with
  | nil => intro _; simp [setInsert]
  | cons y ys ih =>
    intro h
    rw [List.pairwise_cons] at h
    unfold setInsert
    by_cases h1 : x < y
    · rw [if_pos h1]
      have : x ∉ y :: ys := by
        intro hm
        rcases List.mem_cons.1 hm with rfl | hm
        · exact lt_irrefl _ h1
        · exact absurd (h.1 x hm) (by omega)
      simp [this]
    · rw [if_neg h1]
      by_cases h2 : x = y
      · rw [if_pos h2]
        simp [h2]
      · rw [if_neg h2]
        have := ih h.2
        simp only [List.length_cons, this, List.mem_cons, h2, false_or]
        omega

theorem sorted_nodup {l : List Nat} (h : l.Pairwise (fun a b => a < b)) : l.Nodup :=
  h.imp (fun hab => Nat.ne_of_lt hab)

theorem nearestLoop_sorted (next : Nat → List Nat) (p : Nat → Bool) :
    ∀ (fuel : Nat) (nodes visited queued result : List Nat) (first : Bool) (r : List Nat),
      result.Pairwise (fun a b => a < b) →
      nearestLoop next p fuel nodes visited queued result first = some r →
      r.Pairwise (fun a b => a < b) := by
  intro fuel
  induction fuel with
  | zero => intro _ _ _ _ _ _ _ h; simp [nearestLoop] at h
  | succ fuel ih =>
    intro nodes visited queued result first r hs h
    cases nodes with
    | nil =>
      simp only [nearestLoop, Option.some.injEq] at h
      exact h ▸ hs
    | cons curr rest =>
      unfold nearestLoop at h
      simp only at h
      split at h
      · exact ih _ _ _ _ _ _ (setInsert_sorted _ _ hs) h
      · exact ih _ _ _ _ _ _ hs h

theorem pushEdges_spec (k : Nat) (used : List Nat) :
    ∀ (r : List Nat) (d : List (Nat × Nat)) (q : List Nat),
      pushEdges k used r (d, q) =
        (d ++ r.map (fun b => (k, b)), q ++ r.filter (fun b => !decide (b ∈ used))) := by
  intro r
  induction r with
  | nil => intro d q; simp [pushEdges]
  | cons b rest ih =>
    intro d q
    unfold pushEdges
    rw [ih]
    by_cases hb : b ∈ used <;> simp [hb]

theorem dismantleBound_pos (n v : Nat) : 0 < dismantleBound n v := by
  cases v <;> simp [dismantleBound]

theorem dismantleBound_mono (n : Nat) {v w : Nat} (h : v ≤ w) :
    dismantleBound n v ≤ dismantleBound n w := by
  induction w with
  | zero =>
    have : v = 0 := by omega
    subst this
    exact Nat.le_refl _
  | succ w ih =>
    by_cases hv : v = w + 1
    · subst hv; exact Nat.le_refl _
    · have h1 := ih (by omega)
      have h2 := dismantleBound_pos n w
      simp only [dismantleBound]
      by_cases hn : n = 0
      · subst hn
        have : dismantleBound 0 v ≤ 1 := by
          cases v <;> simp [dismantleBound]
        omega
      · have : dismantleBound n w ≤ n * dismantleBound n w :=
          Nat.le_mul_of_pos_left _ (by omega)
        omega

end CodeGraphDistance

namespace CodeGraphDistance

theorem NearPath.lt {next : Nat → List Nat} {p : Nat → Bool} {n a b : Nat}
    (hb : ∀ a, ∀ s ∈ next a, s < n) (h : NearPath next p a b) : b < n := by
  induction h with
  | edge he => exact hb _ _ he
  | step _ _ _ ih => exact ih

theorem sum_map_le_const {f : Nat → Nat} {c : Nat} :
    ∀ l : List Nat, (∀ x ∈ l, f x ≤ c) → (l.map f).sum ≤ l.length * c := by
  intro l
  induction l with
  | nil => intro _; simp
  | cons x xs ih =>
    intro h
    have h1 := h x (List.mem_cons_self _ _)
    have h2 := ih (fun y hy => h y (List.mem_cons_of_mem _ hy))
    simp only [List.map_cons, List.sum_cons, List.length_cons, Nat.add_mul, Nat.one_mul]
    omega

theorem sum_map_le_map {f g : Nat → Nat} :
    ∀ l : List Nat, (∀ x ∈ l, f x ≤ g x) → (l.map f).sum ≤ (l.map g).sum := by
  intro l
  induction l with
  | nil => intro _; simp
  | cons x xs ih =>
    intro h
    have h1 := h x (List.mem_cons_self _ _)
    have h2 := ih (fun y hy => h y (List.mem_cons_of_mem _ hy))
    simp only [List.map_cons, List.sum_cons]
    omega

theorem dismantle_pot_lt (n k : Nat) (used rest r : List Nat)
    (hs : used.Pairwise (fun a b => a < b)) (hu : ∀ x ∈ used, x < n) (hk : k < n)
    (hr : r.length ≤ n) (hrn : ∀ x ∈ r, x < n) :
    ((rest ++ r.filter (fun b => !decide (b ∈ setInsert k used))).map
        (queueWeight n (setInsert k used))).sum <
      ((k :: rest).map (queueWeight n used)).sum := by
  have hs1 := setInsert_sorted k used hs
  have hlen := setInsert_length k used hs
  have hA : queueWeight n used k = dismantleBound n (n - (setInsert k used).length) := by
    unfold queueWeight
    rw [hlen]
    congr 1
    by_cases h : k ∈ used
    · simp [h]
    · simp [h]
      omega
  have hB : ∀ y ∈ rest, queueWeight n (setInsert k used) y ≤ queueWeight n used y := by
    intro y _
    unfold queueWeight
    apply dismantleBound_mono
    rw [hlen]
    by_cases hy : y ∈ used
    · have : y ∈ setInsert k used := (mem_setInsert _ _ _).2 (Or.inr hy)
      simp only [hy, this, if_true]
      omega
    · by_cases hyk : y = k
      · subst hyk
        have : y ∈ setInsert y used := (mem_setInsert _ _ _).2 (Or.inl rfl)
        simp only [hy, this, if_true, if_false]
        omega
      · have : y ∉ setInsert k used := by
          rw [mem_setInsert]
          exact fun h => h.elim hyk hy
        simp only [hy, this, if_false]
        omega
  have hC : ((r.filter (fun b => !decide (b ∈ setInsert k used))).map
      (queueWeight n (setInsert k used))).sum <
        dismantleBound n (n - (setInsert k used).length) := by
    cases hne : r.filter (fun b => !decide (b ∈ setInsert k used)) with
    | nil => simpa using dismantleBound_pos n _
    | cons b bs =>
      have hbm : b ∈ r.filter (fun b => !decide (b ∈ setInsert k used)) := by
        rw [hne]; exact List.mem_cons_self _ _
      rw [List.mem_filter] at hbm
      have hbu : b ∉ setInsert k used := by simpa using hbm.2
      have hlt : (setInsert k used).length + 1 ≤ n := by
        have hnd : (b :: setInsert k used).Nodup :=
          List.nodup_cons.2 ⟨hbu, sorted_nodup hs1⟩
        have := length_le_of_nodup_lt hnd (by
          intro x hx
          rcases List.mem_cons.1 hx with rfl | hx
          · exact hrn _ hbm.1
          · rcases (mem_setInsert _ _ _).1 hx with rfl | hx
            · exact hk
            · exact hu x hx)
        simpa using this
      obtain ⟨v, hv⟩ : ∃ v, n - (setInsert k used).length = v + 1 := ⟨n - (setInsert k used).length - 1, by omega⟩
      rw [← hne, hv]
      have h1 := sum_map_le_const (f := queueWeight n (setInsert k used))
        (c := dismantleBound n v) (r.filter (fun b => !decide (b ∈ setInsert k used))) (by
          intro x hx
          rw [List.mem_filter] at hx
          have hxu : x ∉ setInsert k used := by simpa using hx.2
          unfold queueWeight
          simp only [hxu, if_false]
          apply dismantleBound_mono
          omega)
      have h2 : (r.filter (fun b => !decide (b ∈ setInsert k used))).length ≤ n :=
        le_trans (List.length_filter_le _ _) hr
      have h3 : (r.filter (fun b => !decide (b ∈ setInsert k used))).length * dismantleBound n v
          ≤ n * dismantleBound n v := Nat.mul_le_mul_right _ h2
      simp only [dismantleBound]
      omega
  have hD := sum_map_le_map rest hB
  simp only [List.map_append, List.sum_append, List.map_cons, List.sum_cons, hA]
  omega

end CodeGraphDistance

namespace CodeGraphDistance

theorem dismantleLoop_spec (successors : Nat → List Nat) (p : Nat → Bool) (entry n nf : Nat)
    (hb : ∀ a, ∀ s ∈ successors a, s < n) (hnf : 2 * n + 1 < nf) :
    ∀ (fuel : Nat) (queue used : List Nat) (d : List (Nat × Nat)),
      DismantleInv successors p entry n queue used d →
      (queue.map (queueWeight n used)).sum < fuel →
      ∃ r, dismantleLoop nf successors p fuel queue used d = some r ∧
        ∀ a b, (a, b) ∈ r ↔ ChainReach successors p entry a ∧ Nearest successors p a b := by
  intro fuel
  induction fuel with
  | zero => intro _ _ _ _ h; exact absurd h (Nat.not_lt_zero _)
  | succ fuel ih =>
    intro queue used d inv hfuel
    obtain ⟨hq, hu, hs, hd, hcl, hent⟩ := inv
    cases queue with
    | nil =>
      have hentry : entry ∈ used := hent.resolve_right (by simp)
      have hall : ∀ a, ChainReach successors p entry a → a ∈ used := by
        intro a h
        induction h with
        | start => exact hentry
        | step _ hn ih1 => exact ((hcl _ ih1 _ hn).2).resolve_right (by simp)
      refine ⟨d, rfl, fun a b => ⟨fun h => ⟨(hu a (hd _ h).1).1, (hd _ h).2⟩, ?_⟩⟩
      rintro ⟨hr, hn⟩
      exact (hcl a (hall a hr) b hn).1
    | cons k rest =>
      obtain ⟨hkr, hkn⟩ := hq k (List.mem_cons_self _ _)
      obtain ⟨r, hr, hspec⟩ := getNearestPredicateSatisfying_spec successors p k n nf hb hnf
      have hrs : r.Pairwise (fun a b => a < b) :=
        nearestLoop_sorted successors p nf _ _ _ _ _ r List.Pairwise.nil hr
      have hrn : ∀ x ∈ r, x < n := fun x hx => ((hspec x).1 hx).2.lt hb
      have hrlen := length_le_of_nodup_lt (sorted_nodup hrs) hrn
      have hpot := dismantle_pot_lt n k used rest r hs (fun x hx => (hu x hx).2) hkn hrlen hrn
      have inv1 : DismantleInv successors p entry n
          (rest ++ r.filter (fun b => !decide (b ∈ setInsert k used))) (setInsert k used)
          (d ++ r.map (fun b => (k, b))) := by
        refine ⟨?_, ?_, setInsert_sorted k used hs, ?_, ?_, ?_⟩
        · intro x hx
          rcases List.mem_append.1 hx with h | h
          · exact hq x (List.mem_cons_of_mem _ h)
          · rw [List.mem_filter] at h
            exact ⟨ChainReach.step hkr ((hspec x).1 h.1), hrn x h.1⟩
        · intro x hx
          rcases (mem_setInsert _ _ _).1 hx with rfl | hx
          · exact ⟨hkr, hkn⟩
          · exact hu x hx
        · intro e he
          rcases List.mem_append.1 he with h | h
          · exact ⟨(mem_setInsert _ _ _).2 (Or.inr (hd e h).1), (hd e h).2⟩
          · rw [List.mem_map] at h
            obtain ⟨b, hbr, rfl⟩ := h
            exact ⟨(mem_setInsert _ _ _).2 (Or.inl rfl), (hspec b).1 hbr⟩
        · intro a ha b hn
          rcases (mem_setInsert _ _ _).1 ha with rfl | ha
          · have hbr : b ∈ r := (hspec b).2 hn
            refine ⟨List.mem_append_right _ (List.mem_map.2 ⟨b, hbr, rfl⟩), ?_⟩
            by_cases hbu : b ∈ setInsert a used
            · exact Or.inl hbu
            · exact Or.inr (List.mem_append_right _ (List.mem_filter.2 ⟨hbr, by simpa using hbu⟩))
          · obtain ⟨h1, h2⟩ := hcl a ha b hn
            refine ⟨List.mem_append_left _ h1, ?_⟩
            rcases h2 with h2 | h2
            · exact Or.inl ((mem_setInsert _ _ _).2 (Or.inr h2))
            · rcases List.mem_cons.1 h2 with rfl | h2
              · exact Or.inl ((mem_setInsert _ _ _).2 (Or.inl rfl))
              · exact Or.inr (List.mem_append_left _ h2)
        · rcases hent with h | h
          · exact Or.inl ((mem_setInsert _ _ _).2 (Or.inr h))
          · rcases List.mem_cons.1 h with rfl | h
            · exact Or.inl ((mem_setInsert _ _ _).2 (Or.inl rfl))
            · exact Or.inr (List.mem_append_left _ h)
      obtain ⟨res, hres, hfin⟩ := ih _ _ _ inv1 (by omega)
      refine ⟨res, ?_, hfin⟩
      rw [← hres]
      simp only [dismantleLoop, hr, pushEdges_spec]

/-- C29 (as amended): when the entry block is not a final block, on a graph whose blocks have
ids below `n` and with enough fuel, `dismantleFunction(kf, predicate)` returns a list in which
a pair `(a, b)` occurs exactly when `a` is the entry block or the end of a chain of nearest
predicate-satisfying blocks that starts at the entry block, and `b` is in
`getNearestPredicateSatisfying(a, predicate, forward)`. -/
theorem dismantleFunction_amended (successors : Nat → List Nat) (p : Nat → Bool)
    (entry n nf fuel : Nat) (finalKBlocks : List Nat)
    (hb : ∀ a, ∀ s ∈ successors a, s < n) (he : entry < n) (hfin : entry ∉ finalKBlocks)
    (hnf : 2 * n + 1 < nf) (hfuel : dismantleBound n (n - 1) < fuel) :
    ∃ r, dismantleFunction fuel nf successors entry finalKBlocks p = some r ∧
      ∀ a b, (a, b) ∈ r ↔ ChainReach successors p entry a ∧ Nearest successors p a b := by
  unfold dismantleFunction
  rw [if_neg hfin]
  apply dismantleLoop_spec successors p entry n nf hb hnf
  · exact ⟨fun x hx => by
      rw [List.mem_singleton] at hx
      subst hx
      exact ⟨ChainReach.start, he⟩, fun x hx => by simp at hx, List.Pairwise.nil,
      fun e h => by simp at h, fun a ha => by simp at ha, Or.inr (List.mem_singleton.2 rfl)⟩
  · simpa [queueWeight] using hfuel

/-- Witness for C29 as amended: the graph `diamond` with every block satisfying the
predicate. -/
theorem dismantleFunction_amended_witness :
    ∃ r, dismantleFunction 1000 12 diamond 0 [4] (fun _ => true) = some r ∧
      ∀ a b, (a, b) ∈ r ↔ ChainReach diamond (fun _ => true) 0 a ∧
        Nearest diamond (fun _ => true) a b :=
  dismantleFunction_amended diamond (fun _ => true) 0 5 12 1000 [4] diamond_lt (by decide)
    (by decide) (by decide) (by decide)

/-- Counterexample to C29 as stated: in the graph `0 → 1, 0 → 2, 1 → 3, 2 → 3, 3 → 4` with
every block satisfying the predicate, block 3 enters the queue twice before it is used, and the
edge `(3, 4)` is returned twice; and a function whose entry block is final gives
`(entry, entry)`, which is not an edge to a nearest block. -/
theorem dismantleFunction_counterexample :
    dismantleFunction 20 20 diamond 0 [4] (fun _ => true) =
      some [(0, 1), (0, 2), (1, 3), (2, 3), (3, 4), (3, 4)] ∧
    dismantleFunction 20 20 diamond 4 [4] (fun _ => true) = some [(4, 4)] ∧
    getNearestPredicateSatisfying 20 diamond (fun _ => true) 4 = some [] := by
  decide

end CodeGraphDistance

namespace CodeGraphDistance

theorem distOf_eq_none {dist : List (Nat × Nat)} {b : Nat} :
    distOf dist b = none ↔ b ∉ dist.map (fun e => e.1) := by
  unfold distOf
  rw [Option.map_eq_none', List.find?_eq_none]
  simp only [decide_eq_true_eq, List.mem_map, not_exists, not_and]

theorem distOf_of_mem {dist : List (Nat × Nat)} (hn : (dist.map fun e => e.1).Nodup)
    {b d : Nat} (h : (b, d) ∈ dist) : distOf dist b = some d := by
  induction dist with
  | nil => simp at h
  | cons e rest ih =>
    rw [List.map_cons, List.nodup_cons] at hn
    unfold distOf
    rcases List.mem_cons.1 h with rfl | h
    · simp
    · have hne : e.1 ≠ b := by
        intro he
        apply hn.1
        rw [he]
        exact List.mem_map.2 ⟨(b, d), h, rfl⟩
      rw [List.find?_cons_of_neg _ (by simpa using hne)]
      exact ih hn.2 h

theorem mem_of_distOf {dist : List (Nat × Nat)} {b d : Nat} (h : distOf dist b = some d) :
    (b, d) ∈ dist := by
  unfold distOf at h
  rw [Option.map_eq_some'] at h
  obtain ⟨e, he, rfl⟩ := h
  have h1 := List.find?_some he
  have h2 := List.mem_of_find?_eq_some he
  simp only [decide_eq_true_eq] at h1
  subst h1
  exact h2

theorem relax_spec (d : Nat) :
    ∀ (l nodes : List Nat) (dist : List (Nat × Nat)),
      ∃ new : List Nat, relax d l (nodes, dist) =
          (nodes ++ new, dist ++ new.map fun s => (s, u32 (d + 1))) ∧
        ((dist.map fun e => e.1).Nodup →
          ((dist ++ new.map fun s => (s, u32 (d + 1))).map fun e => e.1).Nodup) ∧
        (∀ s ∈ new, s ∈ l) ∧
        (∀ s ∈ l, s ∈ dist.map (fun e => e.1) ∨ s ∈ new) := by
  intro l
  induction l with
  | nil => intro nodes dist; exact ⟨[], by simp [relax], by simp, by simp, by simp⟩
  | cons s rest ih =>
    intro nodes dist
    unfold relax
    by_cases hs : s ∈ dist.map (fun e => e.1)
    · have h1 : (distOf dist s).isNone = false := by
        cases h : distOf dist s with
        | none => exact absurd hs (distOf_eq_none.1 h)
        | some _ => rfl
      obtain ⟨new, he, hn, hm, hc⟩ := ih nodes dist
      refine ⟨new, by simp only [h1, Bool.false_eq_true, if_false, he], hn,
        fun x hx => List.mem_cons_of_mem _ (hm x hx), ?_⟩
      intro x hx
      rcases List.mem_cons.1 hx with rfl | hx
      · exact Or.inl hs
      · exact hc x hx
    · have h1 : (distOf dist s).isNone = true := by
        rw [distOf_eq_none.2 hs]; rfl
      obtain ⟨new, he, hn, hm, hc⟩ := ih (nodes ++ [s]) (dist ++ [(s, u32 (d + 1))])
      refine ⟨s :: new, by simp [h1, he], ?_, ?_, ?_⟩
      · intro hnd
        have h2 : ((dist ++ [(s, u32 (d + 1))]).map fun e => e.1).Nodup := by
          rw [List.map_append, List.nodup_append]
          refine ⟨hnd, by simp, ?_⟩
          intro a ha hb
          simp only [List.map_cons, List.map_nil, List.mem_singleton] at hb
          subst hb
          exact hs ha
        have := hn h2
        simpa using this
      · intro x hx
        rcases List.mem_cons.1 hx with rfl | hx
        · exact List.mem_cons_self _ _
        · exact List.mem_cons_of_mem _ (hm x hx)
      · intro x hx
        rcases List.mem_cons.1 hx with rfl | hx
        · exact Or.inr (List.mem_cons_self _ _)
        · rcases hc x hx with h | h
          · rw [List.map_append, List.mem_append] at h
            rcases h with h | h
            · exact Or.inl h
            · simp only [List.map_cons, List.map_nil, List.mem_singleton] at h
              subst h
              exact Or.inr (List.mem_cons_self _ _)
          · exact Or.inr (List.mem_cons_of_mem _ h)

end CodeGraphDistance

namespace CodeGraphDistance

theorem DistInv.length_le {next : Nat → List Nat} {src n : Nat} {p q : List (Nat × Nat)}
    (h : DistInv next src n p q) : (p ++ q).length ≤ n := by
  have := length_le_of_nodup_lt h.1 (by
    intro x hx
    rw [List.mem_map] at hx
    obtain ⟨e, he, rfl⟩ := hx
    exact (h.2.1 e he).2.1)
  simpa using this

theorem DistInv.after_step {next : Nat → List Nat} {src n : Nat} {p qrest : List (Nat × Nat)}
    {h : Nat × Nat} {new : List Nat} (hb : ∀ a, ∀ s ∈ next a, s < n)
    (inv : DistInv next src n p (h :: qrest))
    (hnd : (((p ++ h :: qrest) ++ new.map fun s => (s, h.2 + 1)).map fun e => e.1).Nodup)
    (hnew : ∀ s ∈ new, s ∈ next h.1)
    (hcov : ∀ s ∈ next h.1, s ∈ (p ++ h :: qrest).map (fun e => e.1) ∨ s ∈ new) :
    DistInv next src n (p ++ [h]) (qrest ++ new.map fun s => (s, h.2 + 1)) := by
  obtain ⟨_, hs, hm, hbd, hcl, hsrc⟩ := inv
  have hbd1 : ∀ e ∈ p ++ h :: qrest, e.2 ≤ h.2 + 1 := hbd h (by simp)
  have hhm : h ∈ p ++ h :: qrest := by simp
  have heq : (p ++ [h]) ++ (qrest ++ new.map fun s => (s, h.2 + 1)) =
      (p ++ h :: qrest) ++ new.map fun s => (s, h.2 + 1) := by simp
  have hall : ∀ e ∈ (p ++ h :: qrest) ++ new.map (fun s => (s, h.2 + 1)), e.2 ≤ h.2 + 1 := by
    intro e he
    rcases List.mem_append.1 he with he | he
    · exact hbd1 e he
    · rw [List.mem_map] at he
      obtain ⟨s, _, rfl⟩ := he
      exact Nat.le_refl _
  unfold DistInv
  rw [heq]
  refine ⟨hnd, ?_, ?_, ?_, ?_, List.mem_append_left _ hsrc⟩
  · intro e he
    rcases List.mem_append.1 he with he1 | he1
    · have := hs e he1
      refine ⟨this.1, this.2.1, ?_⟩
      rw [List.length_append]
      omega
    · rw [List.mem_map] at he1
      obtain ⟨s, hsn, rfl⟩ := he1
      refine ⟨Walk.snoc (hs h hhm).1 (hnew s hsn), hb _ _ (hnew s hsn), ?_⟩
      have h1 := (hs h hhm).2.2
      have h2 : 0 < new.length := List.length_pos_of_mem hsn
      simp only [List.length_append, List.length_map] at h1 ⊢
      omega
  · rw [List.map_append, List.pairwise_append]
    refine ⟨hm, ?_, ?_⟩
    · rw [List.map_map]
      apply List.pairwise_of_forall_mem_list
      intro a ha b hb1
      rw [List.mem_map] at ha hb1
      obtain ⟨_, _, rfl⟩ := ha
      obtain ⟨_, _, rfl⟩ := hb1
      exact Nat.le_refl _
    · intro a ha b hb1
      rw [List.mem_map] at ha hb1
      obtain ⟨e, he, rfl⟩ := ha
      obtain ⟨e1, he1, rfl⟩ := hb1
      rw [List.mem_map] at he1
      obtain ⟨s, _, rfl⟩ := he1
      exact hbd1 e he
  · intro h1 hh1 e he
    have hle : h.2 ≤ h1.2 := by
      have hmem : h1 ∈ qrest ++ new.map fun s => (s, h.2 + 1) := by
        cases hq : qrest ++ new.map (fun s => (s, h.2 + 1)) with
        | nil => rw [hq] at hh1; simp at hh1
        | cons x xs =>
          rw [hq] at hh1
          simp only [List.head?_cons, Option.mem_def, Option.some.injEq] at hh1
          subst hh1
          exact List.mem_cons_self _ _
      rcases List.mem_append.1 hmem with hm1 | hm1
      · rw [List.map_append, List.pairwise_append] at hm
        have h2 := hm.2.1
        rw [List.map_cons, List.pairwise_cons] at h2
        exact h2.1 _ (List.mem_map.2 ⟨h1, hm1, rfl⟩)
      · rw [List.mem_map] at hm1
        obtain ⟨s, _, rfl⟩ := hm1
        exact Nat.le_succ _
    have := hall e he
    omega
  · intro u hu v hv
    rcases List.mem_append.1 hu with hu | hu
    · obtain ⟨dv, h1, h2⟩ := hcl u hu v hv
      exact ⟨dv, List.mem_append_left _ h1, h2⟩
    · rw [List.mem_singleton] at hu
      subst hu
      rcases hcov v hv with h1 | h1
      · rw [List.mem_map] at h1
        obtain ⟨e, he, rfl⟩ := h1
        exact ⟨e.2, List.mem_append_left _ he, hbd1 e he⟩
      · exact ⟨u.2 + 1, List.mem_append_right _ (List.mem_map.2 ⟨v, h1, rfl⟩), Nat.le_refl _⟩

theorem distanceLoop_spec (next : Nat → List Nat) (src n : Nat)
    (hb : ∀ a, ∀ s ∈ next a, s < n) (hn : n < 4294967296) :
    ∀ (fuel : Nat) (p q : List (Nat × Nat)), DistInv next src n p q → n - p.length < fuel →
      ∃ D, distanceLoop next fuel (q.map fun e => e.1) (p ++ q) = some D ∧
        DistInv next src n D [] := by
  intro fuel
  induction fuel with
  | zero => intro _ _ _ h; exact absurd h (Nat.not_lt_zero _)
  | succ fuel ih =>
    intro p q inv hfuel
    cases q with
    | nil => exact ⟨p, by simp [distanceLoop], by simpa using inv⟩
    | cons h qrest =>
      have hlen := inv.length_le
      have hhm : h ∈ p ++ h :: qrest := by simp
      have hd : distOf (p ++ h :: qrest) h.1 = some h.2 := distOf_of_mem inv.1 hhm
      have hu : u32 (h.2 + 1) = h.2 + 1 := Ticker.u32_of_lt _ (by
        have := (inv.2.1 h hhm).2.2
        omega)
      obtain ⟨new, hrel, hnd, hnew, hcov⟩ :=
        relax_spec h.2 (next h.1) (h.1 :: qrest.map fun e => e.1) (p ++ h :: qrest)
      rw [hu] at hrel hnd
      have inv1 := DistInv.after_step hb inv (hnd inv.1) hnew hcov
      obtain ⟨D, hD, hinv⟩ := ih _ _ inv1 (by
        simp only [List.length_append, List.length_cons, List.length_nil] at hlen ⊢
        omega)
      refine ⟨D, ?_, hinv⟩
      rw [← hD]
      simp only [List.map_cons, distanceLoop, hd, hrel, List.cons_append, List.tail_cons,
        List.map_append, List.map_map]
      simp [Function.comp_def]

end CodeGraphDistance

namespace CodeGraphDistance

theorem Walk.cons {next : Nat → List Nat} {a m b k : Nat} (he : m ∈ next a)
    (h : Walk next m b k) : Walk next a b (k + 1) := by
  induction h with
  | zero => exact Walk.snoc Walk.zero he
  | snoc _ h2 ih => exact Walk.snoc ih h2

theorem Walk.walk_reverse {next prev : Nat → List Nat} (hrev : ∀ a b, a ∈ prev b ↔ b ∈ next a)
    {a b k : Nat} (h : Walk prev a b k) : Walk next b a k := by
  induction h with
  | zero => exact Walk.zero
  | snoc _ h2 ih => exact Walk.cons ((hrev _ _).1 h2) ih

theorem IsDist.dist_reverse {next prev : Nat → List Nat} (hrev : ∀ a b, a ∈ prev b ↔ b ∈ next a)
    {a b d : Nat} : IsDist prev a b d ↔ IsDist next b a d := by
  have hrev1 : ∀ a b, a ∈ next b ↔ b ∈ prev a := fun a b => ((hrev b a).symm)
  constructor
  · rintro ⟨h1, h2⟩
    exact ⟨h1.walk_reverse hrev, fun k hk => h2 k (hk.walk_reverse hrev1)⟩
  · rintro ⟨h1, h2⟩
    exact ⟨h1.walk_reverse hrev1, fun k hk => h2 k (hk.walk_reverse hrev)⟩

theorem DistInv.complete {next : Nat → List Nat} {src n : Nat} {D : List (Nat × Nat)}
    (inv : DistInv next src n D []) {v k : Nat} (h : Walk next src v k) :
    ∃ d, d ≤ k ∧ (v, d) ∈ D := by
  obtain ⟨_, _, _, _, hcl, hsrc⟩ := inv
  simp only [List.append_nil] at hcl hsrc
  induction h with
  | zero => exact ⟨0, Nat.le_refl _, hsrc⟩
  | snoc _ h2 ih =>
    obtain ⟨dm, hdm, hmem⟩ := ih
    obtain ⟨dv, h3, h4⟩ := hcl _ hmem _ h2
    exact ⟨dv, by simp only at h4; omega, h3⟩

theorem calculateDistance_spec (next : Nat → List Nat) (src n fuel : Nat)
    (hb : ∀ a, ∀ s ∈ next a, s < n) (hs : src < n) (hn : n < 4294967296) (hfuel : n < fuel) :
    ∃ D, calculateDistance fuel next src = some D ∧
      (∀ v d, distOf D v = some d ↔ IsDist next src v d) ∧
      (∀ v, distOf D v = none ↔ ¬ ∃ k, Walk next src v k) := by
  have inv0 : DistInv next src n [] [(src, 0)] := by
    refine ⟨by simp, ?_, by simp, ?_, by simp, by simp⟩
    · intro e he
      simp only [List.nil_append, List.mem_singleton] at he
      subst he
      exact ⟨Walk.zero, hs, by simp⟩
    · intro h hh e he
      simp only [List.head?_cons, Option.mem_def, Option.some.injEq] at hh
      simp only [List.nil_append, List.mem_singleton] at he
      subst hh he
      exact Nat.le_succ _
  obtain ⟨D, hD, inv⟩ := distanceLoop_spec next src n hb hn fuel [] [(src, 0)] inv0 (by
    simp only [List.length_nil]; omega)
  have hnd : (D.map fun e => e.1).Nodup := by simpa using inv.1
  have hsound : ∀ e ∈ D, Walk next src e.1 e.2 := fun e he =>
    (inv.2.1 e (by simpa using he)).1
  have hiff : ∀ v d, distOf D v = some d ↔ IsDist next src v d := by
    intro v d
    constructor
    · intro h
      have hm := mem_of_distOf h
      refine ⟨hsound _ hm, ?_⟩
      intro k hk
      obtain ⟨d1, hd1, hm1⟩ := inv.complete hk
      have := distOf_of_mem hnd hm1
      rw [h] at this
      cases this
      exact hd1
    · rintro ⟨h1, h2⟩
      obtain ⟨d1, hd1, hm1⟩ := inv.complete h1
      have hle := h2 d1 (hsound _ hm1)
      have : d1 = d := by omega
      subst this
      exact distOf_of_mem hnd hm1
  refine ⟨D, hD, hiff, ?_⟩
  intro v
  constructor
  · rintro h ⟨k, hk⟩
    obtain ⟨d1, _, hm1⟩ := inv.complete hk
    rw [distOf_of_mem hnd hm1] at h
    exact Option.noConfusion h
  · intro h
    cases hd : distOf D v with
    | none => rfl
    | some d => exact absurd ⟨d, ((hiff v d).1 hd).1⟩ h

theorem getDistance_eq (fuel : Nat) (next : Nat → List Nat)
    (cache : List (Nat × List (Nat × Nat))) (kb : Nat) (hc : CacheOK fuel next cache)
    (D : List (Nat × Nat)) (hD : calculateDistance fuel next kb = some D) :
    ∃ c1, getDistance fuel next cache kb = some (D, c1) ∧ CacheOK fuel next c1 := by
  unfold getDistance
  cases hf : cache.find? fun e => decide (e.1 = kb) with
  | some e =>
    have h1 := List.find?_some hf
    have h2 := hc e (List.mem_of_find?_eq_some hf)
    simp only [decide_eq_true_eq] at h1
    rw [h1, hD] at h2
    cases h2
    exact ⟨cache, rfl, hc⟩
  | none =>
    refine ⟨cache ++ [(kb, D)], by simp [hD], ?_⟩
    intro e he
    rcases List.mem_append.1 he with he | he
    · exact hc e he
    · rw [List.mem_singleton] at he
      subst he
      exact hD

/-- C9: on a function with block ids below `n` whose predecessor lists are the reverse of the
successor lists, whatever was cached by earlier calls, `getDistance(b)` returns a map that
holds for `b1` exactly the number of edges of a shortest path from `b` to `b1` and has no entry
when there is no path; `getBackwardDistance(b)` does the same along predecessor edges, and
`getBackwardDistance(b)[b1] = getDistance(b1)[b]`, both being absent together. -/
theorem getDistance_shortest (successors predecessors : Nat → List Nat) (n fuel : Nat)
    (hsb : ∀ a, ∀ s ∈ successors a, s < n) (hpb : ∀ a, ∀ s ∈ predecessors a, s < n)
    (hrev : ∀ a b, a ∈ predecessors b ↔ b ∈ successors a)
    (hn : n < 4294967296) (hfuel : n < fuel)
    (cache cacheB : List (Nat × List (Nat × Nat)))
    (hc : CacheOK fuel successors cache) (hcb : CacheOK fuel predecessors cacheB)
    (b : Nat) (hb : b < n) :
    ∃ D c1 DB c2, getDistance fuel successors cache b = some (D, c1) ∧
      CacheOK fuel successors c1 ∧
      getDistance fuel predecessors cacheB b = some (DB, c2) ∧
      CacheOK fuel predecessors c2 ∧
      (∀ b1 d, distOf D b1 = some d ↔ IsDist successors b b1 d) ∧
      (∀ b1, distOf D b1 = none ↔ ¬ ∃ k, Walk successors b b1 k) ∧
      (∀ b1 d, distOf DB b1 = some d ↔ IsDist predecessors b b1 d) ∧
      (∀ b1, distOf DB b1 = none ↔ ¬ ∃ k, Walk predecessors b b1 k) ∧
      (∀ b1, b1 < n → ∃ D1 c3, getDistance fuel successors c1 b1 = some (D1, c3) ∧
        distOf DB b1 = distOf D1 b) := by
  obtain ⟨D, hD, hD1, hD2⟩ := calculateDistance_spec successors b n fuel hsb hb hn hfuel
  obtain ⟨DB, hDB, hDB1, hDB2⟩ := calculateDistance_spec predecessors b n fuel hpb hb hn hfuel
  obtain ⟨c1, hg1, hc1⟩ := getDistance_eq fuel successors cache b hc D hD
  obtain ⟨c2, hg2, hc2⟩ := getDistance_eq fuel predecessors cacheB b hcb DB hDB
  refine ⟨D, c1, DB, c2, hg1, hc1, hg2, hc2, hD1, hD2, hDB1, hDB2, ?_⟩
  intro b1 hb1
  obtain ⟨D1, hE, hE1, _⟩ := calculateDistance_spec successors b1 n fuel hsb hb1 hn hfuel
  obtain ⟨c3, hg3, _⟩ := getDistance_eq fuel successors c1 b1 hc1 D1 hE
  refine ⟨D1, c3, hg3, ?_⟩
  apply Option.ext
  intro d
  rw [Option.mem_def, Option.mem_def, hDB1, hE1]
  exact IsDist.dist_reverse hrev

/-- Witness for C9: the graph with the single edge `0 → 1`, distances from block 0. -/
theorem getDistance_shortest_witness :
    ∃ D c1 DB c2, getDistance 3 oneEdge [] 0 = some (D, c1) ∧
      CacheOK 3 oneEdge c1 ∧
      getDistance 3 oneEdgeRev [] 0 = some (DB, c2) ∧
      CacheOK 3 oneEdgeRev c2 ∧
      (∀ b1 d, distOf D b1 = some d ↔ IsDist oneEdge 0 b1 d) ∧
      (∀ b1, distOf D b1 = none ↔ ¬ ∃ k, Walk oneEdge 0 b1 k) ∧
      (∀ b1 d, distOf DB b1 = some d ↔ IsDist oneEdgeRev 0 b1 d) ∧
      (∀ b1, distOf DB b1 = none ↔ ¬ ∃ k, Walk oneEdgeRev 0 b1 k) ∧
      (∀ b1, b1 < 2 → ∃ D1 c3, getDistance 3 oneEdge c1 b1 = some (D1, c3) ∧
        distOf DB b1 = distOf D1 0) :=
  getDistance_shortest oneEdge oneEdgeRev 2 3
    (fun a s hs => by unfold oneEdge at hs; split at hs <;> simp at hs; omega)
    (fun a s hs => by unfold oneEdgeRev at hs; split at hs <;> simp at hs; omega)
    (fun a b => by unfold oneEdge oneEdgeRev; by_cases ha : a = 0 <;> by_cases hb : b = 1 <;>
      simp [ha, hb])
    (by decide) (by decide) [] [] (fun _ h => by simp at h) (fun _ h => by simp at h) 0
    (by decide)

end CodeGraphDistance

namespace DiscretePDF

variable {T : Type}

open Node

variable [LinearOrder T]

theorem any_key_iff (L : List (T × ℚ)) (k : T) :
    (L.any fun x => decide (x.1 = k)) = true ↔ ∃ w, (k, w) ∈ L := by
  simp only [List.any_eq_true, decide_eq_true_eq]
  constructor
  · rintro ⟨⟨a, b⟩, h1, h2⟩
    exact ⟨b, by simp only at h2; rw [← h2]; exact h1⟩
  · rintro ⟨w, h⟩
    exact ⟨(k, w), h, rfl⟩

theorem length_filter_lt_gt (L : List (T × ℚ)) (k : T) :
    (L.filter (fun x => decide (x.1 < k))).length +
      (L.filter (fun x => decide (k < x.1))).length ≤ L.length := by
  induction L with
  | nil => simp
  | cons a L ih =>
    simp only [List.filter_cons, List.length_cons]
    by_cases h1 : a.1 < k
    · have h2 : ¬ k < a.1 := not_lt_of_gt h1
      simp only [h1, h2, decide_True, decide_False, ↓reduceIte, List.length_cons,
        Bool.false_eq_true]
      omega
    · by_cases h2 : k < a.1
      · simp only [h1, h2, decide_True, decide_False, ↓reduceIte, List.length_cons,
          Bool.false_eq_true]
        omega
      · simp only [h1, h2, decide_False, ↓reduceIte, Bool.false_eq_true]
        omega

theorem model_length (op : Op T) (L : List (T × ℚ)) : (op.model L).length ≤ L.length + 1 := by
  cases op with
  | insert k w =>
    have := length_filter_lt_gt L k
    simp only [Op.model, List.length_append, List.length_cons]
    omega
  | update k w => simp [Op.model]
  | remove k =>
    have := List.length_filter_le (fun x : T × ℚ => decide (x.1 ≠ k)) L
    simp only [Op.model]
    omega

theorem applyOp_spec {op : Op T} {t : Node T} {fuel : Nat} (hv : Valid t)
    (hpre : op.pre (toList t) = true)
    (hf : ((toList t).length + 2) * ((toList t).length + 2) ≤ fuel) :
    ∃ t1, applyOp fuel op t = some t1 ∧ Valid t1 ∧ toList t1 = op.model (toList t) := by
  have hsq : ((toList t).length + 1) * ((toList t).length + 1) ≤
      ((toList t).length + 2) * ((toList t).length + 2) :=
    Nat.mul_le_mul (by omega) (by omega)
  cases op with
  | insert k w =>
    simp only [Op.pre, Bool.not_eq_true', ← Bool.not_eq_true, any_key_iff, not_exists] at hpre
    exact insert_spec hv hpre (le_trans (insertFuel_le t) (le_trans hsq hf))
  | update k w =>
    simp only [Op.pre, any_key_iff] at hpre
    exact update_spec hv hpre
  | remove k =>
    simp only [Op.pre, any_key_iff] at hpre
    refine remove_spec hv hpre ?_
    unfold removeFuel
    rw [size_eq_length]
    have : (toList t).length + 2 ≤ ((toList t).length + 2) * ((toList t).length + 2) :=
      Nat.le_mul_of_pos_right _ (by omega)
    omega

theorem runOps_spec :
    ∀ (ops : List (Op T)) (t : Node T) (fuel N : Nat), Valid t → OpsOK ops (toList t) →
      (toList t).length + ops.length ≤ N → (N + 2) * (N + 2) ≤ fuel →
      ∃ t1, runOps fuel ops t = some t1 ∧ Valid t1 ∧ toList t1 = modelRun ops (toList t) := by
  intro ops
  induction ops with
  | nil => intro t fuel N hv _ _ _; exact ⟨t, rfl, hv, rfl⟩
  | cons op ops ih =>
    intro t fuel N hv hok hN hf
    simp only [List.length_cons] at hN
    have hf1 : ((toList t).length + 2) * ((toList t).length + 2) ≤ fuel :=
      le_trans (Nat.mul_le_mul (by omega) (by omega)) hf
    obtain ⟨t1, e1, v1, l1⟩ := applyOp_spec hv hok.1 hf1
    have hlen := model_length op (toList t)
    obtain ⟨t2, e2, v2, l2⟩ := ih t1 fuel N v1 (by rw [l1]; exact hok.2)
      (by rw [l1]; omega) hf
    refine ⟨t2, ?_, v2, ?_⟩
    · simp only [runOps, e1, e2]
    · rw [l2, l1]; rfl

theorem valid_nil : Valid (nil : Node T) :=
  ⟨by simp [KeysSorted, toList], trivial, trivial, rfl⟩

theorem modelRun_append (a b : List (Op T)) (L : List (T × ℚ)) :
    modelRun (a ++ b) L = modelRun b (modelRun a L) := by
  induction a generalizing L with
  | nil => rfl
  | cons op a ih => exact ih _

theorem opsOK_append (a b : List (Op T)) (L : List (T × ℚ)) :
    OpsOK (a ++ b) L ↔ OpsOK a L ∧ OpsOK b (modelRun a L) := by
  induction a generalizing L with
  | nil => simp [OpsOK, modelRun]
  | cons op a ih =>
    show (Op.pre L op = true ∧ OpsOK (a ++ b) (Op.model L op)) ↔ _
    rw [ih]
    simp only [OpsOK, modelRun, and_assoc]

theorem mem_model_ne (op : Op T) (L : List (T × ℚ)) {k1 : T} (h : k1 ≠ op.key) (w1 : ℚ) :
    (k1, w1) ∈ op.model L ↔ (k1, w1) ∈ L := by
  cases op with
  | insert k w =>
    simp only [Op.key] at h
    simp only [Op.model, List.mem_append, List.mem_cons, List.mem_filter, decide_eq_true_eq,
      Prod.mk.injEq]
    constructor
    · rintro (h1 | h1 | h1)
      · exact h1.1
      · exact absurd h1.1 h
      · exact h1.1
    · intro h1
      rcases lt_or_gt_of_ne h with h2 | h2
      · exact Or.inl ⟨h1, h2⟩
      · exact Or.inr (Or.inr ⟨h1, h2⟩)
  | update k w =>
    simp only [Op.key] at h
    simp only [Op.model, List.mem_map]
    constructor
    · rintro ⟨⟨a, b⟩, h1, h2⟩
      by_cases h3 : a = k
      · simp only [h3, ↓reduceIte, Prod.mk.injEq] at h2
        exact absurd h2.1.symm h
      · simp only [h3, ↓reduceIte] at h2
        rw [← h2]; exact h1
    · intro h1
      exact ⟨(k1, w1), h1, by simp [h]⟩
  | remove k =>
    simp only [Op.key] at h
    simp [Op.model, h]

theorem modelRun_length (ops : List (Op T)) (L : List (T × ℚ)) :
    (modelRun ops L).length ≤ L.length + ops.length := by
  induction ops generalizing L with
  | nil => exact Nat.le_refl _
  | cons op ops ih =>
    have h1 := ih (op.model L)
    have h2 := model_length op L
    simp only [modelRun, List.length_cons]
    omega

/-- C1: every sequence of `insert`, `update` and `remove` calls on the empty tree that meets
the preconditions (insert of an absent key, update and remove of a present key) runs to the
end, given enough fuel, and leaves a tree in which every node's `sumWeights` is its weight
plus the `sumWeights` of its children, whose keys and weights are those of the finite map the
calls describe, and whose root `sumWeights` is the sum of the weights of these keys. -/
theorem ops_keep_sums (ops : List (Op T)) (fuel : Nat) (hpre : OpsOK ops [])
    (hf : opsFuel ops ≤ fuel) :
    ∃ t, runOps fuel ops nil = some t ∧ SumOK t ∧ toList t = modelRun ops [] ∧
      t.sum = weightSum (modelRun ops []) := by
  obtain ⟨t, e, v, l⟩ := runOps_spec ops nil fuel ops.length valid_nil hpre
    (by simp [toList]) hf
  refine ⟨t, e, v.2.1, l, ?_⟩
  rw [sum_eq_weightSum v.2.1, l]
  rfl

/-- Witness for C1: insert `a` and `b`, update `a`, remove `b`. -/
theorem ops_keep_sums_witness :
    ∃ t, runOps 36 [Op.insert 'a' 1, Op.insert 'b' 3, Op.update 'a' 2, Op.remove 'b'] nil =
        some t ∧ SumOK t ∧
      toList t = modelRun [Op.insert 'a' 1, Op.insert 'b' 3, Op.update 'a' 2, Op.remove 'b'] [] ∧
      t.sum = weightSum
        (modelRun [Op.insert 'a' 1, Op.insert 'b' 3, Op.update 'a' 2, Op.remove 'b'] []) :=
  ops_keep_sums [Op.insert 'a' 1, Op.insert 'b' 3, Op.update 'a' 2, Op.remove 'b'] 36
    (by simp [OpsOK, Op.pre, Op.model]) (by simp [opsFuel])

/-- C19: on a tree built from the empty tree by calls that meet their preconditions, a further
such call `insert(k, w)`, `update(k, w)` or `remove(k)` returns, given enough fuel, and leaves
`inTree(k1)` and `getWeight(k1)` as they were for every other key `k1`; after `insert(k, w)`
and `update(k, w)` the key `k` is in the tree with weight `w`, and after `remove(k)` it is not
in the tree. -/
theorem finite_map_frame (ops : List (Op T)) (op : Op T) (fuel : Nat)
    (hpre : OpsOK (ops ++ [op]) []) (hf : opsFuel (ops ++ [op]) ≤ fuel) :
    ∃ t t1, runOps fuel ops nil = some t ∧ applyOp fuel op t = some t1 ∧
      (∀ k1, k1 ≠ op.key → inTree k1 t1 = inTree k1 t ∧ getWeight k1 t1 = getWeight k1 t) ∧
      (∀ k w, op = Op.insert k w ∨ op = Op.update k w →
        inTree k t1 = true ∧ getWeight k t1 = some w) ∧
      (∀ k, op = Op.remove k → inTree k t1 = false) := by
  rw [opsOK_append] at hpre
  obtain ⟨hpre1, hpre2, _⟩ := hpre
  have hfu : (ops.length + 3) * (ops.length + 3) ≤ fuel := by
    simpa [opsFuel] using hf
  obtain ⟨t, e, v, l⟩ := runOps_spec ops nil fuel ops.length valid_nil hpre1
    (by simp [toList]) (le_trans (Nat.mul_le_mul (by omega) (by omega)) hfu)
  have hlen : (toList t).length ≤ ops.length := by
    have := modelRun_length ops ([] : List (T × ℚ))
    rw [l]; simpa using this
  have hpre3 : op.pre (toList t) = true := by rw [l]; exact hpre2
  obtain ⟨t1, e1, v1, l1⟩ := @applyOp_spec T _ op t fuel v hpre3
    (le_trans (Nat.mul_le_mul (by omega) (by omega)) hfu)
  refine ⟨t, t1, e, e1, ?_, ?_, ?_⟩
  · intro k1 hk
    constructor
    · rw [Bool.eq_iff_iff, inTree_iff v1.1, inTree_iff v.1, l1]
      exact exists_congr fun w1 => mem_model_ne op _ hk w1
    · apply Option.ext
      intro a
      rw [Option.mem_def, Option.mem_def, getWeight_iff v1.1, getWeight_iff v.1, l1]
      exact mem_model_ne op _ hk a
  · intro k w hop
    have hmem : (k, w) ∈ toList t1 := by
      rw [l1]
      rcases hop with h | h
      · subst h
        simp [Op.model]
      · subst h
        simp only [Op.pre, any_key_iff] at hpre3
        obtain ⟨w0, hw0⟩ := hpre3
        simp only [Op.model, List.mem_map]
        exact ⟨(k, w0), hw0, by simp⟩
    exact ⟨(inTree_iff v1.1).2 ⟨w, hmem⟩, (getWeight_iff v1.1 w).2 hmem⟩
  · intro k hop
    subst hop
    rw [← Bool.not_eq_true, inTree_iff v1.1, l1]
    rintro ⟨w, hw⟩
    simp [Op.model] at hw

/-- Witness for C19: `a`, `b` and `c` inserted with the weights 1, 3 and 1/1000, then
`remove('b')`. -/
theorem finite_map_frame_witness :
    ∃ t t1, runOps 36 [Op.insert 'a' 1, Op.insert 'b' 3, Op.insert 'c' (1 / 1000)] nil = some t ∧
      applyOp 36 (Op.remove 'b') t = some t1 ∧
      (∀ k1, k1 ≠ (Op.remove 'b' : Op Char).key →
        inTree k1 t1 = inTree k1 t ∧ getWeight k1 t1 = getWeight k1 t) ∧
      (∀ k w, Op.remove 'b' = Op.insert k w ∨ Op.remove 'b' = Op.update k w →
        inTree k t1 = true ∧ getWeight k t1 = some w) ∧
      (∀ k, Op.remove 'b' = Op.remove k → inTree k t1 = false) :=
  finite_map_frame [Op.insert 'a' 1, Op.insert 'b' 3, Op.insert 'c' (1 / 1000)] (Op.remove 'b')
    36 (by simp [OpsOK, Op.pre, Op.model]) (by simp [opsFuel])

/-- The example of the specification: with `a`, `b` and `c` inserted with the weights 1, 3 and
1/1000, `remove('b')` leaves `getWeight('a')` at 1. -/
theorem remove_example :
    ∃ t t1, runOps 36 [Op.insert 'a' 1, Op.insert 'b' 3, Op.insert 'c' (1 / 1000)] nil = some t ∧
      remove 36 'b' t = some t1 ∧ getWeight 'a' t1 = some 1 := by
  have hok : OpsOK [Op.insert 'a' 1, Op.insert 'b' 3, Op.insert 'c' (1 / 1000),
      Op.remove 'b'] [] := by simp [OpsOK, Op.pre, Op.model]
  obtain ⟨t1, e, v, l⟩ := runOps_spec _ nil 36 4 valid_nil hok (by simp [toList]) (by norm_num)
  simp only [runOps] at e
  split at e
  · exact absurd e (by simp)
  rename_i ta ha
  split at e
  · exact absurd e (by simp)
  rename_i tb hb
  split at e
  · exact absurd e (by simp)
  rename_i tc hc
  split at e
  · exact absurd e (by simp)
  rename_i td hd
  simp only [Option.some.injEq] at e
  subst e
  refine ⟨tc, td, by simp only [runOps, ha, hb, hc], hd, ?_⟩
  rw [getWeight_iff v.1, l]
  simp [modelRun, Op.model]

end DiscretePDF

/-! ## TargetForest: `block` -/

namespace TargetForest

theorem find_eq_none {K V : Type} [DecidableEq K] {key : K} {m : List (K × V)} :
    find key m = none ↔ ∀ e ∈ m, e.1 ≠ key := by
  induction m with
  | nil => simp [find]
  | cons e m ih =>
    obtain ⟨k, v⟩ := e
    by_cases h : k = key
    · simp [find, h]
    · simp [find, h, ih]

theorem mem_erase {K V : Type} [DecidableEq K] {key : K} {e : K × V} {m : List (K × V)} :
    e ∈ erase key m ↔ e ∈ m ∧ e.1 ≠ key := by
  simp [erase]

theorem find_erase_self {K V : Type} [DecidableEq K] (key : K) (m : List (K × V)) :
    find key (erase key m) = none := by
  rw [find_eq_none]
  intro e he
  exact (mem_erase.1 he).2

theorem find_erase_ne {K V : Type} [DecidableEq K] {key k : K} (h : k ≠ key)
    (m : List (K × V)) : find k (erase key m) = find k m := by
  induction m with
  | nil => rfl
  | cons e m ih =>
    obtain ⟨k0, v0⟩ := e
    by_cases h0 : k0 = key
    · have h1 : k0 ≠ k := fun h2 => h (h2.symm.trans h0)
      have : erase key ((k0, v0) :: m) = erase key m := by simp [erase, h0]
      rw [this, ih]
      simp [find, h1]
    · have : erase key ((k0, v0) :: m) = (k0, v0) :: erase key m := by simp [erase, h0]
      rw [this]
      by_cases h1 : k0 = k
      · simp [find, h1]
      · simp [find, h1, ih]

theorem mem_foldl_erase (P : List Nat → Bool) (sets : List (List Nat)) :
    ∀ (f : List (List Nat × Layer)) (c : List Nat × Layer),
      c ∈ sets.foldl (fun f s => if P s then erase s f else f) f ↔
        c ∈ f ∧ ¬ (c.1 ∈ sets ∧ P c.1 = true) := by
  induction sets with
  | nil => intro f c; simp
  | cons s sets ih =>
    intro f c
    rw [List.foldl_cons, ih]
    by_cases hp : P s = true
    · simp only [hp, ↓reduceIte, mem_erase, List.mem_cons]
      constructor
      · rintro ⟨⟨h1, h2⟩, h3⟩
        refine ⟨h1, ?_⟩
        rintro ⟨h4 | h4, h5⟩
        · exact h2 h4
        · exact h3 ⟨h4, h5⟩
      · rintro ⟨h1, h2⟩
        refine ⟨⟨h1, ?_⟩, ?_⟩
        · intro h3
          exact h2 ⟨Or.inl h3, h3 ▸ hp⟩
        · rintro ⟨h3, h4⟩
          exact h2 ⟨Or.inr h3, h4⟩
    · simp only [hp, Bool.false_eq_true, ↓reduceIte, List.mem_cons]
      constructor
      · rintro ⟨h1, h2⟩
        refine ⟨h1, ?_⟩
        rintro ⟨h4 | h4, h5⟩
        · exact hp (h4 ▸ h5)
        · exact h2 ⟨h4, h5⟩
      · rintro ⟨h1, h2⟩
        exact ⟨h1, fun h3 => h2 ⟨Or.inr h3.1, h3.2⟩⟩

theorem removeTarget_eq {t : Nat} {l : Layer} {sets : List (List Nat)}
    (h : find t l.targetsToVector = some sets) :
    removeTarget t l = Layer.mk
      (sets.foldl (fun f s =>
        if (s.all fun u => (find u (erase t l.targetsToVector)).isNone) then erase s f
        else f) l.forest)
      (erase t l.targetsToVector) := by
  unfold removeTarget
  rw [h]

theorem mem_removeTarget {t : Nat} {l : Layer} {sets : List (List Nat)} (hf : Filed l)
    (h : find t l.targetsToVector = some sets) (c : List Nat × Layer) :
    c ∈ (removeTarget t l).forest ↔ c ∈ l.forest ∧ ¬ Only t c.1 := by
  rw [removeTarget_eq h]
  show c ∈ sets.foldl _ l.forest ↔ _
  rw [mem_foldl_erase (fun s => s.all fun u => (find u (erase t l.targetsToVector)).isNone)]
  constructor
  · rintro ⟨h1, h2⟩
    refine ⟨h1, fun ho => h2 ⟨?_, ?_⟩⟩
    · obtain ⟨sets1, e1, e2⟩ := hf.2 c h1 t ho.1
      rw [h] at e1
      cases e1
      exact e2
    · rw [List.all_eq_true]
      intro u hu
      rw [ho.2 u hu, find_erase_self]
      rfl
  · rintro ⟨h1, h2⟩
    refine ⟨h1, ?_⟩
    rintro ⟨h3, h4⟩
    apply h2
    refine ⟨((hf.1 t sets h).2 c.1 h3).1, ?_⟩
    intro u hu
    by_contra hne
    rw [List.all_eq_true] at h4
    have h5 := h4 u hu
    rw [find_erase_ne hne] at h5
    obtain ⟨sets1, e1, _⟩ := hf.2 c h1 u hu
    rw [e1] at h5
    simp at h5

/-- The outcome of `block(0)` on the leaf children `{0}` and `{0, 1}` depends on the order in
which the map is visited: with `{0}` first `block(0)` returns, and `deepFind(0)` is false
afterwards; with `{0, 1}` first the assertion of `blockLeafInChild` fails. -/
theorem block_assertion_example :
    (block 8 0 (Layer.mk [([0], leaf), ([0, 1], leaf)]
      [(0, [[0], [0, 1]]), (1, [[0, 1]])])).bind (deepFind 8 0) = some false ∧
    block 8 0 (Layer.mk [([0, 1], leaf), ([0], leaf)] [(0, [[0, 1], [0]]), (1, [[0, 1]])]) =
      none := by
  exact ⟨rfl, rfl⟩

/-- In the forest `{0} → ({3}, {1})`, `block(3)` leaves the empty forest: the leaf child `{1}`
of the layer below `{0}` goes as well. -/
theorem block_sibling_example :
    (block 8 3 (single [0] (Layer.mk [([3], leaf), ([1], leaf)] [(3, [[3]]), (1, [[1]])]))).bind
      (fun l => some l.empty) = some true := by
  decide

end TargetForest

/-! ## TargetManager: `updateTargets` -/

namespace TargetManager

open TargetForest

theorem SameView.view_refl (s : TargetedState) : SameView s s := ⟨rfl, rfl, rfl, rfl, rfl⟩

theorem SameView.view_trans {a b c : TargetedState} (h1 : SameView a b) (h2 : SameView b c) :
    SameView a c :=
  ⟨h2.1.trans h1.1, h2.2.1.trans h1.2.1, h2.2.2.1.trans h1.2.2.1,
    h2.2.2.2.1.trans h1.2.2.2.1, h2.2.2.2.2.trans h1.2.2.2.2⟩

theorem sameView_setTargets (s : TargetedState) (f : Layer) : SameView s (setTargets s f) :=
  ⟨rfl, rfl, rfl, rfl, rfl⟩

theorem sameView_untarget (env : Env) (s : TargetedState) : SameView s (untarget env s) := by
  unfold untarget
  split
  · exact ⟨rfl, rfl, rfl, rfl, rfl⟩
  · exact SameView.view_refl s

theorem sameView_updateMiss (env : Env) (t : Nat) (s : TargetedState) :
    SameView s (updateMiss env t s) := by
  unfold updateMiss
  simp only
  split
  · exact sameView_setTargets _ _
  · exact (sameView_setTargets _ _).view_trans (sameView_untarget _ _)

theorem sameView_updateDone {env : Env} {fuel t : Nat} {s s1 : TargetedState}
    (h : updateDone env fuel t s = some s1) : SameView s s1 := by
  unfold updateDone at h
  split at h
  · exact absurd h (by simp)
  rename_i stepped hstep
  simp only at h
  split at h
  · cases h
    exact sameView_setTargets _ _
  · split at h
    · exact absurd h (by simp)
    rename_i s2 hs2
    cases h
    refine SameView.view_trans ?_ (sameView_untarget _ _)
    split at hs2
    · split at hs2
      · exact absurd hs2 (by simp)
      · cases hs2
        exact ((sameView_setTargets s stepped).view_trans
          (sameView_setTargets _ _)).view_trans (sameView_untarget _ _)
    · cases hs2
      exact sameView_setTargets _ _

theorem isReachedTarget_congr (env : Env) {s s1 : TargetedState} (h : SameView s s1)
    (ti : TargetInfo) : isReachedTarget env s1 ti = isReachedTarget env s ti := by
  obtain ⟨h1, h2, h3, h4, h5⟩ := h
  cases ti <;> simp only [isReachedTarget, h1, h2, h3, h4, h5]

theorem distance_of_reached {env : Env} {s s1 : TargetedState} {t : Nat} (h : SameView s s1)
    (hr : isReached env s t = true) : distance env s1 t = some WeightResult.Done := by
  unfold isReached at hr
  unfold distance
  rw [isReachedTarget_congr env h]
  split at hr
  · rename_i heq
    rw [heq]
  · exact absurd hr (by simp)

theorem updateLoop_log (env : Env) (fuel : Nat) :
    ∀ (ts : List Nat) (s : TargetedState) (log : List Call),
      ∃ extra, (updateLoop env fuel ts s log).1 = log ++ extra ∧ ∀ c ∈ extra, c.target ∈ ts := by
  intro ts
  induction ts with
  | nil => intro s log; exact ⟨[], by simp [updateLoop], by simp⟩
  | cons t rest ih =>
    intro s log
    have lift : ∀ (s1 : TargetedState) (c : Call), c.target = t →
        ∃ extra, (updateLoop env fuel rest s1 (log ++ [c])).1 = log ++ extra ∧
          ∀ c ∈ extra, c.target ∈ t :: rest := by
      intro s1 c hc
      obtain ⟨extra, e1, e2⟩ := ih s1 (log ++ [c])
      refine ⟨c :: extra, by rw [e1]; simp, ?_⟩
      intro x hx
      rcases List.mem_cons.1 hx with rfl | hx
      · rw [hc]; exact List.mem_cons_self _ _
      · exact List.mem_cons_of_mem _ (e2 x hx)
    unfold updateLoop
    split
    · obtain ⟨extra, e1, e2⟩ := ih s log
      exact ⟨extra, e1, fun c hc => List.mem_cons_of_mem _ (e2 c hc)⟩
    · split
      · exact ⟨[], by simp, by simp⟩
      · exact lift _ _ rfl
      · exact lift _ _ rfl
      · split
        · exact ⟨[Call.updateDone t], rfl, by simp [Call.target]⟩
        · exact lift _ _ rfl

theorem updateLoop_view (env : Env) (fuel : Nat) :
    ∀ (ts : List Nat) (s : TargetedState) (log : List Call) (s1 : TargetedState),
      (updateLoop env fuel ts s log).2 = some s1 → SameView s s1 := by
  intro ts
  induction ts with
  | nil =>
    intro s log s1 h
    simp only [updateLoop, Option.some.injEq] at h
    subst h
    exact SameView.view_refl s
  | cons t rest ih =>
    intro s log s1 h
    unfold updateLoop at h
    split at h
    · exact ih _ _ _ h
    · split at h
      · exact absurd h (by simp)
      · exact ih _ _ _ h
      · exact (sameView_updateMiss env t s).view_trans (ih _ _ _ h)
      · split at h
        · exact absurd h (by simp)
        · rename_i s2 hs2
          exact (sameView_updateDone hs2).view_trans (ih _ _ _ h)

theorem updateLoop_append (env : Env) (fuel : Nat) (b : List Nat) :
    ∀ (a : List Nat) (s : TargetedState) (log : List Call),
      updateLoop env fuel (a ++ b) s log =
        match updateLoop env fuel a s log with
        | (log1, some s1) => updateLoop env fuel b s1 log1
        | (log1, none) => (log1, none) := by
  intro a
  induction a with
  | nil => intro s log; rfl
  | cons t rest ih =>
    intro s log
    rw [List.cons_append, updateLoop.eq_2, updateLoop.eq_2]
    by_cases hc : (!contains t s.forest) = true
    · rw [if_pos hc, if_pos hc]
      exact ih _ _
    · rw [if_neg hc, if_neg hc]
      cases distance env s t with
      | none => rfl
      | some r =>
        cases r with
        | Continue => exact ih _ _
        | Miss => exact ih _ _
        | Done =>
          simp only
          cases updateDone env fuel t s with
          | none => rfl
          | some s2 => exact ih _ _

theorem not_mem_of_targets {L : List Call} {ts : List Nat} {t : Nat}
    (h : ∀ c ∈ L, c.target ∈ ts) (ht : t ∉ ts) (c : Call) (hc : c.target = t) : c ∉ L :=
  fun hm => ht (hc ▸ h c hm)

theorem prepare_of_targets (env : Env) {s : TargetedState} (h : s.targets ≠ []) :
    prepare env s = s := by
  have he : s.targets.isEmpty = false := by
    cases hs : s.targets with
    | nil => exact absurd hs h
    | cons a b => rfl
  unfold prepare
  simp [he]

/-- C25, amended: for a targeted state `s` and a target `t` among its targets (`pre` are the
targets visited before it and `post` those after it) with `isReachedTarget(s, t)`, one call of
`updateTargets(s)` calls neither `updateMiss(s, t)` nor `updateContinue(s, t)`, and calls
`updateDone(s, t)` at most once: once exactly when the loop comes to `t` and the forest of the
state then still contains `t`. -/
theorem updateTargets_reached_amended (env : Env) (fuel : Nat) (s : TargetedState) (t : Nat)
    (pre post : List Nat) (htarg : s.targeted = true) (hts : s.targets = pre ++ t :: post)
    (hpre : t ∉ pre) (hpost : t ∉ post) (hreach : isReached env s t = true) :
    Call.updateMiss t ∉ (updateTargets env fuel s).1 ∧
      Call.updateContinue t ∉ (updateTargets env fuel s).1 ∧
      (updateTargets env fuel s).1.count (Call.updateDone t) ≤ 1 ∧
      ((updateTargets env fuel s).1.count (Call.updateDone t) = 1 ↔
        ∃ s1, (updateLoop env fuel pre s []).2 = some s1 ∧ contains t s1.forest = true) := by
  have hp : prepare env s = s := prepare_of_targets env (by rw [hts]; simp)
  have hu : updateTargets env fuel s = updateLoop env fuel (pre ++ t :: post) s [] := by
    unfold updateTargets
    rw [hp, htarg, hts]
    rfl
  rw [hu, updateLoop_append]
  obtain ⟨extra1, e1, t1⟩ := updateLoop_log env fuel pre s []
  have hview := updateLoop_view env fuel pre s []
  rcases hloop : updateLoop env fuel pre s [] with ⟨log1, o1⟩
  rw [hloop] at e1 hview
  simp only [List.nil_append] at e1
  subst e1
  have n1 : ∀ c : Call, c.target = t → c ∉ log1 := not_mem_of_targets t1 hpre
  cases o1 with
  | none =>
    simp only
    refine ⟨n1 (Call.updateMiss t) rfl, n1 (Call.updateContinue t) rfl, ?_, ?_⟩
    · rw [List.count_eq_zero_of_not_mem (n1 (Call.updateDone t) rfl)]; omega
    · rw [List.count_eq_zero_of_not_mem (n1 (Call.updateDone t) rfl)]; simp
  | some s1 =>
    simp only
    have hv : SameView s s1 := hview s1 rfl
    rw [updateLoop.eq_2]
    by_cases hc : contains t s1.forest = true
    · have hd := distance_of_reached hv hreach
      simp only [hc, Bool.not_true, Bool.false_eq_true, ↓reduceIte, hd]
      have key : ∀ L : List Call, (∃ extra2, L = (log1 ++ [Call.updateDone t]) ++ extra2 ∧
          ∀ c ∈ extra2, c.target ∈ post) →
          Call.updateMiss t ∉ L ∧ Call.updateContinue t ∉ L ∧
            L.count (Call.updateDone t) ≤ 1 ∧
            (L.count (Call.updateDone t) = 1 ↔
              ∃ s2, some s1 = some s2 ∧ contains t s2.forest = true) := by
        rintro L ⟨extra2, rfl, t2⟩
        have n2 : ∀ c : Call, c.target = t → c ∉ extra2 := not_mem_of_targets t2 hpost
        have hcount : ((log1 ++ [Call.updateDone t]) ++ extra2).count (Call.updateDone t) = 1 := by
          rw [List.count_append, List.count_append, List.count_eq_zero_of_not_mem (n1 (Call.updateDone t) rfl),
            List.count_eq_zero_of_not_mem (n2 (Call.updateDone t) rfl)]
          simp
        refine ⟨?_, ?_, by omega, ?_⟩
        · simp [n1 (Call.updateMiss t) rfl, n2 (Call.updateMiss t) rfl]
        · simp [n1 (Call.updateContinue t) rfl, n2 (Call.updateContinue t) rfl]
        · rw [hcount]
          simp only [true_iff]
          exact ⟨s1, rfl, hc⟩
      cases hdone : updateDone env fuel t s1 with
      | none => exact key _ ⟨[], by simp, by simp⟩
      | some s2 => exact key _ (updateLoop_log env fuel post s2 _)
    · have hc1 : contains t s1.forest = false := by simpa using hc
      simp only [hc1, Bool.not_false, ↓reduceIte]
      obtain ⟨extra2, e2, t2⟩ := updateLoop_log env fuel post s1 log1
      rw [e2]
      have n2 : ∀ c : Call, c.target = t → c ∉ extra2 := not_mem_of_targets t2 hpost
      have hcount : (log1 ++ extra2).count (Call.updateDone t) = 0 := by
        rw [List.count_append, List.count_eq_zero_of_not_mem (n1 (Call.updateDone t) rfl),
          List.count_eq_zero_of_not_mem (n2 (Call.updateDone t) rfl)]
      refine ⟨?_, ?_, by omega, ?_⟩
      · simp [n1 (Call.updateMiss t) rfl, n2 (Call.updateMiss t) rfl]
      · simp [n1 (Call.updateContinue t) rfl, n2 (Call.updateContinue t) rfl]
      · rw [hcount]
        simp [hc1]

/-- Witness for C25: the state that has taken branch 0 from block 0 to block 1, with the
targets 1 (the branch) and 2 (the start of block 1) in one set, and `t = 1`. -/
theorem updateTargets_reached_amended_witness :
    Call.updateMiss 1 ∉ (updateTargets branchEnv 8 (branchState [1, 2])).1 ∧
      Call.updateContinue 1 ∉ (updateTargets branchEnv 8 (branchState [1, 2])).1 ∧
      (updateTargets branchEnv 8 (branchState [1, 2])).1.count (Call.updateDone 1) ≤ 1 ∧
      ((updateTargets branchEnv 8 (branchState [1, 2])).1.count (Call.updateDone 1) = 1 ↔
        ∃ s1, (updateLoop branchEnv 8 [] (branchState [1, 2]) []).2 = some s1 ∧
          contains 1 s1.forest = true) :=
  updateTargets_reached_amended branchEnv 8 (branchState [1, 2]) 1 [] [2] rfl rfl
    (by simp) (by simp) (by decide)

/-- Counterexample for C25: the state has taken branch 0 from the end of block 0 to the start
of block 1 and so has reached both targets of its one target set, the branch (target 1) and
the start of block 1 (target 2); `updateTargets` calls `updateDone` for the target it visits
first and makes no call for the other one, in either order of the visit. -/
theorem updateTargets_counterexample :
    isReached branchEnv (branchState [1, 2]) 1 = true ∧
      isReached branchEnv (branchState [1, 2]) 2 = true ∧
      (updateTargets branchEnv 8 (branchState [1, 2])).1 = [Call.updateDone 1] ∧
      (updateTargets branchEnv 8 (branchState [2, 1])).1 = [Call.updateDone 2] := by
  decide

end TargetManager

/-! ## The hub: closing proof obligations by forward reach -/

namespace ObjectManager

theorem getPob_mem {h : ObjectManager} {id : Nat} {p : ProofObligation}
    (hs : h.getPob id = some p) : p ∈ h.pobHeap ∧ p.id = id := by
  unfold getPob at hs
  exact ⟨List.mem_of_find?_eq_some hs, by simpa using List.find?_some hs⟩

theorem find?_of_nodup (heap : List ProofObligation) (hn : (heap.map fun p => p.id).Nodup)
    {p : ProofObligation} (hp : p ∈ heap) :
    heap.find? (fun q => decide (q.id = p.id)) = some p := by
  induction heap with
  | nil => simp at hp
  | cons a rest ih =>
    simp only [List.map_cons, List.nodup_cons, List.mem_map, not_exists, not_and] at hn
    rcases List.mem_cons.1 hp with rfl | hp
    · simp
    · have hne : a.id ≠ p.id := fun e => hn.1 p hp e.symm
      simp only [List.find?_cons, hne, decide_False]
      exact ih hn.2 hp

theorem getPob_of_mem {h : ObjectManager} (hok : HeapOK h) {p : ProofObligation}
    (hp : p ∈ h.pobHeap) : h.getPob p.id = some p :=
  find?_of_nodup _ hok.1 hp

theorem SubtreeInv.next {h : ObjectManager} {r cur : Nat} {queue subtree : List Nat}
    {p pr : ProofObligation} (hok : HeapOK h) (hr : h.getPob r = some pr)
    (hroot : pr.parent = none) (inv : SubtreeInv h r (cur :: queue) subtree)
    (hp : h.getPob cur = some p) :
    SubtreeInv h r (queue ++ p.children) (setInsert cur subtree) := by
  have hcur : cur ∉ subtree := inv.disjoint cur (List.mem_cons_self _ _)
  have hnq := List.nodup_cons.1 inv.nodupQ
  -- a child of `cur` is new
  have hnew : ∀ c ∈ p.children, c ≠ cur ∧ c ∉ queue ∧ c ∉ subtree := by
    intro c hc
    obtain ⟨pc, hpc, hpar⟩ := hok.2.1 p (getPob_mem hp).1 c hc
    rw [(getPob_mem hp).2] at hpar
    have key : ¬ (c ∈ cur :: queue ∨ c ∈ subtree) := by
      intro hin
      rcases inv.parent c hin with rfl | ⟨p1, q, h1, h2, h3⟩
      · rw [hr] at hpc
        cases hpc
        rw [hroot] at hpar
        cases hpar
      · rw [hpc] at h1
        cases h1
        rw [hpar] at h2
        cases h2
        exact hcur h3
    refine ⟨fun e => key (Or.inl (e ▸ List.mem_cons_self _ _)),
      fun e => key (Or.inl (List.mem_cons_of_mem _ e)), fun e => key (Or.inr e)⟩
  refine ⟨?_, CodeGraphDistance.setInsert_sorted cur subtree inv.sorted, ?_, ?_, ?_, ?_, ?_⟩
  · rw [List.nodup_append]
    refine ⟨hnq.2, hok.2.2.2 p (getPob_mem hp).1, ?_⟩
    intro x hx1 hx2
    exact (hnew x hx2).2.1 hx1
  · intro x hx
    rw [mem_setInsert]
    rcases List.mem_append.1 hx with hx | hx
    · rintro (rfl | h1)
      · exact hnq.1 hx
      · exact inv.disjoint x (List.mem_cons_of_mem _ hx) h1
    · rintro (rfl | h1)
      · exact (hnew x hx).1 rfl
      · exact (hnew x hx).2.2 h1
  · intro x hx
    rw [mem_setInsert, List.mem_append] at hx
    rcases hx with (hx | hx) | (rfl | hx)
    · exact inv.descends x (Or.inl (List.mem_cons_of_mem _ hx))
    · obtain ⟨pc, hpc, _⟩ := hok.2.1 p (getPob_mem hp).1 x hx
      exact ⟨Descends.child (inv.descends cur (Or.inl (List.mem_cons_self _ _))).1 hp hx,
        pc, hpc⟩
    · exact inv.descends x (Or.inl (List.mem_cons_self _ _))
    · exact inv.descends x (Or.inr hx)
  · intro x hx
    have old : ∀ y, y ∈ cur :: queue ∨ y ∈ subtree →
        y = r ∨ ∃ p q, h.getPob y = some p ∧ p.parent = some q ∧ q ∈ setInsert cur subtree := by
      intro y hy
      rcases inv.parent y hy with h1 | ⟨p1, q, h1, h2, h3⟩
      · exact Or.inl h1
      · exact Or.inr ⟨p1, q, h1, h2, (mem_setInsert _ _ _).2 (Or.inr h3)⟩
    rw [mem_setInsert, List.mem_append] at hx
    rcases hx with (hx | hx) | (rfl | hx)
    · exact old x (Or.inl (List.mem_cons_of_mem _ hx))
    · obtain ⟨pc, hpc, hpar⟩ := hok.2.1 p (getPob_mem hp).1 x hx
      rw [(getPob_mem hp).2] at hpar
      exact Or.inr ⟨pc, cur, hpc, hpar, (mem_setInsert _ _ _).2 (Or.inl rfl)⟩
    · exact old x (Or.inl (List.mem_cons_self _ _))
    · exact old x (Or.inr hx)
  · intro x hx p1 hp1 c hc
    rw [mem_setInsert] at hx
    rw [mem_setInsert, List.mem_append]
    rcases hx with rfl | hx
    · rw [hp] at hp1
      cases hp1
      exact Or.inl (Or.inr hc)
    · rcases inv.closed x hx p1 hp1 c hc with h1 | h1
      · rcases List.mem_cons.1 h1 with rfl | h2
        · exact Or.inr (Or.inl rfl)
        · exact Or.inl (Or.inl h2)
      · exact Or.inr (Or.inr h1)
  · rw [mem_setInsert, List.mem_append]
    rcases inv.hasRoot with h1 | h1
    · rcases List.mem_cons.1 h1 with rfl | h2
      · exact Or.inr (Or.inl rfl)
      · exact Or.inl (Or.inl h2)
    · exact Or.inr (Or.inr h1)

theorem length_le_heap {h : ObjectManager} {l : List Nat} (hn : l.Nodup)
    (hin : ∀ x ∈ l, ∃ p, h.getPob x = some p) : l.length ≤ h.pobHeap.length := by
  have hs : l ⊆ h.pobHeap.map fun p => p.id := by
    intro x hx
    obtain ⟨p, hp⟩ := hin x hx
    exact List.mem_map.2 ⟨p, (getPob_mem hp).1, (getPob_mem hp).2⟩
  have := (List.subperm_of_subset hn hs).length_le
  simpa using this

theorem getSubtreeLoop_spec {h : ObjectManager} {r : Nat} {pr : ProofObligation}
    (hok : HeapOK h) (hr : h.getPob r = some pr) (hroot : pr.parent = none) :
    ∀ (fuel : Nat) (queue subtree : List Nat), SubtreeInv h r queue subtree →
      h.pobHeap.length + 1 ≤ fuel + subtree.length →
      ∃ l, getSubtreeLoop h fuel queue subtree = some l ∧ SubtreeInv h r [] l := by
  intro fuel
  induction fuel with
  | zero =>
    intro queue subtree inv hf
    have := length_le_heap (CodeGraphDistance.sorted_nodup inv.sorted)
      (fun x hx => (inv.descends x (Or.inr hx)).2)
    omega
  | succ fuel ih =>
    intro queue subtree inv hf
    cases queue with
    | nil => exact ⟨subtree, rfl, inv⟩
    | cons cur queue =>
      obtain ⟨_, p, hp⟩ := inv.descends cur (Or.inl (List.mem_cons_self _ _))
      simp only [getSubtreeLoop, hp]
      apply ih _ _ (inv.next hok hr hroot hp)
      have hcur : cur ∉ subtree := inv.disjoint cur (List.mem_cons_self _ _)
      rw [CodeGraphDistance.setInsert_length cur subtree inv.sorted, if_neg hcur]
      omega

theorem getSubtree_spec {h : ObjectManager} {r : Nat} {pr : ProofObligation}
    (hok : HeapOK h) (hr : h.getPob r = some pr) (hroot : pr.parent = none) :
    ∃ l, h.getSubtree r = some l ∧ l.Pairwise (fun a b => a < b) ∧
      ∀ id, id ∈ l ↔ Descends h r id := by
  have inv0 : SubtreeInv h r [r] [] :=
    { nodupQ := by simp
      sorted := List.Pairwise.nil
      disjoint := by simp
      descends := by
        intro x hx
        simp only [List.mem_singleton, List.not_mem_nil, or_false] at hx
        subst hx
        exact ⟨Descends.root, pr, hr⟩
      parent := by
        intro x hx
        simp only [List.mem_singleton, List.not_mem_nil, or_false] at hx
        exact Or.inl hx
      closed := by simp
      hasRoot := by simp }
  obtain ⟨l, hl, inv⟩ := getSubtreeLoop_spec hok hr hroot (h.pobHeap.length + 1) [r] [] inv0
    (by simp)
  refine ⟨l, hl, inv.sorted, fun id => ⟨fun hid => (inv.descends id (Or.inr hid)).1, ?_⟩⟩
  intro hd
  induction hd with
  | root => simpa using inv.hasRoot
  | child _ hp hc ih => simpa using inv.closed _ ih _ hp _ hc

theorem Descends.inHeap {h : ObjectManager} {r x : Nat} {pr : ProofObligation}
    (hok : HeapOK h) (hr : h.getPob r = some pr) (hd : Descends h r x) :
    ∃ p, h.getPob x = some p := by
  induction hd with
  | root => exact ⟨pr, hr⟩
  | child _ hp hc _ =>
    obtain ⟨pc, hpc, _⟩ := hok.2.1 _ (getPob_mem hp).1 _ hc
    exact ⟨pc, hpc⟩

/-- An obligation of the subtree other than the root has its parent in the subtree. -/
theorem Descends.parent_in {h : ObjectManager} {r x : Nat} (hok : HeapOK h)
    (hd : Descends h r x) :
    x = r ∨ ∃ p q, h.getPob x = some p ∧ p.parent = some q ∧ Descends h r q := by
  cases hd with
  | root => exact Or.inl rfl
  | child hx hp hc =>
    obtain ⟨pc, hpc, hpar⟩ := hok.2.1 _ (getPob_mem hp).1 _ hc
    rw [(getPob_mem hp).2] at hpar
    exact Or.inr ⟨pc, _, hpc, hpar, hx⟩

theorem mem_propInsert (x y : Propagation) (l : List Propagation) :
    y ∈ propInsert x l ↔ y = x ∨ y ∈ l := by
  unfold propInsert
  split
  · constructor
    · exact Or.inr
    · rintro (rfl | h)
      · assumption
      · exact h
  · simp [or_comm]

theorem nodup_propInsert (x : Propagation) {l : List Propagation} (h : l.Nodup) :
    (propInsert x l).Nodup := by
  unfold propInsert
  split
  · exact h
  · rename_i hx
    rw [List.nodup_append]
    exact ⟨h, by simp, by
      intro a ha hb
      rw [List.mem_singleton] at hb
      exact hx (hb ▸ ha)⟩

theorem mem_foldl_propInsert (ps : List Propagation) :
    ∀ (acc : List Propagation) (y : Propagation),
      y ∈ ps.foldl (fun acc prop => propInsert prop acc) acc ↔ y ∈ acc ∨ y ∈ ps := by
  induction ps with
  | nil => intro acc y; simp
  | cons a ps ih =>
    intro acc y
    rw [List.foldl_cons, ih, mem_propInsert, List.mem_cons]
    tauto

theorem nodup_foldl_propInsert (ps : List Propagation) :
    ∀ (acc : List Propagation), acc.Nodup →
      (ps.foldl (fun acc prop => propInsert prop acc) acc).Nodup := by
  induction ps with
  | nil => intro acc h; exact h
  | cons a ps ih =>
    intro acc h
    exact ih _ (nodup_propInsert a h)

theorem CloseEffect.close_refl (h : ObjectManager) : CloseEffect h h [] :=
  { heap := rfl, pobs := rfl, leafPobs := rfl, propagations := rfl, propagationCount := rfl
    addedPobs := rfl, addedPropagations := rfl
    roots := by simp
    sorted := fun x => x
    props := by simp
    propsNodup := fun x => x }

theorem CloseEffect.close_append {h h1 h2 : ObjectManager} {l1 l2 : List Nat}
    (a : CloseEffect h h1 l1) (b : CloseEffect h1 h2 l2) : CloseEffect h h2 (l1 ++ l2) :=
  { heap := b.heap.trans a.heap
    pobs := b.pobs.trans a.pobs
    leafPobs := b.leafPobs.trans a.leafPobs
    propagations := b.propagations.trans a.propagations
    propagationCount := b.propagationCount.trans a.propagationCount
    addedPobs := b.addedPobs.trans a.addedPobs
    addedPropagations := b.addedPropagations.trans a.addedPropagations
    roots := by
      intro x
      rw [b.roots, a.roots, getPob_congr a.heap, List.mem_append]
      generalize (∃ p, h.getPob x = some p ∧ p.parent = none) = P
      tauto
    sorted := fun x => b.sorted (a.sorted x)
    props := by
      intro prop
      rw [b.props, a.props, getPob_congr a.heap, a.propagations, List.mem_append]
      generalize (∃ p, h.getPob prop.pob = some p ∧ prop ∈ h.propagations p.location) = P
      tauto
    propsNodup := fun x => b.propsNodup (a.propsNodup x) }

theorem removePobStep_close {h h1 : ObjectManager} {pob : Nat}
    (hs : removePobStep h pob = some h1) : CloseEffect h h1 [pob] := by
  unfold removePobStep at hs
  split at hs
  · cases hs
  · rename_i p hp
    cases hs
    refine
      { heap := rfl, pobs := rfl, leafPobs := rfl, propagations := rfl, propagationCount := rfl
        addedPobs := rfl, addedPropagations := rfl
        roots := ?_
        sorted := fun x => CodeGraphDistance.setInsert_sorted pob _ x
        props := ?_
        propsNodup := fun x => nodup_foldl_propInsert _ _ x }
    · intro x
      simp only [List.mem_singleton]
      cases hpar : p.parent with
      | none =>
        simp only [Option.isNone_none, ↓reduceIte, mem_setErase]
        constructor
        · rintro ⟨h1, h2⟩
          exact ⟨h2, fun h3 => h1 h3.1⟩
        · rintro ⟨h1, h2⟩
          refine ⟨fun h3 => h2 ⟨h3, ?_⟩, h1⟩
          subst h3
          exact ⟨p, hp, hpar⟩
      | some q =>
        simp only [Option.isNone_some, Bool.false_eq_true, ↓reduceIte]
        constructor
        · intro h1
          refine ⟨h1, ?_⟩
          rintro ⟨h3, p1, hp1, hp2⟩
          subst h3
          rw [hp] at hp1
          cases hp1
          rw [hpar] at hp2
          cases hp2
        · exact fun h1 => h1.1
    · intro prop
      simp only [mem_foldl_propInsert, List.mem_filter, decide_eq_true_eq, List.mem_singleton]
      constructor
      · rintro (h1 | ⟨h1, h2⟩)
        · exact Or.inl h1
        · exact Or.inr ⟨h2, p, by rw [h2]; exact hp, h1⟩
      · rintro (h1 | ⟨h1, p1, hp1, hp2⟩)
        · exact Or.inl h1
        · rw [h1, hp] at hp1
          cases hp1
          exact Or.inr ⟨hp2, h1⟩

theorem foldlM_removePobStep_close (l : List Nat) :
    ∀ {h : ObjectManager}, (∀ q ∈ l, ∃ p, h.getPob q = some p) →
      ∃ h1, l.foldlM removePobStep h = some h1 ∧ CloseEffect h h1 l ∧ RemEffect h h1 l := by
  induction l with
  | nil =>
    intro h _
    exact ⟨h, rfl, CloseEffect.close_refl h, RemEffect.nil_effect h⟩
  | cons x xs ih =>
    intro h hin
    obtain ⟨p, hp⟩ := hin x (List.mem_cons_self _ _)
    have hx : ∃ h2, removePobStep h x = some h2 := by
      unfold removePobStep
      rw [hp]
      exact ⟨_, rfl⟩
    obtain ⟨h2, hx⟩ := hx
    have c1 := removePobStep_close hx
    obtain ⟨h1, e1, c2, r2⟩ := ih (h := h2) (by
      intro q hq
      rw [getPob_congr c1.heap]
      exact hin q (List.mem_cons_of_mem _ hq))
    refine ⟨h1, ?_, c1.close_append c2, (removePobStep_effect hx).append_effect r2⟩
    simp only [List.foldlM_cons, hx]
    exact e1

theorem mem_foldl_step {α : Type} (f : List Nat → α → List Nat) (Q : α → Nat → Prop)
    (hf : ∀ acc a x, x ∈ f acc a ↔ x ∈ acc ∨ Q a x) (l : List α) :
    ∀ (init : List Nat) (x : Nat), x ∈ l.foldl f init ↔ x ∈ init ∨ ∃ a ∈ l, Q a x := by
  induction l with
  | nil => intro init x; simp
  | cons a l ih =>
    intro init x
    rw [List.foldl_cons, ih, hf]
    simp only [List.mem_cons, exists_eq_or_imp]
    tauto

theorem mem_updatedStates (h : ObjectManager) (st : Nat) :
    st ∈ updatedStates h ↔ st ∈ h.addedStates ∨ h.current = some st := by
  have h1 : ∀ x, x ∈ h.addedStates.foldl (fun acc s => setInsert s acc) [] ↔
      x ∈ h.addedStates := by
    intro x
    rw [mem_foldl_step (fun acc s => setInsert s acc) (fun a x => x = a)
      (fun acc a x => by rw [mem_setInsert]; tauto)]
    simp
  unfold updatedStates
  simp only
  cases hc : h.current with
  | none => simp [h1]
  | some c =>
    simp only [mem_setInsert, h1, Option.some.injEq]
    constructor
    · rintro (rfl | h2)
      · exact Or.inr rfl
      · exact Or.inl h2
    · rintro (h2 | rfl)
      · exact Or.inr h2
      · exact Or.inl rfl

theorem mem_reachedPobs (h : ObjectManager) (r : Nat) : r ∈ reachedPobs h ↔ Reached h r := by
  have inner : ∀ (L : Target) (acc : List Nat) (x : Nat),
      x ∈ (h.pobs L).foldl (fun toRemove pob =>
          match h.getPob pob with
          | none => toRemove
          | some p => if p.parent.isNone then setInsert pob toRemove else toRemove) acc ↔
        x ∈ acc ∨ (x ∈ h.pobs L ∧ ∃ p, h.getPob x = some p ∧ p.parent = none) := by
    intro L acc x
    rw [mem_foldl_step _ (fun a x => x = a ∧ ∃ p, h.getPob a = some p ∧ p.parent = none)]
    · constructor
      · rintro (h1 | ⟨a, ha, rfl, hp⟩)
        · exact Or.inl h1
        · exact Or.inr ⟨ha, hp⟩
      · rintro (h1 | ⟨h1, hp⟩)
        · exact Or.inl h1
        · exact Or.inr ⟨x, h1, rfl, hp⟩
    · intro acc a x
      cases hp : h.getPob a with
      | none => simp
      | some p =>
        cases hpar : p.parent with
        | none => simp [hpar, mem_setInsert]; tauto
        | some q => simp [hpar]
  unfold reachedPobs
  rw [mem_foldl_step _ (fun st x => ∃ s L, h.getState st = some s ∧ s.locationTarget = some L ∧
    x ∈ h.pobs L ∧ ∃ p, h.getPob x = some p ∧ p.parent = none)]
  · simp only [List.not_mem_nil, false_or, mem_updatedStates, Reached]
    constructor
    · rintro ⟨st, hst, s, L, h1, h2, h3, p, h4, h5⟩
      exact ⟨st, s, L, p, hst, h1, h2, h3, h4, h5⟩
    · rintro ⟨st, s, L, p, hst, h1, h2, h3, h4, h5⟩
      exact ⟨st, hst, s, L, h1, h2, h3, p, h4, h5⟩
  · intro acc st x
    cases hs : h.getState st with
    | none => simp
    | some s =>
      cases hl : s.locationTarget with
      | none => simp [hl]
      | some L =>
        simp only [hl, Option.some.injEq, exists_and_left, exists_eq_left']
        exact inner L acc x

theorem foldlM_removePob_close {h0 : ObjectManager} (hok : HeapOK h0) (roots : List Nat) :
    (∀ r ∈ roots, ∃ p, h0.getPob r = some p ∧ p.parent = none) →
    ∀ h : ObjectManager, h.pobHeap = h0.pobHeap → h.propagations = h0.propagations →
      ∃ h1, roots.foldlM removePob h = some h1 ∧
        CloseEffect h h1 (roots.flatMap fun r => (getSubtree h0 r).getD []) ∧
        RemEffect h h1 (roots.flatMap fun r => (getSubtree h0 r).getD []) := by
  induction roots with
  | nil =>
    intro _ h _ _
    exact ⟨h, rfl, CloseEffect.close_refl h, RemEffect.nil_effect h⟩
  | cons r rs ih =>
    intro hroots h hheap hprops
    obtain ⟨p, hp, hpar⟩ := hroots r (List.mem_cons_self _ _)
    obtain ⟨l, hl, _, hmem⟩ := getSubtree_spec hok hp hpar
    have hin : ∀ q ∈ l, ∃ p, h.getPob q = some p := by
      intro q hq
      rw [getPob_congr hheap]
      exact Descends.inHeap hok hp ((hmem q).1 hq)
    obtain ⟨h2, e2, c2, r2⟩ := foldlM_removePobStep_close l hin
    have hrem : removePob h r = some h2 := by
      unfold removePob
      rw [getSubtree_congr hheap, hl]
      exact e2
    obtain ⟨h1, e1, c1, r1⟩ := ih (fun x hx => hroots x (List.mem_cons_of_mem _ hx)) h2
      (c2.heap.trans hheap) (c2.propagations.trans hprops)
    refine ⟨h1, ?_, ?_, ?_⟩
    · simp only [List.foldlM_cons, hrem]
      exact e1
    · have := c2.close_append c1
      simpa only [List.flatMap_cons, hl, Option.getD_some] using this
    · have := r2.append_effect r1
      simpa only [List.flatMap_cons, hl, Option.getD_some] using this

theorem mem_closedPobs {h : ObjectManager} (hok : HeapOK h)
    (hflags : h.statesUpdated = true ∧ h.stateUpdateKind = StateKind.Regular) (id : Nat) :
    id ∈ closedPobs h ↔ ∃ r, Reached h r ∧ Descends h r id := by
  unfold closedPobs
  rw [if_pos (by simpa using hflags)]
  simp only [List.mem_flatMap, mem_reachedPobs]
  constructor
  · rintro ⟨r, hr, hid⟩
    obtain ⟨st, s, L, p, h1, h2, h3, h4, h5, h6⟩ := hr
    obtain ⟨l, hl, _, hmem⟩ := getSubtree_spec hok h5 h6
    rw [hl] at hid
    exact ⟨r, ⟨st, s, L, p, h1, h2, h3, h4, h5, h6⟩, (hmem id).1 hid⟩
  · rintro ⟨r, hr, hid⟩
    obtain ⟨st, s, L, p, h1, h2, h3, h4, h5, h6⟩ := hr
    obtain ⟨l, hl, _, hmem⟩ := getSubtree_spec hok h5 h6
    refine ⟨r, ⟨st, s, L, p, h1, h2, h3, h4, h5, h6⟩, ?_⟩
    rw [hl]
    exact (hmem id).2 hid

theorem checkReachedPobs_spec {h : ObjectManager} (hok : HeapOK h)
    (hflags : h.statesUpdated = true ∧ h.stateUpdateKind = StateKind.Regular) :
    ∃ h1, checkReachedPobs h = some h1 ∧ CloseEffect h h1 (closedPobs h) ∧
      RemEffect h h1 (closedPobs h) := by
  have hroots : ∀ r ∈ reachedPobs h, ∃ p, h.getPob r = some p ∧ p.parent = none := by
    intro r hr
    obtain ⟨st, s, L, p, _, _, _, _, h5, h6⟩ := (mem_reachedPobs h r).1 hr
    exact ⟨p, h5, h6⟩
  obtain ⟨h1, e1, c1, r1⟩ := foldlM_removePob_close hok (reachedPobs h) hroots h rfl rfl
  refine ⟨h1, ?_, ?_, ?_⟩
  · unfold checkReachedPobs
    rw [if_pos (by simpa using hflags)]
    exact e1
  · unfold closedPobs
    rw [if_pos (by simpa using hflags)]
    exact c1
  · unfold closedPobs
    rw [if_pos (by simpa using hflags)]
    exact r1

theorem updateStates_spec {h : ObjectManager} (hok : HeapOK h)
    (hflags : h.statesUpdated = true ∧ h.stateUpdateKind = StateKind.Regular) :
    ∃ h1, updateStates h = some h1 ∧ CloseEffect h h1 (closedPobs h) ∧
      RemEffect h h1 (closedPobs h) := by
  obtain ⟨h1, e1, c1, r1⟩ := checkReachedPobs_spec hok hflags
  unfold updateStates
  simp only [hflags.1, hflags.2, ↓reduceIte, e1]
  refine ⟨_, rfl, ?_, ?_⟩
  · exact
      { heap := c1.heap, pobs := c1.pobs, leafPobs := c1.leafPobs
        propagations := c1.propagations, propagationCount := c1.propagationCount
        addedPobs := c1.addedPobs, addedPropagations := c1.addedPropagations
        roots := c1.roots, sorted := c1.sorted, props := c1.props
        propsNodup := c1.propsNodup }
  · exact r1

theorem foldlM_delProp_total (R : List Propagation) :
    ∀ h : ObjectManager, (∀ prop ∈ R, ∃ p, h.getPob prop.pob = some p) →
      (∀ id, (R.filter fun q => decide (q.pob = id)).length ≤ h.propagationCount id) →
      ∃ h1, R.foldlM (fun (h1 : ObjectManager) (prop : Propagation) =>
          match h1.getPob prop.pob with
          | none => none
          | some p =>
            if 0 < h1.propagationCount prop.pob then
              some { h1 with
                propagations :=
                  mapUpdate h1.propagations p.location fun l => l.filter fun q => decide (q ≠ prop)
                propagationCount := fun k =>
                  if k = prop.pob then h1.propagationCount k - 1 else h1.propagationCount k }
            else none) h = some h1 ∧ PobSide h h1 := by
  induction R with
  | nil =>
    intro h _ _
    exact ⟨h, rfl, rfl, rfl, rfl, rfl, rfl, rfl, rfl⟩
  | cons prop R ih =>
    intro h hin hcount
    obtain ⟨p, hp⟩ := hin prop (List.mem_cons_self _ _)
    have hpos : 0 < h.propagationCount prop.pob := by
      have := hcount prop.pob
      simp only [List.filter_cons, decide_True, ↓reduceIte, List.length_cons] at this
      omega
    simp only [List.foldlM_cons, hp, hpos, ↓reduceIte]
    obtain ⟨h1, e1, f1⟩ := ih
      { h with
        propagations :=
          mapUpdate h.propagations p.location fun l => l.filter fun q => decide (q ≠ prop)
        propagationCount := fun k =>
          if k = prop.pob then h.propagationCount k - 1 else h.propagationCount k }
      (fun q hq => hin q (List.mem_cons_of_mem _ hq))
      (by
        intro id
        have := hcount id
        simp only [List.filter_cons] at this
        by_cases hid : prop.pob = id
        · simp only [hid, decide_True, ↓reduceIte, List.length_cons] at this ⊢
          omega
        · have hid1 : id ≠ prop.pob := fun e => hid e.symm
          simp only [hid, decide_False, Bool.false_eq_true, ↓reduceIte] at this
          simp only [hid1, ↓reduceIte]
          exact this)
    exact ⟨h1, e1, f1⟩

theorem updatePropagations_spec {h : ObjectManager} (hadd : h.addedPropagations = [])
    (hin : ∀ prop ∈ h.removedPropagations, ∃ p, h.getPob prop.pob = some p)
    (hcount : ∀ id, (h.removedPropagations.filter fun q => decide (q.pob = id)).length ≤
      h.propagationCount id) :
    ∃ h1, updatePropagations h = some h1 ∧ PobSide h h1 := by
  unfold updatePropagations
  simp only [hadd, List.foldlM_nil, pure]
  obtain ⟨h1, e1, f1⟩ := foldlM_delProp_total h.removedPropagations h hin hcount
  split
  · rename_i heq
    exact absurd (e1.symm.trans heq) (by simp)
  · rename_i h2 heq
    have e2 : h1 = h2 := Option.some.inj (e1.symm.trans heq)
    subst e2
    exact ⟨_, rfl, f1⟩

theorem deletePob_getPob {hc : ObjectManager} {x : Nat} {p : ProofObligation}
    (hp : hc.getPob x = some p) :
    ∃ g : ProofObligation → ProofObligation,
      (∀ q, (g q).id = q.id ∧ (g q).location = q.location ∧
        (g q).parent = (if q.id ∈ p.children then none else q.parent) ∧
        ∀ c, c ∈ (g q).children → c ∈ q.children) ∧
      (∀ q c, c ∈ q.children → c ≠ x → c ∈ (g q).children) ∧
      (deletePob hc x).pobHeap = (hc.pobHeap.filter fun q => decide (q.id ≠ x)).map g ∧
      ∀ y, (deletePob hc x).getPob y = if y = x then none else (hc.getPob y).map g := by
  let g : ProofObligation → ProofObligation := fun q =>
    let q1 := if q.id ∈ p.children then { q with parent := none } else q
    if some q1.id = p.parent then { q1 with children := setErase x q1.children } else q1
  have hid : ∀ q, (g q).id = q.id := by
    intro q
    simp only [g]
    split <;> split <;> rfl
  have hheap : (deletePob hc x).pobHeap = (hc.pobHeap.filter fun q => decide (q.id ≠ x)).map g := by
    unfold deletePob
    rw [hp]
  refine ⟨g, ?_, ?_, hheap, ?_⟩
  · intro q
    refine ⟨hid q, ?_, ?_, ?_⟩
    · simp only [g]
      split <;> split <;> rfl
    · simp only [g]
      split <;> split <;> simp_all
    · intro c
      simp only [g]
      split <;> split <;> simp_all [mem_setErase]
  · intro q c hc1 hc2
    simp only [g]
    split <;> split <;> simp_all [mem_setErase]
  · intro y
    unfold getPob
    rw [hheap, find?_id_map _ _ hid, List.find?_filter]
    by_cases hy : y = x
    · subst hy
      simp only [↓reduceIte, Option.map_eq_none']
      rw [List.find?_eq_none]
      intro q _
      by_cases hq : q.id = y <;> simp [hq]
    · simp only [hy, ↓reduceIte]
      congr 1
      congr 1
      funext a
      by_cases ha : a.id = y
      · subst ha
        simp [hy]
      · simp [ha]

theorem deletePob_fields (hc : ObjectManager) (x : Nat) :
    (deletePob hc x).removedPobs = hc.removedPobs ∧ (deletePob hc x).pobs = hc.pobs ∧
      (deletePob hc x).leafPobs = hc.leafPobs ∧ (deletePob hc x).rootPobs = hc.rootPobs ∧
      (deletePob hc x).pathedPobs = hc.pathedPobs := by
  unfold deletePob
  split <;> exact ⟨rfl, rfl, rfl, rfl, rfl⟩

theorem mem_mapUpdate_erase (f : Target → List Nat) (key L : Target) (x id : Nat) :
    id ∈ mapUpdate f key (setErase x) L ↔ id ∈ f L ∧ ¬ (L = key ∧ id = x) := by
  unfold mapUpdate
  by_cases hL : L = key
  · simp only [hL, ↓reduceIte, mem_setErase, true_and]
    tauto
  · simp [hL]

theorem DelInv.delete_step {h hc hc1 : ObjectManager} {C rest : List Nat} {x : Nat}
    {p : ProofObligation} (hpobs : PobsOK h) (inv : DelInv h hc C (x :: rest))
    (hnd : (x :: rest).Nodup) (hp : hc.getPob x = some p) (e1 : hc1.pobHeap = hc.pobHeap)
    (e2 : hc1.removedPobs = hc.removedPobs) (e3 : hc1.rootPobs = hc.rootPobs)
    (e4 : hc1.pathedPobs = hc.pathedPobs)
    (e5 : hc1.pobs = mapUpdate hc.pobs p.location (setErase x))
    (e6 : hc1.leafPobs = setErase x hc.leafPobs) :
    DelInv h (deletePob hc1 x) C rest := by
  have hxr : x ∉ rest := (List.nodup_cons.1 hnd).1
  have hxC : x ∈ C := inv.sub x (List.mem_cons_self _ _)
  have hp1 : hc1.getPob x = some p := by rw [getPob_congr e1]; exact hp
  obtain ⟨g, hg, hgc, hheap, hget⟩ := deletePob_getPob hp1
  obtain ⟨f1, f2, f3, f4, f5⟩ := deletePob_fields hc1 x
  rw [e1] at hheap
  have hget1 : ∀ y, (deletePob hc1 x).getPob y =
      if y = x then none else (hc.getPob y).map g := by
    intro y
    rw [hget, getPob_congr e1]
  have hmem : ∀ q1, q1 ∈ (deletePob hc1 x).pobHeap →
      ∃ q, q ∈ hc.pobHeap ∧ q.id ≠ x ∧ q1 = g q := by
    intro q1 hq1
    rw [hheap, List.mem_map] at hq1
    obtain ⟨q, hq, rfl⟩ := hq1
    rw [List.mem_filter] at hq
    exact ⟨q, hq.1, by simpa using hq.2, rfl⟩
  refine
    { nodup := ?_, sub := fun y hy => inv.sub y (List.mem_cons_of_mem _ hy), alive := ?_
      orig := ?_, parents := ?_, removed := (f1.trans e2).trans inv.removed, gone := ?_
      kept := ?_, pobs := ?_, leaf := ?_, roots := (f4.trans e3).trans inv.roots
      pathed := (f5.trans e4).trans inv.pathed }
  · rw [hheap, List.map_map]
    have : ((fun p => p.id) ∘ g) = fun p : ProofObligation => p.id := by
      funext q
      exact (hg q).1
    rw [this]
    exact (List.filter_sublist _).map _ |>.nodup inv.nodup
  · intro y hy
    obtain ⟨py, hpy⟩ := inv.alive y (List.mem_cons_of_mem _ hy)
    have hne : y ≠ x := fun e => hxr (e ▸ hy)
    exact ⟨g py, by rw [hget1, if_neg hne, hpy]; rfl⟩
  · intro q1 hq1
    obtain ⟨q, hq, _, rfl⟩ := hmem q1 hq1
    obtain ⟨p0, h1, h2, h3⟩ := inv.orig q hq
    refine ⟨p0, by rw [(hg q).1]; exact h1, by rw [(hg q).2.1]; exact h2, ?_⟩
    rw [(hg q).2.2.1]
    split
    · exact Or.inl rfl
    · exact h3
  · intro q1 hq1 q2 hpar
    obtain ⟨q, hq, hqx, rfl⟩ := hmem q1 hq1
    rw [(hg q).2.2.1] at hpar
    split at hpar
    · cases hpar
    rename_i hnc
    obtain ⟨pq, h1, h2⟩ := inv.parents q hq q2 hpar
    have hne : q2 ≠ x := by
      rintro rfl
      rw [hp] at h1
      cases h1
      exact hnc h2
    refine ⟨g pq, by rw [hget1, if_neg hne, h1]; rfl, ?_⟩
    rw [(hg q).1]
    exact hgc pq q.id h2 hqx
  · intro y hy hyr
    by_cases hyx : y = x
    · rw [hget1, if_pos hyx]
    · rw [hget1, if_neg hyx, inv.gone y hy (by simp [hyx, hyr])]
      rfl
  · intro y hy p0 hp0
    obtain ⟨p1, h1⟩ := inv.kept y hy p0 hp0
    have hne : y ≠ x := fun e => hy (e ▸ hxC)
    exact ⟨g p1, by rw [hget1, if_neg hne, h1]; rfl⟩
  · intro L id
    rw [f2, e5, mem_mapUpdate_erase, inv.pobs]
    have hloc : id = x → id ∈ h.pobs L → L = p.location := by
      rintro rfl hin
      obtain ⟨p0, h1, h2⟩ := hpobs L id hin
      obtain ⟨p1, h3, h4, _⟩ := inv.orig p (getPob_mem hp).1
      rw [(getPob_mem hp).2, h1] at h3
      cases h3
      rw [h4, h2]
    simp only [List.mem_cons, not_or]
    by_cases hid : id = x
    · have := hloc hid
      subst hid
      simp only [hxC, hxr, not_false_eq_true, and_true, not_true_eq_false, and_false]
      tauto
    · simp only [hid, and_false, not_false_eq_true, and_true, false_or]
      tauto
  · intro id
    rw [f3, e6, mem_setErase, inv.leaf]
    simp only [List.mem_cons, not_or]
    by_cases hid : id = x
    · subst hid
      simp [hxC, hxr]
    · simp only [ne_eq, hid, not_false_eq_true, true_and, false_or]

theorem foldlM_delPob_spec {h : ObjectManager} {C : List Nat} (hpobs : PobsOK h)
    (hup : ∀ y ∈ C, ∀ p0 q, h.getPob y = some p0 → p0.parent = some q → q ∈ C)
    (rest : List Nat) :
    ∀ hc : ObjectManager, DelInv h hc C rest → rest.Nodup →
      ∃ h1, rest.foldlM (fun (h1 : ObjectManager) (pob : Nat) =>
          match h1.getPob pob with
          | none => none
          | some p =>
            let leaf := setErase pob h1.leafPobs
            let leaf1 := match p.parent with
              | none => some leaf
              | some parent =>
                match h1.getPob parent with
                | none => none
                | some pp =>
                  if pp.children.length = 1 ∧ parent ∉ h1.removedPobs then
                    if ∀ y ∈ h1.removedPobs, (h1.getPob y).isSome = true then
                      some (setInsert parent leaf)
                    else none
                  else some leaf
            match leaf1 with
            | none => none
            | some l =>
              some (deletePob { h1 with leafPobs := l
                                        pobs := mapUpdate h1.pobs p.location (setErase pob) }
                pob)) hc = some h1 ∧ DelInv h h1 C [] := by
  induction rest with
  | nil =>
    intro hc inv _
    exact ⟨hc, rfl, inv⟩
  | cons x rest ih =>
    intro hc inv hnd
    obtain ⟨p, hp⟩ := inv.alive x (List.mem_cons_self _ _)
    have hxC : x ∈ C := inv.sub x (List.mem_cons_self _ _)
    have hleaf : (match p.parent with
        | none => some (setErase x hc.leafPobs)
        | some parent =>
          match hc.getPob parent with
          | none => none
          | some pp =>
            if pp.children.length = 1 ∧ parent ∉ hc.removedPobs then
              if ∀ y ∈ hc.removedPobs, (hc.getPob y).isSome = true then
                some (setInsert parent (setErase x hc.leafPobs))
              else none
            else some (setErase x hc.leafPobs)) = some (setErase x hc.leafPobs) := by
      cases hpar : p.parent with
      | none => rfl
      | some q =>
        obtain ⟨pq, h1, _⟩ := inv.parents p (getPob_mem hp).1 q hpar
        obtain ⟨p0, h2, _, h3⟩ := inv.orig p (getPob_mem hp).1
        rw [(getPob_mem hp).2] at h2
        have hq : q ∈ C := by
          rcases h3 with h3 | h3
          · rw [hpar] at h3; cases h3
          · exact hup x hxC p0 q h2 (h3 ▸ hpar)
        simp only [h1, inv.removed, hq, not_true_eq_false, and_false, ↓reduceIte]
    have inv1 := @DelInv.delete_step h hc
      { hc with leafPobs := setErase x hc.leafPobs
                pobs := mapUpdate hc.pobs p.location (setErase x) }
      C rest x p hpobs inv hnd hp rfl rfl rfl rfl rfl rfl
    obtain ⟨h1, e1, inv2⟩ := ih _ inv1 (List.nodup_cons.1 hnd).2
    refine ⟨h1, ?_, inv2⟩
    simp only [List.foldlM_cons, hp, hleaf]
    exact e1

theorem updatePobs_spec {h : ObjectManager} (hok : HeapOK h) (hpobs : PobsOK h)
    (hadd : h.addedPobs = []) (hsorted : h.removedPobs.Pairwise (fun a b => a < b))
    (hin : ∀ x ∈ h.removedPobs, ∃ p, h.getPob x = some p)
    (hup : ∀ y ∈ h.removedPobs, ∀ p0 q, h.getPob y = some p0 → p0.parent = some q →
      q ∈ h.removedPobs) :
    ∃ h1, updatePobs h = some h1 ∧
      (∀ L id, id ∈ h1.pobs L ↔ id ∈ h.pobs L ∧ id ∉ h.removedPobs) ∧
      (∀ id, id ∈ h1.leafPobs ↔ id ∈ h.leafPobs ∧ id ∉ h.removedPobs) ∧
      h1.rootPobs = h.rootPobs ∧ h1.pathedPobs = h.pathedPobs ∧
      (∀ x ∈ h.removedPobs, h1.getPob x = none) ∧
      ∀ x, x ∉ h.removedPobs → ∀ p, h.getPob x = some p → ∃ p1, h1.getPob x = some p1 := by
  have inv0 : DelInv h h h.removedPobs h.removedPobs :=
    { nodup := hok.1, sub := fun _ hx => hx, alive := hin
      orig := fun p hp => ⟨p, getPob_of_mem hok hp, rfl, Or.inr rfl⟩
      parents := hok.2.2.1, removed := rfl
      gone := fun x hx hnx => absurd hx hnx
      kept := fun x _ p hp => ⟨p, hp⟩
      pobs := by intro L id; tauto
      leaf := by intro id; tauto
      roots := rfl, pathed := rfl }
  obtain ⟨h1, e1, inv⟩ := foldlM_delPob_spec hpobs hup h.removedPobs h inv0
    (CodeGraphDistance.sorted_nodup hsorted)
  unfold updatePobs
  simp only [hadd, List.foldlM_nil, pure]
  split
  · rename_i heq
    exact absurd (e1.symm.trans heq) (by simp)
  · rename_i h2 heq
    have e2 : h1 = h2 := Option.some.inj (e1.symm.trans heq)
    subst e2
    refine ⟨_, rfl, ?_, ?_, inv.roots, inv.pathed, ?_, ?_⟩
    · intro L id
      have := inv.pobs L id
      simpa using this
    · intro id
      have := inv.leaf id
      simpa using this
    · intro x hx
      exact inv.gone x hx (by simp)
    · intro x hx p hp
      exact inv.kept x hx p hp

theorem HeapOK.heap_congr {h h1 : ObjectManager} (e : h1.pobHeap = h.pobHeap) (hok : HeapOK h) :
    HeapOK h1 := by
  unfold HeapOK
  simp only [getPob_congr e, e]
  exact hok

theorem eq_of_key {l : List ((Path × Target) × Nat)} (hn : (l.map Prod.fst).Nodup)
    {e1 e2 : (Path × Target) × Nat} (h1 : e1 ∈ l) (h2 : e2 ∈ l) (hk : e1.1 = e2.1) : e1 = e2 :=
  List.inj_on_of_nodup_map hn h1 h2 hk

/-- C10: when `updateSubscribers()` runs with a pending update of regular states and nothing
else pending, on a hub whose arena is a forest and whose `pobs`, `rootPobs`, `pathedPobs` and
propagation counters are in order, it returns, and afterwards every obligation in the subtree
of a parentless obligation filed in `pobs` under the location target of an added state or of
the current state is gone from `pobs`, `leafPobs`, `rootPobs`, `pathedPobs` and the arena,
while every other obligation is in these sets exactly as before and still in the arena. -/
theorem updateSubscribers_closes (h : ObjectManager) (live : List Nat) (hok : HeapOK h)
    (hflags : h.statesUpdated = true ∧ h.stateUpdateKind = StateKind.Regular)
    (hpend : OnlyStatesPending h) (hpobs : PobsOK h)
    (hroots : ∀ id ∈ h.rootPobs, ∃ p, h.getPob id = some p ∧ p.parent = none)
    (hk : Keyed h live) (hlive : ∀ id, Closed h id → id ∈ live) (hcount : CountsOK h) :
    ∃ h1, updateSubscribers h = some h1 ∧
      (∀ id, Closed h id →
        (∀ L, id ∉ h1.pobs L) ∧ id ∉ h1.leafPobs ∧ id ∉ h1.rootPobs ∧
          (∀ e ∈ h1.pathedPobs, e.2 ≠ id) ∧ h1.getPob id = none) ∧
      ∀ id, ¬ Closed h id →
        (∀ L, id ∈ h1.pobs L ↔ id ∈ h.pobs L) ∧ (id ∈ h1.leafPobs ↔ id ∈ h.leafPobs) ∧
          (id ∈ h1.rootPobs ↔ id ∈ h.rootPobs) ∧
          (∀ k, (k, id) ∈ h1.pathedPobs ↔ (k, id) ∈ h.pathedPobs) ∧
          ∀ p, h.getPob id = some p → ∃ p1, h1.getPob id = some p1 := by
  obtain ⟨ha, hr, hap, hrp⟩ := hpend
  have hcl : ∀ id, id ∈ closedPobs h ↔ Closed h id := mem_closedPobs hok hflags
  have hclHeap : ∀ id, id ∈ closedPobs h → ∃ p, h.getPob id = some p := by
    intro id hid
    obtain ⟨r, ⟨_, _, _, p, _, _, _, _, h5, _⟩, hd⟩ := (hcl id).1 hid
    exact Descends.inHeap hok h5 hd
  have hclUp : ∀ y ∈ closedPobs h, ∀ p0 q, h.getPob y = some p0 → p0.parent = some q →
      q ∈ closedPobs h := by
    intro y hy p0 q hp0 hpar
    obtain ⟨r, hreach, hd⟩ := (hcl y).1 hy
    rcases Descends.parent_in hok hd with rfl | ⟨p, q1, h1, h2, h3⟩
    · obtain ⟨_, _, _, p, _, _, _, _, h5, h6⟩ := hreach
      rw [hp0] at h5
      cases h5
      rw [hpar] at h6
      cases h6
    · rw [hp0] at h1
      cases h1
      rw [hpar] at h2
      cases h2
      exact (hcl q).2 ⟨r, hreach, h3⟩
  -- the states step
  obtain ⟨h1, e1, c1, r1⟩ := updateStates_spec hok hflags
  have hrem1 : ∀ x, x ∈ h1.removedPobs ↔ x ∈ closedPobs h := by
    intro x
    rw [r1.2.2.2.2 x, hr]
    simp
  have hprops1 : ∀ prop, prop ∈ h1.removedPropagations ↔
      (prop.pob ∈ closedPobs h ∧ ∃ p, h.getPob prop.pob = some p ∧
        prop ∈ h.propagations p.location) := by
    intro prop
    rw [c1.props prop, hrp]
    simp
  -- the propagations step
  obtain ⟨h2, e2, f2⟩ := updatePropagations_spec (h := h1) (c1.addedPropagations.trans hap)
    (by
      intro prop hprop
      obtain ⟨_, p, hp, _⟩ := (hprops1 prop).1 hprop
      exact ⟨p, by rw [getPob_congr c1.heap]; exact hp⟩)
    (by
      intro id
      rw [c1.propagationCount]
      by_cases hex : ∃ prop ∈ h1.removedPropagations, prop.pob = id
      · obtain ⟨prop, hprop, rfl⟩ := hex
        obtain ⟨_, p, hp, _⟩ := (hprops1 prop).1 hprop
        refine le_trans ?_ (hcount prop.pob p hp)
        apply List.Subperm.length_le
        apply List.subperm_of_subset ((c1.propsNodup (by rw [hrp]; exact List.nodup_nil)).filter _)
        intro q hq
        rw [List.mem_filter] at hq ⊢
        obtain ⟨_, p1, hp1, hq1⟩ := (hprops1 q).1 hq.1
        have hqp : q.pob = prop.pob := by simpa using hq.2
        rw [hqp, hp] at hp1
        cases hp1
        exact ⟨hq1, hq.2⟩
      · have : (h1.removedPropagations.filter fun q => decide (q.pob = id)) = [] := by
          rw [List.filter_eq_nil_iff]
          intro q hq
          simpa using fun e => hex ⟨q, hq, e⟩
        rw [this]
        exact Nat.zero_le _)
  obtain ⟨g1, g2, g3, g4, g5, g6, g7⟩ := f2
  have hheap2 : h2.pobHeap = h.pobHeap := g1.trans c1.heap
  have hrem2 : ∀ x, x ∈ h2.removedPobs ↔ x ∈ closedPobs h := by
    intro x
    rw [g6]
    exact hrem1 x
  -- the proof-obligations step
  obtain ⟨h3, e3, p1, p2, p3, p4, p5, p6⟩ := updatePobs_spec (h := h2)
    (hok.heap_congr hheap2)
    (by
      intro L id hid
      rw [g2, c1.pobs] at hid
      rw [getPob_congr hheap2]
      exact hpobs L id hid)
    (g7.trans (c1.addedPobs.trans ha))
    (by rw [g6]; exact c1.sorted (by rw [hr]; exact List.Pairwise.nil))
    (by
      intro x hx
      rw [getPob_congr hheap2]
      exact hclHeap x ((hrem2 x).1 hx))
    (by
      intro y hy p0 q hp0 hpar
      rw [getPob_congr hheap2] at hp0
      exact (hrem2 q).2 (hclUp y ((hrem2 y).1 hy) p0 q hp0 hpar))
  have hsub : updateSubscribers h = some h3 := by
    unfold updateSubscribers
    rw [e1]
    simp only [Option.bind_some, Option.some_bind, e2, e3]
  have hpathed : ∀ e, e ∈ h3.pathedPobs ↔ e ∈ h.pathedPobs ∧
      ∀ q ∈ closedPobs h, ∀ p, h.getPob q = some p → e.1 ≠ keyOf p := by
    intro e
    rw [p4, g5]
    exact r1.2.2.1 e
  have hrootsEq : ∀ x, x ∈ h3.rootPobs ↔ x ∈ h.rootPobs ∧
      ¬ (x ∈ closedPobs h ∧ ∃ p, h.getPob x = some p ∧ p.parent = none) := by
    intro x
    rw [p3, g4]
    exact c1.roots x
  refine ⟨h3, hsub, ?_, ?_⟩
  · intro id hid
    have hidc : id ∈ closedPobs h := (hcl id).2 hid
    refine ⟨?_, ?_, ?_, ?_, ?_⟩
    · intro L hL
      exact ((p1 L id).1 hL).2 ((hrem2 id).2 hidc)
    · intro hL
      exact ((p2 id).1 hL).2 ((hrem2 id).2 hidc)
    · intro hL
      obtain ⟨h4, h5⟩ := (hrootsEq id).1 hL
      exact h5 ⟨hidc, hroots id h4⟩
    · intro e he hne
      obtain ⟨h4, h5⟩ := (hpathed e).1 he
      obtain ⟨_, p, hp, hkey⟩ := hk.1 e h4
      rw [hne] at hp
      exact h5 id hidc p hp hkey
    · exact p5 id ((hrem2 id).2 hidc)
  · intro id hid
    have hidc : id ∉ closedPobs h := fun e => hid ((hcl id).1 e)
    have hidr : id ∉ h2.removedPobs := fun e => hidc ((hrem2 id).1 e)
    refine ⟨?_, ?_, ?_, ?_, ?_⟩
    · intro L
      rw [p1, g2, c1.pobs]
      exact ⟨fun x => x.1, fun x => ⟨x, hidr⟩⟩
    · rw [p2, g3, c1.leafPobs]
      exact ⟨fun x => x.1, fun x => ⟨x, hidr⟩⟩
    · rw [hrootsEq]
      exact ⟨fun x => x.1, fun x => ⟨x, fun y => hidc y.1⟩⟩
    · intro k
      rw [hpathed]
      refine ⟨fun x => x.1, fun x => ⟨x, ?_⟩⟩
      intro q hq p hp hkey
      have hql : q ∈ live := hlive q ((hcl q).1 hq)
      obtain ⟨p1, hp1, hent⟩ := hk.2.1 q hql
      rw [hp] at hp1
      cases hp1
      have := eq_of_key hk.2.2.1 x hent hkey
      exact hidc ((Prod.mk.inj this).2 ▸ hq)
    · intro p hp
      rw [← getPob_congr hheap2] at hp
      exact p6 id hidr p hp

theorem closingHub_getPob (id : Nat) (p : ProofObligation) (h : closingHub.getPob id = some p) :
    id = 0 ∧ p = rootPob := by
  have := getPob_mem h
  simp only [closingHub, init, List.mem_singleton] at this
  obtain ⟨h1, h2⟩ := this
  subst h1
  exact ⟨h2.symm, rfl⟩

theorem closingHub_heapOK : HeapOK closingHub := by
  refine ⟨by simp [closingHub, init], ?_, ?_, ?_⟩
  · intro p hp c hc
    simp only [closingHub, init, List.mem_singleton] at hp
    subst hp
    simp [rootPob] at hc
  · intro p hp q hq
    simp only [closingHub, init, List.mem_singleton] at hp
    subst hp
    simp [rootPob] at hq
  · intro p hp
    simp only [closingHub, init, List.mem_singleton] at hp
    subst hp
    simp [rootPob]

theorem closingHub_closed (id : Nat) (h : Closed closingHub id) : id = 0 := by
  obtain ⟨r, ⟨_, _, _, p, _, _, _, _, h5, _⟩, hd⟩ := h
  have hr := (closingHub_getPob r p h5).1
  subst hr
  induction hd with
  | root => rfl
  | child _ hp hc ih =>
    subst ih
    have := (closingHub_getPob _ _ hp).2
    subst this
    simp [rootPob] at hc

/-- Witness for C10: the hub `closingHub`, in which the state added reached the location of the
root obligation 0. -/
theorem updateSubscribers_closes_witness :
    ∃ h1, updateSubscribers closingHub = some h1 ∧
      (∀ id, Closed closingHub id →
        (∀ L, id ∉ h1.pobs L) ∧ id ∉ h1.leafPobs ∧ id ∉ h1.rootPobs ∧
          (∀ e ∈ h1.pathedPobs, e.2 ≠ id) ∧ h1.getPob id = none) ∧
      ∀ id, ¬ Closed closingHub id →
        (∀ L, id ∈ h1.pobs L ↔ id ∈ closingHub.pobs L) ∧
          (id ∈ h1.leafPobs ↔ id ∈ closingHub.leafPobs) ∧
          (id ∈ h1.rootPobs ↔ id ∈ closingHub.rootPobs) ∧
          (∀ k, (k, id) ∈ h1.pathedPobs ↔ (k, id) ∈ closingHub.pathedPobs) ∧
          ∀ p, closingHub.getPob id = some p → ∃ p1, h1.getPob id = some p1 :=
  updateSubscribers_closes closingHub [0] closingHub_heapOK ⟨rfl, rfl⟩ ⟨rfl, rfl, rfl, rfl⟩
    (by
      intro L id hid
      simp only [closingHub, init] at hid
      split at hid
      · rename_i hL
        simp only [List.mem_singleton] at hid
        subst hid
        exact ⟨rootPob, rfl, hL.symm⟩
      · simp at hid)
    (by simp [closingHub, init])
    ⟨by
        intro e he
        simp only [closingHub, init, List.mem_singleton] at he
        subst he
        exact ⟨by simp, rootPob, rfl, rfl⟩,
      by
        intro id hid
        simp only [List.mem_singleton] at hid
        subst hid
        exact ⟨rootPob, rfl, by simp [closingHub, init, keyOf, rootPob]⟩,
      by simp [closingHub, init],
      by simp [closingHub, init]⟩
    (by
      intro id hid
      simp [closingHub_closed id hid])
    (by
      intro id p _
      simp [closingHub, init])

/-- In the hub `closingHub` the obligation 0 is closed. -/
theorem closingHub_closes : Closed closingHub 0 :=
  ⟨0, ⟨0, _, Target.reachBlock 7 false, rootPob, Or.inl (by simp [closingHub, init]), rfl, rfl,
    by simp [closingHub, init], rfl, rfl⟩, Descends.root⟩

end ObjectManager

/-! ## ExecutionStack -/

namespace ExecutionStack

theorem mem_firstOccurrences_aux (l acc : List CallStackFrame) (x : CallStackFrame) :
    x ∈ l.foldl (fun acc f => if f ∈ acc then acc else acc ++ [f]) acc ↔ x ∈ acc ∨ x ∈ l := by
  induction l generalizing acc with
  | nil => simp
  | cons y ys ih =>
    rw [List.foldl_cons, ih]
    by_cases hy : y ∈ acc
    · rw [if_pos hy]
      simp only [List.mem_cons]
      constructor
      · rintro (h | h)
        · exact Or.inl h
        · exact Or.inr (Or.inr h)
      · rintro (h | h | h)
        · exact Or.inl h
        · exact Or.inl (h ▸ hy)
        · exact Or.inr h
    · rw [if_neg hy]
      simp only [List.mem_append, List.mem_singleton, List.mem_cons]
      tauto

theorem mem_firstOccurrences (l : List CallStackFrame) (x : CallStackFrame) :
    x ∈ firstOccurrences l ↔ x ∈ l := by
  unfold firstOccurrences
  rw [mem_firstOccurrences_aux]
  simp

theorem firstOccurrences_append (l : List CallStackFrame) (x : CallStackFrame) :
    firstOccurrences (l ++ [x])
      = if x ∈ l then firstOccurrences l else firstOccurrences l ++ [x] := by
  have h := mem_firstOccurrences l x
  unfold firstOccurrences at h ⊢
  rw [List.foldl_append, List.foldl_cons, List.foldl_nil]
  by_cases hx : x ∈ l
  · rw [if_pos (h.2 hx), if_pos hx]
  · rw [if_neg (fun hc => hx (h.1 hc)), if_neg hx]

theorem find?_frame_eq_none (l : List CallStackFrame) (x : CallStackFrame) :
    (l.find? fun f => decide (f = x)) = none ↔ x ∉ l := by
  rw [List.find?_eq_none]
  constructor
  · intro h hx
    simpa using h x hx
  · intro h y hy
    simp only [decide_eq_true_eq]
    rintro rfl
    exact h hy

theorem pushFrame_inv (nr : Nat → Nat) (s : ExecutionStack) (caller : Option Nat) (kf : Nat)
    (h : Inv s) : ∃ s1, pushFrame nr s caller kf = some s1 ∧ Inv s1 ∧
      s1.callStack = s.callStack ++ [⟨caller, kf⟩] := by
  obtain ⟨h1, h2, h3⟩ := h
  unfold pushFrame
  simp only
  rw [if_pos (by simp [h1, h2])]
  refine ⟨_, rfl, ⟨by simp [h1], by simp [h2], ?_⟩, rfl⟩
  simp only
  rw [firstOccurrences_append, h3]
  by_cases hx : (⟨caller, kf⟩ : CallStackFrame) ∈ s.callStack
  · rw [if_neg (by rw [find?_frame_eq_none]; exact fun hc => hc hx), if_pos hx]
  · rw [if_pos ((find?_frame_eq_none _ _).2 hx), if_neg hx]

theorem popFrame_inv (s : ExecutionStack) (h : Inv s) (hne : s.callStack ≠ []) :
    ∃ s1, popFrame s = some s1 ∧ Inv s1 ∧ s1.callStack = s.callStack.dropLast := by
  obtain ⟨h1, h2, h3⟩ := h
  obtain ⟨l, x, hl⟩ : ∃ l x, s.callStack = l ++ [x] :=
    ⟨s.callStack.dropLast, s.callStack.getLast hne, (List.dropLast_append_getLast hne).symm⟩
  have hlast : s.callStack.getLast? = some x := by rw [hl]; simp
  unfold popFrame
  rw [hlast]
  simp only [List.length_dropLast, h1, h2, and_self, if_true]
  refine ⟨_, rfl, ⟨by simp [h1], by simp [h2], ?_⟩, rfl⟩
  simp only
  rw [h3, hl, firstOccurrences_append, List.dropLast_concat]
  by_cases hx : x ∈ l
  · rw [if_neg (by rw [find?_frame_eq_none]; exact fun hc => hc hx), if_pos hx]
  · rw [if_pos ((find?_frame_eq_none _ _).2 hx), if_neg hx, List.dropLast_concat]

theorem popFrame_none (s : ExecutionStack) (hne : s.callStack = []) : popFrame s = none := by
  unfold popFrame
  rw [hne]
  rfl

theorem run_inv (nr : Nat → Nat) :
    ∀ (ops : List Op) (s s1 : ExecutionStack), Inv s → run nr ops s = some s1 → Inv s1 := by
  intro ops
  induction ops with
  | nil =>
    intro s s1 h hr
    simp only [run, Option.some.injEq] at hr
    exact hr ▸ h
  | cons op rest ih =>
    intro s s1 h hr
    cases op with
    | push caller kf =>
      obtain ⟨s2, e2, h2, _⟩ := pushFrame_inv nr s caller kf h
      simp only [run, e2, Option.some_bind] at hr
      exact ih s2 s1 h2 hr
    | pop =>
      by_cases hne : s.callStack = []
      · simp [run, popFrame_none s hne] at hr
      · obtain ⟨s2, e2, h2, _⟩ := popFrame_inv s h hne
        simp only [run, e2, Option.some_bind] at hr
        exact ih s2 s1 h2 hr

theorem pop_push (nr : Nat → Nat) (s : ExecutionStack) (caller : Option Nat) (kf : Nat)
    (h : Inv s) : (pushFrame nr s caller kf).bind popFrame = some s := by
  obtain ⟨h1, h2, h3⟩ := h
  unfold pushFrame
  simp only
  rw [if_pos (by simp [h1, h2])]
  simp only [Option.some_bind]
  unfold popFrame
  have hlast : (s.callStack ++ [(⟨caller, kf⟩ : CallStackFrame)]).getLast?
      = some ⟨caller, kf⟩ := by simp
  simp only [hlast, List.dropLast_concat, h1, h2, and_self, if_true]
  by_cases hx : (⟨caller, kf⟩ : CallStackFrame) ∈ s.callStack
  · have e := (find?_frame_eq_none s.callStack ⟨caller, kf⟩).not.2 (fun hc => hc hx)
    simp only [if_neg e]
    cases s
    simp
  · have e := (find?_frame_eq_none s.callStack ⟨caller, kf⟩).2 hx
    simp only [if_pos e, List.dropLast_concat]
    cases s
    simp

/-- C40: a sequence of `pushFrame` and `popFrame` calls on a fresh `ExecutionStack` in which no
assertion fails (no `popFrame` on an empty stack) leaves the value, call and info stacks with
the same depth and `uniqueFrames` equal to the call stack with every repeated frame reduced to
its first occurrence; there `popFrame` after `pushFrame` gives back the stack as it was (the
four vectors and the balance). -/
theorem stack_frames_invariant (numRegisters : Nat → Nat) (ops : List Op) (s : ExecutionStack)
    (hrun : run numRegisters ops init = some s) :
    s.valueStack.length = s.callStack.length ∧ s.infoStack.length = s.callStack.length ∧
    s.uniqueFrames = firstOccurrences s.callStack ∧
    ∀ caller kf, (pushFrame numRegisters s caller kf).bind popFrame = some s := by
  have h : Inv s := run_inv numRegisters ops init s ⟨rfl, rfl, rfl⟩ hrun
  exact ⟨h.1, h.2.1, h.2.2, fun caller kf => pop_push numRegisters s caller kf h⟩

/-- Witness for C40: a recursive call pushed twice and popped once. -/
theorem stack_frames_invariant_witness :
    run (fun _ => 2) [Op.push none 0, Op.push (some 1) 1, Op.push (some 1) 1, Op.pop] init
      = some ⟨[⟨0, [], [0, 0], none⟩, ⟨1, [], [0, 0], none⟩], [⟨none, 0⟩, ⟨some 1, 1⟩],
          [⟨0, none, 0⟩, ⟨1, none, 0⟩], [⟨none, 0⟩, ⟨some 1, 1⟩], 2⟩ ∧
    ([⟨none, 0⟩, ⟨some 1, 1⟩] : List CallStackFrame)
      = firstOccurrences [⟨none, 0⟩, ⟨some 1, 1⟩] :=
  ⟨by decide,
    (stack_frames_invariant (fun _ => 2)
      [Op.push none 0, Op.push (some 1) 1, Op.push (some 1) 1, Op.pop]
      ⟨[⟨0, [], [0, 0], none⟩, ⟨1, [], [0, 0], none⟩], [⟨none, 0⟩, ⟨some 1, 1⟩],
        [⟨0, none, 0⟩, ⟨1, none, 0⟩], [⟨none, 0⟩, ⟨some 1, 1⟩], 2⟩ (by decide)).2.2.1⟩

end ExecutionStack

/-! ## Path::getStack -/

namespace Path

theorem getStackStep_forward (m : KModule) (kc : Nat → Nat) (p : Path)
    (h : StackReadable m p) (stack : List CallStackFrame) (i : Nat) (hi : 1 ≤ i)
    (hlt : i < p.path.length) :
    getStackStep m kc p false (some stack) i = some (scanStep m kc p stack i) := by
  obtain ⟨e, he⟩ : ∃ e, p.path[i]? = some e := ⟨p.path[i], List.getElem?_eq_getElem hlt⟩
  obtain ⟨hin, hret⟩ := h i e hi he
  unfold getStackStep scanStep
  simp only [Bool.false_eq_true, if_false, he]
  rw [if_neg (by omega)]
  by_cases hk : e.kind = TransitionKind.In
  · obtain ⟨hcall, hnext⟩ := hin hk
    rw [if_pos hk, if_pos hcall, if_pos hk]
    unfold getCalledFunction calledAt
    simp only [he, if_pos hcall]
    by_cases hl : i + 1 < p.path.length
    · rw [if_pos hl, List.getElem?_eq_getElem hl]
      simp
    · rw [if_neg hl, List.getElem?_eq_none (by omega)]
      have hn := hnext (by omega)
      cases hnx : p.next with
      | none => exact absurd hnx hn
      | some ki => simp
  · rw [if_neg hk, if_neg hk]
    by_cases hr : m.blockType e.block = KBlockType.Return
    · rw [if_pos hr]
      unfold blockCompleted completedAt
      rw [if_pos hlt]
      by_cases hl : i + 1 < p.path.length
      · simp [hl, hr]
      · have hpos := hret hk hr (by omega)
        have hlast : p.path.getLast? = some e := by
          rw [List.getLast?_eq_getElem?, ← he]
          congr 1
          omega
        simp only [if_neg hl, tailCompleted, hlast, he, if_neg hk, hr, true_and]
        have hgl : m.getLastInstruction e.block
            = some ⟨e.block, m.numInstructions e.block - 1⟩ := by
          unfold KModule.getLastInstruction KModule.instruction
          rw [if_neg (by omega), if_pos (by omega)]
        cases hkind : e.kind with
        | In => exact absurd hkind hk
        | Out =>
          simp only [hgl, Option.map_some']
          by_cases hc : p.last = m.numInstructions e.block - 1 <;> simp [hc]
        | None =>
          simp only [hgl, Option.map_some']
          by_cases hc : p.last = m.numInstructions e.block - 1 <;> simp [hc]
    · rw [if_neg hr, if_neg (fun hc => hr hc.1)]

theorem getStack_fold (m : KModule) (kc : Nat → Nat) (p : Path) (h : StackReadable m p) :
    ∀ (is : List Nat) (stack : List CallStackFrame),
      (∀ i ∈ is, 1 ≤ i ∧ i < p.path.length) →
      is.foldl (getStackStep m kc p false) (some stack)
        = some (is.foldl (scanStep m kc p) stack) := by
  intro is
  induction is with
  | nil => intro stack _; rfl
  | cons i rest ih =>
    intro stack hall
    have hi := hall i (List.mem_cons_self _ _)
    rw [List.foldl_cons, List.foldl_cons, getStackStep_forward m kc p h stack i hi.1 hi.2]
    exact ih _ fun j hj => hall j (List.mem_cons_of_mem _ hj)

/-- C31, as amended: on a path whose entries after the first are readable (an entry of kind
`In` is a call block followed by an entry or by `next`; a last return block has an instruction)
`getStack(false)` returns the stack obtained from `[(null, function of the first block)]` by
scanning the entries after the first in order, pushing (call instruction, called function) at
an entry of kind `In` and popping at a completed return block; the first entry is not
scanned. -/
theorem getStack_forward_amended (m : KModule) (kcallInstruction : Nat → Nat) (p : Path)
    (h : StackReadable m p) :
    getStack m kcallInstruction p false = some (scanStack m kcallInstruction p 1) := by
  unfold getStack scanStack
  cases hp : p.path with
  | nil => rfl
  | cons e rest =>
    have hrange : List.range (e :: rest).length = 0 :: List.range' 1 rest.length := by
      rw [List.range_eq_range', List.length_cons, List.range'_succ]
    rw [hrange, List.foldl_cons]
    have h0 : getStackStep m kcallInstruction p false (some []) 0
        = some [⟨none, m.blockFunction e.block⟩] := by
      simp [getStackStep, hp]
    rw [h0, getStack_fold m kcallInstruction p h _ _
      (by
        intro i hi
        rw [List.mem_range'_1] at hi
        rw [hp, List.length_cons]
        omega)]
    simp

/-- Witness for C31: a path through the call block 1 into the function 1, ending in its
completed return block 6; the frame pushed at the call is popped again. -/
theorem getStack_forward_amended_witness :
    getStack callModule (fun b => 10 + b)
        ⟨0, 1, [⟨0, TransitionKind.None⟩, ⟨1, TransitionKind.In⟩, ⟨5, TransitionKind.None⟩,
          ⟨6, TransitionKind.None⟩], none⟩ false
      = some (scanStack callModule (fun b => 10 + b)
        ⟨0, 1, [⟨0, TransitionKind.None⟩, ⟨1, TransitionKind.In⟩, ⟨5, TransitionKind.None⟩,
          ⟨6, TransitionKind.None⟩], none⟩ 1) ∧
    scanStack callModule (fun b => 10 + b)
        ⟨0, 1, [⟨0, TransitionKind.None⟩, ⟨1, TransitionKind.In⟩, ⟨5, TransitionKind.None⟩,
          ⟨6, TransitionKind.None⟩], none⟩ 1 = [⟨none, 0⟩] ∧
    getStack callModule (fun b => 10 + b)
        ⟨0, 0, [⟨0, TransitionKind.None⟩, ⟨1, TransitionKind.In⟩], some ⟨5, 0⟩⟩ false
      = some [⟨none, 0⟩, ⟨some 11, 1⟩] :=
  ⟨getStack_forward_amended callModule (fun b => 10 + b) _ (by
      intro i e hi he
      match i, hi, he with
      | 1, _, he =>
        simp only [List.getElem?_cons_succ, List.getElem?_cons_zero, Option.some.injEq] at he
        subst he
        simp [callModule]
      | 2, _, he =>
        simp only [List.getElem?_cons_succ, List.getElem?_cons_zero, Option.some.injEq] at he
        subst he
        simp [callModule]
      | 3, _, he =>
        simp only [List.getElem?_cons_succ, List.getElem?_cons_zero, Option.some.injEq] at he
        subst he
        simp [callModule]
      | n + 4, _, he => simp at he),
    by decide, by decide⟩

/-- Counterexample for C31: the path of a state that started at the call instruction of the
call block 1 and entered the function 1. Its only entry has the kind `In`; `getStack(false)`
returns `[(null, function 0)]`, while the scan of all entries pushes the frame of the call. -/
theorem getStack_counterexample :
    stepInstruction callModule (ofNext (some ⟨1, 0⟩)) ⟨1, 0⟩ (some ⟨5, 0⟩)
      = some ⟨0, 0, [⟨1, TransitionKind.In⟩], some ⟨5, 0⟩⟩ ∧
    getStack callModule (fun b => 10 + b) ⟨0, 0, [⟨1, TransitionKind.In⟩], some ⟨5, 0⟩⟩ false
      = some [⟨none, 0⟩] ∧
    scanStack callModule (fun b => 10 + b) ⟨0, 0, [⟨1, TransitionKind.In⟩], some ⟨5, 0⟩⟩ 0
      = [⟨none, 0⟩, ⟨some 11, 1⟩] ∧
    getStack callModule (fun b => 10 + b) ⟨0, 0, [⟨1, TransitionKind.In⟩], some ⟨5, 0⟩⟩ false
      ≠ some (scanStack callModule (fun b => 10 + b)
        ⟨0, 0, [⟨1, TransitionKind.In⟩], some ⟨5, 0⟩⟩ 0) := by
  decide

end Path

/-! ## RecencyRankedSearcher -/

namespace RecencyRankedSearcher

theorem selectLoop_keep (count : Propagation → Nat) :
    ∀ (l : List Propagation) (lu : Nat) (ch : Option Propagation),
      (∀ q ∈ l, lu ≤ count q) → selectLoop count l lu ch = ch := by
  intro l
  induction l with
  | nil => intro lu ch _; rfl
  | cons i rest ih =>
    intro lu ch h
    have hi := h i (List.mem_cons_self _ _)
    rw [selectLoop, if_neg (by omega)]
    exact ih lu ch fun q hq => h q (List.mem_cons_of_mem _ hq)

theorem selectLoop_first_min (count : Propagation → Nat) :
    ∀ (l : List Propagation) (lu : Nat) (ch : Option Propagation),
      (∃ q ∈ l, count q < lu) →
      ∃ pre p post, l = pre ++ p :: post ∧ selectLoop count l lu ch = some p ∧ count p < lu ∧
        (∀ q ∈ pre, count p < count q) ∧ ∀ q ∈ post, count p ≤ count q := by
  intro l
  induction l with
  | nil => intro lu ch h; obtain ⟨q, hq, _⟩ := h; simp at hq
  | cons i rest ih =>
    intro lu ch h
    rw [selectLoop]
    by_cases hi : count i < lu
    · rw [if_pos hi]
      by_cases h0 : count i = 0
      · rw [if_pos h0]
        exact ⟨[], i, rest, rfl, rfl, hi, by simp, fun q _ => by omega⟩
      · rw [if_neg h0]
        by_cases hr : ∃ q ∈ rest, count q < count i
        · obtain ⟨pre, p, post, e, hs, hlt, hpre, hpost⟩ := ih (count i) (some i) hr
          refine ⟨i :: pre, p, post, by rw [e]; rfl, hs, by omega, ?_, hpost⟩
          intro q hq
          rcases List.mem_cons.1 hq with rfl | hq
          · exact hlt
          · exact hpre q hq
        · push_neg at hr
          rw [selectLoop_keep count rest (count i) (some i) hr]
          exact ⟨[], i, rest, rfl, rfl, hi, by simp, hr⟩
    · rw [if_neg hi]
      obtain ⟨q, hq, hql⟩ := h
      have hq1 : q ∈ rest := by
        rcases List.mem_cons.1 hq with rfl | hq
        · exact absurd hql hi
        · exact hq
      obtain ⟨pre, p, post, e, hs, hlt, hpre, hpost⟩ := ih lu ch ⟨q, hq1, hql⟩
      refine ⟨i :: pre, p, post, by rw [e]; rfl, hs, hlt, ?_, hpost⟩
      intro r hr
      rcases List.mem_cons.1 hr with rfl | hr
      · omega
      · exact hpre r hr

theorem selectLoop_mem (count : Propagation → Nat) :
    ∀ (l : List Propagation) (lu : Nat) (ch : Option Propagation) (p : Propagation),
      selectLoop count l lu ch = some p → p ∈ l ∨ ch = some p := by
  intro l
  induction l with
  | nil => intro lu ch p h; exact Or.inr h
  | cons i rest ih =>
    intro lu ch p h
    rw [selectLoop] at h
    split at h
    · split at h
      · simp only [Option.some.injEq] at h
        exact Or.inl (h ▸ List.mem_cons_self _ _)
      · rcases ih _ _ p h with h1 | h1
        · exact Or.inl (List.mem_cons_of_mem _ h1)
        · simp only [Option.some.injEq] at h1
          exact Or.inl (h1 ▸ List.mem_cons_self _ _)
    · rcases ih _ _ p h with h1 | h1
      · exact Or.inl (List.mem_cons_of_mem _ h1)
      · exact Or.inr h1

theorem removed_fold (removed : List Propagation) :
    ∀ (s : RecencyRankedSearcher),
      let s1 := removed.foldl
        (fun (acc : RecencyRankedSearcher) propagation =>
          { acc with
            propagations := acc.propagations.filter fun q => decide (q ≠ propagation)
            pausedPropagations :=
              acc.pausedPropagations.filter fun q => decide (q ≠ propagation) })
        s
      s1.maxPropagations = s.maxPropagations ∧
      (∀ p, p ∈ s1.propagations → p ∈ s.propagations) ∧
      ∀ p, p ∈ s1.pausedPropagations → p ∈ s.pausedPropagations := by
  induction removed with
  | nil => intro s; exact ⟨rfl, fun _ h => h, fun _ h => h⟩
  | cons r rest ih =>
    intro s
    simp only [List.foldl_cons]
    obtain ⟨h1, h2, h3⟩ := ih
      { s with
        propagations := s.propagations.filter fun q => decide (q ≠ r)
        pausedPropagations := s.pausedPropagations.filter fun q => decide (q ≠ r) }
    exact ⟨h1, fun p hp => (List.mem_filter.1 (h2 p hp)).1,
      fun p hp => (List.mem_filter.1 (h3 p hp)).1⟩

theorem added_fold (count : Propagation → Nat) (added : List Propagation) :
    ∀ (s : RecencyRankedSearcher), Sorted count s →
      let s1 := added.foldl
        (fun (acc : RecencyRankedSearcher) propagation =>
          if count propagation ≤ acc.maxPropagations then
            { acc with propagations := acc.propagations ++ [propagation] }
          else { acc with pausedPropagations := acc.pausedPropagations ++ [propagation] })
        s
      s1.maxPropagations = s.maxPropagations ∧ Sorted count s1 ∧
      ∀ p ∈ added, s.maxPropagations < count p → p ∈ s1.pausedPropagations := by
  induction added with
  | nil => intro s h; exact ⟨rfl, h, fun p hp => by simp at hp⟩
  | cons a rest ih =>
    intro s h
    simp only [List.foldl_cons]
    by_cases ha : count a ≤ s.maxPropagations
    · rw [if_pos ha]
      obtain ⟨h1, h2, h3⟩ := ih { s with propagations := s.propagations ++ [a] }
        ⟨by
          intro p hp
          rcases List.mem_append.1 hp with hp | hp
          · exact h.1 p hp
          · rw [List.mem_singleton.1 hp]; exact ha, h.2⟩
      refine ⟨h1, h2, ?_⟩
      intro p hp hlt
      rcases List.mem_cons.1 hp with rfl | hp
      · omega
      · exact h3 p hp hlt
    · rw [if_neg ha]
      have keep : ∀ (l : List Propagation) (t : RecencyRankedSearcher),
          a ∈ t.pausedPropagations →
          a ∈ (l.foldl
            (fun (acc : RecencyRankedSearcher) propagation =>
              if count propagation ≤ acc.maxPropagations then
                { acc with propagations := acc.propagations ++ [propagation] }
              else { acc with pausedPropagations := acc.pausedPropagations ++ [propagation] })
            t).pausedPropagations := by
        intro l
        induction l with
        | nil => intro t ht; exact ht
        | cons b bs ihb =>
          intro t ht
          simp only [List.foldl_cons]
          apply ihb
          split
          · exact ht
          · exact List.mem_append_left _ ht
      obtain ⟨h1, h2, h3⟩ := ih { s with pausedPropagations := s.pausedPropagations ++ [a] }
        ⟨h.1, by
          intro p hp
          rcases List.mem_append.1 hp with hp | hp
          · exact h.2 p hp
          · rw [List.mem_singleton.1 hp]
            show s.maxPropagations < count a
            omega⟩
      refine ⟨h1, h2, ?_⟩
      intro p hp hlt
      rcases List.mem_cons.1 hp with rfl | hp
      · exact keep rest _ (List.mem_append_right _ (List.mem_singleton.2 rfl))
      · exact h3 p hp hlt

theorem update_sorted (count : Propagation → Nat) (s : RecencyRankedSearcher)
    (added removed : List Propagation) (h : Sorted count s) :
    (update count s added removed).maxPropagations = s.maxPropagations ∧
    Sorted count (update count s added removed) ∧
    ∀ p ∈ added, s.maxPropagations < count p →
      p ∈ (update count s added removed).pausedPropagations := by
  obtain ⟨r1, r2, r3⟩ := removed_fold removed s
  have hs1 : Sorted count (removed.foldl
      (fun (acc : RecencyRankedSearcher) propagation =>
        { acc with
          propagations := acc.propagations.filter fun q => decide (q ≠ propagation)
          pausedPropagations :=
            acc.pausedPropagations.filter fun q => decide (q ≠ propagation) })
      s) :=
    ⟨fun p hp => by rw [r1]; exact h.1 p (r2 p hp),
      fun p hp => by rw [r1]; exact h.2 p (r3 p hp)⟩
  obtain ⟨a1, a2, a3⟩ := added_fold count added _ hs1
  unfold update
  exact ⟨a1.trans r1, a2, fun p hp hlt => a3 p hp (by rw [r1]; exact hlt)⟩

theorem run_sorted (count : Propagation → Nat) :
    ∀ (calls : List (List Propagation × List Propagation)) (s : RecencyRankedSearcher),
      Sorted count s →
      (run count s calls).maxPropagations = s.maxPropagations ∧
        Sorted count (run count s calls) := by
  intro calls
  induction calls with
  | nil => intro s h; exact ⟨rfl, h⟩
  | cons c rest ih =>
    intro s h
    obtain ⟨added, removed⟩ := c
    obtain ⟨u1, u2, _⟩ := update_sorted count s added removed h
    obtain ⟨i1, i2⟩ := ih _ u2
    exact ⟨i1.trans u1, i2⟩

/-- C33: after any sequence of `update` calls on a fresh searcher, with an active list that
is not empty `selectAction()` returns the first propagation in insertion order whose count is
minimal among the active ones; a propagation added while its count exceeds `maxPropagations`
is put on the paused list, and no propagation with such a count is ever returned. A count is
the length of a chain of proof obligations and stays below `UINT_MAX`; the hypothesis asks
for one active propagation with such a count. -/
theorem selectAction_first_least (count : Propagation → Nat) (maxPropagations : Nat)
    (calls : List (List Propagation × List Propagation))
    (hsome : ∃ q ∈ (run count (init maxPropagations) calls).propagations,
      count q < 4294967295) :
    (∃ pre p post, (run count (init maxPropagations) calls).propagations = pre ++ p :: post ∧
      selectAction count (run count (init maxPropagations) calls) = some p ∧
      (∀ q ∈ pre, count p < count q) ∧ ∀ q ∈ post, count p ≤ count q) ∧
    (∀ added removed p, p ∈ added → maxPropagations < count p →
      p ∈ (update count (run count (init maxPropagations) calls) added
        removed).pausedPropagations) ∧
    ∀ p, maxPropagations < count p →
      selectAction count (run count (init maxPropagations) calls) ≠ some p := by
  have hinit : Sorted count (init maxPropagations) :=
    ⟨fun p hp => by simp [init] at hp, fun p hp => by simp [init] at hp⟩
  obtain ⟨hmax, hsorted⟩ := run_sorted count calls (init maxPropagations) hinit
  have hmax1 : (run count (init maxPropagations) calls).maxPropagations = maxPropagations :=
    hmax
  refine ⟨?_, ?_, ?_⟩
  · obtain ⟨pre, p, post, e, hs, _, hpre, hpost⟩ :=
      selectLoop_first_min count _ 4294967295 none hsome
    exact ⟨pre, p, post, e, hs, hpre, hpost⟩
  · intro added removed p hp hlt
    exact (update_sorted count _ added removed hsorted).2.2 p hp (by rw [hmax1]; exact hlt)
  · intro p hlt hsel
    rcases selectLoop_mem count _ _ _ p hsel with hm | hm
    · have := hsorted.1 p hm
      rw [hmax1] at this
      omega
    · simp at hm

/-- Witness for C33: with the limit 2, three propagations with the counts 1, 3 and 1 are added;
the second is paused and the first is selected. -/
theorem selectAction_first_least_witness :
    run (fun p => if p.state = 1 then 3 else 1) (init 2) [([⟨0, 0⟩, ⟨1, 0⟩, ⟨2, 0⟩], [])]
      = ⟨2, [⟨0, 0⟩, ⟨2, 0⟩], [⟨1, 0⟩]⟩ ∧
    selectAction (fun p => if p.state = 1 then 3 else 1)
      (run (fun p => if p.state = 1 then 3 else 1) (init 2) [([⟨0, 0⟩, ⟨1, 0⟩, ⟨2, 0⟩], [])])
      = some ⟨0, 0⟩ ∧
    ∀ p, 2 < (fun (p : Propagation) => if p.state = 1 then 3 else 1) p →
      selectAction (fun p => if p.state = 1 then 3 else 1)
        (run (fun p => if p.state = 1 then 3 else 1) (init 2)
          [([⟨0, 0⟩, ⟨1, 0⟩, ⟨2, 0⟩], [])]) ≠ some p :=
  ⟨by decide, by decide,
    (selectAction_first_least (fun p => if p.state = 1 then 3 else 1) 2
      [([⟨0, 0⟩, ⟨1, 0⟩, ⟨2, 0⟩], [])] ⟨⟨0, 0⟩, by decide, by decide⟩).2.2⟩

/-- At the sentinel: were a count `UINT_MAX` itself (a chain of `UINT_MAX` proof
obligations, which no run builds), the strict comparison with `leastUsed = UINT_MAX` would
choose nothing and the assertion of `selectAction()` would fail. -/
theorem selectAction_sentinel_example :
    (run (fun _ => 4294967295) (init 4294967295) [([⟨0, 0⟩], [])]).propagations = [⟨0, 0⟩] ∧
    selectAction (fun _ => 4294967295)
      (run (fun _ => 4294967295) (init 4294967295) [([⟨0, 0⟩], [])]) = none := by
  decide

end RecencyRankedSearcher

/-! ## ConflictCoreInitializer -/

namespace ConflictCoreInitializer

theorem mem_setAdd {α : Type} [DecidableEq α] (x y : α) (l : List α) :
    y ∈ setAdd x l ↔ y = x ∨ y ∈ l := by
  unfold setAdd
  split
  · constructor
    · exact Or.inr
    · rintro (rfl | h)
      · assumption
      · exact h
  · simp only [List.mem_append, List.mem_singleton]
    tauto

theorem setAdd_ne_nil {α : Type} [DecidableEq α] (x : α) (l : List α) : setAdd x l ≠ [] := by
  intro h
  have := (mem_setAdd x x l).2 (Or.inl rfl)
  rw [h] at this
  simp at this

theorem setAdd_nodup {α : Type} [DecidableEq α] (x : α) (l : List α) (h : l.Nodup) :
    (setAdd x l).Nodup := by
  unfold setAdd
  split
  · exact h
  · rename_i hx
    rw [List.nodup_append]
    exact ⟨h, List.nodup_singleton x, by
      intro a ha hb
      rw [List.mem_singleton] at hb
      exact hx (hb ▸ ha)⟩

theorem addInit_knownTargets (s : ConflictCoreInitializer) (f : KInstruction) (d : Target) :
    (addInit s f d).knownTargets = s.knownTargets := by
  unfold addInit
  simp only
  split_ifs <;> rfl

theorem addInit_allowed (s : ConflictCoreInitializer) (f : KInstruction) (d : Target) :
    (addInit s f d).allowed = s.allowed := by
  unfold addInit
  simp only
  split_ifs <;> rfl

theorem addInit_targetMap (s : ConflictCoreInitializer) (f : KInstruction) (d : Target) :
    (addInit s f d).targetMap =
      if d ∈ s.initialized f then s.targetMap
      else fun ki => if ki = f then setAdd d (s.targetMap ki) else s.targetMap ki := by
  unfold addInit
  simp only
  split_ifs <;> rfl

theorem addInit_initialized (s : ConflictCoreInitializer) (f : KInstruction) (d : Target) :
    (addInit s f d).initialized =
      if d ∈ s.initialized f then s.initialized
      else fun ki => if ki = f then setAdd d (s.initialized ki) else s.initialized ki := by
  unfold addInit
  simp only
  split_ifs <;> rfl

theorem addInit_targetMap_mono (s : ConflictCoreInitializer) (f : KInstruction) (d : Target)
    (ki : KInstruction) (t : Target) (h : t ∈ s.targetMap ki) :
    t ∈ (addInit s f d).targetMap ki := by
  rw [addInit_targetMap]
  split
  · exact h
  · simp only
    split
    · exact (mem_setAdd _ _ _).2 (Or.inr h)
    · exact h

theorem addInit_listed (s : ConflictCoreInitializer) (f : KInstruction) (d : Target)
    (ki : KInstruction) (h : ki ∈ s.awaiting ∨ ki ∈ s.queued) :
    ki ∈ (addInit s f d).awaiting ∨ ki ∈ (addInit s f d).queued := by
  unfold addInit
  simp only
  split_ifs
  · exact h
  · rcases h with h | h
    · exact Or.inl h
    · exact Or.inr (List.mem_append_left _ h)
  · rcases h with h | h
    · exact Or.inl (List.mem_append_left _ h)
    · exact Or.inr h
  · rcases h with h | h
    · by_cases hk : ki = f
      · exact Or.inr (List.mem_append_right _ (by simp [hk]))
      · exact Or.inl (List.mem_filter.2 ⟨h, by simpa using hk⟩)
    · exact Or.inr (List.mem_append_left _ h)
  · exact h
  · exact h

theorem filter_ne_perm (a : List KInstruction) (f : KInstruction) (hnd : a.Nodup)
    (hf : f ∈ a) : (f :: a.filter fun ki => decide (ki ≠ f)).Perm a := by
  have h1 := List.perm_cons_erase hf
  have h2 : a.erase f = a.filter fun ki => decide (ki ≠ f) := by
    rw [hnd.erase_eq_filter]
    congr 1
    funext x
    by_cases hx : x = f <;> simp [hx]
  rw [← h2]
  exact h1.symm

theorem addInit_lists (s : ConflictCoreInitializer) (f : KInstruction) (d : Target)
    (hnd : (s.queued ++ s.awaiting).Nodup) (hd : d ∉ s.initialized f) :
    (((addInit s f d).queued ++ (addInit s f d).awaiting).Perm (s.queued ++ s.awaiting) ∧
      (f ∈ s.queued ∨ f ∈ s.awaiting)) ∨
    (((addInit s f d).queued ++ (addInit s f d).awaiting).Perm (f :: (s.queued ++ s.awaiting)) ∧
      f ∉ s.queued ∧ f ∉ s.awaiting) := by
  unfold addInit
  simp only [if_neg hd]
  by_cases ha : f ∈ s.awaiting
  · have hq : f ∉ s.queued := fun hq => (List.nodup_append.1 hnd).2.2 hq ha
    left
    refine ⟨?_, Or.inr ha⟩
    simp only [ha, hq, decide_True, decide_False, Bool.not_true, Bool.false_and,
      Bool.false_eq_true, if_false, if_true]
    split
    · have hp := filter_ne_perm s.awaiting f (List.nodup_append.1 hnd).2.1 ha
      simp only
      calc (s.queued ++ [f] ++ s.awaiting.filter fun ki => decide (ki ≠ f)).Perm
            (s.queued ++ (f :: s.awaiting.filter fun ki => decide (ki ≠ f))) := by
              rw [List.append_assoc]; rfl
        _ |>.Perm (s.queued ++ s.awaiting) := List.Perm.append_left _ hp
    · exact List.Perm.refl _
  · by_cases hq : f ∈ s.queued
    · left
      refine ⟨?_, Or.inl hq⟩
      simp only [ha, hq, decide_True, decide_False, Bool.not_true, Bool.and_false,
        Bool.false_eq_true, if_false]
      exact List.Perm.refl _
    · right
      refine ⟨?_, hq, ha⟩
      simp only [ha, hq, decide_False, Bool.not_false, Bool.and_self, if_true]
      split
      · simp only
        calc (s.queued ++ [f] ++ s.awaiting).Perm (s.queued ++ (f :: s.awaiting)) := by
              rw [List.append_assoc]; rfl
          _ |>.Perm (f :: (s.queued ++ s.awaiting)) := List.perm_middle
      · simp only
        calc (s.queued ++ (s.awaiting ++ [f])).Perm ((s.queued ++ s.awaiting) ++ [f]) := by
              rw [List.append_assoc]
          _ |>.Perm (f :: (s.queued ++ s.awaiting)) := List.perm_append_singleton _ _

theorem addInit_inv (s : ConflictCoreInitializer) (f : KInstruction) (d : Target)
    (emitted : List (KInstruction × List Target)) (h : Inv s emitted) :
    Inv (addInit s f d) emitted := by
  by_cases hd : d ∈ s.initialized f
  · have e : addInit s f d = s := by unfold addInit; rw [if_pos hd]
    rw [e]; exact h
  · obtain ⟨h1, h2, h3, h4, h5, h6, h7⟩ := h
    have htm := addInit_targetMap s f d
    have hin := addInit_initialized s f d
    rw [if_neg hd] at htm hin
    refine ⟨?_, ?_, ?_, ?_, ?_, h6, h7⟩
    · rcases addInit_lists s f d h1 hd with ⟨hp, _⟩ | ⟨hp, hq, ha⟩
      · exact hp.nodup_iff.2 h1
      · refine hp.nodup_iff.2 (List.nodup_cons.2 ⟨?_, h1⟩)
        simp [hq, ha]
    · intro ki hki
      rw [htm]
      simp only
      by_cases hk : ki = f
      · rw [if_pos hk]; exact setAdd_ne_nil _ _
      · rw [if_neg hk]
        apply h2
        rcases addInit_lists s f d h1 hd with ⟨hp, _⟩ | ⟨hp, _, _⟩
        · exact hp.mem_iff.1 hki
        · rcases List.mem_cons.1 (hp.mem_iff.1 hki) with hc | hc
          · exact absurd hc hk
          · exact hc
    · intro ki t ht
      rw [htm] at ht
      rw [hin]
      simp only at ht ⊢
      by_cases hk : ki = f
      · rw [if_pos hk] at ht ⊢
        rcases (mem_setAdd _ _ _).1 ht with rfl | ht
        · exact (mem_setAdd _ _ _).2 (Or.inl rfl)
        · exact (mem_setAdd _ _ _).2 (Or.inr (h3 ki t ht))
      · rw [if_neg hk] at ht ⊢
        exact h3 ki t ht
    · intro ki
      rw [htm]
      simp only
      split
      · exact setAdd_nodup _ _ (h4 ki)
      · exact h4 ki
    · intro p hp
      obtain ⟨a, b⟩ := h5 p hp
      rw [htm, hin]
      simp only
      by_cases hk : p.1 = f
      · rw [if_pos hk, if_pos hk]
        refine ⟨(mem_setAdd _ _ _).2 (Or.inr a), ?_⟩
        intro hc
        rcases (mem_setAdd _ _ _).1 hc with hc | hc
        · rw [hk] at a
          exact hd (hc ▸ a)
        · exact b hc
      · rw [if_neg hk, if_neg hk]
        exact ⟨a, b⟩

theorem addInits_inv (inits : List (KInstruction × Target)) :
    ∀ (s : ConflictCoreInitializer) (emitted : List (KInstruction × List Target)),
      Inv s emitted → Inv (addInits s inits) emitted := by
  induction inits with
  | nil => intro s emitted h; exact h
  | cons e rest ih =>
    intro s emitted h
    exact ih _ emitted (addInit_inv s e.1 e.2 emitted h)

theorem addInits_facts (inits : List (KInstruction × Target)) :
    ∀ (s : ConflictCoreInitializer),
      (addInits s inits).knownTargets = s.knownTargets ∧
      (addInits s inits).allowed = s.allowed ∧
      (∀ ki t, t ∈ s.targetMap ki → t ∈ (addInits s inits).targetMap ki) ∧
      ∀ ki, ki ∈ s.awaiting ∨ ki ∈ s.queued →
        ki ∈ (addInits s inits).awaiting ∨ ki ∈ (addInits s inits).queued := by
  induction inits with
  | nil => intro s; exact ⟨rfl, rfl, fun _ _ h => h, fun _ h => h⟩
  | cons e rest ih =>
    intro s
    obtain ⟨a, b, c, d⟩ := ih (addInit s e.1 e.2)
    exact ⟨a.trans (addInit_knownTargets _ _ _), b.trans (addInit_allowed _ _ _),
      fun ki t h => c ki t (addInit_targetMap_mono s e.1 e.2 ki t h),
      fun ki h => d ki (addInit_listed s e.1 e.2 ki h)⟩

end ConflictCoreInitializer
namespace ConflictCoreInitializer

theorem knownCount_setKnown (t : Target) (c : Nat) (m : List (Target × Nat)) (u : Target) :
    knownCount (setKnown t c m) u = if u = t then c else knownCount m u := by
  induction m with
  | nil =>
    by_cases h : u = t
    · simp [setKnown, knownCount, h]
    · simp [setKnown, knownCount, h, Ne.symm h]
  | cons e rest ih =>
    obtain ⟨k, v⟩ := e
    by_cases hk : k = t
    · subst hk
      by_cases h : u = k
      · simp [setKnown, knownCount, h]
      · simp [setKnown, knownCount, h, Ne.symm h]
    · simp only [setKnown, if_neg hk]
      by_cases hku : k = u
      · subst hku
        simp [knownCount, hk]
      · have e1 : knownCount ((k, v) :: setKnown t c rest) u
            = knownCount (setKnown t c rest) u := by
          simp [knownCount, List.find?_cons, hku]
        have e2 : knownCount ((k, v) :: rest) u = knownCount rest u := by
          simp [knownCount, List.find?_cons, hku]
        rw [e1, e2, ih]

theorem setKnown_keys (t : Target) (c : Nat) (m : List (Target × Nat)) :
    (∀ k, k ∈ (setKnown t c m).map Prod.fst ↔ k = t ∨ k ∈ m.map Prod.fst) ∧
    ((m.map Prod.fst).Nodup → ((setKnown t c m).map Prod.fst).Nodup) := by
  induction m with
  | nil => simp [setKnown]
  | cons e rest ih =>
    obtain ⟨k, v⟩ := e
    by_cases hk : k = t
    · subst hk
      simp only [setKnown, if_true, List.map_cons]
      exact ⟨fun x => by simp, fun h => h⟩
    · simp only [setKnown, if_neg hk, List.map_cons, List.mem_cons, List.nodup_cons]
      refine ⟨fun x => by rw [ih.1 x]; tauto, fun h => ⟨?_, ih.2 h.2⟩⟩
      rw [ih.1 k]
      rintro (hc | hc)
      · exact hk hc
      · exact h.1 hc

theorem knownCount_of_mem (m : List (Target × Nat)) (hnd : (m.map Prod.fst).Nodup)
    (e : Target × Nat) (he : e ∈ m) : knownCount m e.1 = e.2 := by
  induction m with
  | nil => simp at he
  | cons x rest ih =>
    simp only [List.map_cons, List.nodup_cons] at hnd
    rcases List.mem_cons.1 he with rfl | he
    · simp [knownCount]
    · have hne : x.1 ≠ e.1 := by
        intro hc
        exact hnd.1 (hc ▸ List.mem_map_of_mem Prod.fst he)
      have := ih hnd.2 he
      simpa [knownCount, List.find?_cons, hne] using this

theorem enqueueAll_eq (l : List KInstruction) :
    ∀ (s : ConflictCoreInitializer),
      enqueueAll s l =
        { s with
          awaiting := s.awaiting.filter fun k => decide (k ∉ l)
          queued := s.queued ++ l } := by
  induction l with
  | nil =>
    intro s
    cases s
    simp [enqueueAll]
  | cons x rest ih =>
    intro s
    have e : enqueueAll s (x :: rest)
        = enqueueAll
          { s with
            awaiting := s.awaiting.filter fun k => decide (k ≠ x)
            queued := s.queued ++ [x] } rest := rfl
    rw [e, ih]
    simp only [List.filter_filter, List.append_assoc, List.singleton_append]
    congr 2
    funext k
    by_cases hk : k = x <;> simp [hk]

theorem dequeueAll_eq (l : List KInstruction) :
    ∀ (s : ConflictCoreInitializer),
      dequeueAll s l =
        { s with
          awaiting := s.awaiting ++ l
          queued := s.queued.filter fun k => decide (k ∉ l) } := by
  induction l with
  | nil =>
    intro s
    cases s
    simp [dequeueAll]
  | cons x rest ih =>
    intro s
    have e : dequeueAll s (x :: rest)
        = dequeueAll
          { s with
            awaiting := s.awaiting ++ [x]
            queued := s.queued.filter fun k => decide (k ≠ x) } rest := rfl
    rw [e, ih]
    simp only [List.filter_filter, List.append_assoc, List.singleton_append]
    congr 2
    funext k
    by_cases hk : k = x <;> simp [hk]

theorem filter_not_mem_filter (a : List KInstruction) (p : KInstruction → Bool) :
    (a.filter fun k => decide (k ∉ a.filter p)) = a.filter fun k => !p k := by
  apply List.filter_congr
  intro k hk
  simp only [List.mem_filter, hk, true_and]
  cases p k <;> simp

theorem moved_perm (q a : List KInstruction) (p : KInstruction → Bool) :
    ((q ++ a.filter p) ++ a.filter fun k => !p k).Perm (q ++ a) := by
  rw [List.append_assoc]
  exact List.Perm.append_left _ (List.filter_append_perm p a)

theorem moved_back_perm (q a : List KInstruction) (p : KInstruction → Bool) :
    ((q.filter fun k => !p k) ++ (a ++ q.filter p)).Perm (q ++ a) := by
  have h1 : ((q.filter fun k => !p k) ++ (a ++ q.filter p)).Perm
      ((q.filter p ++ q.filter fun k => !p k) ++ a) := by
    rw [List.append_assoc]
    calc ((q.filter fun k => !p k) ++ (a ++ q.filter p)).Perm
          ((a ++ q.filter p) ++ q.filter fun k => !p k) := List.perm_append_comm
      _ |>.Perm (a ++ (q.filter p ++ q.filter fun k => !p k)) := by rw [List.append_assoc]
      _ |>.Perm ((q.filter p ++ q.filter fun k => !p k) ++ a) := List.perm_append_comm
      _ |>.Perm (q.filter p ++ ((q.filter fun k => !p k) ++ a)) := by rw [List.append_assoc]
  exact h1.trans (List.Perm.append_right _ (List.filter_append_perm p q))

theorem inv_of_lists (s s1 : ConflictCoreInitializer) (emitted : List (KInstruction × List Target))
    (h : Inv s emitted) (hp : (s1.queued ++ s1.awaiting).Perm (s.queued ++ s.awaiting))
    (ht : s1.targetMap = s.targetMap) (hi : s1.initialized = s.initialized) :
    Inv s1 emitted := by
  obtain ⟨h1, h2, h3, h4, h5, h6, h7⟩ := h
  refine ⟨hp.nodup_iff.2 h1, ?_, ?_, ?_, ?_, h6, h7⟩
  · intro ki hki
    rw [ht]
    exact h2 ki (hp.mem_iff.1 hki)
  · rw [ht, hi]; exact h3
  · rw [ht]; exact h4
  · rw [ht, hi]; exact h5

theorem addPob_inv (env : InitializerEnv) (s : ConflictCoreInitializer) (target : Target)
    (emitted : List (KInstruction × List Target)) (h : Inv s emitted) :
    Inv (addPob env s target) emitted := by
  have h1 : Inv
      { s with
        knownTargets :=
          setKnown target (u32 (knownCount s.knownTargets target + 1)) s.knownTargets }
      emitted := h
  unfold addPob
  simp only
  split
  · exact h1
  · have h2 := addInits_inv (pobInits env s.allowed target) _ emitted h1
    rw [enqueueAll_eq]
    refine inv_of_lists _ _ emitted h2 ?_ rfl rfl
    simp only
    rw [filter_not_mem_filter]
    exact moved_perm _ _ _

theorem removePob_inv (s s1 : ConflictCoreInitializer) (target : Target)
    (emitted : List (KInstruction × List Target)) (h : Inv s emitted)
    (hr : removePob s target = some s1) : Inv s1 emitted := by
  have h1 : Inv
      { s with
        knownTargets := setKnown target (knownCount s.knownTargets target - 1) s.knownTargets }
      emitted := h
  unfold removePob at hr
  simp only at hr
  split at hr
  · exact absurd hr (by simp)
  · split at hr
    · simp only [Option.some.injEq] at hr
      exact hr ▸ h1
    · simp only [Option.some.injEq] at hr
      rw [← hr, dequeueAll_eq]
      refine inv_of_lists _ _ emitted h1 ?_ rfl rfl
      simp only
      rw [filter_not_mem_filter]
      exact moved_back_perm _ _ _

theorem update_inv (env : InitializerEnv) (added removed : List Target)
    (emitted : List (KInstruction × List Target)) :
    ∀ (s s1 : ConflictCoreInitializer), Inv s emitted →
      update env s added removed = some s1 → Inv s1 emitted := by
  have hadd : ∀ (l : List Target) (s : ConflictCoreInitializer), Inv s emitted →
      Inv (l.foldl (addPob env) s) emitted := by
    intro l
    induction l with
    | nil => intro s h; exact h
    | cons t rest ih => intro s h; exact ih _ (addPob_inv env s t emitted h)
  have hrem : ∀ (l : List Target) (o : Option ConflictCoreInitializer)
      (s1 : ConflictCoreInitializer), (∀ s, o = some s → Inv s emitted) →
      l.foldl (fun acc t => acc.bind fun s2 => removePob s2 t) o = some s1 →
      Inv s1 emitted := by
    intro l
    induction l with
    | nil => intro o s1 ho h; exact ho s1 h
    | cons t rest ih =>
      intro o s1 ho h
      rw [List.foldl_cons] at h
      refine ih _ s1 ?_ h
      intro s2 hs2
      cases o with
      | none => simp at hs2
      | some s0 => exact removePob_inv s0 s2 t emitted (ho s0 rfl) hs2
  intro s s1 h hu
  unfold update at hu
  exact hrem removed _ s1 (fun s2 hs2 => by
    simp only [Option.some.injEq] at hs2
    exact hs2 ▸ hadd added s h) hu

theorem addErrorInit_inv (env : InitializerEnv) (s s1 : ConflictCoreInitializer)
    (errorTarget : Target) (emitted : List (KInstruction × List Target)) (h : Inv s emitted)
    (hr : addErrorInit env s errorTarget = some s1) : Inv s1 emitted := by
  unfold addErrorInit at hr
  cases errorTarget with
  | reachBlock block atEnd =>
    simp only at hr
    split at hr
    · exact absurd hr (by simp)
    · split at hr
      · simp only [Option.some.injEq] at hr
        exact hr ▸ h
      · exact absurd hr (by simp)
  | other id =>
    simp only [Option.some.injEq] at hr
    rw [← hr]
    exact addInits_inv _ _ _ h

theorem pairs_append (emitted : List (KInstruction × List Target))
    (e : KInstruction × List Target) :
    pairs (emitted ++ [e]) = pairs emitted ++ e.2.map fun t => (e.1, t) := by
  simp [pairs]

theorem selectAction_inv (s s1 : ConflictCoreInitializer) (r : KInstruction × List Target)
    (emitted : List (KInstruction × List Target)) (h : Inv s emitted)
    (hr : selectAction s = some (r, s1)) : Inv s1 (emitted ++ [r]) := by
  obtain ⟨h1, h2, h3, h4, h5, h6, h7⟩ := h
  unfold selectAction at hr
  cases hq : s.queued with
  | nil => simp [hq] at hr
  | cons ki rest =>
    simp only [hq] at hr
    split at hr
    · exact absurd hr (by simp)
    · rename_i hne
      simp only [Option.some.injEq, Prod.mk.injEq] at hr
      obtain ⟨hr1, hr2⟩ := hr
      subst hr1
      subst hr2
      rw [hq, List.cons_append, List.nodup_cons] at h1
      refine ⟨h1.2, ?_, ?_, ?_, ?_, ?_, ?_⟩
      · intro k hk
        have hne1 : k ≠ ki := fun hc => h1.1 (hc ▸ hk)
        simp only [if_neg hne1]
        apply h2
        rw [hq]
        exact List.mem_cons_of_mem _ hk
      · intro k t ht
        simp only at ht
        split at ht
        · simp at ht
        · exact h3 k t ht
      · intro k
        simp only
        split
        · exact List.nodup_nil
        · exact h4 k
      · intro p hp
        rw [pairs_append] at hp
        rcases List.mem_append.1 hp with hp | hp
        · obtain ⟨a, b⟩ := h5 p hp
          refine ⟨a, ?_⟩
          simp only
          split
          · simp
          · exact b
        · simp only [List.mem_map] at hp
          obtain ⟨t, ht, rfl⟩ := hp
          exact ⟨h3 ki t ht, by simp⟩
      · rw [pairs_append, List.nodup_append]
        refine ⟨h6, ?_, ?_⟩
        · exact (h4 ki).map fun a b hab => by simpa using hab
        · intro p hp hp2
          simp only [List.mem_map] at hp2
          obtain ⟨t, ht, rfl⟩ := hp2
          exact (h5 _ hp).2 ht
      · intro e he
        rcases List.mem_append.1 he with he | he
        · exact h7 e he
        · rw [List.mem_singleton.1 he]
          exact hne

theorem run_keeps_inv (env : InitializerEnv) :
    ∀ (ops : List Op) (s s1 : ConflictCoreInitializer)
      (emitted emitted1 : List (KInstruction × List Target)),
      Inv s emitted → run env ops (s, emitted) = some (s1, emitted1) → Inv s1 emitted1 := by
  intro ops
  induction ops with
  | nil =>
    intro s s1 em em1 h hr
    simp only [run, Option.some.injEq, Prod.mk.injEq] at hr
    rw [← hr.1, ← hr.2]
    exact h
  | cons op rest ih =>
    intro s s1 em em1 h hr
    cases op with
    | update added removed =>
      simp only [run] at hr
      cases hu : update env s added removed with
      | none => simp [hu] at hr
      | some s2 =>
        simp only [hu, Option.some_bind] at hr
        exact ih s2 s1 em em1 (update_inv env added removed em s s2 h hu) hr
    | addErrorInit errorTarget =>
      simp only [run] at hr
      cases hu : addErrorInit env s errorTarget with
      | none => simp [hu] at hr
      | some s2 =>
        simp only [hu, Option.some_bind] at hr
        exact ih s2 s1 em em1 (addErrorInit_inv env s s2 errorTarget em h hu) hr
    | initializeFunctions functions =>
      simp only [run] at hr
      exact ih { s with allowed := functions } s1 em em1 h hr
    | selectAction =>
      simp only [run] at hr
      cases hu : selectAction s with
      | none => simp [hu] at hr
      | some r =>
        obtain ⟨r1, s2⟩ := r
        simp only [hu, Option.some_bind] at hr
        exact ih s2 s1 _ em1 (selectAction_inv s s2 r1 em h hu) hr

theorem init_inv : Inv init [] := by
  refine ⟨?_, ?_, ?_, ?_, ?_, ?_, ?_⟩ <;> simp [init, pairs]

/-- C38: over a sequence of calls of `update`, `addErrorInit`, `initializeFunctions` and
`selectAction` on a fresh initializer in which no call fails, every emitted target set is
non-empty and no (instruction, target) pair is emitted twice; and `selectAction()` on the
resulting initializer, when its queue is not empty, returns a non-empty target set (its
assertion holds). -/
theorem selectAction_emits_once (env : InitializerEnv) (ops : List Op)
    (s : ConflictCoreInitializer) (emitted : List (KInstruction × List Target))
    (hrun : run env ops (init, []) = some (s, emitted)) :
    (∀ e ∈ emitted, e.2 ≠ []) ∧ (pairs emitted).Nodup ∧
    (s.queued ≠ [] → ∃ r, selectAction s = some r ∧ r.1.2 ≠ []) := by
  obtain ⟨_, h2, _, _, _, h6, h7⟩ := run_keeps_inv env ops init s [] emitted init_inv hrun
  refine ⟨h7, h6, ?_⟩
  intro hne
  unfold selectAction
  cases hq : s.queued with
  | nil => exact absurd hq hne
  | cons ki rest =>
    have hk := h2 ki (by rw [hq]; simp)
    simp only [if_neg hk]
    exact ⟨_, rfl, hk⟩

/-- Witness for C38: the error target 7 schedules the first instruction of block 2 for two
targets; a pob at one of them queues it, and `selectAction` emits it once with both. -/
theorem selectAction_emits_once_witness :
    pairs [((⟨2, 0⟩ : KInstruction), [Target.reachBlock 3 false, Target.other 7])]
      = [(⟨2, 0⟩, Target.reachBlock 3 false), (⟨2, 0⟩, Target.other 7)] ∧
    (pairs [((⟨2, 0⟩ : KInstruction), [Target.reachBlock 3 false, Target.other 7])]).Nodup :=
  ⟨by decide,
    (selectAction_emits_once sampleEnv
      [Op.addErrorInit (Target.other 7), Op.update [Target.other 7] [], Op.selectAction]
      { knownTargets := [(Target.other 7, 1)]
        targetMap := fun k => if k = ⟨2, 0⟩ then [] else
          (addInits init [(⟨2, 0⟩, Target.reachBlock 3 false), (⟨2, 0⟩, Target.other 7)]).targetMap k
        instructionMap := fun t =>
          if t ∈ [Target.reachBlock 3 false, Target.other 7] then
            ((addInits init
              [(⟨2, 0⟩, Target.reachBlock 3 false), (⟨2, 0⟩, Target.other 7)]).instructionMap
                t).filter fun k => decide (k ≠ ⟨2, 0⟩)
          else
            (addInits init
              [(⟨2, 0⟩, Target.reachBlock 3 false), (⟨2, 0⟩, Target.other 7)]).instructionMap t
        awaiting := [], queued := []
        initialized :=
          (addInits init
            [(⟨2, 0⟩, Target.reachBlock 3 false), (⟨2, 0⟩, Target.other 7)]).initialized
        allowed := [] }
      [((⟨2, 0⟩ : KInstruction), [Target.reachBlock 3 false, Target.other 7])] rfl).2.1⟩

end ConflictCoreInitializer
namespace ConflictCoreInitializer

theorem noKnown_of_counts (s : ConflictCoreInitializer) (ki : KInstruction)
    (hkeys : (s.knownTargets.map Prod.fst).Nodup)
    (h : ∀ t ∈ s.targetMap ki, knownCount s.knownTargets t = 0) : noKnown s ki = true := by
  unfold noKnown
  rw [Bool.not_eq_true', List.any_eq_false]
  intro e he
  simp only [Bool.and_eq_true, decide_eq_true_eq, not_and]
  intro hne hmem
  have := knownCount_of_mem s.knownTargets hkeys e he
  rw [h e.1 hmem] at this
  exact hne this.symm

/-- C34: when `addPob` raises the count of the pob's location from 0 to 1, every instruction
that was in `awaiting` and has the target among its scheduled targets (before the call, or
after the inits the call schedules) is in `queued` and not in `awaiting` afterwards; when
`removePob` lowers the count of the pob's location from 1 to 0, every queued instruction none
of whose scheduled targets has a positive count is in `awaiting` and not in `queued`
afterwards. -/
theorem known_count_moves (env : InitializerEnv) (s : ConflictCoreInitializer)
    (target : Target) (s2 : ConflictCoreInitializer) (target2 : Target)
    (h0 : knownCount s.knownTargets target = 0)
    (h1 : knownCount s2.knownTargets target2 = 1)
    (hkeys : (s2.knownTargets.map Prod.fst).Nodup) :
    (knownCount (addPob env s target).knownTargets target = 1 ∧
      (∀ ki t, t ∈ s.targetMap ki → t ∈ (addPob env s target).targetMap ki) ∧
      ∀ ki ∈ s.awaiting, target ∈ (addPob env s target).targetMap ki →
        ki ∈ (addPob env s target).queued ∧ ki ∉ (addPob env s target).awaiting) ∧
    ∃ s3, removePob s2 target2 = some s3 ∧ knownCount s3.knownTargets target2 = 0 ∧
      s3.targetMap = s2.targetMap ∧
      ∀ ki ∈ s2.queued, (∀ t ∈ s2.targetMap ki, knownCount s3.knownTargets t = 0) →
        ki ∈ s3.awaiting ∧ ki ∉ s3.queued := by
  constructor
  · have hc : u32 (knownCount s.knownTargets target + 1) = 1 := by rw [h0]; rfl
    have hadd : addPob env s target =
        enqueueAll
          (addInits { s with knownTargets := setKnown target 1 s.knownTargets }
            (pobInits env s.allowed target))
          ((addInits { s with knownTargets := setKnown target 1 s.knownTargets }
            (pobInits env s.allowed target)).awaiting.filter fun ki =>
              decide (target ∈ (addInits { s with knownTargets := setKnown target 1 s.knownTargets }
                (pobInits env s.allowed target)).targetMap ki)) := by
      unfold addPob
      simp only [hc, gt_iff_lt, Nat.lt_irrefl, if_false]
    obtain ⟨f1, _, f3, f4⟩ := addInits_facts (pobInits env s.allowed target)
      { s with knownTargets := setKnown target 1 s.knownTargets }
    rw [hadd, enqueueAll_eq]
    refine ⟨?_, f3, ?_⟩
    · simp only
      rw [f1]
      simp only
      rw [knownCount_setKnown, if_pos rfl]
    · intro ki hki ht
      simp only at ht ⊢
      rcases f4 ki (Or.inl hki) with ha | hq
      · refine ⟨List.mem_append_right _ (List.mem_filter.2 ⟨ha, by simpa using ht⟩), ?_⟩
        intro hc
        have := (List.mem_filter.1 hc).2
        simp only [decide_eq_true_eq] at this
        exact this (List.mem_filter.2 ⟨ha, by simpa using ht⟩)
      · by_cases ha : ki ∈ (addInits { s with knownTargets := setKnown target 1 s.knownTargets }
            (pobInits env s.allowed target)).awaiting
        · refine ⟨List.mem_append_right _ (List.mem_filter.2 ⟨ha, by simpa using ht⟩), ?_⟩
          intro hc
          have := (List.mem_filter.1 hc).2
          simp only [decide_eq_true_eq] at this
          exact this (List.mem_filter.2 ⟨ha, by simpa using ht⟩)
        · exact ⟨List.mem_append_left _ hq, fun hc => ha (List.mem_filter.1 hc).1⟩
  · have hrem : removePob s2 target2 =
        some (dequeueAll { s2 with knownTargets := setKnown target2 0 s2.knownTargets }
          (s2.queued.filter fun ki =>
            noKnown { s2 with knownTargets := setKnown target2 0 s2.knownTargets } ki)) := by
      unfold removePob
      simp only [h1, Nat.sub_self, gt_iff_lt, Nat.lt_irrefl, if_false]
      rfl
    rw [hrem, dequeueAll_eq]
    refine ⟨_, rfl, ?_, rfl, ?_⟩
    · simp only
      rw [knownCount_setKnown, if_pos rfl]
    · intro ki hki hall
      simp only at hall ⊢
      have hno : noKnown { s2 with knownTargets := setKnown target2 0 s2.knownTargets } ki
          = true :=
        noKnown_of_counts _ ki ((setKnown_keys target2 0 s2.knownTargets).2 hkeys) hall
      refine ⟨List.mem_append_right _ (List.mem_filter.2 ⟨hki, hno⟩), ?_⟩
      intro hc
      have := (List.mem_filter.1 hc).2
      simp only [decide_eq_true_eq] at this
      exact this (List.mem_filter.2 ⟨hki, hno⟩)

/-- Witness for C34: the error target 7 leaves the first instruction of block 2 in `awaiting`;
a pob at the target queues it, and removing the pob sends it back. -/
theorem known_count_moves_witness :
    (addInits init [(⟨2, 0⟩, Target.reachBlock 3 false), (⟨2, 0⟩, Target.other 7)]).awaiting
      = [⟨2, 0⟩] ∧
    (addPob sampleEnv
      (addInits init [(⟨2, 0⟩, Target.reachBlock 3 false), (⟨2, 0⟩, Target.other 7)])
      (Target.other 7)).queued = [⟨2, 0⟩] ∧
    ∃ s3, removePob
        (addPob sampleEnv
          (addInits init [(⟨2, 0⟩, Target.reachBlock 3 false), (⟨2, 0⟩, Target.other 7)])
          (Target.other 7)) (Target.other 7) = some s3 ∧
      knownCount s3.knownTargets (Target.other 7) = 0 ∧
      s3.targetMap = (addPob sampleEnv
          (addInits init [(⟨2, 0⟩, Target.reachBlock 3 false), (⟨2, 0⟩, Target.other 7)])
          (Target.other 7)).targetMap ∧
      ∀ ki ∈ (addPob sampleEnv
          (addInits init [(⟨2, 0⟩, Target.reachBlock 3 false), (⟨2, 0⟩, Target.other 7)])
          (Target.other 7)).queued,
        (∀ t ∈ (addPob sampleEnv
            (addInits init [(⟨2, 0⟩, Target.reachBlock 3 false), (⟨2, 0⟩, Target.other 7)])
            (Target.other 7)).targetMap ki, knownCount s3.knownTargets t = 0) →
        ki ∈ s3.awaiting ∧ ki ∉ s3.queued :=
  ⟨by decide, by decide,
    (known_count_moves sampleEnv
      (addInits init [(⟨2, 0⟩, Target.reachBlock 3 false), (⟨2, 0⟩, Target.other 7)])
      (Target.other 7)
      (addPob sampleEnv
        (addInits init [(⟨2, 0⟩, Target.reachBlock 3 false), (⟨2, 0⟩, Target.other 7)])
        (Target.other 7))
      (Target.other 7) (by decide) (by decide) (by decide)).2⟩

/-- What `getNearestPredicateSatisfying` returns on the graph of `sampleEnv`: block 3 is the
nearest block after block 2 and block 2 the nearest before block 3; nothing is found before
block 2 (the entry block fails the predicate) or after block 3. -/
theorem sampleEnv_nearest :
    sampleEnv.nearest 0 true = [2] ∧ sampleEnv.nearest 0 false = [] ∧
    sampleEnv.nearest 2 true = [3] ∧ sampleEnv.nearest 2 false = [] ∧
    sampleEnv.nearest 3 true = [] ∧ sampleEnv.nearest 3 false = [2] ∧
    sampleEnv.predicate 2 = true ∧ sampleEnv.predicate 3 = true ∧
    sampleEnv.predicate 0 = false := by
  decide

/-- C37: the initializer after a pob at the error target 7 (in block 2, which passes the
predicate) was added and removed and the error target 7 was then scheduled with
`addErrorInit`: the first instruction of block 2 is queued for the targets `ReachBlock(3)` and
7, and the count of both is 0. The key of the target 7 is still in `knownTargets`, with the
count 0, and `addInit` tests the key, where `removePob` tests the count. -/
theorem queued_without_known_target :
    ∃ s emitted,
      run sampleEnv
        [Op.update [Target.other 7] [], Op.update [] [Target.other 7],
          Op.addErrorInit (Target.other 7)] (init, []) = some (s, emitted) ∧
      s.queued = [⟨2, 0⟩] ∧ s.awaiting = [] ∧
      s.targetMap ⟨2, 0⟩ = [Target.reachBlock 3 false, Target.other 7] ∧
      s.knownTargets = [(Target.other 7, 0)] ∧
      ∀ t ∈ s.targetMap ⟨2, 0⟩, knownCount s.knownTargets t = 0 :=
  ⟨_, _, rfl, by decide, by decide, by decide, by decide, by decide⟩

/-- Over a sequence of calls in which none fails, no instruction is both in `queued` and in
`awaiting`, and neither list repeats an instruction. -/
theorem queued_awaiting_disjoint (env : InitializerEnv) (ops : List Op)
    (s : ConflictCoreInitializer) (emitted : List (KInstruction × List Target))
    (hrun : run env ops (init, []) = some (s, emitted)) :
    (s.queued ++ s.awaiting).Nodup ∧ ∀ ki ∈ s.queued, ki ∉ s.awaiting := by
  have h := (run_keeps_inv env ops init s [] emitted init_inv hrun).1
  exact ⟨h, fun ki hq ha => (List.nodup_append.1 h).2.2 hq ha⟩

end ConflictCoreInitializer

/-! ## leafPobs -/

namespace ObjectManager

theorem relink_fields (p : ProofObligation) (x : Nat) (q : ProofObligation) :
    (relink p x q).id = q.id ∧ (relink p x q).location = q.location ∧
    (relink p x q).parent = (if q.id ∈ p.children then none else q.parent) ∧
    (∀ c, c ∈ (relink p x q).children ↔ c ∈ q.children ∧ ¬ (some q.id = p.parent ∧ c = x)) ∧
    (q.children.Nodup → (relink p x q).children.Nodup) := by
  refine ⟨?_, ?_, ?_, ?_, ?_⟩
  · simp only [relink]
    split <;> split <;> rfl
  · simp only [relink]
    split <;> split <;> rfl
  · simp only [relink]
    split <;> split <;> simp_all
  · intro c
    simp only [relink]
    split <;> split <;> simp_all [mem_setErase, and_comm]
  · intro hn
    simp only [relink]
    split <;> split
    · exact hn.sublist (List.filter_sublist _)
    · exact hn
    · exact hn.sublist (List.filter_sublist _)
    · exact hn

theorem deletePob_relink {hc : ObjectManager} {x : Nat} {p : ProofObligation}
    (hp : hc.getPob x = some p) (y : Nat) :
    (deletePob hc x).getPob y = if y = x then none else (hc.getPob y).map (relink p x) := by
  have hheap : (deletePob hc x).pobHeap
      = (hc.pobHeap.filter fun q => decide (q.id ≠ x)).map (relink p x) := by
    unfold deletePob
    rw [hp]
    rfl
  unfold getPob
  rw [hheap, find?_id_map _ _ (fun q => (relink_fields p x q).1), List.find?_filter]
  by_cases hy : y = x
  · subst hy
    simp only [↓reduceIte, Option.map_eq_none']
    rw [List.find?_eq_none]
    intro q _
    by_cases hq : q.id = y <;> simp [hq]
  · simp only [hy, ↓reduceIte]
    congr 1
    congr 1
    funext a
    by_cases ha : a.id = y
    · subst ha
      simp [hy]
    · simp [ha]

theorem swept_cons {R rest : List Nat} {x y : Nat} (hx : x ∈ R) (hnd : (x :: rest).Nodup) :
    Swept R rest y ↔ Swept R (x :: rest) y ∨ y = x := by
  unfold Swept
  have hxr : x ∉ rest := (List.nodup_cons.1 hnd).1
  simp only [List.mem_cons, not_or]
  constructor
  · rintro ⟨h1, h2⟩
    by_cases hy : y = x
    · exact Or.inr hy
    · exact Or.inl ⟨h1, hy, h2⟩
  · rintro (⟨h1, _, h2⟩ | rfl)
    · exact ⟨h1, h2⟩
    · exact ⟨hx, hxr⟩

theorem length_one_of_mem {l : List Nat} {x : Nat} (hn : l.Nodup) (hx : x ∈ l)
    (hall : ∀ c ∈ l, c = x) : l.length = 1 := by
  match l, hn, hx, hall with
  | [a], _, _, _ => rfl
  | a :: b :: rest, hn, _, hall =>
    have ha := hall a (by simp)
    have hb := hall b (by simp)
    rw [List.nodup_cons] at hn
    exact absurd (by simp [ha, hb]) hn.1

theorem eq_of_length_one {l : List Nat} {x c : Nat} (hl : l.length = 1) (hx : x ∈ l)
    (hc : c ∈ l) : c = x := by
  match l, hl, hx, hc with
  | [a], _, hx, hc =>
    simp only [List.mem_singleton] at hx hc
    rw [hx, hc]

end ObjectManager
namespace ObjectManager

theorem SweepInv.leaf_step {h hc : ObjectManager} {R rest : List Nat} {x : Nat}
    {p0 p : ProofObligation} {L : List Nat} (hok : HeapOK h)
    (inv : SweepInv h hc R (x :: rest))
    (hnd : (x :: rest).Nodup) (hp0 : h.getPob x = some p0) (hp : hc.getPob x = some p)
    (hL : (match p.parent with
        | none => some (setErase x hc.leafPobs)
        | some parent =>
          match hc.getPob parent with
          | none => none
          | some pp =>
            if pp.children.length = 1 ∧ parent ∉ hc.removedPobs then
              if ∀ y ∈ hc.removedPobs, (hc.getPob y).isSome = true then
                some (setInsert parent (setErase x hc.leafPobs))
              else none
            else some (setErase x hc.leafPobs)) = some L) :
    ∀ y, y ∈ L ↔ ¬ Swept R rest y ∧
      (y ∈ h.leafPobs ∨
        (y ∉ R ∧ ∃ q0, h.getPob y = some q0 ∧ q0.children ≠ [] ∧
          ∀ c ∈ q0.children, Swept R rest c)) := by
  have hxR : x ∈ R := inv.sub x (List.mem_cons_self _ _)
  have hsw : ∀ y, Swept R rest y ↔ Swept R (x :: rest) y ∨ y = x :=
    fun y => swept_cons hxR hnd
  have hnx : ¬ Swept R (x :: rest) x := fun hc1 => hc1.2 (List.mem_cons_self _ _)
  obtain ⟨p1, hp1, _, hpar, hch, _⟩ := inv.kept x p0 hnx hp0
  rw [hp] at hp1
  cases hp1
  have hid0 : p0.id = x := (getPob_mem hp0).2
  -- an object that has `x` among its original children is the parent of `x`
  have hparent : ∀ y q0, h.getPob y = some q0 → x ∈ q0.children → p0.parent = some y := by
    intro y q0 hq0 hx
    obtain ⟨pc, h1, h2⟩ := hok.2.1 q0 (getPob_mem hq0).1 x hx
    rw [hp0] at h1
    cases h1
    rw [h2, (getPob_mem hq0).2]
  -- the old part of the statement, for `setErase x hc.leafPobs`
  have hold : ∀ y, y ≠ x ∧ y ∈ hc.leafPobs → ¬ Swept R rest y ∧
      (y ∈ h.leafPobs ∨
        (y ∉ R ∧ ∃ q0, h.getPob y = some q0 ∧ q0.children ≠ [] ∧
          ∀ c ∈ q0.children, Swept R rest c)) := by
    rintro y ⟨hyx, hy⟩
    obtain ⟨a, b⟩ := (inv.leaf y).1 hy
    refine ⟨fun hc1 => ?_, ?_⟩
    · rcases (hsw y).1 hc1 with h1 | h1
      · exact a h1
      · exact hyx h1
    · rcases b with b | ⟨b1, q0, b2, b3, b4⟩
      · exact Or.inl b
      · exact Or.inr ⟨b1, q0, b2, b3, fun c hc1 => (hsw c).2 (Or.inl (b4 c hc1))⟩
  have hback : ∀ y, ¬ Swept R rest y →
      (y ∈ h.leafPobs ∨
        (y ∉ R ∧ ∃ q0, h.getPob y = some q0 ∧ q0.children ≠ [] ∧
          ∀ c ∈ q0.children, Swept R rest c)) →
      (y ≠ x ∧ y ∈ hc.leafPobs) ∨
        (y ∉ R ∧ ∃ q0, h.getPob y = some q0 ∧ x ∈ q0.children ∧
          ∀ c ∈ q0.children, Swept R rest c) := by
    intro y hy hb
    have hyx : y ≠ x := fun e => hy ((hsw y).2 (Or.inr e))
    have hys : ¬ Swept R (x :: rest) y := fun e => hy ((hsw y).2 (Or.inl e))
    rcases hb with b | ⟨b1, q0, b2, b3, b4⟩
    · exact Or.inl ⟨hyx, (inv.leaf y).2 ⟨hys, Or.inl b⟩⟩
    · by_cases hx : x ∈ q0.children
      · exact Or.inr ⟨b1, q0, b2, hx, b4⟩
      · refine Or.inl ⟨hyx, (inv.leaf y).2 ⟨hys, Or.inr ⟨b1, q0, b2, b3, ?_⟩⟩⟩
        intro c hc1
        rcases (hsw c).1 (b4 c hc1) with h1 | h1
        · exact h1
        · exact absurd (h1 ▸ hc1) hx
  cases hpp : p.parent with
  | none =>
    rw [hpp] at hL
    cases hL
    intro y
    rw [mem_setErase]
    constructor
    · exact hold y
    · rintro ⟨a, b⟩
      rcases hback y a b with h1 | ⟨b1, q0, b2, hx, _⟩
      · exact h1
      · have := hparent y q0 b2 hx
        have hs : ¬ Swept R (x :: rest) y := fun e => b1 e.1
        have := (hpar y).2 ⟨this, hs⟩
        rw [hpp] at this
        cases this
  | some z =>
    obtain ⟨hz0, hzs⟩ := (hpar z).1 hpp
    obtain ⟨pz0, hpz0, hxz⟩ := hok.2.2.1 p0 (getPob_mem hp0).1 z hz0
    rw [hid0] at hxz
    obtain ⟨pp, hpp1, _, _, hppc, hppn⟩ := inv.kept z pz0 hzs hpz0
    have hxpp : x ∈ pp.children := (hppc x).2 ⟨hxz, hnx⟩
    rw [hpp] at hL
    simp only [hpp1, inv.removed] at hL
    by_cases hcond : pp.children.length = 1 ∧ z ∉ R
    · rw [if_pos hcond] at hL
      split at hL
      swap
      · cases hL
      cases hL
      intro y
      rw [mem_setInsert, mem_setErase]
      constructor
      · rintro (rfl | hy)
        · refine ⟨fun e => hcond.2 e.1, Or.inr ⟨hcond.2, pz0, hpz0, ?_, ?_⟩⟩
          · intro e
            rw [e] at hxz
            simp at hxz
          · intro c hc1
            by_cases hcs : Swept R (x :: rest) c
            · exact (hsw c).2 (Or.inl hcs)
            · have hcp : c ∈ pp.children := (hppc c).2 ⟨hc1, hcs⟩
              exact (hsw c).2 (Or.inr (eq_of_length_one hcond.1 hxpp hcp))
        · exact hold y hy
      · rintro ⟨a, b⟩
        rcases hback y a b with h1 | ⟨_, q0, b2, hx, _⟩
        · exact Or.inr h1
        · have := hparent y q0 b2 hx
          rw [hz0] at this
          cases this
          exact Or.inl rfl
    · rw [if_neg hcond] at hL
      cases hL
      intro y
      rw [mem_setErase]
      constructor
      · exact hold y
      · rintro ⟨a, b⟩
        rcases hback y a b with h1 | ⟨b1, q0, b2, hx, b4⟩
        · exact h1
        · have := hparent y q0 b2 hx
          rw [hz0] at this
          cases this
          rw [hpz0] at b2
          cases b2
          exfalso
          apply hcond
          refine ⟨length_one_of_mem hppn hxpp ?_, b1⟩
          intro c hc1
          obtain ⟨c1, c2⟩ := (hppc c).1 hc1
          rcases (hsw c).1 (b4 c c1) with h1 | h1
          · exact absurd h1 c2
          · exact h1

theorem SweepInv.delete_obj {h hc hc1 : ObjectManager} {R rest : List Nat} {x : Nat}
    {p0 p : ProofObligation} (hok : HeapOK h) (hpobs : PobsOK h)
    (inv : SweepInv h hc R (x :: rest)) (hnd : (x :: rest).Nodup)
    (hp0 : h.getPob x = some p0) (hp : hc.getPob x = some p)
    (e1 : hc1.pobHeap = hc.pobHeap) (e2 : hc1.removedPobs = hc.removedPobs)
    (e5 : hc1.pobs = mapUpdate hc.pobs p.location (setErase x))
    (e6 : ∀ y, y ∈ hc1.leafPobs ↔ ¬ Swept R rest y ∧
        (y ∈ h.leafPobs ∨
          (y ∉ R ∧ ∃ q0, h.getPob y = some q0 ∧ q0.children ≠ [] ∧
            ∀ c ∈ q0.children, Swept R rest c))) :
    SweepInv h (deletePob hc1 x) R rest := by
  have hxR : x ∈ R := inv.sub x (List.mem_cons_self _ _)
  have hsw : ∀ y, Swept R rest y ↔ Swept R (x :: rest) y ∨ y = x :=
    fun y => swept_cons hxR hnd
  have hnx : ¬ Swept R (x :: rest) x := fun hc1 => hc1.2 (List.mem_cons_self _ _)
  obtain ⟨p1, hp1, hloc, hpar, hch, _⟩ := inv.kept x p0 hnx hp0
  rw [hp] at hp1
  cases hp1
  have hid0 : p0.id = x := (getPob_mem hp0).2
  have hp1 : hc1.getPob x = some p := by rw [getPob_congr e1]; exact hp
  have hget : ∀ y, (deletePob hc1 x).getPob y =
      if y = x then none else (hc.getPob y).map (relink p x) := by
    intro y
    rw [deletePob_relink hp1, getPob_congr e1]
  obtain ⟨f1, f2, f3, _, _⟩ := deletePob_fields hc1 x
  refine
    { removed := (f1.trans e2).trans inv.removed
      sub := fun y hy => inv.sub y (List.mem_cons_of_mem _ hy)
      gone := ?_, absent := ?_, kept := ?_, pobs := ?_, leaf := ?_ }
  · intro y hy
    rw [hget]
    rcases (hsw y).1 hy with h1 | h1
    · rw [inv.gone y h1]
      split <;> rfl
    · rw [if_pos h1]
  · intro y hy
    rw [hget, inv.absent y hy]
    split <;> rfl
  · intro y q0 hy hq0
    have hyx : y ≠ x := fun e => hy ((hsw y).2 (Or.inr e))
    have hys : ¬ Swept R (x :: rest) y := fun e => hy ((hsw y).2 (Or.inl e))
    obtain ⟨q, hq, hql, hqp, hqc, hqn⟩ := inv.kept y q0 hys hq0
    have hqid : q.id = y := (getPob_mem hq).2
    obtain ⟨_, r2, r3, r4, r5⟩ := relink_fields p x q
    refine ⟨relink p x q, by rw [hget, if_neg hyx, hq]; rfl, r2.trans hql, ?_, ?_, r5 hqn⟩
    · intro z
      rw [r3, hqid]
      by_cases hyc : y ∈ p.children
      · rw [if_pos hyc]
        have hy0 : y ∈ p0.children := ((hch y).1 hyc).1
        obtain ⟨pc, h1, h2⟩ := hok.2.1 p0 (getPob_mem hp0).1 y hy0
        rw [hq0] at h1
        cases h1
        rw [hid0] at h2
        constructor
        · intro e; cases e
        · rintro ⟨a, b⟩
          rw [h2] at a
          cases a
          exact absurd ((hsw x).2 (Or.inr rfl)) b
      · rw [if_neg hyc, hqp]
        constructor
        · rintro ⟨a, b⟩
          refine ⟨a, fun e => ?_⟩
          rcases (hsw z).1 e with h1 | h1
          · exact b h1
          · subst h1
            obtain ⟨px, h3, h4⟩ := hok.2.2.1 q0 (getPob_mem hq0).1 z a
            rw [hp0] at h3
            cases h3
            rw [(getPob_mem hq0).2] at h4
            exact hyc ((hch y).2 ⟨h4, hys⟩)
        · rintro ⟨a, b⟩
          exact ⟨a, fun e => b ((hsw z).2 (Or.inl e))⟩
    · intro c
      rw [r4, hqc, hqid]
      constructor
      · rintro ⟨⟨a, b⟩, d⟩
        refine ⟨a, fun e => ?_⟩
        rcases (hsw c).1 e with h1 | h1
        · exact b h1
        · subst h1
          obtain ⟨pc, h3, h4⟩ := hok.2.1 q0 (getPob_mem hq0).1 c a
          rw [hp0] at h3
          cases h3
          rw [(getPob_mem hq0).2] at h4
          exact d ⟨((hpar y).2 ⟨h4, hys⟩).symm, rfl⟩
      · rintro ⟨a, b⟩
        refine ⟨⟨a, fun e => b ((hsw c).2 (Or.inl e))⟩, fun e => b ((hsw c).2 (Or.inr e.2))⟩
  · intro L id
    rw [f2, e5, mem_mapUpdate_erase, inv.pobs]
    constructor
    · rintro ⟨⟨a, b⟩, d⟩
      refine ⟨a, fun e => ?_⟩
      rcases (hsw id).1 e with h1 | h1
      · exact b h1
      · subst h1
        obtain ⟨pi, h3, h4⟩ := hpobs L id a
        rw [hp0] at h3
        cases h3
        exact d ⟨by rw [hloc, h4], rfl⟩
    · rintro ⟨a, b⟩
      exact ⟨⟨a, fun e => b ((hsw id).2 (Or.inl e))⟩, fun e => b ((hsw id).2 (Or.inr e.2))⟩
  · intro y
    rw [f3]
    exact e6 y

theorem foldlM_sweep {h : ObjectManager} {R : List Nat} (hok : HeapOK h) (hpobs : PobsOK h)
    (rest : List Nat) :
    ∀ hc h2 : ObjectManager, SweepInv h hc R rest → rest.Nodup →
      (∀ x ∈ rest, ∃ p0, h.getPob x = some p0) →
      rest.foldlM (fun (h1 : ObjectManager) (pob : Nat) =>
          match h1.getPob pob with
          | none => none
          | some p =>
            let leaf := setErase pob h1.leafPobs
            let leaf1 := match p.parent with
              | none => some leaf
              | some parent =>
                match h1.getPob parent with
                | none => none
                | some pp =>
                  if pp.children.length = 1 ∧ parent ∉ h1.removedPobs then
                    if ∀ y ∈ h1.removedPobs, (h1.getPob y).isSome = true then
                      some (setInsert parent leaf)
                    else none
                  else some leaf
            match leaf1 with
            | none => none
            | some l =>
              some (deletePob { h1 with leafPobs := l
                                        pobs := mapUpdate h1.pobs p.location (setErase pob) }
                pob)) hc = some h2 → SweepInv h h2 R [] := by
  induction rest with
  | nil =>
    intro hc h2 inv _ _ hrun
    cases hrun
    exact inv
  | cons x rest ih =>
    intro hc h2 inv hnd hin hrun
    obtain ⟨p0, hp0⟩ := hin x (List.mem_cons_self _ _)
    have hnx : ¬ Swept R (x :: rest) x := fun hc1 => hc1.2 (List.mem_cons_self _ _)
    obtain ⟨p, hp, _⟩ := inv.kept x p0 hnx hp0
    simp only [List.foldlM_cons, hp] at hrun
    cases hL : (match p.parent with
        | none => some (setErase x hc.leafPobs)
        | some parent =>
          match hc.getPob parent with
          | none => none
          | some pp =>
            if pp.children.length = 1 ∧ parent ∉ hc.removedPobs then
              if ∀ y ∈ hc.removedPobs, (hc.getPob y).isSome = true then
                some (setInsert parent (setErase x hc.leafPobs))
              else none
            else some (setErase x hc.leafPobs)) with
    | none =>
      rw [hL] at hrun
      cases hrun
    | some L =>
      rw [hL] at hrun
      have hLmem := SweepInv.leaf_step hok inv hnd hp0 hp hL
      have inv1 := @SweepInv.delete_obj h hc
        { hc with leafPobs := L, pobs := mapUpdate hc.pobs p.location (setErase x) }
        R rest x p0 p hok hpobs inv hnd hp0 hp rfl rfl rfl hLmem
      exact ih _ h2 inv1 (List.nodup_cons.1 hnd).2
        (fun y hy => hin y (List.mem_cons_of_mem _ hy)) hrun

end ObjectManager
namespace ObjectManager

theorem LeafSide.side_refl (h : ObjectManager) : LeafSide h h := ⟨rfl, rfl, rfl⟩

theorem LeafSide.side_trans {h h1 h2 : ObjectManager} (a : LeafSide h h1) (b : LeafSide h1 h2) :
    LeafSide h h2 :=
  ⟨b.1.trans a.1, b.2.1.trans a.2.1, b.2.2.trans a.2.2⟩

theorem removeState_leafSide {h h1 : ObjectManager} {st : Nat}
    (hs : removeState h st = some h1) : LeafSide h h1 := by
  unfold removeState at hs
  split at hs
  · cases hs
  · split at hs
    · cases hs
    · split at hs
      · cases hs; exact ⟨rfl, rfl, rfl⟩
      · split at hs
        · cases hs; exact ⟨rfl, rfl, rfl⟩
        · cases hs

theorem checkReachedState_leafSide (h : ObjectManager) (st : Nat) :
    LeafSide h (checkReachedState h st).1 := by
  unfold checkReachedState
  split
  · exact ⟨rfl, rfl, rfl⟩
  · split
    · exact ⟨rfl, rfl, rfl⟩
    · exact ⟨rfl, rfl, rfl⟩

theorem checkReachedStates_leafSide {h h1 : ObjectManager}
    (hs : checkReachedStates h = some h1) : LeafSide h h1 := by
  unfold checkReachedStates at hs
  split at hs
  · simp only at hs
    refine LeafSide.side_trans ?_ (foldlM_rel _ LeafSide LeafSide.side_refl
      (fun _ _ _ => LeafSide.side_trans) _ ?_ hs)
    · refine foldl_rel (β := List Nat) _ LeafSide LeafSide.side_refl
        (fun _ _ _ => LeafSide.side_trans) ?_ _ (h, [])
      intro s a
      have := checkReachedState_leafSide s.1 a
      cases hc : checkReachedState s.1 a
      rw [hc] at this
      exact this
    · intro h2 a h3 _ hstep
      split at hstep
      · cases hstep; exact LeafSide.side_refl _
      · exact removeState_leafSide hstep
  · cases hs

theorem updatePropagations_leafSide {h h1 : ObjectManager}
    (hs : updatePropagations h = some h1) : LeafSide h h1 := by
  unfold updatePropagations at hs
  simp only at hs
  split at hs
  · cases hs
  · rename_i h2 hadd
    split at hs
    · cases hs
    · rename_i h3 hdel
      cases hs
      have f1 : LeafSide h h2 := by
        refine foldlM_rel _ LeafSide LeafSide.side_refl (fun _ _ _ => LeafSide.side_trans) _ ?_
          hadd
        intro h4 a h5 _ hstep
        split at hstep
        · cases hstep
        · cases hstep; exact ⟨rfl, rfl, rfl⟩
      have f2 : LeafSide h2 h3 := by
        refine foldlM_rel _ LeafSide LeafSide.side_refl (fun _ _ _ => LeafSide.side_trans) _ ?_
          hdel
        intro h4 a h5 _ hstep
        split at hstep
        · cases hstep
        · split at hstep
          · cases hstep; exact ⟨rfl, rfl, rfl⟩
          · cases hstep
      obtain ⟨a1, a2, a3⟩ := f1.side_trans f2
      exact ⟨a1, a2, a3⟩

/-- What the states step leaves of the members the proof-obligations step reads. -/
theorem updateStates_leafSide {h h1 : ObjectManager} (hok : HeapOK h)
    (hsorted : h.removedPobs.Pairwise (fun a b => a < b))
    (hs : updateStates h = some h1) :
    LeafSide h h1 ∧ h1.removedPobs.Pairwise (fun a b => a < b) := by
  by_cases hu : h.statesUpdated = true
  · by_cases hk : h.stateUpdateKind = StateKind.Regular
    · obtain ⟨h2, e2, c, _⟩ := updateStates_spec hok ⟨hu, hk⟩
      rw [hs] at e2
      cases e2
      exact ⟨⟨c.pobs, c.leafPobs, c.addedPobs⟩, c.sorted hsorted⟩
    · unfold updateStates at hs
      rw [if_pos hu] at hs
      split at hs
      · cases hs
      · rename_i hn
        have hiso : h.stateUpdateKind = StateKind.Isolated := by
          cases hkind : h.stateUpdateKind with
          | Regular => exact absurd hkind hk
          | Isolated => rfl
          | None => exact absurd hkind hn
        simp only [hiso, decide_True, if_true] at hs
        cases hc : checkReachedStates h with
        | none => rw [hc] at hs; cases hs
        | some h2 =>
          rw [hc] at hs
          cases hs
          obtain ⟨a1, a2, a3⟩ := checkReachedStates_leafSide hc
          obtain ⟨_, _, b3⟩ := checkReachedStates_pobFrame hc
          exact ⟨⟨a1, a2, a3⟩, by show h2.removedPobs.Pairwise _; rw [b3]; exact hsorted⟩
  · unfold updateStates at hs
    rw [if_neg hu] at hs
    cases hs
    exact ⟨LeafSide.side_refl _, hsorted⟩

theorem mem_mapUpdate_insert (f : Target → List Nat) (key L : Target) (x id : Nat) :
    id ∈ mapUpdate f key (setInsert x) L ↔ id ∈ f L ∨ (L = key ∧ id = x) := by
  unfold mapUpdate
  by_cases hL : L = key
  · simp only [hL, ↓reduceIte, mem_setInsert, true_and]
    tauto
  · simp [hL]

theorem foldlM_addPob_leaf {h : ObjectManager} (hok : HeapOK h) (A : List Nat) :
    ∀ hc : ObjectManager, hc.pobHeap = h.pobHeap →
      (∀ a ∈ A, ∃ p, h.getPob a = some p) →
      ∃ h1, A.foldlM (fun (h1 : ObjectManager) (pob : Nat) =>
          match h1.getPob pob with
          | none => none
          | some p =>
            let leaf := match p.parent with
              | none => h1.leafPobs
              | some parent => setErase parent h1.leafPobs
            some { h1 with
              pobs := mapUpdate h1.pobs p.location (setInsert pob)
              leafPobs := if p.children.isEmpty then setInsert pob leaf else leaf }) hc
          = some h1 ∧
        h1.pobHeap = h.pobHeap ∧ h1.removedPobs = hc.removedPobs ∧
        (∀ x, x ∈ h1.leafPobs ↔
          (x ∈ hc.leafPobs ∨ (x ∈ A ∧ Childless h x)) ∧
            ∀ a ∈ A, ∀ pa, h.getPob a = some pa → pa.parent ≠ some x) ∧
        ∀ L id, id ∈ h1.pobs L ↔
          id ∈ hc.pobs L ∨ (id ∈ A ∧ ∃ p, h.getPob id = some p ∧ p.location = L) := by
  induction A with
  | nil =>
    intro hc e _
    exact ⟨hc, rfl, e, rfl, by simp, by simp⟩
  | cons a rest ih =>
    intro hc e hin
    obtain ⟨p, hp⟩ := hin a (List.mem_cons_self _ _)
    have hp1 : hc.getPob a = some p := by rw [getPob_congr e]; exact hp
    have hpid : p.id = a := (getPob_mem hp).2
    -- an object without children is the parent of no object
    have hnochild : ∀ x, Childless h x → ∀ b pb, h.getPob b = some pb →
        pb.parent ≠ some x := by
      rintro x ⟨px, hpx, hch⟩ b pb hpb hpar
      obtain ⟨pq, h1, h2⟩ := hok.2.2.1 pb (getPob_mem hpb).1 x hpar
      rw [hpx] at h1
      cases h1
      rw [hch] at h2
      simp at h2
    obtain ⟨h1, e1, f1, f2, f3, f4⟩ := ih
      { hc with
        pobs := mapUpdate hc.pobs p.location (setInsert a)
        leafPobs :=
          if p.children.isEmpty then
            setInsert a (match p.parent with
              | none => hc.leafPobs
              | some parent => setErase parent hc.leafPobs)
          else
            (match p.parent with
              | none => hc.leafPobs
              | some parent => setErase parent hc.leafPobs) }
      e (fun b hb => hin b (List.mem_cons_of_mem _ hb))
    refine ⟨h1, ?_, f1, f2, ?_, ?_⟩
    · simp only [List.foldlM_cons, hp1]
      exact e1
    · intro x
      rw [f3]
      have hleaf : x ∈ (match p.parent with
            | none => hc.leafPobs
            | some parent => setErase parent hc.leafPobs) ↔
          x ∈ hc.leafPobs ∧ p.parent ≠ some x := by
        cases hpar : p.parent with
        | none => simp
        | some z =>
          simp only [mem_setErase, ne_eq, Option.some.injEq]
          constructor
          · rintro ⟨a1, a2⟩
            exact ⟨a2, fun e => a1 e.symm⟩
          · rintro ⟨a1, a2⟩
            exact ⟨fun e => a2 e.symm, a1⟩
      have hmem : x ∈ (if p.children.isEmpty then
            setInsert a (match p.parent with
              | none => hc.leafPobs
              | some parent => setErase parent hc.leafPobs)
          else
            (match p.parent with
              | none => hc.leafPobs
              | some parent => setErase parent hc.leafPobs)) ↔
          (x = a ∧ p.children = []) ∨ (x ∈ hc.leafPobs ∧ p.parent ≠ some x) := by
        by_cases hch : p.children = []
        · simp only [hch, List.isEmpty_nil, if_true, mem_setInsert, hleaf, and_true]
        · have : p.children.isEmpty = false := by
            cases hc1 : p.children with
            | nil => exact absurd hc1 hch
            | cons _ _ => rfl
          simp only [this, Bool.false_eq_true, if_false, hleaf, hch, and_false, false_or]
      simp only [hmem, List.mem_cons]
      constructor
      · rintro ⟨hx, hall⟩
        have hpa : p.parent ≠ some x := by
          rcases hx with (⟨rfl, hch⟩ | ⟨_, h2⟩) | ⟨_, h2⟩
          · exact hnochild _ ⟨p, hp, hch⟩ _ p hp
          · exact h2
          · exact hnochild x h2 a p hp
        refine ⟨?_, ?_⟩
        · rcases hx with (⟨rfl, hch⟩ | ⟨h1, _⟩) | ⟨h1, h2⟩
          · exact Or.inr ⟨Or.inl rfl, p, hp, hch⟩
          · exact Or.inl h1
          · exact Or.inr ⟨Or.inr h1, h2⟩
        · intro b hb pb hpb
          rcases hb with rfl | hb
          · rw [hp] at hpb
            cases hpb
            exact hpa
          · exact hall b hb pb hpb
      · rintro ⟨hx, hall⟩
        refine ⟨?_, fun b hb pb hpb => hall b (Or.inr hb) pb hpb⟩
        rcases hx with h1 | ⟨rfl | h1, h2⟩
        · exact Or.inl (Or.inr ⟨h1, hall a (Or.inl rfl) p hp⟩)
        · obtain ⟨px, hpx, hch⟩ := h2
          rw [hp] at hpx
          cases hpx
          exact Or.inl (Or.inl ⟨rfl, hch⟩)
        · exact Or.inr ⟨h1, h2⟩
    · intro L id
      rw [f4]
      simp only [mem_mapUpdate_insert, List.mem_cons]
      constructor
      · rintro ((h1 | ⟨rfl, rfl⟩) | ⟨h1, h2⟩)
        · exact Or.inl h1
        · exact Or.inr ⟨Or.inl rfl, p, hp, rfl⟩
        · exact Or.inr ⟨Or.inr h1, h2⟩
      · rintro (h1 | ⟨rfl | h1, h2⟩)
        · exact Or.inl (Or.inl h1)
        · obtain ⟨pi, hpi, hloc⟩ := h2
          rw [hp] at hpi
          cases hpi
          exact Or.inl (Or.inr ⟨hloc.symm, rfl⟩)
        · exact Or.inr ⟨h1, h2⟩

end ObjectManager
namespace ObjectManager

theorem swept_nil (R : List Nat) (y : Nat) : Swept R [] y ↔ y ∈ R := by
  simp [Swept]

theorem swept_self (R : List Nat) (y : Nat) : ¬ Swept R R y := fun h => h.2 h.1

/-- The proof-obligations step in general: when it returns, `leafPobs`, `pobs` and the objects
without children afterwards are given by the hub before the step. -/
theorem updatePobs_leaf {h : ObjectManager} (hok : HeapOK h) (hpobs : PobsOK h)
    (hadd : ∀ a ∈ h.addedPobs, ∃ p, h.getPob a = some p)
    (hrem : ∀ r ∈ h.removedPobs, ∃ p, h.getPob r = some p)
    (hsorted : h.removedPobs.Pairwise (fun a b => a < b))
    {h1 : ObjectManager} (hrun : updatePobs h = some h1) :
    (∀ x, x ∈ h1.leafPobs ↔ x ∉ h.removedPobs ∧
      (((x ∈ h.leafPobs ∨ (x ∈ h.addedPobs ∧ Childless h x)) ∧
          ∀ a ∈ h.addedPobs, ∀ pa, h.getPob a = some pa → pa.parent ≠ some x) ∨
        ∃ q0, h.getPob x = some q0 ∧ q0.children ≠ [] ∧
          ∀ c ∈ q0.children, c ∈ h.removedPobs)) ∧
    (∀ L id, id ∈ h1.pobs L ↔
      (id ∈ h.pobs L ∨ (id ∈ h.addedPobs ∧ ∃ p, h.getPob id = some p ∧ p.location = L)) ∧
        id ∉ h.removedPobs) ∧
    ∀ x, Childless h1 x ↔
      x ∉ h.removedPobs ∧ ∃ q0, h.getPob x = some q0 ∧ ∀ c ∈ q0.children, c ∈ h.removedPobs := by
  obtain ⟨ha, ea, a1, a2, a3, a4⟩ := foldlM_addPob_leaf hok h.addedPobs h rfl hadd
  have hoka : HeapOK ha := HeapOK.heap_congr a1 hok
  have hget : ∀ y, ha.getPob y = h.getPob y := fun y => getPob_congr a1 y
  have hpobsa : PobsOK ha := by
    intro L id hid
    rw [hget]
    rcases (a4 L id).1 hid with h1 | ⟨_, h2⟩
    · exact hpobs L id h1
    · exact h2
  have inv0 : SweepInv ha ha h.removedPobs h.removedPobs :=
    { removed := a2
      sub := fun _ hx => hx
      gone := fun y hy => absurd hy (swept_self _ y)
      absent := fun _ hy => hy
      kept := fun y q0 _ hq0 =>
        ⟨q0, hq0, rfl, fun z => by simp [swept_self], fun c => by simp [swept_self],
          hoka.2.2.2 q0 (getPob_mem hq0).1⟩
      pobs := fun L id => by simp [swept_self]
      leaf := by
        intro x
        simp only [swept_self, not_false_eq_true, true_and]
        constructor
        · exact Or.inl
        · rintro (h1 | ⟨_, q0, _, h3, h4⟩)
          · exact h1
          · cases hch : q0.children with
            | nil => exact absurd hch h3
            | cons c _ => exact absurd (h4 c (by rw [hch]; simp)) (by simp) }
  unfold updatePobs at hrun
  simp only at hrun
  split at hrun
  · cases hrun
  · rename_i ha1 heq
    have e3 : ha = ha1 := Option.some.inj (ea.symm.trans heq)
    subst e3
    split at hrun
    · cases hrun
    · rename_i h2 heq2
      cases hrun
      rw [a2] at heq2
      have inv := foldlM_sweep hoka hpobsa h.removedPobs ha h2 inv0
        (CodeGraphDistance.sorted_nodup hsorted)
        (fun x hx => by rw [hget]; exact hrem x hx) heq2
      refine ⟨?_, ?_, ?_⟩
      · intro x
        show x ∈ h2.leafPobs ↔ _
        rw [inv.leaf x, swept_nil, a3]
        simp only [swept_nil, hget]
        constructor
        · rintro ⟨b1, b2 | ⟨_, b3⟩⟩
          · exact ⟨b1, Or.inl b2⟩
          · exact ⟨b1, Or.inr b3⟩
        · rintro ⟨b1, b2 | b3⟩
          · exact ⟨b1, Or.inl b2⟩
          · exact ⟨b1, Or.inr ⟨b1, b3⟩⟩
      · intro L id
        show id ∈ h2.pobs L ↔ _
        rw [inv.pobs L id, swept_nil, a4]
      · intro x
        show (∃ p, h2.getPob x = some p ∧ p.children = []) ↔ _
        constructor
        · rintro ⟨q, hq, hch⟩
          have hxR : x ∉ h.removedPobs := by
            intro hx
            rw [inv.gone x ((swept_nil _ _).2 hx)] at hq
            cases hq
          cases hq0 : ha.getPob x with
          | none =>
            rw [inv.absent x hq0] at hq
            cases hq
          | some q0 =>
            obtain ⟨q1, hq1, _, _, hc1, _⟩ :=
              inv.kept x q0 (fun e => hxR ((swept_nil _ _).1 e)) hq0
            rw [hq] at hq1
            cases hq1
            refine ⟨hxR, q0, by rw [← hget]; exact hq0, ?_⟩
            intro c hc
            by_contra hcR
            have := (hc1 c).2 ⟨hc, fun e => hcR ((swept_nil _ _).1 e)⟩
            rw [hch] at this
            simp at this
        · rintro ⟨hxR, q0, hq0, hall⟩
          obtain ⟨q1, hq1, _, _, hc1, _⟩ :=
            inv.kept x q0 (fun e => hxR ((swept_nil _ _).1 e)) (by rw [hget]; exact hq0)
          refine ⟨q1, hq1, ?_⟩
          rw [List.eq_nil_iff_forall_not_mem]
          intro c hc
          obtain ⟨c1, c2⟩ := (hc1 c).1 hc
          exact c2 ((swept_nil _ _).2 (hall c c1))

/-- C39, as amended: on a hub whose arena is a forest, whose `pobs` files objects under their
locations, whose `leafPobs` holds filed obligations, among them every filed obligation without
children, and in which the children of a leaf and every object not filed are pending (added or
removed), a call of `updateSubscribers()` that returns leaves `leafPobs` exactly the set of the
filed obligations that have no children. -/
theorem leafPobs_exact_amended (h h1 : ObjectManager) (hok : HeapOK h) (hpobs : PobsOK h)
    (hpre : LeafPre h) (hknown : AllKnown h)
    (hadd : ∀ a ∈ h.addedPobs, ∃ p, h.getPob a = some p)
    (hrem : ∀ r ∈ h.removedPobs, ∃ p, h.getPob r = some p)
    (hsorted : h.removedPobs.Pairwise (fun a b => a < b))
    (hrun : updateSubscribers h = some h1) :
    ∀ id, id ∈ h1.leafPobs ↔ Filed h1 id ∧ Childless h1 id := by
  unfold updateSubscribers at hrun
  cases hsa : updateStates h with
  | none => simp [hsa] at hrun
  | some ha =>
    simp only [hsa, Option.some_bind] at hrun
    cases hsb : updatePropagations ha with
    | none => simp [hsb] at hrun
    | some hb =>
      simp only [hsb, Option.some_bind] at hrun
      obtain ⟨r1, r2, _, _, r5⟩ := updateStates_effect hsa
      obtain ⟨⟨s1, s2, s3⟩, ssorted⟩ := updateStates_leafSide hok hsorted hsa
      obtain ⟨p1, _, p3⟩ := updatePropagations_pobFrame hsb
      obtain ⟨t1, t2, t3⟩ := updatePropagations_leafSide hsb
      have eheap : hb.pobHeap = h.pobHeap := p1.trans r1
      have hget : ∀ y, hb.getPob y = h.getPob y := fun y => getPob_congr eheap y
      have epobs : hb.pobs = h.pobs := t1.trans s1
      have eleaf : hb.leafPobs = h.leafPobs := t2.trans s2
      have eadd : hb.addedPobs = h.addedPobs := t3.trans s3
      have hR : ∀ x, x ∈ hb.removedPobs ↔ x ∈ h.removedPobs ∨ x ∈ closedPobs h := by
        intro x
        rw [p3]
        exact r5 x
      have hokb : HeapOK hb := HeapOK.heap_congr eheap hok
      have hpobsb : PobsOK hb := by
        intro L id hid
        rw [hget]
        rw [epobs] at hid
        exact hpobs L id hid
      obtain ⟨fl, fp, fc⟩ := updatePobs_leaf hokb hpobsb
        (by intro a ha1; rw [hget]; rw [eadd] at ha1; exact hadd a ha1)
        (by
          intro r hr
          rw [hget]
          rcases (hR r).1 hr with h3 | h3
          · exact hrem r h3
          · exact r2 r h3)
        (by rw [p3]; exact ssorted) hrun
      obtain ⟨pre1, pre2, pre3⟩ := hpre
      have hfiled : ∀ x, Filed h1 x ↔
          (Filed h x ∨ (x ∈ h.addedPobs ∧ ∃ p, h.getPob x = some p)) ∧
            x ∉ hb.removedPobs := by
        intro x
        unfold Filed
        constructor
        · rintro ⟨L, hL⟩
          obtain ⟨a, b⟩ := (fp L x).1 hL
          refine ⟨?_, b⟩
          rcases a with a | ⟨a1, p, a2, _⟩
          · exact Or.inl ⟨L, by rw [← epobs]; exact a⟩
          · exact Or.inr ⟨by rw [← eadd]; exact a1, p, by rw [← hget]; exact a2⟩
        · rintro ⟨a, b⟩
          rcases a with ⟨L, a⟩ | ⟨a1, p, a2⟩
          · exact ⟨L, (fp L x).2 ⟨Or.inl (by rw [epobs]; exact a), b⟩⟩
          · exact ⟨p.location, (fp p.location x).2
              ⟨Or.inr ⟨by rw [eadd]; exact a1, p, by rw [hget]; exact a2, rfl⟩, b⟩⟩
      have hchild : ∀ x, Childless hb x ↔ Childless h x := by
        intro x
        unfold Childless
        rw [hget]
      intro id
      rw [fl id, hfiled id, fc id]
      simp only [hget, eleaf, eadd, hchild]
      constructor
      · rintro ⟨hidR, hcase⟩
        rcases hcase with ⟨hin, hnoadd⟩ | ⟨q0, hq0, hne, hall⟩
        · rcases hin with hl | ⟨ha1, q, hq, hch⟩
          · obtain ⟨L, hL⟩ := pre1 id hl
            obtain ⟨q, hq, _⟩ := hpobs L id hL
            refine ⟨⟨Or.inl ⟨L, hL⟩, hidR⟩, hidR, q, hq, ?_⟩
            intro c hc
            rcases pre3 id hl q hq c hc with h3 | h3
            · obtain ⟨pc, hpc, hpar⟩ := hok.2.1 q (getPob_mem hq).1 c hc
              rw [(getPob_mem hq).2] at hpar
              exact absurd hpar (hnoadd c h3 pc hpc)
            · exact (hR c).2 (Or.inl h3)
          · refine ⟨⟨Or.inr ⟨ha1, q, hq⟩, hidR⟩, hidR, q, hq, ?_⟩
            intro c hc
            rw [hch] at hc
            simp at hc
        · refine ⟨⟨?_, hidR⟩, hidR, q0, hq0, hall⟩
          have hk := hknown q0 (getPob_mem hq0).1
          rw [(getPob_mem hq0).2] at hk
          rcases hk with hk | hk | hk
          · exact Or.inl hk
          · exact Or.inr ⟨hk, q0, hq0⟩
          · exact absurd ((hR id).2 (Or.inl hk)) hidR
      · rintro ⟨⟨hfil, hidR⟩, _, q0, hq0, hall⟩
        refine ⟨hidR, ?_⟩
        by_cases hch : q0.children = []
        · left
          refine ⟨?_, ?_⟩
          · rcases hfil with hf | ⟨ha1, _⟩
            · exact Or.inl (pre2 id hf ⟨q0, hq0, hch⟩)
            · exact Or.inr ⟨ha1, q0, hq0, hch⟩
          · intro a _ pa hpa hpar
            obtain ⟨pq, h3, h4⟩ := hok.2.2.1 pa (getPob_mem hpa).1 id hpar
            rw [hq0] at h3
            cases h3
            rw [hch] at h4
            simp at h4
        · exact Or.inr ⟨q0, hq0, hch, hall⟩

end ObjectManager
namespace ObjectManager

theorem leafHub_getPob (id : Nat) :
    leafHub.getPob id =
      if id = 0 then some { rootPob with children := [2] }
      else if id = 2 then some childPob
      else if id = 5 then some freshPob else none := by
  unfold getPob leafHub
  by_cases h0 : id = 0
  · subst h0; rfl
  · by_cases h2 : id = 2
    · subst h2; rfl
    · by_cases h5 : id = 5
      · subst h5; rfl
      · have e0 : ¬ (0 = id) := fun e => h0 e.symm
        have e2 : ¬ (2 = id) := fun e => h2 e.symm
        have e5 : ¬ (5 = id) := fun e => h5 e.symm
        simp [init, rootPob, childPob, freshPob, h0, h2, h5, e0, e2, e5]

theorem leafHub_mem {p : ProofObligation} (hp : p ∈ leafHub.pobHeap) :
    p = { rootPob with children := [2] } ∨ p = childPob ∨ p = freshPob := by
  simpa [leafHub, init] using hp

theorem leafHub_heapOK : HeapOK leafHub := by
  refine ⟨by decide, ?_, ?_, ?_⟩
  · intro p hp c hc
    rcases leafHub_mem hp with rfl | rfl | rfl
    · simp only [List.mem_singleton] at hc
      subst hc
      exact ⟨childPob, by rw [leafHub_getPob]; rfl, rfl⟩
    · simp [childPob] at hc
    · simp [freshPob] at hc
  · intro p hp q hq
    rcases leafHub_mem hp with rfl | rfl | rfl
    · simp [rootPob] at hq
    · simp only [childPob, Option.some.injEq] at hq
      subst hq
      exact ⟨{ rootPob with children := [2] }, by rw [leafHub_getPob]; rfl, by simp [childPob]⟩
    · simp [freshPob] at hq
  · intro p hp
    rcases leafHub_mem hp with rfl | rfl | rfl
    · simp
    · simp [childPob]
    · simp [freshPob]

theorem leafHub_pobs (L : Target) (id : Nat) :
    id ∈ leafHub.pobs L ↔
      (L = Target.reachBlock 7 false ∧ id = 0) ∨ (L = Target.reachBlock 4 false ∧ id = 2) := by
  simp only [leafHub, init]
  by_cases h7 : L = Target.reachBlock 7 false
  · subst h7
    simp
  · by_cases h4 : L = Target.reachBlock 4 false
    · subst h4
      simp
    · simp [h7, h4]

theorem leafHub_filed (id : Nat) : Filed leafHub id ↔ id = 0 ∨ id = 2 := by
  unfold Filed
  constructor
  · rintro ⟨L, hL⟩
    rcases (leafHub_pobs L id).1 hL with ⟨_, h⟩ | ⟨_, h⟩
    · exact Or.inl h
    · exact Or.inr h
  · rintro (rfl | rfl)
    · exact ⟨Target.reachBlock 7 false, (leafHub_pobs _ _).2 (Or.inl ⟨rfl, rfl⟩)⟩
    · exact ⟨Target.reachBlock 4 false, (leafHub_pobs _ _).2 (Or.inr ⟨rfl, rfl⟩)⟩

theorem leafHub_pobsOK : PobsOK leafHub := by
  intro L id hid
  rcases (leafHub_pobs L id).1 hid with ⟨rfl, rfl⟩ | ⟨rfl, rfl⟩
  · exact ⟨{ rootPob with children := [2] }, by rw [leafHub_getPob]; rfl, rfl⟩
  · exact ⟨childPob, by rw [leafHub_getPob]; rfl, rfl⟩

theorem leafHub_leafPre : LeafPre leafHub := by
  refine ⟨?_, ?_, ?_⟩
  · intro x hx
    simp only [leafHub, init, List.mem_singleton] at hx
    exact (leafHub_filed x).2 (Or.inr hx)
  · rintro x hx ⟨p, hp, hch⟩
    rcases (leafHub_filed x).1 hx with rfl | rfl
    · rw [leafHub_getPob] at hp
      simp only [if_true, Option.some.injEq] at hp
      subst hp
      simp at hch
    · simp [leafHub, init]
  · intro x hx p hp c hc
    simp only [leafHub, init, List.mem_singleton] at hx
    subst hx
    rw [leafHub_getPob] at hp
    simp only [OfNat.ofNat_ne_zero, if_false, if_true, Option.some.injEq] at hp
    subst hp
    simp [childPob] at hc

theorem leafHub_allKnown : AllKnown leafHub := by
  intro p hp
  rcases leafHub_mem hp with rfl | rfl | rfl
  · exact Or.inl ((leafHub_filed _).2 (Or.inl rfl))
  · exact Or.inl ((leafHub_filed _).2 (Or.inr rfl))
  · exact Or.inr (Or.inl (by simp [leafHub, init, freshPob]))

/-- The hub `leafHub` comes about by calls: `rootPob` is added and published,
`ProofObligation::create` builds `childPob` from it, the child is added and published and then
passed to `removePob`, and `freshPob` is built and passed to `addPob`. -/
theorem leafHub_reached :
    ∃ h,
      ((addPob { init false with pobHeap := [rootPob] } 0).bind updateSubscribers).bind
        (fun h2 =>
          (ProofObligation.create h2.pobHeap 1 0
            { regularState with
              callStack := [⟨none, 0⟩]
              path := ⟨0, 0, [⟨4, TransitionKind.None⟩], none⟩ } 9 (Path.ofNext none)
            none).bind fun r =>
            (((addPob { h2 with pobHeap := r.1 } r.2.2).bind updateSubscribers).bind
              fun h4 => removePob h4 r.2.2).bind
              fun h5 => addPob { h5 with pobHeap := h5.pobHeap ++ [freshPob] } 5) = some h ∧
      h.pobHeap = leafHub.pobHeap ∧ h.leafPobs = leafHub.leafPobs ∧
      h.addedPobs = leafHub.addedPobs ∧ h.removedPobs = leafHub.removedPobs ∧
      h.pathedPobs = leafHub.pathedPobs ∧ ∀ L, h.pobs L = leafHub.pobs L := by
  refine ⟨_, rfl, rfl, rfl, rfl, rfl, rfl, ?_⟩
  intro L
  by_cases h7 : L = Target.reachBlock 7 false
  · subst h7
    rfl
  · by_cases h4 : L = Target.reachBlock 4 false
    · subst h4
      rfl
    · simp [leafHub, init, mapUpdate, h7, h4, rootPob]

/-- Witness for C39: `rootPob` has the one child `childPob`, a filed leaf that has been passed
to `removePob`, and the root obligation `freshPob` has been built and added. The loop over
`removedPobs` searches the set for `rootPob` while the only member is still an object, and
after `updateSubscribers()` the leaves are `rootPob` and `freshPob`. -/
theorem leafPobs_exact_amended_witness :
    ∃ h1, updateSubscribers leafHub = some h1 ∧ h1.leafPobs = [0, 5] ∧
      ∀ id, id ∈ h1.leafPobs ↔ Filed h1 id ∧ Childless h1 id :=
  ⟨_, rfl, rfl,
    leafPobs_exact_amended leafHub _ leafHub_heapOK leafHub_pobsOK leafHub_leafPre
      leafHub_allKnown
      (by
        intro a ha
        simp only [leafHub, init, List.mem_singleton] at ha
        subst ha
        exact ⟨freshPob, by rw [leafHub_getPob]; rfl⟩)
      (by
        intro r hr
        simp only [leafHub, init, List.mem_singleton] at hr
        subst hr
        exact ⟨childPob, by rw [leafHub_getPob]; rfl⟩)
      (by simp [leafHub, init]) rfl⟩

/-- Two sibling leaves removed in one call. The loop deletes the obligation 2; at the
obligation 3 the parent has one child left and is not a member of `removedPobs`, so the set is
searched for it while it still holds the deleted obligation 2: the step does not return. With
the obligation 3 alone in `removedPobs` the parent has two children and the step returns. -/
theorem updatePobs_deleted_member_example :
    updatePobs siblingHub = none ∧
    (updatePobs { siblingHub with removedPobs := [3] }).map (fun h => h.leafPobs) =
      some [2] := by
  exact ⟨rfl, rfl⟩

/-- Counterexample for C39: `rootPob` is added and published; `ProofObligation::create` then
builds a child of it, and `updateSubscribers()` is called before the child is passed to
`addPob`. Afterwards `rootPob` is filed and in `leafPobs`, and it has a child. -/
theorem leafPobs_counterexample :
    ∃ hA heap1 h1,
      (addPob { init false with pobHeap := [rootPob] } 0).bind updateSubscribers = some hA ∧
      hA.leafPobs = [0] ∧
      ProofObligation.create hA.pobHeap 1 0
        { regularState with
          callStack := [⟨none, 0⟩]
          path := ⟨0, 0, [⟨4, TransitionKind.None⟩], none⟩ } 9 (Path.ofNext none) none
        = some (heap1, 3, 2) ∧
      updateSubscribers { hA with pobHeap := heap1 } = some h1 ∧
      h1.leafPobs = [0] ∧ 0 ∈ h1.pobs (Target.reachBlock 7 false) ∧
      (∃ p, h1.getPob 0 = some p ∧ p.children = [2]) ∧
      ¬ (0 ∈ h1.leafPobs ↔ Filed h1 0 ∧ Childless h1 0) := by
  refine ⟨_, _, _, rfl, rfl, rfl, rfl, rfl, by decide, ⟨_, rfl, rfl⟩, ?_⟩
  intro hiff
  obtain ⟨_, p, hp, hch⟩ := hiff.1 (by decide)
  cases hp
  cases hch

end ObjectManager

/-! ## checkStack and subtractFrames -/

theorem subtractFrames_of_checkStack (cs ps : List CallStackFrame)
    (hcheck : checkStack cs ps = true) (hcallers : ∀ g ∈ ps, g.caller ≠ none)
    (hbottom : cs.length - 1 < ps.length → ∀ f, cs.head? = some f → f.caller = none) :
    subtractFrames ps cs = some (ps.take (ps.length - min (cs.length - 1) ps.length)) := by
  apply subtractFrames_spec ps cs _ hbottom
  intro i hi
  have hc0 : cs.length ≠ 0 := by omega
  unfold checkStack at hcheck
  rw [if_neg hc0] at hcheck
  simp only at hcheck
  rw [checkStackLoop_iff _ _ _ (by simp) (by simp)] at hcheck
  have hci : cs.length - 1 - i < cs.length := by omega
  have hsi : ps.length - 1 - i < ps.length := by omega
  obtain ⟨f, hf⟩ : ∃ f, cs[cs.length - 1 - i]? = some f := ⟨_, List.getElem?_eq_getElem hci⟩
  obtain ⟨g, hg⟩ : ∃ g, ps[ps.length - 1 - i]? = some g := ⟨_, List.getElem?_eq_getElem hsi⟩
  have h1 : cs.reverse[i]? = some f := by
    rw [List.getElem?_reverse (by omega)]
    exact hf
  have h2 : ps.reverse[i]? = some g := by
    rw [List.getElem?_reverse (by omega)]
    exact hg
  obtain ⟨hkf, hcaller⟩ := hcheck i f g hi h1 h2
  rw [hf, hg]
  congr 1
  have hne := hcallers g (List.getElem?_mem hg)
  rcases hcaller with h3 | h3
  · exact absurd h3 hne
  · cases f
    cases g
    simp only at hkf h3
    rw [hkf, h3]

/-- The state with the call stack `[(null, main), (c2, g)]` and the obligation with the stack
`[(null, g)]`: `checkStack` is true, the null call site of the obligation's frame standing for
any call site, and the assertion `forwardF == backwardF` of `subtractFrames` fails on the
frames `(c2, g)` and `(null, g)`, so `ProofObligation::create` does not complete. -/
theorem checkStack_admits_unequal_frames :
    checkStack [⟨none, 0⟩, ⟨some 2, 1⟩] [⟨none, 1⟩] = true ∧
    subtractFrames [⟨none, 1⟩] [⟨none, 0⟩, ⟨some 2, 1⟩] = none ∧
    ProofObligation.create [{ ObjectManager.rootPob with stack := [⟨none, 1⟩] }] 1 0
      { ObjectManager.regularState with
        callStack := [⟨none, 0⟩, ⟨some 2, 1⟩]
        path := ⟨0, 0, [⟨4, TransitionKind.None⟩], none⟩ } 9 (Path.ofNext none) none = none := by
  decide

/-! ## DiscretePDF: the black height -/

namespace DiscretePDF

open Node

/-- The tree after `insert` of 1, 2, 3 and 4 is the black root 2 with the black children 1 and
3, the latter with the red right child 4: every path to a missing child holds two black nodes.
`remove(1)` takes the black leaf 1 out and leaves the rest as it is, so the path to the missing
left child of the root holds one black node and the paths through 3 hold two. -/
theorem remove_black_leaf_unbalanced :
    (runOps 36 [Op.insert 1 1, Op.insert 2 1, Op.insert 3 1, Op.insert 4 1]
        (nil : Node Nat)).map shape
      = some (node false 2 0 0 (node false 1 0 0 nil nil)
          (node false 3 0 0 nil (node true 4 0 0 nil nil))) ∧
    (runOps 36 [Op.insert 1 1, Op.insert 2 1, Op.insert 3 1, Op.insert 4 1]
        (nil : Node Nat)).bind blackHeight = some 2 ∧
    (runOps 36 [Op.insert 1 1, Op.insert 2 1, Op.insert 3 1, Op.insert 4 1, Op.remove 1]
        (nil : Node Nat)).map shape
      = some (node false 2 0 0 nil (node false 3 0 0 nil (node true 4 0 0 nil nil))) ∧
    (runOps 36 [Op.insert 1 1, Op.insert 2 1, Op.insert 3 1, Op.insert 4 1, Op.remove 1]
        (nil : Node Nat)).bind blackHeight = none := by
  decide

end DiscretePDF

namespace Simplificator
open Expr

/-! ## Simplificator: sets and maps -/

theorem simp_mem_setAdd (x y : Expr) (s : List Expr) : y ∈ setAdd x s ↔ y = x ∨ y ∈ s := by
  unfold setAdd
  split
  · constructor
    · intro h; exact Or.inr h
    · rintro (h | h)
      · subst h; assumption
      · exact h
  · simp [or_comm]

theorem simp_nodup_snoc {α : Type} {l : List α} {x : α} (h : l.Nodup) (hx : x ∉ l) :
    (l ++ [x]).Nodup := by
  rw [List.nodup_append]
  refine ⟨h, by simp, ?_⟩
  intro a ha hb
  simp at hb
  subst hb
  exact hx ha

theorem simp_setAdd_nodup (x : Expr) (s : List Expr) (h : s.Nodup) : (setAdd x s).Nodup := by
  unfold setAdd
  split
  · exact h
  · rename_i hx
    exact simp_nodup_snoc h hx

theorem simp_mapFind_append {β : Type} (k : Expr) (m n : List (Expr × β)) :
    mapFind k (m ++ n) = match mapFind k m with
      | some v => some v
      | none => mapFind k n := by
  induction m with
  | nil => simp [mapFind]
  | cons a m ih =>
    obtain ⟨a1, a2⟩ := a
    simp only [List.cons_append, mapFind]
    split
    · rfl
    · exact ih

theorem simp_mapFind_insert_self {β : Type} (key : Expr) (v : β) (m : List (Expr × β)) :
    mapFind key (mapInsert key v m) = some ((mapFind key m).getD v) := by
  unfold mapInsert
  cases h : mapFind key m with
  | some x => simp [h]
  | none => simp [simp_mapFind_append, h, mapFind]

theorem simp_mapFind_insert_ne {β : Type} (k key : Expr) (v : β) (m : List (Expr × β))
    (hk : k ≠ key) : mapFind k (mapInsert key v m) = mapFind k m := by
  unfold mapInsert
  split
  · rfl
  · rw [simp_mapFind_append]
    cases h : mapFind k m with
    | some x => rfl
    | none => simp [mapFind, Ne.symm hk]

theorem simp_mapFind_erase {β : Type} (k key : Expr) (m : List (Expr × β)) :
    mapFind k (mapErase key m) = if k = key then none else mapFind k m := by
  induction m with
  | nil => simp [mapErase, mapFind]
  | cons a m ih =>
    obtain ⟨a1, a2⟩ := a
    unfold mapErase at ih ⊢
    by_cases ha : a1 = key
    · subst ha
      simp only [List.filter, ne_eq, not_true_eq_false, decide_False]
      rw [ih]
      by_cases hk : k = a1
      · simp [hk]
      · simp [hk, mapFind, Ne.symm hk]
    · simp only [List.filter, ne_eq, ha, not_false_eq_true, decide_True, mapFind]
      rw [ih]
      by_cases hk : k = key
      · subst hk; simp [ha]
      · simp [hk]

theorem simp_mapFind_mapSetAdd (k key x : Expr) (m : List (Expr × List Expr)) :
    mapFind k (mapSetAdd key x m) =
      if k = key then some (setAdd x ((mapFind key m).getD [])) else mapFind k m := by
  induction m with
  | nil =>
    by_cases hk : k = key
    · subst hk; simp [mapSetAdd, mapFind, setAdd]
    · simp [mapSetAdd, mapFind, hk, Ne.symm hk]
  | cons a m ih =>
    obtain ⟨a1, a2⟩ := a
    by_cases ha : a1 = key
    · subst ha
      by_cases hk : k = a1
      · subst hk; simp [mapSetAdd, mapFind]
      · simp [mapSetAdd, mapFind, hk, Ne.symm hk]
    · by_cases hk : k = key
      · subst hk
        simp only [mapSetAdd, ha, if_false, mapFind, if_true]
        rw [ih]; simp
      · simp only [mapSetAdd, ha, if_false, mapFind]
        rw [ih]; simp [hk]

theorem simp_depsOf_mapSetAdd (k key x : Expr) (m : List (Expr × List Expr)) (y : Expr) :
    y ∈ depsOf (mapSetAdd key x m) k ↔ (k = key ∧ y = x) ∨ y ∈ depsOf m k := by
  unfold depsOf
  rw [simp_mapFind_mapSetAdd]
  by_cases hk : k = key
  · subst hk; simp [simp_mem_setAdd]
  · simp [hk]

theorem simp_depsOf_mapInsert (k key : Expr) (v : List Expr) (m : List (Expr × List Expr))
    (y : Expr) :
    y ∈ depsOf (mapInsert key v m) k ↔
      (k = key ∧ mapFind key m = none ∧ y ∈ v) ∨ y ∈ depsOf m k := by
  unfold depsOf
  by_cases hk : k = key
  · subst hk
    rw [simp_mapFind_insert_self]
    cases h : mapFind k m with
    | some x => simp
    | none => simp
  · rw [simp_mapFind_insert_ne _ _ _ _ hk]; simp [hk]

/-- The keys of a map. -/
theorem simp_keys_mapSetAdd (key x : Expr) (m : List (Expr × List Expr)) :
    (mapSetAdd key x m).map Prod.fst =
      if key ∈ m.map Prod.fst then m.map Prod.fst else m.map Prod.fst ++ [key] := by
  induction m with
  | nil => simp [mapSetAdd]
  | cons a m ih =>
    obtain ⟨a1, a2⟩ := a
    by_cases ha : a1 = key
    · subst ha; simp [mapSetAdd]
    · simp only [mapSetAdd, ha, if_false, List.map_cons, ih, List.mem_cons]
      by_cases hm : key ∈ m.map Prod.fst
      · simp [hm]
      · simp [hm, Ne.symm ha]

theorem simp_mapFind_none_iff {β : Type} (k : Expr) (m : List (Expr × β)) :
    mapFind k m = none ↔ k ∉ m.map Prod.fst := by
  induction m with
  | nil => simp [mapFind]
  | cons a m ih =>
    obtain ⟨a1, a2⟩ := a
    by_cases ha : a1 = k
    · subst ha; simp [mapFind]
    · simp [mapFind, ha, ih, Ne.symm ha]

theorem simp_keys_mapInsert {β : Type} (key : Expr) (v : β) (m : List (Expr × β)) :
    (mapInsert key v m).map Prod.fst =
      if key ∈ m.map Prod.fst then m.map Prod.fst else m.map Prod.fst ++ [key] := by
  unfold mapInsert
  by_cases hm : key ∈ m.map Prod.fst
  · have : (mapFind key m).isSome = true := by
      cases h : mapFind key m with
      | some x => rfl
      | none => exact absurd hm ((simp_mapFind_none_iff key m).1 h)
    simp only [this, if_true, hm]
  · have : mapFind key m = none := (simp_mapFind_none_iff key m).2 hm
    simp [this, hm]

theorem simp_keys_nodup_mapSetAdd (key x : Expr) (m : List (Expr × List Expr))
    (h : (m.map Prod.fst).Nodup) : ((mapSetAdd key x m).map Prod.fst).Nodup := by
  rw [simp_keys_mapSetAdd]
  split
  · exact h
  · rename_i hx
    exact simp_nodup_snoc h hx

theorem simp_keys_nodup_mapInsert {β : Type} (key : Expr) (v : β) (m : List (Expr × β))
    (h : (m.map Prod.fst).Nodup) : ((mapInsert key v m).map Prod.fst).Nodup := by
  rw [simp_keys_mapInsert]
  split
  · exact h
  · rename_i hx
    exact simp_nodup_snoc h hx

/-! ## Simplificator: the replacements -/

theorem simp_addReplacement_eq (R : Replacements) (e : Expr) :
    addReplacement R e =
      { equalities := mapInsert (keyOf e) (valOf e) R.equalities
        equalitiesParents := mapInsert (keyOf e) e R.equalitiesParents } := by
  unfold addReplacement keyOf valOf
  split <;> rfl

theorem simp_removeReplacement_eq (R : Replacements) (e : Expr) :
    removeReplacement R e =
      { equalities := mapErase (keyOf e) R.equalities
        equalitiesParents := mapErase (keyOf e) R.equalitiesParents } := by
  unfold removeReplacement keyOf
  split <;> rfl

theorem simp_valOf_const (e : Expr) : (valOf e).isConstant = true := by
  unfold valOf
  split <;> rfl

/-! ## Simplificator: the weight of a visited expression -/

theorem simp_weight_pos_of_not_const (e : Expr) (h : e.isConstant = false) : 0 < e.weight := by
  cases e <;> simp [isConstant] at h <;> simp [weight]

theorem simp_weight_const (e : Expr) (h : e.isConstant = true) : e.weight = 0 := by
  cases e with
  | const w v => rfl
  | _ => simp [isConstant] at h

theorem simp_weight_mkEqConst (w v : Nat) (r : Expr) :
    (mkEqConst w v r).weight ≤ 1 + r.weight := by
  unfold mkEqConst
  split
  · omega
  · simp [weight]

theorem simp_weight_mkBinary (op : BinOp) (l r : Expr) :
    (mkBinary op l r).weight ≤ 1 + l.weight + r.weight := by
  unfold mkBinary
  split <;> try (simp only [weight]; omega)
  · exact le_trans (simp_weight_mkEqConst _ _ _) (by simp only [weight]; omega)
  · exact le_trans (simp_weight_mkEqConst _ _ _) (by simp only [weight]; omega)
  · split
    · simp [createTrue, weight]
    · simp [weight]

theorem simp_weight_mkNot (e : Expr) : (mkNot e).weight ≤ 1 + e.weight := by
  unfold mkNot
  split <;> simp [weight]

theorem simp_weight_mkSelect (c t f : Expr) :
    (mkSelect c t f).weight ≤ 1 + c.weight + t.weight + f.weight := by
  unfold mkSelect
  split
  · split <;> omega
  · split
    · omega
    · simp [weight]

theorem simp_visitExpr_some (R : Replacements) (e : Expr) (d : List Expr) (res : Expr × List Expr)
    (h : visitExpr R e d = some res) :
    mapFind e R.equalities = some res.1 ∧
      (res.2 = d ∨ ∃ p, mapFind e R.equalitiesParents = some p ∧ res.2 = setAdd p d) := by
  unfold visitExpr at h
  cases h1 : mapFind e R.equalities with
  | none => simp [h1] at h
  | some v =>
    cases h2 : mapFind e R.equalitiesParents with
    | none => simp [h1, h2] at h; subst h; simp
    | some p => simp [h1, h2] at h; subst h; simp

theorem simp_visitExpr_none (R : Replacements) (e : Expr) (d : List Expr) :
    visitExpr R e d = none ↔ mapFind e R.equalities = none := by
  unfold visitExpr
  cases h1 : mapFind e R.equalities with
  | none => simp
  | some v => cases h2 : mapFind e R.equalitiesParents <;> simp

theorem simp_finish_weight (R : Replacements) (hR : Vals R) (e rebuilt : Expr) (changed : Bool)
    (d : List Expr) (he : 0 < e.weight)
    (hr : changed = true → rebuilt.weight < e.weight) :
    (finish R e rebuilt changed d).1 = e ∨ (finish R e rebuilt changed d).1.weight < e.weight := by
  unfold finish
  cases changed with
  | false =>
    simp only [Bool.false_eq_true, if_false]
    split
    · exact Or.inl rfl
    · cases h : visitExpr R e d with
      | none => exact Or.inl rfl
      | some res =>
        right
        have := hR _ _ (simp_visitExpr_some R e d res h).1
        simp only [simp_weight_const _ this]; exact he
  | true =>
    simp only [if_true]
    have hr := hr rfl
    split
    · exact Or.inr hr
    · cases h : visitExpr R rebuilt d with
      | none => exact Or.inr hr
      | some res =>
        right
        have := hR _ _ (simp_visitExpr_some R rebuilt d res h).1
        simp only [simp_weight_const _ this]; exact he

theorem simp_visit_weight (full : Bool) (R : Replacements) (hR : Vals R) (e : Expr) :
    ∀ d, (visit full R e d).1 = e ∨ (visit full R e d).1.weight < e.weight := by
  induction e with
  | const w v => intro d; left; rfl
  | read w id =>
    intro d
    simp only [visit]
    cases h : visitExpr R (Expr.read w id) d with
    | some res =>
      right
      have := hR _ _ (simp_visitExpr_some R _ d res h).1
      simp [simp_weight_const _ this, weight]
    | none =>
      exact simp_finish_weight R hR _ _ _ _ (by simp [weight]) (by simp)
  | binary op l r ihl ihr =>
    intro d
    simp only [visit]
    cases h : visitExpr R (Expr.binary op l r) d with
    | some res =>
      right
      have := hR _ _ (simp_visitExpr_some R _ d res h).1
      simp [simp_weight_const _ this, weight]
    | none =>
      refine simp_finish_weight R hR _ _ _ _ (by simp [weight]) ?_
      intro hc
      have h1 := ihl d
      have h2 := ihr (visit full R l d).2
      have h3 := simp_weight_mkBinary op (visit full R l d).1 (visit full R r (visit full R l d).2).1
      simp only [weight]
      simp only [Bool.or_eq_true, decide_eq_true_eq] at hc
      rcases h1 with h1 | h1 <;> rcases h2 with h2 | h2
      · rcases hc with hc | hc
        · exact absurd h1 hc
        · exact absurd h2 hc
      · rw [h1] at h3 ⊢; omega
      · rw [h2] at h3 ⊢; omega
      · omega
  | not e ih =>
    intro d
    simp only [visit]
    cases h : visitExpr R (Expr.not e) d with
    | some res =>
      right
      have := hR _ _ (simp_visitExpr_some R _ d res h).1
      simp [simp_weight_const _ this, weight]
    | none =>
      refine simp_finish_weight R hR _ _ _ _ (by simp [weight]) ?_
      intro hc
      have h1 := ih d
      have h3 := simp_weight_mkNot (visit full R e d).1
      simp only [weight]
      simp only [decide_eq_true_eq] at hc
      rcases h1 with h1 | h1
      · exact absurd h1 hc
      · omega
  | select c t f ihc iht ihf =>
    intro d
    simp only [visit]
    cases h : visitExpr R (Expr.select c t f) d with
    | some res =>
      right
      have := hR _ _ (simp_visitExpr_some R _ d res h).1
      simp [simp_weight_const _ this, weight]
    | none =>
      simp only
      have h1 := ihc d
      have h2 := iht (visit full R c d).2
      have hle1 : (visit full R c d).1.weight ≤ c.weight := by
        rcases h1 with h1 | h1
        · rw [h1]
        · omega
      have hle2 : (visit full R t (visit full R c d).2).1.weight ≤ t.weight := by
        rcases h2 with h2 | h2
        · rw [h2]
        · omega
      cases full with
      | true =>
        simp only [if_true]
        split
        · split
          · right; simp only [weight]; omega
          · right
            have h3 := ihf (visit true R c d).2
            simp only [weight]
            rcases h3 with h3 | h3
            · rw [h3]; omega
            · omega
        · have h3 := ihf (visit true R t (visit true R c d).2).2
          have hle3 : (visit true R f (visit true R t (visit true R c d).2).2).1.weight
              ≤ f.weight := by
            rcases h3 with h3 | h3
            · rw [h3]
            · omega
          split
          · rename_i hch
            right
            have h4 := simp_weight_mkSelect (visit true R c d).1
              (visit true R t (visit true R c d).2).1
              (visit true R f (visit true R t (visit true R c d).2).2).1
            have hlt : (mkSelect (visit true R c d).1 (visit true R t (visit true R c d).2).1
                (visit true R f (visit true R t (visit true R c d).2).2).1).weight
                < (Expr.select c t f).weight := by
              simp only [weight]
              rcases hch with hch | hch
              · rcases h2 with h2 | h2
                · exact absurd h2 hch
                · omega
              · rcases h3 with h3 | h3
                · exact absurd h3 hch
                · omega
            cases h5 : visitExpr R (mkSelect (visit true R c d).1
                (visit true R t (visit true R c d).2).1
                (visit true R f (visit true R t (visit true R c d).2).2).1)
                (visit true R f (visit true R t (visit true R c d).2).2).2 with
            | none => exact hlt
            | some res =>
              have := hR _ _ (simp_visitExpr_some R _ _ res h5).1
              simp only [simp_weight_const _ this]
              simp [weight]
          · left; rfl
      | false =>
        simp only [Bool.false_eq_true, if_false]
        have h3 := ihf (visit false R t (visit false R c d).2).2
        refine simp_finish_weight R hR _ _ _ _ (by simp [weight]) ?_
        intro hc
        have h4 := simp_weight_mkSelect (visit false R c d).1
          (visit false R t (visit false R c d).2).1
          (visit false R f (visit false R t (visit false R c d).2).2).1
        simp only [weight]
        simp only [Bool.or_eq_true, decide_eq_true_eq] at hc
        rcases h1 with h1 | h1 <;> rcases h2 with h2 | h2 <;> rcases h3 with h3 | h3
        · rcases hc with (hc | hc) | hc
          · exact absurd h1 hc
          · exact absurd h2 hc
          · exact absurd h3 hc
        · rw [h1, h2] at h4 ⊢; omega
        · rw [h1, h3] at h4 ⊢; omega
        · rw [h1] at h4 ⊢; omega
        · rw [h2, h3] at h4 ⊢; omega
        · rw [h2] at h4 ⊢; omega
        · rw [h3] at h4 ⊢; omega
        · omega

/-! ## Simplificator: the dependencies a visit records -/

theorem simp_hit_kid (R : Replacements) (kid e p : Expr) (h : Hit R kid p)
    (hw : kid.weight < e.weight) : Hit R e p := by
  obtain ⟨k, h1, h2, h3⟩ := h
  refine ⟨k, h1, h2, Or.inl ?_⟩
  rcases h3 with h3 | h3
  · omega
  · subst h3; exact hw

theorem simp_hit_le (R : Replacements) (e1 e p : Expr) (h : Hit R e1 p)
    (hw : e1 = e ∨ e1.weight < e.weight) : Hit R e p := by
  rcases hw with hw | hw
  · subst hw; exact h
  · exact simp_hit_kid R e1 e p h hw

theorem simp_visitExpr_deps (R : Replacements) (e : Expr) (d : List Expr)
    (res : Expr × List Expr) (h : visitExpr R e d = some res) (p : Expr) (hp : p ∈ res.2) :
    p ∈ d ∨ Hit R e p := by
  obtain ⟨h1, h2⟩ := simp_visitExpr_some R e d res h
  rcases h2 with h2 | ⟨q, hq, h2⟩
  · rw [h2] at hp; exact Or.inl hp
  · rw [h2, simp_mem_setAdd] at hp
    rcases hp with hp | hp
    · subst hp
      exact Or.inr ⟨e, hq, by simp [h1], Or.inr rfl⟩
    · exact Or.inl hp

theorem simp_visitExpr_mono (R : Replacements) (e : Expr) (d : List Expr)
    (res : Expr × List Expr) (h : visitExpr R e d = some res) (p : Expr) (hp : p ∈ d) :
    p ∈ res.2 := by
  obtain ⟨_, h2⟩ := simp_visitExpr_some R e d res h
  rcases h2 with h2 | ⟨q, _, h2⟩
  · rw [h2]; exact hp
  · rw [h2, simp_mem_setAdd]; exact Or.inr hp

theorem simp_finish_eq (R : Replacements) (e rebuilt : Expr) (changed : Bool)
    (d : List Expr) :
    finish R e rebuilt changed d =
      if (if changed then rebuilt else e).isConstant then ((if changed then rebuilt else e), d)
      else
        match visitExpr R (if changed then rebuilt else e) d with
        | some r => r
        | none => ((if changed then rebuilt else e), d) := rfl

theorem simp_finish_deps (R : Replacements) (e rebuilt : Expr) (changed : Bool)
    (d : List Expr) (p : Expr) (hp : p ∈ (finish R e rebuilt changed d).2) :
    p ∈ d ∨ Hit R (if changed then rebuilt else e) p := by
  rw [simp_finish_eq] at hp
  generalize (if changed = true then rebuilt else e) = e1 at hp ⊢
  split at hp
  · exact Or.inl hp
  · cases h : visitExpr R e1 d with
    | none => rw [h] at hp; exact Or.inl hp
    | some res =>
      rw [h] at hp
      exact simp_visitExpr_deps R _ d res h p hp

theorem simp_finish_mono (R : Replacements) (e rebuilt : Expr) (changed : Bool)
    (d : List Expr) (p : Expr) (hp : p ∈ d) : p ∈ (finish R e rebuilt changed d).2 := by
  rw [simp_finish_eq]
  generalize (if changed = true then rebuilt else e) = e1
  split
  · exact hp
  · cases h : visitExpr R e1 d with
    | none => exact hp
    | some res => exact simp_visitExpr_mono R _ d res h p hp

theorem simp_visit_mono (full : Bool) (R : Replacements) (e : Expr) :
    ∀ d p, p ∈ d → p ∈ (visit full R e d).2 := by
  induction e with
  | const w v => intro d p hp; exact hp
  | read w id =>
    intro d p hp
    simp only [visit]
    cases h : visitExpr R (Expr.read w id) d with
    | some res => exact simp_visitExpr_mono R _ d res h p hp
    | none => exact simp_finish_mono R _ _ _ _ p hp
  | binary op l r ihl ihr =>
    intro d p hp
    simp only [visit]
    cases h : visitExpr R (Expr.binary op l r) d with
    | some res => exact simp_visitExpr_mono R _ d res h p hp
    | none => exact simp_finish_mono R _ _ _ _ p (ihr _ p (ihl d p hp))
  | not e ih =>
    intro d p hp
    simp only [visit]
    cases h : visitExpr R (Expr.not e) d with
    | some res => exact simp_visitExpr_mono R _ d res h p hp
    | none => exact simp_finish_mono R _ _ _ _ p (ih d p hp)
  | select c t f ihc iht ihf =>
    intro d p hp
    simp only [visit]
    cases h : visitExpr R (Expr.select c t f) d with
    | some res => exact simp_visitExpr_mono R _ d res h p hp
    | none =>
      simp only
      have h1 := ihc d p hp
      have h2 := iht _ p h1
      cases full with
      | true =>
        simp only [if_true]
        split
        · split
          · exact h2
          · exact ihf _ p h1
        · have h3 := ihf _ p h2
          split
          · cases h5 : visitExpr R (mkSelect (visit true R c d).1
                (visit true R t (visit true R c d).2).1
                (visit true R f (visit true R t (visit true R c d).2).2).1)
                (visit true R f (visit true R t (visit true R c d).2).2).2 with
            | none => exact h3
            | some res => exact simp_visitExpr_mono R _ _ res h5 p h3
          · exact h3
      | false =>
        simp only [Bool.false_eq_true, if_false]
        exact simp_finish_mono R _ _ _ _ p (ihf _ p h2)

theorem simp_visit_deps (full : Bool) (R : Replacements) (hR : Vals R) (e : Expr) :
    ∀ d p, p ∈ (visit full R e d).2 → p ∈ d ∨ Hit R e p := by
  induction e with
  | const w v => intro d p hp; exact Or.inl hp
  | read w id =>
    intro d p hp
    simp only [visit] at hp
    cases h : visitExpr R (Expr.read w id) d with
    | some res => rw [h] at hp; exact simp_visitExpr_deps R _ d res h p hp
    | none =>
      rw [h] at hp
      have := simp_finish_deps R _ _ _ _ p hp
      simpa using this
  | binary op l r ihl ihr =>
    intro d p hp
    simp only [visit] at hp
    cases h : visitExpr R (Expr.binary op l r) d with
    | some res => rw [h] at hp; exact simp_visitExpr_deps R _ d res h p hp
    | none =>
      rw [h] at hp
      simp only at hp
      have hl := simp_visit_weight full R hR l d
      have hr := simp_visit_weight full R hR r (visit full R l d).2
      rcases simp_finish_deps R _ _ _ _ p hp with h1 | h1
      · rcases ihr _ p h1 with h2 | h2
        · rcases ihl _ p h2 with h3 | h3
          · exact Or.inl h3
          · exact Or.inr (simp_hit_kid R l _ p h3 (by simp only [weight]; omega))
        · exact Or.inr (simp_hit_kid R r _ p h2 (by simp only [weight]; omega))
      · right
        refine simp_hit_le R _ _ p h1 ?_
        split
        · rename_i hc
          right
          have h3 := simp_weight_mkBinary op (visit full R l d).1
            (visit full R r (visit full R l d).2).1
          simp only [weight]
          simp only [Bool.or_eq_true, decide_eq_true_eq] at hc
          rcases hl with hl | hl <;> rcases hr with hr | hr
          · rcases hc with hc | hc
            · exact absurd hl hc
            · exact absurd hr hc
          · rw [hl] at h3 ⊢; omega
          · rw [hr] at h3 ⊢; omega
          · omega
        · left; rfl
  | not e ih =>
    intro d p hp
    simp only [visit] at hp
    cases h : visitExpr R (Expr.not e) d with
    | some res => rw [h] at hp; exact simp_visitExpr_deps R _ d res h p hp
    | none =>
      rw [h] at hp
      simp only at hp
      have hl := simp_visit_weight full R hR e d
      rcases simp_finish_deps R _ _ _ _ p hp with h1 | h1
      · rcases ih _ p h1 with h3 | h3
        · exact Or.inl h3
        · exact Or.inr (simp_hit_kid R e _ p h3 (by simp only [weight]; omega))
      · right
        refine simp_hit_le R _ _ p h1 ?_
        split
        · rename_i hc
          right
          have h3 := simp_weight_mkNot (visit full R e d).1
          simp only [weight]
          simp only [decide_eq_true_eq] at hc
          rcases hl with hl | hl
          · exact absurd hl hc
          · omega
        · left; rfl
  | select c t f ihc iht ihf =>
    intro d p hp
    simp only [visit] at hp
    cases h : visitExpr R (Expr.select c t f) d with
    | some res => rw [h] at hp; exact simp_visitExpr_deps R _ d res h p hp
    | none =>
      rw [h] at hp
      simp only at hp
      have hc1 := simp_visit_weight full R hR c d
      have ht1 := simp_visit_weight full R hR t (visit full R c d).2
      have kc : ∀ q, q ∈ (visit full R c d).2 → q ∈ d ∨ Hit R (Expr.select c t f) q := by
        intro q hq
        rcases ihc _ q hq with h3 | h3
        · exact Or.inl h3
        · exact Or.inr (simp_hit_kid R c _ q h3 (by simp only [weight]; omega))
      have kt : ∀ q, q ∈ (visit full R t (visit full R c d).2).2 →
          q ∈ d ∨ Hit R (Expr.select c t f) q := by
        intro q hq
        rcases iht _ q hq with h3 | h3
        · exact kc q h3
        · exact Or.inr (simp_hit_kid R t _ q h3 (by simp only [weight]; omega))
      cases full with
      | true =>
        simp only [if_true] at hp
        split at hp
        · split at hp
          · exact kt p hp
          · rcases ihf _ p hp with h3 | h3
            · exact kc p h3
            · exact Or.inr (simp_hit_kid R f _ p h3 (by simp only [weight]; omega))
        · have hf1 := simp_visit_weight true R hR f (visit true R t (visit true R c d).2).2
          have kf : ∀ q, q ∈ (visit true R f (visit true R t (visit true R c d).2).2).2 →
              q ∈ d ∨ Hit R (Expr.select c t f) q := by
            intro q hq
            rcases ihf _ q hq with h3 | h3
            · exact kt q h3
            · exact Or.inr (simp_hit_kid R f _ q h3 (by simp only [weight]; omega))
          split at hp
          · rename_i hch
            have h4 := simp_weight_mkSelect (visit true R c d).1
              (visit true R t (visit true R c d).2).1
              (visit true R f (visit true R t (visit true R c d).2).2).1
            have hlt : (mkSelect (visit true R c d).1 (visit true R t (visit true R c d).2).1
                (visit true R f (visit true R t (visit true R c d).2).2).1).weight
                < (Expr.select c t f).weight := by
              simp only [weight]
              have hle1 : (visit true R c d).1.weight ≤ c.weight := by
                rcases hc1 with h1 | h1
                · rw [h1]
                · omega
              rcases ht1 with ht1 | ht1 <;> rcases hf1 with hf1 | hf1
              · rcases hch with hch | hch
                · exact absurd ht1 hch
                · exact absurd hf1 hch
              · rw [ht1] at h4 ⊢; omega
              · rw [hf1] at h4 ⊢; omega
              · omega
            cases h5 : visitExpr R (mkSelect (visit true R c d).1
                (visit true R t (visit true R c d).2).1
                (visit true R f (visit true R t (visit true R c d).2).2).1)
                (visit true R f (visit true R t (visit true R c d).2).2).2 with
            | none => rw [h5] at hp; exact kf p hp
            | some res =>
              rw [h5] at hp
              rcases simp_visitExpr_deps R _ _ res h5 p hp with h6 | h6
              · exact kf p h6
              · exact Or.inr (simp_hit_kid R _ _ p h6 hlt)
          · exact kf p hp
      | false =>
        simp only [Bool.false_eq_true, if_false] at hp
        have hf1 := simp_visit_weight false R hR f (visit false R t (visit false R c d).2).2
        have kf : ∀ q, q ∈ (visit false R f (visit false R t (visit false R c d).2).2).2 →
            q ∈ d ∨ Hit R (Expr.select c t f) q := by
          intro q hq
          rcases ihf _ q hq with h3 | h3
          · exact kt q h3
          · exact Or.inr (simp_hit_kid R f _ q h3 (by simp only [weight]; omega))
        rcases simp_finish_deps R _ _ _ _ p hp with h1 | h1
        · exact kf p h1
        · right
          refine simp_hit_le R _ _ p h1 ?_
          split
          · rename_i hc
            right
            have h4 := simp_weight_mkSelect (visit false R c d).1
              (visit false R t (visit false R c d).2).1
              (visit false R f (visit false R t (visit false R c d).2).2).1
            simp only [weight]
            simp only [Bool.or_eq_true, decide_eq_true_eq] at hc
            rcases hc1 with h1 | h1 <;> rcases ht1 with h2 | h2 <;> rcases hf1 with h3 | h3
            · rcases hc with (hc | hc) | hc
              · exact absurd h1 hc
              · exact absurd h2 hc
              · exact absurd h3 hc
            · rw [h1, h2] at h4 ⊢; omega
            · rw [h1, h3] at h4 ⊢; omega
            · rw [h1] at h4 ⊢; omega
            · rw [h2, h3] at h4 ⊢; omega
            · rw [h2] at h4 ⊢; omega
            · rw [h3] at h4 ⊢; omega
            · omega
          · left; rfl

/-! ## Simplificator: the replacements of a round -/

theorem simp_repOK_empty (l : List Expr) : RepOK l ⟨[], []⟩ := by
  intro k; left; simp [mapFind]

theorem simp_repOK_add (l : List Expr) (R : Replacements) (c : Expr) (h : RepOK l R)
    (hc : c ∈ l) : RepOK l (addReplacement R c) := by
  intro k
  rw [simp_addReplacement_eq]
  by_cases hk : k = keyOf c
  · subst hk
    right
    simp only [simp_mapFind_insert_self]
    rcases h (keyOf c) with ⟨h1, h2⟩ | ⟨p, hp, h1, h2, h3⟩
    · exact ⟨c, hc, rfl, by simp [h1], by simp [h2]⟩
    · exact ⟨p, hp, h1, by simp [h2], by simp [h3]⟩
  · simp only [simp_mapFind_insert_ne _ _ _ _ hk]
    exact h k

theorem simp_repOK_remove (l : List Expr) (R : Replacements) (c : Expr) (h : RepOK l R) :
    RepOK l (removeReplacement R c) := by
  intro k
  rw [simp_removeReplacement_eq]
  simp only [simp_mapFind_erase]
  by_cases hk : k = keyOf c
  · left; simp [hk]
  · simp only [hk, if_false]; exact h k

theorem simp_remove_noKey (R : Replacements) (c : Expr) :
    mapFind (keyOf c) (removeReplacement R c).equalities = none := by
  rw [simp_removeReplacement_eq]
  simp [simp_mapFind_erase]

theorem simp_repOK_foldl (l : List Expr) (l1 : List Expr) (hl : ∀ c ∈ l1, c ∈ l) :
    ∀ R, RepOK l R → RepOK l (l1.foldl addReplacement R) := by
  induction l1 with
  | nil => intro R h; exact h
  | cons a l1 ih =>
    intro R h
    simp only [List.foldl_cons]
    exact ih (fun c hc => hl c (List.mem_cons_of_mem _ hc)) _
      (simp_repOK_add l R a h (hl a (List.mem_cons_self _ _)))

theorem simp_repOK_gather (l : List Expr) : RepOK l (gatherReplacements l) :=
  simp_repOK_foldl l l (fun _ h => h) _ (simp_repOK_empty l)

theorem simp_repOK_vals (l : List Expr) (R : Replacements) (h : RepOK l R) : Vals R := by
  intro k v hv
  rcases h k with ⟨h1, _⟩ | ⟨p, _, _, h2, _⟩
  · rw [h1] at hv; cases hv
  · rw [h2] at hv; cases hv; exact simp_valOf_const p

theorem simp_repOK_parent (l : List Expr) (R : Replacements) (h : RepOK l R) (k p : Expr)
    (hp : mapFind k R.equalitiesParents = some p) :
    p ∈ l ∧ keyOf p = k ∧ mapFind k R.equalities = some (valOf p) := by
  rcases h k with ⟨_, h2⟩ | ⟨q, hq, h1, h2, h3⟩
  · rw [h2] at hp; cases hp
  · rw [h3] at hp; cases hp; exact ⟨hq, h1, h2⟩

/-! ## Simplificator: composing the dependencies -/

theorem simp_mem_depsOf_of_find (m : List (Expr × List Expr)) (k : Expr) (ds : List Expr)
    (h : mapFind k m = some ds) : depsOf m k = ds := by
  simp [depsOf, h]

theorem simp_compose_inner (key : Expr) (ups : List Expr) :
    ∀ res k x,
      x ∈ depsOf (ups.foldl (fun result upperDependency =>
          mapSetAdd key upperDependency result) res) k ↔
        x ∈ depsOf res k ∨ (k = key ∧ x ∈ ups) := by
  induction ups with
  | nil => intro res k x; simp
  | cons u ups ih =>
    intro res k x
    simp only [List.foldl_cons]
    rw [ih, simp_depsOf_mapSetAdd]
    simp only [List.mem_cons]
    tauto

theorem simp_compose_middle (U : List (Expr × List Expr)) (key : Expr) (ds : List Expr) :
    ∀ res, (∀ d ∈ ds, (mapFind d U).isSome = true) →
      ∃ res1, ds.foldlM
          (fun result dependency =>
            (mapFind dependency U).map fun ups =>
              ups.foldl (fun result upperDependency =>
                mapSetAdd key upperDependency result) result)
          res = some res1 ∧
        ∀ k x, x ∈ depsOf res1 k ↔ x ∈ depsOf res k ∨ (k = key ∧ ∃ d ∈ ds, x ∈ depsOf U d) := by
  induction ds with
  | nil => intro res _; exact ⟨res, rfl, by simp⟩
  | cons d ds ih =>
    intro res h
    have hd := h d (List.mem_cons_self _ _)
    cases hU : mapFind d U with
    | none => rw [hU] at hd; cases hd
    | some ups =>
      obtain ⟨res1, h1, h2⟩ := ih (ups.foldl (fun result upperDependency =>
        mapSetAdd key upperDependency result) res)
        (fun x hx => h x (List.mem_cons_of_mem _ hx))
      refine ⟨res1, ?_, ?_⟩
      · simp only [List.foldlM_cons, hU, Option.map_some', Option.bind_eq_bind,
          Option.some_bind]
        exact h1
      · intro k x
        rw [h2, simp_compose_inner]
        simp only [List.mem_cons, exists_eq_or_imp, simp_mem_depsOf_of_find U d ups hU]
        tauto

theorem simp_compose_outer (U : List (Expr × List Expr)) (L : List (Expr × List Expr)) :
    ∀ res, (∀ ent ∈ L, ∀ d ∈ ent.2, (mapFind d U).isSome = true) →
      ∃ res1, L.foldlM
          (fun result dependent =>
            dependent.2.foldlM
              (fun result dependency =>
                (mapFind dependency U).map fun ups =>
                  ups.foldl (fun result upperDependency =>
                    mapSetAdd dependent.1 upperDependency result) result)
              result)
          res = some res1 ∧
        ∀ k x, x ∈ depsOf res1 k ↔
          x ∈ depsOf res k ∨ ∃ ent ∈ L, ent.1 = k ∧ ∃ d ∈ ent.2, x ∈ depsOf U d := by
  induction L with
  | nil => intro res _; exact ⟨res, rfl, by simp⟩
  | cons ent L ih =>
    intro res h
    obtain ⟨res0, h0, h0b⟩ := simp_compose_middle U ent.1 ent.2 res
      (h ent (List.mem_cons_self _ _))
    obtain ⟨res1, h1, h2⟩ := ih res0 (fun x hx => h x (List.mem_cons_of_mem _ hx))
    refine ⟨res1, ?_, ?_⟩
    · simp only [List.foldlM_cons, Option.bind_eq_bind]
      rw [h0]
      exact h1
    · intro k x
      rw [h2, h0b]
      simp only [List.mem_cons, exists_eq_or_imp]
      constructor
      · rintro ((h3 | ⟨h3, h4⟩) | h3)
        · exact Or.inl h3
        · exact Or.inr (Or.inl ⟨h3.symm, h4⟩)
        · exact Or.inr (Or.inr h3)
      · rintro (h3 | ⟨h3, h4⟩ | h3)
        · exact Or.inl (Or.inl h3)
        · exact Or.inl (Or.inr ⟨h3.symm, h4⟩)
        · exact Or.inr h3

theorem simp_mapFind_of_mem {β : Type} (m : List (Expr × β)) (h : (m.map Prod.fst).Nodup)
    (k : Expr) (v : β) : (k, v) ∈ m ↔ mapFind k m = some v := by
  induction m with
  | nil => simp [mapFind]
  | cons a m ih =>
    obtain ⟨a1, a2⟩ := a
    simp only [List.map_cons, List.nodup_cons] at h
    by_cases ha : a1 = k
    · subst ha
      simp only [List.mem_cons, Prod.mk.injEq, true_and, mapFind, if_true, Option.some.injEq]
      constructor
      · rintro (h1 | h1)
        · exact h1.symm
        · exact absurd (List.mem_map_of_mem Prod.fst h1) h.1
      · intro h1; exact Or.inl h1.symm
    · simp only [List.mem_cons, Prod.mk.injEq, mapFind, ha, if_false]
      rw [← ih h.2]
      constructor
      · rintro (h1 | h1)
        · exact absurd h1.1.symm ha
        · exact h1
      · intro h1; exact Or.inr h1

theorem simp_compose_spec (U L : List (Expr × List Expr)) (hL : (L.map Prod.fst).Nodup)
    (hU : ∀ k d, d ∈ depsOf L k → (mapFind d U).isSome = true) :
    ∃ res, composeExprDependencies U L = some res ∧
      ∀ k x, x ∈ depsOf res k ↔ ∃ d ∈ depsOf L k, x ∈ depsOf U d := by
  have hent : ∀ ent ∈ L, depsOf L ent.1 = ent.2 := by
    intro ent he
    have := (simp_mapFind_of_mem L hL ent.1 ent.2).1 he
    simp [depsOf, this]
  obtain ⟨res, h1, h2⟩ := simp_compose_outer U L []
    (fun ent he d hd => hU ent.1 d (by rw [hent ent he]; exact hd))
  refine ⟨res, h1, ?_⟩
  intro k x
  rw [h2]
  constructor
  · rintro (h3 | ⟨ent, he, h3, d, hd, hx⟩)
    · simp [depsOf, mapFind] at h3
    · subst h3
      exact ⟨d, by rw [hent ent he]; exact hd, hx⟩
  · rintro ⟨d, hd, hx⟩
    right
    cases hf : mapFind k L with
    | none => simp [depsOf, hf] at hd
    | some ds =>
      refine ⟨(k, ds), (simp_mapFind_of_mem L hL k ds).2 hf, rfl, d, ?_, hx⟩
      simpa [depsOf, hf] using hd

/-! ## Simplificator: the parts of a simplified constraint -/

theorem simp_addParts_nil (c : Expr) (dep : List Expr)
    (acc : List Expr × List (Expr × List Expr)) : addParts c dep [] acc = acc := rfl

theorem simp_addParts_cons (c : Expr) (dep : List Expr) (part : Expr) (parts : List Expr)
    (acc : List Expr × List (Expr × List Expr)) :
    addParts c dep (part :: parts) acc =
      addParts c dep parts
        (setAdd part acc.1, mapSetAdd part c (mapInsert part dep acc.2)) := rfl

theorem simp_addParts_mem (c : Expr) (dep : List Expr) (parts : List Expr) :
    ∀ acc e, e ∈ (addParts c dep parts acc).1 ↔ e ∈ acc.1 ∨ e ∈ parts := by
  induction parts with
  | nil => intro acc e; simp [simp_addParts_nil]
  | cons part parts ih =>
    intro acc e
    rw [simp_addParts_cons, ih]
    simp only [simp_mem_setAdd, List.mem_cons]
    tauto

theorem simp_addParts_keys (c : Expr) (dep : List Expr) (parts : List Expr) :
    ∀ acc, (acc.2.map Prod.fst).Nodup → ((addParts c dep parts acc).2.map Prod.fst).Nodup := by
  induction parts with
  | nil => intro acc h; exact h
  | cons part parts ih =>
    intro acc h
    rw [simp_addParts_cons]
    exact ih _ (simp_keys_nodup_mapSetAdd _ _ _ (simp_keys_nodup_mapInsert _ _ _ h))

theorem simp_addParts_find (c : Expr) (dep : List Expr) (parts : List Expr) :
    ∀ acc k, (mapFind k (addParts c dep parts acc).2).isSome = true ↔
      (mapFind k acc.2).isSome = true ∨ k ∈ parts := by
  induction parts with
  | nil => intro acc k; simp [simp_addParts_nil]
  | cons part parts ih =>
    intro acc k
    rw [simp_addParts_cons, ih]
    simp only [simp_mapFind_mapSetAdd, List.mem_cons]
    by_cases hk : k = part
    · subst hk; simp
    · simp only [hk, if_false, simp_mapFind_insert_ne _ _ _ _ hk, false_or]

theorem simp_addParts_deps (c : Expr) (dep : List Expr) (parts : List Expr) :
    ∀ acc k x, x ∈ depsOf (addParts c dep parts acc).2 k ↔
      x ∈ depsOf acc.2 k ∨ (k ∈ parts ∧ (x = c ∨ (mapFind k acc.2 = none ∧ x ∈ dep))) := by
  induction parts with
  | nil => intro acc k x; simp [simp_addParts_nil]
  | cons part parts ih =>
    intro acc k x
    rw [simp_addParts_cons, ih]
    simp only [simp_depsOf_mapSetAdd, simp_depsOf_mapInsert, List.mem_cons,
      simp_mapFind_mapSetAdd]
    by_cases hk : k = part
    · subst hk
      simp only [true_and, if_true, true_or]
      constructor
      · rintro ((h | h | h) | ⟨_, h | ⟨h, _⟩⟩)
        · exact Or.inr (Or.inl h)
        · exact Or.inr (Or.inr h)
        · exact Or.inl h
        · exact Or.inr (Or.inl h)
        · cases h
      · rintro (h | h | h)
        · exact Or.inl (Or.inr (Or.inr h))
        · exact Or.inl (Or.inl h)
        · exact Or.inl (Or.inr (Or.inl h))
    · simp only [hk, false_and, false_or, if_false, simp_mapFind_insert_ne _ _ _ _ hk]

/-! ## Simplificator: the measure -/

theorem simp_measure_append (s t : List Expr) : measure (s ++ t) = measure s + measure t := by
  simp [measure]

theorem simp_measure_setAdd (x : Expr) (s : List Expr) :
    measure (setAdd x s) ≤ measure s + (2 * x.weight + 1) := by
  unfold setAdd
  split
  · omega
  · rw [simp_measure_append]; simp [measure]

theorem simp_measure_perm (s t : List Expr) (h : s.Perm t) : measure s = measure t := by
  unfold measure
  exact (h.map _).sum_eq

theorem simp_measure_addParts (c : Expr) (dep : List Expr) (parts : List Expr) :
    ∀ acc, measure (addParts c dep parts acc).1 ≤ measure acc.1 + measure parts := by
  induction parts with
  | nil => intro acc; simp [simp_addParts_nil, measure]
  | cons part parts ih =>
    intro acc
    rw [simp_addParts_cons]
    have h1 := ih (setAdd part acc.1, mapSetAdd part c (mapInsert part dep acc.2))
    have h2 := simp_measure_setAdd part acc.1
    have h3 : measure (part :: parts) = (2 * part.weight + 1) + measure parts := by
      simp [measure]
    simp only at h1
    omega

theorem simp_splitAnds_length_pos (e : Expr) : 0 < (splitAnds e).length := by
  induction e with
  | binary op l r ihl ihr =>
    cases op <;> simp [splitAnds]
    omega
  | _ => simp [splitAnds]

theorem simp_measure_splitAnds (e : Expr) :
    measure (splitAnds e) + (splitAnds e).length ≤ 2 * e.weight + 2 := by
  induction e with
  | binary op l r ihl ihr =>
    cases op
    case And =>
      simp only [splitAnds, simp_measure_append, List.length_append, weight]
      omega
    all_goals simp [splitAnds, measure, weight]
  | _ => simp [splitAnds, measure, weight]

/-! ## Simplificator: one round -/

theorem simp_visit_deps_walk (full : Bool) (walk : List Expr) (R : Replacements)
    (hR : RepOK walk R) (c p : Expr) (hp : p ∈ (visit full R c []).2) : p ∈ walk := by
  rcases simp_visit_deps full R (simp_repOK_vals walk R hR) c [] p hp with h | ⟨k, h1, _, _⟩
  · cases h
  · exact (simp_repOK_parent walk R hR k p h1).1

theorem simp_measure_parts (full : Bool) (R : Replacements) (hR : Vals R) (c : Expr) :
    measure (splitAnds (visit full R c []).1) ≤ 2 * c.weight + 1 ∧
      ((c ≠ (visit full R c []).1 ∨ (splitAnds (visit full R c []).1).length > 1) →
        measure (splitAnds (visit full R c []).1) < 2 * c.weight + 1) := by
  have h1 := simp_visit_weight full R hR c []
  have h2 := simp_measure_splitAnds (visit full R c []).1
  have h3 := simp_splitAnds_length_pos (visit full R c []).1
  have hle : (visit full R c []).1.weight ≤ c.weight := by
    rcases h1 with h1 | h1
    · rw [h1]
    · omega
  refine ⟨by omega, ?_⟩
  rintro (h | h)
  · rcases h1 with h1 | h1
    · exact absurd h1.symm h
    · omega
  · omega

theorem simp_roundStep_inv (full : Bool) (walk pre : List Expr) (st : Round) (c : Expr)
    (hc : c ∈ walk) (h : RoundInv full walk pre st) :
    RoundInv full walk (pre ++ [c]) (roundStep full st c) := by
  have hrem := simp_repOK_remove walk st.replacements c h.rep
  have hno := simp_remove_noKey st.replacements c
  have hm := simp_measure_parts full _ (simp_repOK_vals walk _ hrem) c
  have hadd := simp_measure_addParts c (visit full (removeReplacement st.replacements c) c []).2
    (splitAnds (visit full (removeReplacement st.replacements c) c []).1)
    (st.currentSimplified, st.currentDependencies)
  have hpre : measure (pre ++ [c]) = measure pre + (2 * c.weight + 1) := by
    rw [simp_measure_append]; simp [measure]
  have hle := h.measure_le
  refine ⟨?_, ?_, ?_, ?_, ?_, ?_, ?_, ?_⟩
  · exact simp_repOK_add walk _ c hrem hc
  · exact simp_addParts_keys _ _ _ _ h.keys
  · simp only [roundStep]
    simp only at hadd
    omega
  · intro hch
    simp only [roundStep] at hch ⊢
    simp only at hadd
    simp only [Bool.or_eq_true, decide_eq_true_eq] at hch
    rcases hch with (hch | hch) | hch
    · have := h.measure_lt hch; omega
    · have := hm.2 (Or.inl hch); omega
    · have := hm.2 (Or.inr hch); omega
  · intro k
    simp only [roundStep]
    rw [simp_addParts_find, simp_addParts_mem]
    simp only [h.found k]
  · intro e he
    simp only [roundStep] at he ⊢
    rw [simp_addParts_mem] at he
    simp only at he
    by_cases hold : e ∈ st.currentSimplified
    · obtain ⟨c0, hc0, R0, hR0, hk0, he0, hd0, hp0⟩ := h.origin e hold
      refine ⟨c0, by simp [hc0], R0, hR0, hk0, he0, ?_, ?_⟩
      · rw [simp_addParts_deps]; exact Or.inl hd0
      · intro p hp
        rw [simp_addParts_deps]; exact Or.inl (hp0 p hp)
    · have hpart : e ∈ splitAnds (visit full (removeReplacement st.replacements c) c []).1 := by
        rcases he with he | he
        · exact absurd he hold
        · exact he
      have hnone : mapFind e st.currentDependencies = none := by
        cases hf : mapFind e st.currentDependencies with
        | none => rfl
        | some x => exact absurd ((h.found e).1 (by simp [hf])) hold
      refine ⟨c, by simp, _, hrem, hno, hpart, ?_, ?_⟩
      · rw [simp_addParts_deps]; exact Or.inr ⟨hpart, Or.inl rfl⟩
      · intro p hp
        rw [simp_addParts_deps]; exact Or.inr ⟨hpart, Or.inr ⟨hnone, hp⟩⟩
  · intro c1 hc1
    simp only [roundStep]
    rw [List.mem_append] at hc1
    rcases hc1 with hc1 | hc1
    · obtain ⟨R0, hR0, hk0, he0⟩ := h.cover c1 hc1
      refine ⟨R0, hR0, hk0, ?_⟩
      intro e he
      rw [simp_addParts_mem]; exact Or.inl (he0 e he)
    · simp only [List.mem_singleton] at hc1
      subst hc1
      refine ⟨_, hrem, hno, ?_⟩
      intro e he
      rw [simp_addParts_mem]; exact Or.inr he
  · intro k x hx
    simp only [roundStep] at hx
    rw [simp_addParts_deps] at hx
    rcases hx with hx | ⟨_, hx | ⟨_, hx⟩⟩
    · exact h.sub k x hx
    · subst hx; exact hc
    · exact simp_visit_deps_walk full walk _ hrem c x hx

theorem simp_round_foldl (full : Bool) (walk : List Expr) (rest : List Expr) :
    ∀ pre st, (∀ c ∈ rest, c ∈ walk) → RoundInv full walk pre st →
      RoundInv full walk (pre ++ rest) (rest.foldl (roundStep full) st) := by
  induction rest with
  | nil => intro pre st _ h; simpa using h
  | cons a rest ih =>
    intro pre st hw h
    simp only [List.foldl_cons]
    have := ih (pre ++ [a]) (roundStep full st a)
      (fun c hc => hw c (List.mem_cons_of_mem _ hc))
      (simp_roundStep_inv full walk pre st a (hw a (List.mem_cons_self _ _)) h)
    simpa using this

theorem simp_roundOn_inv (full : Bool) (walk : List Expr) :
    RoundInv full walk walk (roundOn full walk) := by
  have h0 : RoundInv full walk []
      { replacements := gatherReplacements walk
        currentSimplified := [], currentDependencies := [], changed := false } := by
    refine ⟨simp_repOK_gather walk, by simp, by simp [measure], by simp, ?_, ?_, ?_, ?_⟩
    · intro k; simp [mapFind]
    · intro e he; cases he
    · intro c hc; cases hc
    · intro k x hx; simp [depsOf, mapFind] at hx
  have := simp_round_foldl full walk walk [] _ (fun _ h => h) h0
  simpa [roundOn] using this

/-! ## Simplificator: the loop -/

theorem simp_initial_foldl (walk : List Expr) :
    ∀ acc : List Expr × List (Expr × List Expr),
      (∀ k, (mapFind k acc.2).isSome = true ↔ k ∈ acc.1) →
      (∀ k x, x ∈ depsOf acc.2 k ↔ (x = k ∧ k ∈ acc.1)) →
      let r := walk.foldl
        (fun acc constraint =>
          (setAdd constraint acc.1, mapInsert constraint [constraint] acc.2)) acc
      (∀ e, e ∈ r.1 ↔ e ∈ acc.1 ∨ e ∈ walk) ∧
        (∀ k x, x ∈ depsOf r.2 k ↔ (x = k ∧ k ∈ r.1)) ∧
        measure r.1 ≤ measure acc.1 + measure walk := by
  induction walk with
  | nil => intro acc _ h2; simp [measure]; exact h2
  | cons a walk ih =>
    intro acc h1 h2
    simp only [List.foldl_cons]
    have h1n : ∀ k, (mapFind k (setAdd a acc.1, mapInsert a [a] acc.2).2).isSome = true ↔
        k ∈ (setAdd a acc.1, mapInsert a [a] acc.2).1 := by
      intro k
      simp only [simp_mem_setAdd]
      by_cases hk : k = a
      · subst hk; simp [simp_mapFind_insert_self]
      · simp [simp_mapFind_insert_ne _ _ _ _ hk, hk, h1 k]
    have h2n : ∀ k x, x ∈ depsOf (setAdd a acc.1, mapInsert a [a] acc.2).2 k ↔
        (x = k ∧ k ∈ (setAdd a acc.1, mapInsert a [a] acc.2).1) := by
      intro k x
      simp only [simp_depsOf_mapInsert, simp_mem_setAdd, h2 k x, List.mem_singleton]
      constructor
      · rintro (⟨h3, _, h5⟩ | ⟨h3, h4⟩)
        · subst h3; exact ⟨h5, Or.inl rfl⟩
        · exact ⟨h3, Or.inr h4⟩
      · rintro ⟨h3, h4 | h4⟩
        · subst h4
          by_cases hin : k ∈ acc.1
          · exact Or.inr ⟨h3, hin⟩
          · left
            refine ⟨rfl, ?_, h3⟩
            cases hf : mapFind k acc.2 with
            | none => rfl
            | some y => exact absurd ((h1 k).1 (by simp [hf])) hin
        · exact Or.inr ⟨h3, h4⟩
    obtain ⟨r1, r2, r3⟩ := ih (setAdd a acc.1, mapInsert a [a] acc.2) h1n h2n
    refine ⟨?_, r2, ?_⟩
    · intro e
      rw [r1 e]
      simp only [simp_mem_setAdd, List.mem_cons]
      tauto
    · have := simp_measure_setAdd a acc.1
      have h3 : measure (a :: walk) = (2 * a.weight + 1) + measure walk := by
        simp [measure]
      simp only at r3
      omega

theorem simp_initial_spec (walk : List Expr) :
    (∀ e, e ∈ (initial walk).1 ↔ e ∈ walk) ∧
      (∀ k x, x ∈ depsOf (initial walk).2 k ↔ (x = k ∧ k ∈ walk)) ∧
      measure (initial walk).1 ≤ measure walk := by
  have := simp_initial_foldl walk ([], []) (by intro k; simp [mapFind])
    (by intro k x; simp [depsOf, mapFind])
  obtain ⟨h1, h2, h3⟩ := this
  refine ⟨?_, ?_, ?_⟩
  · intro e; simpa using h1 e
  · intro k x
    have := h2 k x
    rw [h1 k] at this
    simpa [initial] using this
  · simpa [measure, initial] using h3

theorem simp_find_of_depsOf (m : List (Expr × List Expr)) (k : Expr) (h : depsOf m k ≠ []) :
    (mapFind k m).isSome = true := by
  unfold depsOf at h
  cases hf : mapFind k m with
  | none => simp [hf] at h
  | some x => rfl

theorem simp_round_compose (order : List Expr → List Expr)
    (horder : ∀ l, (order l).Perm l) (full : Bool) (S : List Expr)
    (D : List (Expr × List Expr)) (hD : ∀ s ∈ S, depsOf D s ≠ []) :
    ∃ res, composeExprDependencies D (roundOn full (order S)).currentDependencies = some res ∧
      (∀ k x, x ∈ depsOf res k ↔
        ∃ d ∈ depsOf (roundOn full (order S)).currentDependencies k, x ∈ depsOf D d) ∧
      ∀ s ∈ (roundOn full (order S)).currentSimplified, depsOf res s ≠ [] := by
  have inv := simp_roundOn_inv full (order S)
  have hU : ∀ k d, d ∈ depsOf (roundOn full (order S)).currentDependencies k →
      (mapFind d D).isSome = true := by
    intro k d hd
    exact simp_find_of_depsOf D d (hD d ((horder S).mem_iff.1 (inv.sub k d hd)))
  obtain ⟨res, h1, h2⟩ := simp_compose_spec D _ inv.keys hU
  refine ⟨res, h1, h2, ?_⟩
  intro s hs
  obtain ⟨c, hc, _, _, _, _, hdc, _⟩ := inv.origin s hs
  have hne := hD c ((horder S).mem_iff.1 hc)
  obtain ⟨x, hx⟩ := List.exists_mem_of_ne_nil _ hne
  intro hnil
  have : x ∈ depsOf res s := (h2 s x).2 ⟨c, hdc, hx⟩
  rw [hnil] at this
  cases this

theorem simp_loop_returns (order : List Expr → List Expr)
    (horder : ∀ l, (order l).Perm l) (full : Bool) :
    ∀ fuel S D, measure S < fuel → (∀ s ∈ S, depsOf D s ≠ []) →
      ∃ r, simplifyLoop order full fuel S D = some r := by
  intro fuel
  induction fuel with
  | zero => intro S D h; omega
  | succ fuel ih =>
    intro S D hm hD
    simp only [simplifyLoop]
    have inv := simp_roundOn_inv full (order S)
    split
    · rename_i hch
      obtain ⟨res, h1, _, h3⟩ := simp_round_compose order horder full S D hD
      rw [h1]
      have hlt := inv.measure_lt hch
      rw [simp_measure_perm _ _ (horder S)] at hlt
      exact ih _ _ (by omega) h3
    · exact ⟨_, rfl⟩

/-- C36: `Simplificator::simplify` terminates for the policies `Simple` and `Full`: a round
that reports a change leaves a set of a strictly smaller measure (the sum over the
constraints of twice the number of nodes that are not constants, plus one) than the set it
walked, and with more fuel than the measure of the constraints `simplify` returns. -/
theorem simplify_terminates (order : List Expr → List Expr)
    (horder : ∀ l, (order l).Perm l) (policy : RewriteEqualitiesPolicy)
    (hpolicy : policy ≠ RewriteEqualitiesPolicy.None) (constraints : List Expr) :
    (∀ full walk, (roundOn full walk).changed = true →
        measure (roundOn full walk).currentSimplified < measure walk) ∧
      ∀ fuel, measure constraints < fuel →
        ∃ r, simplify order policy fuel constraints = some r := by
  refine ⟨fun full walk h => (simp_roundOn_inv full walk).measure_lt h, ?_⟩
  intro fuel hfuel
  obtain ⟨h1, h2, h3⟩ := simp_initial_spec (order constraints)
  have hm : measure (initial (order constraints)).1 < fuel := by
    rw [simp_measure_perm _ _ (horder constraints)] at h3
    omega
  have hD : ∀ s ∈ (initial (order constraints)).1,
      depsOf (initial (order constraints)).2 s ≠ [] := by
    intro s hs hnil
    have : s ∈ depsOf (initial (order constraints)).2 s := (h2 s s).2 ⟨rfl, (h1 s).1 hs⟩
    rw [hnil] at this
    cases this
  obtain ⟨r, hr⟩ := simp_loop_returns order horder
    (decide (policy = RewriteEqualitiesPolicy.Full)) fuel _ _ hm hD
  simp only [simplify, hpolicy, false_and, if_false, hr, Option.map_some']
  exact ⟨_, rfl⟩

theorem simplify_terminates_witness :
    (∀ l : List Expr, (id l).Perm l) ∧
      RewriteEqualitiesPolicy.Simple ≠ RewriteEqualitiesPolicy.None ∧
      measure [exampleX, exampleY, exampleZ] < 30 ∧
      ∃ r, simplify id RewriteEqualitiesPolicy.Simple 30 [exampleX, exampleY, exampleZ]
        = some r :=
  ⟨fun l => List.Perm.refl l, by decide, by decide,
    (simplify_terminates id (fun l => List.Perm.refl l) RewriteEqualitiesPolicy.Simple
      (by decide) [exampleX, exampleY, exampleZ]).2 30 (by decide)⟩

/-! ## Simplificator: the example of the specification -/

theorem simp_perm3 {α : Type} (a b c : α) (l : List α) (h : l.Perm [a, b, c]) :
    l = [a, b, c] ∨ l = [b, a, c] ∨ l = [c, b, a] ∨ l = [b, c, a] ∨ l = [c, a, b] ∨
      l = [a, c, b] := by
  have := List.mem_permutations.2 h
  simpa [List.permutations, List.permutationsAux, List.permutationsAux.rec,
    List.permutationsAux2] using this

theorem simp_initial_nodup (walk : List Expr) : (initial walk).1.Nodup := by
  have : ∀ acc : List Expr × List (Expr × List Expr), acc.1.Nodup →
      (walk.foldl (fun acc constraint =>
        (setAdd constraint acc.1, mapInsert constraint [constraint] acc.2)) acc).1.Nodup := by
    induction walk with
    | nil => intro acc h; exact h
    | cons a walk ih =>
      intro acc h
      simp only [List.foldl_cons]
      exact ih _ (simp_setAdd_nodup a acc.1 h)
  exact this ([], []) List.nodup_nil

theorem simp_example_round1 (l : List Expr) (h : l.Perm [exampleX, exampleY, exampleZ]) :
    (roundOn true l).changed = true ∧
      (roundOn true l).currentSimplified.Perm [exampleX, exampleY6, exampleZ] ∧
      (depsOf (roundOn true l).currentDependencies exampleX).Perm [exampleX] ∧
      (depsOf (roundOn true l).currentDependencies exampleY6).Perm [exampleX, exampleY] ∧
      (depsOf (roundOn true l).currentDependencies exampleZ).Perm [exampleZ] := by
  rcases simp_perm3 _ _ _ l h with h | h | h | h | h | h <;> subst h <;> decide

theorem simp_example_round2 (l : List Expr) (h : l.Perm [exampleX, exampleY6, exampleZ]) :
    (roundOn true l).changed = true ∧
      (roundOn true l).currentSimplified.Perm [exampleX, exampleY6, exampleZ8] ∧
      (depsOf (roundOn true l).currentDependencies exampleX).Perm [exampleX] ∧
      (depsOf (roundOn true l).currentDependencies exampleY6).Perm [exampleY6] ∧
      (depsOf (roundOn true l).currentDependencies exampleZ8).Perm [exampleY6, exampleZ] := by
  rcases simp_perm3 _ _ _ l h with h | h | h | h | h | h <;> subst h <;> decide

theorem simp_example_round3 (l : List Expr) (h : l.Perm [exampleX, exampleY6, exampleZ8]) :
    (roundOn true l).changed = false := by
  rcases simp_perm3 _ _ _ l h with h | h | h | h | h | h <;> subst h <;> decide

theorem simp_perm_of_mem3 (a b c : Expr) (hab : a ≠ b) (hac : a ≠ c) (hbc : b ≠ c)
    (l : List Expr) (hn : l.Nodup) (hm : ∀ e, e ∈ l ↔ e ∈ [a, b, c]) : l.Perm [a, b, c] := by
  refine (List.perm_ext_iff_of_nodup hn ?_).2 hm
  simp [hab, hac, hbc]

theorem simp_depsOf_erase (m : List (Expr × List Expr)) (key k : Expr) (hk : k ≠ key) :
    depsOf (mapErase key m) k = depsOf m k := by
  simp [depsOf, simp_mapFind_erase, hk]

theorem simp_example_loop (order : List Expr → List Expr)
    (horder : ∀ l, (order l).Perm l) (n : Nat) (S0 : List Expr)
    (D0 : List (Expr × List Expr)) (hS0 : S0.Perm [exampleX, exampleY, exampleZ])
    (hD0 : ∀ k x, x ∈ depsOf D0 k ↔ (x = k ∧ k ∈ [exampleX, exampleY, exampleZ])) :
    ∃ S D, simplifyLoop order true (n + 3) S0 D0 = some (S, D) ∧
      S.Perm [exampleX, exampleY6, exampleZ8] ∧
      (∀ x, x ∈ depsOf D exampleX ↔ x = exampleX) ∧
      (∀ x, x ∈ depsOf D exampleY6 ↔ x = exampleX ∨ x = exampleY) ∧
      (∀ x, x ∈ depsOf D exampleZ8 ↔ x = exampleX ∨ x = exampleY ∨ x = exampleZ) := by
  have hne0 : ∀ s ∈ S0, depsOf D0 s ≠ [] := by
    intro s hs hnil
    have : s ∈ depsOf D0 s := (hD0 s s).2 ⟨rfl, hS0.mem_iff.1 hs⟩
    rw [hnil] at this; cases this
  -- the first round
  obtain ⟨a1, a2, a3, a4, a5⟩ := simp_example_round1 (order S0) ((horder S0).trans hS0)
  obtain ⟨D1, c1, d1, ne1⟩ := simp_round_compose order horder true S0 D0 hne0
  have hD1x : ∀ x, x ∈ depsOf D1 exampleX ↔ x = exampleX := by
    intro x
    rw [d1]
    simp only [a3.mem_iff, hD0, List.mem_singleton, exists_eq_left]
    simp
  have hD1y : ∀ x, x ∈ depsOf D1 exampleY6 ↔ x = exampleX ∨ x = exampleY := by
    intro x
    rw [d1]
    simp only [a4.mem_iff, hD0]
    simp
  have hD1z : ∀ x, x ∈ depsOf D1 exampleZ ↔ x = exampleZ := by
    intro x
    rw [d1]
    simp only [a5.mem_iff, hD0, List.mem_singleton, exists_eq_left]
    simp
  -- the second round
  obtain ⟨b1, b2, b3, b4, b5⟩ := simp_example_round2
    (order (roundOn true (order S0)).currentSimplified) ((horder _).trans a2)
  obtain ⟨D2, c2, d2, ne2⟩ := simp_round_compose order horder true
    (roundOn true (order S0)).currentSimplified D1 ne1
  have hD2x : ∀ x, x ∈ depsOf D2 exampleX ↔ x = exampleX := by
    intro x
    rw [d2]
    simp only [b3.mem_iff, List.mem_singleton, exists_eq_left, hD1x]
  have hD2y : ∀ x, x ∈ depsOf D2 exampleY6 ↔ x = exampleX ∨ x = exampleY := by
    intro x
    rw [d2]
    simp only [b4.mem_iff, List.mem_singleton, exists_eq_left, hD1y]
  have hD2z : ∀ x, x ∈ depsOf D2 exampleZ8 ↔ x = exampleX ∨ x = exampleY ∨ x = exampleZ := by
    intro x
    rw [d2]
    simp only [b5.mem_iff, List.mem_cons, List.mem_singleton, List.not_mem_nil, or_false,
      exists_eq_or_imp, exists_eq_left, hD1y, hD1z, or_assoc]
  -- the third round
  have e1 := simp_example_round3
    (order (roundOn true (order (roundOn true (order S0)).currentSimplified)).currentSimplified)
    ((horder _).trans b2)
  refine ⟨(roundOn true (order (roundOn true (order S0)).currentSimplified)).currentSimplified,
    D2, ?_, b2, hD2x, hD2y, hD2z⟩
  simp only [simplifyLoop, a1, c1, b1, c2, e1, if_true, Bool.false_eq_true, if_false]

/-- C8: for the 32-bit symbolic values `x`, `y` and `z`, whatever the order in which the sets
are walked and with fuel for three rounds, `simplify({x = 5, y = x + 1, z = y + 2}, Full)`
returns the constraints `x = 5`, `y = 6` and `z = 8` and a dependency map that gives
`{x = 5}` for `x = 5`, `{x = 5, y = x + 1}` for `y = 6` and `{x = 5, y = x + 1, z = y + 2}`
for `z = 8`. -/
theorem simplify_example (order : List Expr → List Expr)
    (horder : ∀ l, (order l).Perm l) (fuel : Nat) (hfuel : 3 ≤ fuel) :
    ∃ S D, simplify order RewriteEqualitiesPolicy.Full fuel [exampleX, exampleY, exampleZ]
        = some (S, D) ∧
      (∀ e, e ∈ S ↔ e = exampleX ∨ e = exampleY6 ∨ e = exampleZ8) ∧
      (∀ x, x ∈ depsOf D exampleX ↔ x = exampleX) ∧
      (∀ x, x ∈ depsOf D exampleY6 ↔ x = exampleX ∨ x = exampleY) ∧
      (∀ x, x ∈ depsOf D exampleZ8 ↔ x = exampleX ∨ x = exampleY ∨ x = exampleZ) := by
  obtain ⟨n, rfl⟩ : ∃ n, fuel = n + 3 := ⟨fuel - 3, by omega⟩
  obtain ⟨i1, i2, _⟩ := simp_initial_spec (order [exampleX, exampleY, exampleZ])
  have hmem0 : ∀ e, e ∈ (initial (order [exampleX, exampleY, exampleZ])).1 ↔
      e ∈ [exampleX, exampleY, exampleZ] := fun e =>
    (i1 e).trans (horder _).mem_iff
  have hS0 : (initial (order [exampleX, exampleY, exampleZ])).1.Perm
      [exampleX, exampleY, exampleZ] :=
    simp_perm_of_mem3 _ _ _ (by decide) (by decide) (by decide) _
      (simp_initial_nodup _) hmem0
  have hD0 : ∀ k x, x ∈ depsOf (initial (order [exampleX, exampleY, exampleZ])).2 k ↔
      (x = k ∧ k ∈ [exampleX, exampleY, exampleZ]) := fun k x =>
    (i2 k x).trans (and_congr Iff.rfl (horder _).mem_iff)
  obtain ⟨S, D, h1, h2, h3, h4, h5⟩ := simp_example_loop order horder n _ _ hS0 hD0
  refine ⟨S.filter fun e => decide (e ≠ createTrue), mapErase createTrue D, ?_, ?_, ?_, ?_, ?_⟩
  · simp only [simplify, reduceCtorEq, false_and, if_false, decide_True, h1, Option.map_some']
  · intro e
    simp only [List.mem_filter, h2.mem_iff, decide_eq_true_eq, List.mem_cons,
      List.mem_singleton, List.not_mem_nil, or_false]
    constructor
    · exact fun h => h.1
    · intro h
      refine ⟨h, ?_⟩
      rcases h with h | h | h <;> subst h <;> decide
  · intro x
    rw [simp_depsOf_erase _ _ _ (by decide), h3]
  · intro x
    rw [simp_depsOf_erase _ _ _ (by decide), h4]
  · intro x
    rw [simp_depsOf_erase _ _ _ (by decide), h5]

theorem simplify_example_witness :
    (∀ l : List Expr, (id l).Perm l) ∧ 3 ≤ 3 ∧
      ∃ S D, simplify id RewriteEqualitiesPolicy.Full 3 [exampleX, exampleY, exampleZ]
          = some (S, D) ∧
        (∀ e, e ∈ S ↔ e = exampleX ∨ e = exampleY6 ∨ e = exampleZ8) ∧
        (∀ x, x ∈ depsOf D exampleX ↔ x = exampleX) ∧
        (∀ x, x ∈ depsOf D exampleY6 ↔ x = exampleX ∨ x = exampleY) ∧
        (∀ x, x ∈ depsOf D exampleZ8 ↔ x = exampleX ∨ x = exampleY ∨ x = exampleZ) :=
  ⟨fun l => List.Perm.refl l, le_refl 3,
    simplify_example id (fun l => List.Perm.refl l) 3 (le_refl 3)⟩

end Simplificator

namespace Simplificator
open Expr

/-! ## Simplificator: the values of expressions -/

theorem simp_canon_binary (op : BinOp) (l r : Expr) (h : (binary op l r).canon = true) :
    l.canon = true ∧ r.canon = true ∧ l.width = r.width ∧
      ¬ (op = BinOp.Eq ∧ l = createTrue) := by
  simp only [canon, Bool.and_eq_true, decide_eq_true_eq, Bool.not_eq_true', Bool.and_eq_false_iff,
    decide_eq_false_iff_not] at h
  obtain ⟨⟨⟨h1, h2⟩, h3⟩, h4⟩ := h
  refine ⟨h1, h2, h3, ?_⟩
  rintro ⟨h5, h6⟩
  rcases h4 with h4 | h4
  · exact h4 h5
  · exact h4 h6

theorem simp_canon_binary_intro (op : BinOp) (l r : Expr) (h1 : l.canon = true)
    (h2 : r.canon = true) (h3 : l.width = r.width) (h4 : ¬ (op = BinOp.Eq ∧ l = createTrue)) :
    (binary op l r).canon = true := by
  simp only [canon, Bool.and_eq_true, decide_eq_true_eq, Bool.not_eq_true',
    Bool.and_eq_false_iff, decide_eq_false_iff_not]
  refine ⟨⟨⟨h1, h2⟩, h3⟩, ?_⟩
  by_cases h5 : op = BinOp.Eq
  · right; intro h6; exact h4 ⟨h5, h6⟩
  · left; exact h5

theorem simp_canon_select (c t f : Expr) :
    (select c t f).canon = true ↔
      (c.canon = true ∧ t.canon = true ∧ f.canon = true ∧ c.width = 1 ∧ t.width = f.width) := by
  simp only [canon, Bool.and_eq_true, decide_eq_true_eq]
  tauto

theorem simp_two_pow_pos (w : Nat) : 0 < 2 ^ w := Nat.two_pow_pos w

theorem simp_eval_lt (a : Nat → Nat) (e : Expr) (h : e.canon = true) :
    e.eval a < 2 ^ e.width := by
  induction e with
  | const w v => simpa [canon, eval, width] using h
  | read w id => simp only [eval, width]; exact Nat.mod_lt _ (simp_two_pow_pos w)
  | binary op l r ihl ihr =>
    obtain ⟨h1, h2, h3, _⟩ := simp_canon_binary op l r h
    have hl := ihl h1
    have hr := ihr h2
    cases op with
    | Add => simp only [eval, width]; exact Nat.mod_lt _ (simp_two_pow_pos _)
    | And =>
      simp only [eval, width]
      have : l.eval a &&& r.eval a ≤ l.eval a := Nat.and_le_left
      have h5 : 2 ^ l.width ≤ 2 ^ max l.width r.width :=
        Nat.pow_le_pow_right (by decide) (le_max_left _ _)
      omega
    | Ult => simp only [eval, width]; split <;> decide
    | Eq => simp only [eval, width]; split <;> decide
  | not e ih =>
    have := ih (by simpa [canon] using h)
    have hp := simp_two_pow_pos e.width
    simp only [eval, width]
    omega
  | select c t f ihc iht ihf =>
    obtain ⟨_, h2, h3, _, h5⟩ := (simp_canon_select c t f).1 h
    have ht := iht h2
    have hf := ihf h3
    simp only [eval, width, h5, max_self]
    split
    · rw [← h5]; exact ht
    · exact hf

theorem simp_holds_true (a : Nat → Nat) : holds a createTrue := by
  simp [holds, createTrue, width, eval]

theorem simp_holds_const (a : Nat → Nat) (w v : Nat) :
    holds a (const w v) ↔ (w = 1 ∧ v = 1) := by
  simp [holds, width, eval]

theorem simp_land_one (x y : Nat) (hx : x < 2) (hy : y < 2) :
    x &&& y = 1 ↔ x = 1 ∧ y = 1 := by
  interval_cases x <;> interval_cases y <;> decide

theorem simp_holds_and (a : Nat → Nat) (l r : Expr)
    (h : (binary BinOp.And l r).canon = true) :
    holds a (binary BinOp.And l r) ↔ holds a l ∧ holds a r := by
  obtain ⟨h1, h2, h3, _⟩ := simp_canon_binary _ l r h
  have hl := simp_eval_lt a l h1
  have hr := simp_eval_lt a r h2
  simp only [holds, width, eval, ← h3, max_self]
  constructor
  · rintro ⟨hw, he⟩
    rw [hw] at hl
    rw [← h3, hw] at hr
    have := (simp_land_one _ _ (by simpa using hl) (by simpa using hr)).1 he
    exact ⟨⟨hw, this.1⟩, hw, this.2⟩
  · rintro ⟨⟨hw, he1⟩, _, he2⟩
    refine ⟨hw, ?_⟩
    rw [he1, he2]; decide

theorem simp_isCondition_iff (e : Expr) :
    e.isCondition = true ↔ (e.canon = true ∧ e.width = 1) := by
  simp [isCondition]

theorem simp_splitAnds_cond (e : Expr) (h : e.canon = true ∧ e.width = 1) :
    ∀ p ∈ splitAnds e, p.canon = true ∧ p.width = 1 := by
  induction e with
  | binary op l r ihl ihr =>
    cases op
    case And =>
      obtain ⟨hc, hw⟩ := h
      obtain ⟨h1, h2, h3, _⟩ := simp_canon_binary _ l r hc
      simp only [width, ← h3, max_self] at hw
      intro p hp
      simp only [splitAnds, List.mem_append] at hp
      rcases hp with hp | hp
      · exact ihl ⟨h1, hw⟩ p hp
      · exact ihr ⟨h2, by rw [← h3]; exact hw⟩ p hp
    all_goals
      intro p hp
      simp only [splitAnds, List.mem_singleton] at hp
      subst hp; exact h
  | _ =>
    intro p hp
    simp only [splitAnds, List.mem_singleton] at hp
    subst hp; exact h

theorem simp_holds_splitAnds (a : Nat → Nat) (e : Expr) (h : e.canon = true) :
    (∀ p ∈ splitAnds e, holds a p) ↔ holds a e := by
  induction e with
  | binary op l r ihl ihr =>
    cases op
    case And =>
      obtain ⟨h1, h2, _, _⟩ := simp_canon_binary _ l r h
      rw [simp_holds_and a l r h, ← ihl h1, ← ihr h2]
      simp only [splitAnds, List.mem_append]
      constructor
      · intro hp
        exact ⟨fun p hp1 => hp p (Or.inl hp1), fun p hp1 => hp p (Or.inr hp1)⟩
      · rintro ⟨hp1, hp2⟩ p (hp | hp)
        · exact hp1 p hp
        · exact hp2 p hp
    all_goals simp [splitAnds]
  | _ => simp [splitAnds]

/-! ## Simplificator: the `create` functions keep the value -/

theorem simp_eval_binary_congr (a : Nat → Nat) (op : BinOp) (l r l1 r1 : Expr)
    (hwl : l1.width = l.width) (hwr : r1.width = r.width) (hel : l1.eval a = l.eval a)
    (her : r1.eval a = r.eval a) :
    (binary op l1 r1).eval a = (binary op l r).eval a ∧
      (binary op l1 r1).width = (binary op l r).width := by
  cases op <;> simp [eval, width, hwl, hwr, hel, her]

theorem simp_mkNot_sound (e : Expr) (h : e.canon = true) :
    (mkNot e).canon = true ∧ (mkNot e).width = (Expr.not e).width ∧
      ∀ a, (mkNot e).eval a = (Expr.not e).eval a := by
  cases e with
  | const w v =>
    have hp := simp_two_pow_pos w
    refine ⟨?_, rfl, fun a => rfl⟩
    simp only [mkNot, canon, decide_eq_true_eq]
    omega
  | read w id => exact ⟨h, rfl, fun a => rfl⟩
  | binary op l r => exact ⟨h, rfl, fun a => rfl⟩
  | not e => exact ⟨h, rfl, fun a => rfl⟩
  | select c t f => exact ⟨h, rfl, fun a => rfl⟩

theorem simp_mkEqConst_sound (w v : Nat) (r : Expr) (hv : v < 2 ^ w) (hr : r.canon = true)
    (hw : w = r.width) :
    (mkEqConst w v r).canon = true ∧ (mkEqConst w v r).width = 1 ∧
      ∀ a, (mkEqConst w v r).eval a = (binary BinOp.Eq (const w v) r).eval a := by
  unfold mkEqConst
  split
  · rename_i h
    obtain ⟨h1, h2, h3⟩ := h
    refine ⟨hr, h3, ?_⟩
    intro a
    have := simp_eval_lt a r hr
    rw [h3] at this
    simp only [eval, width, h1, h2, h3, true_and]
    have h4 : r.eval a = 0 ∨ r.eval a = 1 := by omega
    rcases h4 with h4 | h4 <;> simp [h4]
  · rename_i h
    refine ⟨?_, rfl, fun a => rfl⟩
    refine simp_canon_binary_intro _ _ _ (by simpa [canon] using hv) hr (by simpa [width] using hw) ?_
    rintro ⟨_, h2⟩
    simp only [createTrue, const.injEq] at h2
    exact h ⟨h2.1, h2.2, by rw [← hw]; exact h2.1⟩

theorem simp_mkBinary_sound (op : BinOp) (l r : Expr) (hl : l.canon = true)
    (hr : r.canon = true) (hw : l.width = r.width) :
    (mkBinary op l r).canon = true ∧ (mkBinary op l r).width = (binary op l r).width ∧
      ∀ a, (mkBinary op l r).eval a = (binary op l r).eval a := by
  have hdefault : ∀ op1, ¬ (op1 = BinOp.Eq ∧ l = createTrue) →
      (binary op1 l r).canon = true ∧ (binary op1 l r).width = (binary op1 l r).width ∧
        ∀ a, (binary op1 l r).eval a = (binary op1 l r).eval a := fun op1 h =>
    ⟨simp_canon_binary_intro op1 l r hl hr hw h, rfl, fun a => rfl⟩
  unfold mkBinary
  split
  · rename_i w1 v1 w2 v2
    refine ⟨?_, rfl, fun a => rfl⟩
    simp only [canon, decide_eq_true_eq]
    exact Nat.mod_lt _ (simp_two_pow_pos _)
  · rename_i w1 v1 w2 v2
    refine ⟨?_, rfl, fun a => rfl⟩
    simp only [canon, decide_eq_true_eq] at hl ⊢
    have : v1 &&& v2 ≤ v1 := Nat.and_le_left
    have h5 : 2 ^ w1 ≤ 2 ^ max w1 w2 := Nat.pow_le_pow_right (by decide) (le_max_left _ _)
    omega
  · refine ⟨?_, rfl, fun a => rfl⟩
    simp only [canon, decide_eq_true_eq]
    split <;> decide
  · refine ⟨?_, rfl, fun a => rfl⟩
    simp only [canon, decide_eq_true_eq]
    split <;> decide
  · obtain ⟨h1, h2, h3⟩ := simp_mkEqConst_sound _ _ r (by simpa [canon] using hl) hr
      (by simpa [width] using hw)
    exact ⟨h1, by rw [h2]; rfl, h3⟩
  · obtain ⟨h1, h2, h3⟩ := simp_mkEqConst_sound _ _ l (by simpa [canon] using hr) hl
      (by simpa [width] using hw.symm)
    refine ⟨h1, by rw [h2]; rfl, ?_⟩
    intro a
    rw [h3 a]
    simp only [eval, width]
    congr 1
    apply propext
    constructor
    · rintro ⟨h4, h5⟩; exact ⟨h4.symm, h5.symm⟩
    · rintro ⟨h4, h5⟩; exact ⟨h4.symm, h5.symm⟩
  · rename_i hnl hnr _
    split
    · rename_i heq
      subst heq
      refine ⟨by decide, rfl, ?_⟩
      intro a
      simp [eval, createTrue]
    · refine hdefault _ ?_
      rintro ⟨_, h2⟩
      exact hnl 1 1 (by rw [h2]; rfl)
  · rename_i hne _ _ _ _ _ _
    refine hdefault _ ?_
    rintro ⟨h1, _⟩
    exact hne h1

theorem simp_mkSelect_sound (c t f : Expr) (hc : c.canon = true) (ht : t.canon = true)
    (hf : f.canon = true) (hcw : c.width = 1) (hw : t.width = f.width) :
    (mkSelect c t f).canon = true ∧ (mkSelect c t f).width = (select c t f).width ∧
      ∀ a, (mkSelect c t f).eval a = (select c t f).eval a := by
  unfold mkSelect
  split
  · rename_i hconst
    cases c with
    | const w v =>
      simp only [Expr.isTrue, decide_eq_true_eq]
      split
      · rename_i h
        refine ⟨ht, by simp [width, hw], ?_⟩
        intro a; simp [eval, width, h.1, h.2]
      · rename_i h
        refine ⟨hf, by simp [width, hw], ?_⟩
        intro a
        simp only [eval, width]
        rw [if_neg h]
    | _ => simp [isConstant] at hconst
  · split
    · rename_i heq
      subst heq
      refine ⟨ht, by simp [width], ?_⟩
      intro a; simp [eval]
    · exact ⟨(simp_canon_select c t f).2 ⟨hc, ht, hf, hcw, hw⟩, rfl, fun a => rfl⟩

/-! ## Simplificator: a visit keeps the value -/

theorem simp_keyOf_cases (p : Expr) :
    (∃ w v r, p = binary BinOp.Eq (const w v) r ∧ keyOf p = r ∧ valOf p = const w v) ∨
      (keyOf p = p ∧ valOf p = createTrue ∧ ∀ w v r, p ≠ binary BinOp.Eq (const w v) r) := by
  unfold keyOf valOf
  split
  · rename_i w v r
    exact Or.inl ⟨w, v, r, rfl, rfl, rfl⟩
  · rename_i h
    right
    refine ⟨rfl, rfl, ?_⟩
    intro w v r hp
    exact h w v r hp

theorem simp_valOf_sound (p : Expr) (hc : p.canon = true) (hw : p.width = 1) :
    (valOf p).canon = true ∧ (valOf p).width = (keyOf p).width ∧
      ∀ a, holds a p → (valOf p).eval a = (keyOf p).eval a := by
  rcases simp_keyOf_cases p with ⟨w, v, r, hp, hk, hv⟩ | ⟨hk, hv, _⟩
  · rw [hk, hv]
    subst hp
    obtain ⟨h1, _, h3, _⟩ := simp_canon_binary _ _ _ hc
    refine ⟨h1, h3, ?_⟩
    intro a ha
    simp only [holds, eval, width] at ha
    by_cases h : w = r.width ∧ v = r.eval a
    · simp only [eval]; exact h.2
    · rw [if_neg h] at ha; exact absurd ha.2 (by decide)
  · rw [hk, hv]
    refine ⟨by decide, by rw [hw]; rfl, ?_⟩
    intro a ha
    rw [ha.2]; rfl

theorem simp_visitExpr_parent (R : Replacements) (e : Expr) (d : List Expr)
    (res : Expr × List Expr) (h : visitExpr R e d = some res) (p : Expr)
    (hp : mapFind e R.equalitiesParents = some p) : p ∈ res.2 := by
  unfold visitExpr at h
  cases h1 : mapFind e R.equalities with
  | none => simp [h1] at h
  | some v =>
    simp only [h1, hp, Option.some.injEq] at h
    subst h
    simp [simp_mem_setAdd]

theorem simp_hit_sound (walk : List Expr) (R : Replacements) (hR : RepOK walk R)
    (hW : ∀ p ∈ walk, p.canon = true ∧ p.width = 1) (e : Expr) (d : List Expr)
    (res : Expr × List Expr) (h : visitExpr R e d = some res) : Sound e res := by
  obtain ⟨h1, _⟩ := simp_visitExpr_some R e d res h
  rcases hR e with ⟨h2, _⟩ | ⟨p, hp, hk, h2, h3⟩
  · rw [h2] at h1; cases h1
  · rw [h2] at h1
    simp only [Option.some.injEq] at h1
    obtain ⟨c1, c2, c3⟩ := simp_valOf_sound p (hW p hp).1 (hW p hp).2
    rw [hk] at c2 c3
    rw [h1] at c1 c2 c3
    refine ⟨c1, c2, ?_⟩
    intro a ha
    exact c3 a (ha p (simp_visitExpr_parent R e d res h p h3))

theorem simp_finish_sound (walk : List Expr) (R : Replacements) (hR : RepOK walk R)
    (hW : ∀ p ∈ walk, p.canon = true ∧ p.width = 1) (e rebuilt : Expr) (changed : Bool)
    (d : List Expr) (he : e.canon = true)
    (hr : changed = true → rebuilt.canon = true ∧ rebuilt.width = e.width ∧
      ∀ a, (∀ p ∈ d, holds a p) → rebuilt.eval a = e.eval a) :
    Sound e (finish R e rebuilt changed d) := by
  have h1 : (if changed = true then rebuilt else e).canon = true ∧
      (if changed = true then rebuilt else e).width = e.width ∧
      ∀ a, (∀ p ∈ d, holds a p) → (if changed = true then rebuilt else e).eval a = e.eval a := by
    cases changed with
    | true => exact hr rfl
    | false => exact ⟨he, rfl, fun a _ => rfl⟩
  rw [simp_finish_eq]
  generalize (if changed = true then rebuilt else e) = e1 at h1 ⊢
  obtain ⟨c1, c2, c3⟩ := h1
  split
  · exact ⟨c1, c2, c3⟩
  · cases h : visitExpr R e1 d with
    | none => exact ⟨c1, c2, c3⟩
    | some res =>
      obtain ⟨s1, s2, s3⟩ := simp_hit_sound walk R hR hW e1 d res h
      refine ⟨s1, s2.trans c2, ?_⟩
      intro a ha
      rw [s3 a ha]
      exact c3 a (fun p hp => ha p (simp_visitExpr_mono R e1 d res h p hp))

theorem simp_visit_sound (full : Bool) (walk : List Expr) (R : Replacements)
    (hR : RepOK walk R) (hW : ∀ p ∈ walk, p.canon = true ∧ p.width = 1) (e : Expr)
    (he : e.canon = true) : ∀ d, Sound e (visit full R e d) := by
  induction e with
  | const w v => intro d; exact ⟨he, rfl, fun a _ => rfl⟩
  | read w id =>
    intro d
    simp only [visit]
    cases h : visitExpr R (Expr.read w id) d with
    | some res => exact simp_hit_sound walk R hR hW _ d res h
    | none => exact simp_finish_sound walk R hR hW _ _ _ _ he (by simp)
  | binary op l r ihl ihr =>
    intro d
    obtain ⟨hl, hr, hw, _⟩ := simp_canon_binary op l r he
    simp only [visit]
    cases h : visitExpr R (Expr.binary op l r) d with
    | some res => exact simp_hit_sound walk R hR hW _ d res h
    | none =>
      obtain ⟨l1, l2, l3⟩ := ihl hl d
      obtain ⟨r1, r2, r3⟩ := ihr hr (visit full R l d).2
      refine simp_finish_sound walk R hR hW _ _ _ _ he ?_
      intro _
      obtain ⟨m1, m2, m3⟩ := simp_mkBinary_sound op _ _ l1 r1 (by rw [l2, r2, hw])
      have hwid : (binary op (visit full R l d).1 (visit full R r (visit full R l d).2).1).width
          = (binary op l r).width := by
        cases op <;> simp [width, l2, r2]
      refine ⟨m1, m2.trans hwid, ?_⟩
      intro a ha
      rw [m3 a]
      exact (simp_eval_binary_congr a op l r _ _ l2 r2
        (l3 a (fun p hp => ha p (simp_visit_mono full R r _ p hp))) (r3 a ha)).1
  | not e ih =>
    intro d
    have hc : e.canon = true := by simpa [canon] using he
    simp only [visit]
    cases h : visitExpr R (Expr.not e) d with
    | some res => exact simp_hit_sound walk R hR hW _ d res h
    | none =>
      obtain ⟨l1, l2, l3⟩ := ih hc d
      refine simp_finish_sound walk R hR hW _ _ _ _ he ?_
      intro _
      obtain ⟨m1, m2, m3⟩ := simp_mkNot_sound _ l1
      refine ⟨m1, by rw [m2]; simp only [width]; exact l2, ?_⟩
      intro a ha
      rw [m3 a]
      simp only [eval, l2, l3 a ha]
  | select c t f ihc iht ihf =>
    intro d
    obtain ⟨hc, ht, hf, hcw, htf⟩ := (simp_canon_select c t f).1 he
    simp only [visit]
    cases h : visitExpr R (Expr.select c t f) d with
    | some res => exact simp_hit_sound walk R hR hW _ d res h
    | none =>
      simp only
      obtain ⟨c1, c2, c3⟩ := ihc hc d
      obtain ⟨t1, t2, t3⟩ := iht ht (visit full R c d).2
      have hrebuilt : ∀ f1 : Expr × List Expr, Sound f f1 →
          (∀ p, p ∈ (visit full R t (visit full R c d).2).2 → p ∈ f1.2) →
          (mkSelect (visit full R c d).1 (visit full R t (visit full R c d).2).1 f1.1).canon
              = true ∧
            (mkSelect (visit full R c d).1 (visit full R t (visit full R c d).2).1 f1.1).width
              = (Expr.select c t f).width ∧
            ∀ a, (∀ p ∈ f1.2, holds a p) →
              (mkSelect (visit full R c d).1 (visit full R t (visit full R c d).2).1 f1.1).eval a
                = (Expr.select c t f).eval a := by
        intro f1 hf1 hmono
        obtain ⟨f1c, f1w, f1e⟩ := hf1
        obtain ⟨m1, m2, m3⟩ := simp_mkSelect_sound _ _ _ c1 t1 f1c (c2.trans hcw)
          (by rw [t2, f1w, htf])
        refine ⟨m1, by rw [m2]; simp only [width, t2, f1w], ?_⟩
        intro a ha
        rw [m3 a]
        have e2 := t3 a (fun p hp => ha p (hmono p hp))
        have e1 := c3 a (fun p hp => ha p (hmono p (simp_visit_mono full R t _ p hp)))
        simp only [eval, c2, e1, e2, f1e a ha]
      cases full with
      | true =>
        simp only [if_true]
        split
        · rename_i hconst
          split
          · rename_i htrue
            refine ⟨t1, by rw [t2]; simp [width, htf], ?_⟩
            intro a ha
            rw [t3 a ha]
            have e1 := c3 a (fun p hp => ha p (simp_visit_mono true R t _ p hp))
            cases hv : (visit true R c d).1 with
            | const w v =>
              rw [hv] at htrue e1 c2
              simp only [Expr.isTrue, decide_eq_true_eq] at htrue
              simp only [eval, width] at e1 c2
              simp only [eval, ← e1, hcw, htrue.2, and_self, if_true]
            | _ => rw [hv] at hconst; simp [isConstant] at hconst
          · rename_i htrue
            obtain ⟨f1, f2, f3⟩ := ihf hf (visit true R c d).2
            refine ⟨f1, by rw [f2]; simp [width, htf], ?_⟩
            intro a ha
            rw [f3 a ha]
            have e1 := c3 a (fun p hp => ha p (simp_visit_mono true R f _ p hp))
            cases hv : (visit true R c d).1 with
            | const w v =>
              rw [hv] at htrue e1 c2
              simp only [Expr.isTrue, decide_eq_true_eq] at htrue
              simp only [eval, width] at e1 c2
              have : ¬ (c.width = 1 ∧ c.eval a = 1) := by
                rintro ⟨h5, h6⟩
                exact htrue ⟨c2.trans h5, e1.trans h6⟩
              simp only [eval, if_neg this]
            | _ => rw [hv] at hconst; simp [isConstant] at hconst
        · have hf1 := ihf hf (visit true R t (visit true R c d).2).2
          obtain ⟨m1, m2, m3⟩ := hrebuilt _ hf1 (fun p hp => simp_visit_mono true R f _ p hp)
          split
          · cases h5 : visitExpr R (mkSelect (visit true R c d).1
                (visit true R t (visit true R c d).2).1
                (visit true R f (visit true R t (visit true R c d).2).2).1)
                (visit true R f (visit true R t (visit true R c d).2).2).2 with
            | none => exact ⟨m1, m2, m3⟩
            | some res =>
              obtain ⟨s1, s2, s3⟩ := simp_hit_sound walk R hR hW _ _ res h5
              refine ⟨s1, s2.trans m2, ?_⟩
              intro a ha
              rw [s3 a ha]
              exact m3 a (fun p hp => ha p (simp_visitExpr_mono R _ _ res h5 p hp))
          · exact ⟨he, rfl, fun a _ => rfl⟩
      | false =>
        simp only [Bool.false_eq_true, if_false]
        have hf1 := ihf hf (visit false R t (visit false R c d).2).2
        refine simp_finish_sound walk R hR hW _ _ _ _ he ?_
        intro _
        exact hrebuilt _ hf1 (fun p hp => simp_visit_mono false R f _ p hp)

/-! ## Simplificator: a round keeps the satisfying assignments -/

theorem simp_round_cond (full : Bool) (walk : List Expr)
    (hW : ∀ p ∈ walk, p.canon = true ∧ p.width = 1) :
    ∀ e ∈ (roundOn full walk).currentSimplified, e.canon = true ∧ e.width = 1 := by
  intro e he
  obtain ⟨c, hc, R, hR, _, hpart, _, _⟩ := (simp_roundOn_inv full walk).origin e he
  obtain ⟨s1, s2, _⟩ := simp_visit_sound full walk R hR hW c (hW c hc).1 []
  exact simp_splitAnds_cond _ ⟨s1, s2.trans (hW c hc).2⟩ e hpart

theorem simp_round_deps_sound (full : Bool) (walk : List Expr)
    (hW : ∀ p ∈ walk, p.canon = true ∧ p.width = 1) :
    ∀ e ∈ (roundOn full walk).currentSimplified, ∀ a,
      (∀ x ∈ depsOf (roundOn full walk).currentDependencies e, holds a x) → holds a e := by
  intro e he a ha
  obtain ⟨c, hc, R, hR, _, hpart, hcd, hdeps⟩ := (simp_roundOn_inv full walk).origin e he
  obtain ⟨s1, s2, s3⟩ := simp_visit_sound full walk R hR hW c (hW c hc).1 []
  have hc1 : holds a c := ha c hcd
  have hout : holds a (visit full R c []).1 :=
    ⟨s2.trans (hW c hc).2, (s3 a (fun p hp => ha p (hdeps p hp))).trans hc1.2⟩
  exact (simp_holds_splitAnds a _ s1).2 hout e hpart

theorem simp_round_forward (full : Bool) (walk : List Expr)
    (hW : ∀ p ∈ walk, p.canon = true ∧ p.width = 1) (a : Nat → Nat)
    (ha : ∀ c ∈ walk, holds a c) :
    ∀ e ∈ (roundOn full walk).currentSimplified, holds a e := by
  intro e he
  refine simp_round_deps_sound full walk hW e he a ?_
  intro x hx
  exact ha x ((simp_roundOn_inv full walk).sub e x hx)

theorem simp_root_hit (walk : List Expr) (R : Replacements) (hR : RepOK walk R)
    (hW : ∀ p ∈ walk, p.canon = true ∧ p.width = 1) (a : Nat → Nat) (w v : Nat) (r val : Expr)
    (h : mapFind (binary BinOp.Eq (const w v) r) R.equalities = some val)
    (hv : holds a val) : False := by
  rcases hR (binary BinOp.Eq (const w v) r) with ⟨h2, _⟩ | ⟨p, hp, hk, h2, _⟩
  · rw [h2] at h; cases h
  · rw [h2] at h
    simp only [Option.some.injEq] at h
    rcases simp_keyOf_cases p with ⟨w1, v1, r1, hpe, hk1, hv1⟩ | ⟨hk1, _, hne⟩
    · rw [← h, hv1, simp_holds_const] at hv
      obtain ⟨rfl, rfl⟩ := hv
      have := (simp_canon_binary _ _ _ (hpe ▸ (hW p hp).1)).2.2.2
      exact this ⟨rfl, rfl⟩
    · rw [hk1] at hk
      exact hne w v r hk

theorem simp_mkBinary_eq_const (w v : Nat) (r : Expr) (hr : r.isConstant = false)
    (hc : (binary BinOp.Eq (const w v) r).canon = true) :
    mkBinary BinOp.Eq (const w v) r = binary BinOp.Eq (const w v) r := by
  have hne := (simp_canon_binary _ _ _ hc).2.2.2
  have : mkBinary BinOp.Eq (const w v) r = mkEqConst w v r := by
    cases r with
    | const w1 v1 => simp [isConstant] at hr
    | _ => rfl
  rw [this]
  unfold mkEqConst
  split
  · rename_i h
    exact absurd ⟨rfl, by rw [h.1, h.2.1]; rfl⟩ hne
  · rfl

theorem simp_back_step (full : Bool) (walk : List Expr) (R : Replacements)
    (hR : RepOK walk R) (hW : ∀ p ∈ walk, p.canon = true ∧ p.width = 1) (a : Nat → Nat)
    (c : Expr) (hc : c ∈ walk) (hno : mapFind (keyOf c) R.equalities = none)
    (hout : holds a (visit full R c []).1)
    (ih : ∀ p ∈ walk, (keyOf p).weight < (keyOf c).weight → holds a p) : holds a c := by
  have hvals := simp_repOK_vals walk R hR
  -- the dependencies of a visit of an expression that weighs no more than the key hold
  have hdeps : ∀ e : Expr, e.weight ≤ (keyOf c).weight →
      mapFind e R.equalities = none →
      ∀ p ∈ (visit full R e []).2, holds a p := by
    intro e hle hnone p hp
    rcases simp_visit_deps full R hvals e [] p hp with h | ⟨k, h1, h2, h3⟩
    · cases h
    · obtain ⟨hpw, hpk, _⟩ := simp_repOK_parent walk R hR k p h1
      rcases h3 with h3 | h3
      · exact ih p hpw (by rw [hpk]; omega)
      · subst h3
        rw [hnone] at h2; cases h2
  rcases simp_keyOf_cases c with ⟨w, v, r, hce, hk, _⟩ | ⟨hk, _, _⟩
  · subst hce
    rw [hk] at hno
    have hcanon := (hW _ hc).1
    obtain ⟨_, hrc, hwr, _⟩ := simp_canon_binary _ _ _ hcanon
    simp only [visit] at hout
    cases h : visitExpr R (binary BinOp.Eq (const w v) r) [] with
    | some res =>
      rw [h] at hout
      exact (simp_root_hit walk R hR hW a w v r res.1
        (simp_visitExpr_some R _ _ res h).1 hout).elim
    | none =>
      rw [h] at hout
      simp only [ne_eq, not_true_eq_false, decide_False, Bool.false_or] at hout
      have hd := hdeps r (by rw [hk]) hno
      obtain ⟨s1, s2, s3⟩ := simp_visit_sound full walk R hR hW r hrc []
      have hev := s3 a hd
      rw [simp_finish_eq] at hout
      by_cases hch : (visit full R r []).1 = r
      · simp only [hch, not_true_eq_false, decide_False, Bool.false_eq_true, if_false,
          isConstant] at hout
        have hn2 : visitExpr R (binary BinOp.Eq (const w v) r) (visit full R r []).2 = none :=
          (simp_visitExpr_none R _ _).2 ((simp_visitExpr_none R _ _).1 h)
        rw [hn2] at hout
        exact hout
      · simp only [hch, not_false_eq_true, decide_True, if_true] at hout
        obtain ⟨m1, m2, m3⟩ := simp_mkBinary_sound BinOp.Eq (const w v) (visit full R r []).1
          (by simpa [canon] using (simp_canon_binary _ _ _ hcanon).1) s1
          (by rw [s2]; exact hwr)
        have hfinal : holds a (mkBinary BinOp.Eq (const w v) (visit full R r []).1) →
            holds a (binary BinOp.Eq (const w v) r) := by
          intro hm
          refine ⟨rfl, ?_⟩
          rw [← hm.2, m3 a]
          exact ((simp_eval_binary_congr a BinOp.Eq (const w v) r (const w v) _ rfl s2 rfl
            hev).1).symm
        split at hout
        · exact hfinal hout
        · rename_i hnc
          cases h5 : visitExpr R (mkBinary BinOp.Eq (const w v) (visit full R r []).1)
              (visit full R r []).2 with
          | none => rw [h5] at hout; exact hfinal hout
          | some res =>
            rw [h5] at hout
            have hrn : (visit full R r []).1.isConstant = false := by
              cases hv : (visit full R r []).1 with
              | const w1 v1 =>
                rw [hv] at hnc
                exact absurd rfl hnc
              | _ => rfl
            have hcan2 : (binary BinOp.Eq (const w v) (visit full R r []).1).canon = true :=
              simp_canon_binary_intro _ _ _ (simp_canon_binary _ _ _ hcanon).1 s1
                (by rw [s2]; exact hwr) (simp_canon_binary _ _ _ hcanon).2.2.2
            have hform := simp_mkBinary_eq_const w v _ hrn hcan2
            have hfind := (simp_visitExpr_some R _ _ res h5).1
            rw [hform] at hfind
            exact (simp_root_hit walk R hR hW a w v _ res.1 hfind hout).elim
  · rw [hk] at hno
    have hd := hdeps c (by rw [hk]) hno
    obtain ⟨_, s2, s3⟩ := simp_visit_sound full walk R hR hW c (hW c hc).1 []
    exact ⟨(hW c hc).2, (s3 a hd).symm.trans hout.2⟩

theorem simp_round_backward (full : Bool) (walk : List Expr)
    (hW : ∀ p ∈ walk, p.canon = true ∧ p.width = 1) (a : Nat → Nat)
    (ha : ∀ e ∈ (roundOn full walk).currentSimplified, holds a e) :
    ∀ c ∈ walk, holds a c := by
  have key : ∀ n, ∀ c ∈ walk, (keyOf c).weight < n → holds a c := by
    intro n
    induction n with
    | zero => intro c _ h; omega
    | succ n ih =>
      intro c hc hlt
      obtain ⟨R, hR, hno, hparts⟩ := (simp_roundOn_inv full walk).cover c hc
      obtain ⟨s1, _, _⟩ := simp_visit_sound full walk R hR hW c (hW c hc).1 []
      have hout : holds a (visit full R c []).1 :=
        (simp_holds_splitAnds a _ s1).1 (fun p hp => ha p (hparts p hp))
      exact simp_back_step full walk R hR hW a c hc hno hout
        (fun p hp hw => ih p hp (by omega))
  intro c hc
  exact key _ c hc (Nat.lt_succ_self _)

/-! ## Simplificator: the result of `simplify` -/

theorem simp_loop_step (order : List Expr → List Expr)
    (horder : ∀ l, (order l).Perm l) (full : Bool) (C S : List Expr)
    (D : List (Expr × List Expr)) (h : LoopInv C S D) :
    ∃ res, composeExprDependencies D (roundOn full (order S)).currentDependencies = some res ∧
      LoopInv C (roundOn full (order S)).currentSimplified res := by
  obtain ⟨res, h1, h2, h3⟩ := simp_round_compose order horder full S D h.nonempty
  have hW : ∀ p ∈ order S, p.canon = true ∧ p.width = 1 := fun p hp =>
    h.cond p ((horder S).mem_iff.1 hp)
  have inv := simp_roundOn_inv full (order S)
  refine ⟨res, h1, ?_, ?_, h3, ?_, ?_⟩
  · exact simp_round_cond full (order S) hW
  · intro a
    rw [h.equiv a]
    constructor
    · intro ha
      exact simp_round_forward full (order S) hW a
        (fun c hc => ha c ((horder S).mem_iff.1 hc))
    · intro ha s hs
      exact simp_round_backward full (order S) hW a ha s ((horder S).mem_iff.2 hs)
  · intro s _ x hx
    obtain ⟨d, hd, hxd⟩ := (h2 s x).1 hx
    exact h.sub d ((horder S).mem_iff.1 (inv.sub s d hd)) x hxd
  · intro s hs a ha
    refine simp_round_deps_sound full (order S) hW s hs a ?_
    intro d hd
    refine h.sound d ((horder S).mem_iff.1 (inv.sub s d hd)) a ?_
    intro x hx
    exact ha x ((h2 s x).2 ⟨d, hd, hx⟩)

theorem simp_loop_sound (order : List Expr → List Expr)
    (horder : ∀ l, (order l).Perm l) (full : Bool) (C : List Expr) :
    ∀ fuel S D, measure S < fuel → LoopInv C S D →
      ∃ S1 D1, simplifyLoop order full fuel S D = some (S1, D1) ∧ LoopInv C S1 D1 := by
  intro fuel
  induction fuel with
  | zero => intro S D h; omega
  | succ fuel ih =>
    intro S D hm hinv
    simp only [simplifyLoop]
    split
    · rename_i hch
      obtain ⟨res, h1, h2⟩ := simp_loop_step order horder full C S D hinv
      rw [h1]
      have hlt := (simp_roundOn_inv full (order S)).measure_lt hch
      rw [simp_measure_perm _ _ (horder S)] at hlt
      exact ih _ _ (by omega) h2
    · exact ⟨S, D, rfl, hinv⟩

theorem simp_initial_inv (C : List Expr) (walk : List Expr) (hw : ∀ e, e ∈ walk ↔ e ∈ C)
    (hC : ∀ c ∈ C, c.isCondition = true) : LoopInv C (initial walk).1 (initial walk).2 := by
  obtain ⟨h1, h2, _⟩ := simp_initial_spec walk
  refine ⟨?_, ?_, ?_, ?_, ?_⟩
  · intro s hs
    exact (simp_isCondition_iff s).1 (hC s ((hw s).1 ((h1 s).1 hs)))
  · intro a
    constructor
    · intro ha s hs; exact ha s ((hw s).1 ((h1 s).1 hs))
    · intro ha c hc; exact ha c ((h1 c).2 ((hw c).2 hc))
  · intro s hs hnil
    have : s ∈ depsOf (initial walk).2 s := (h2 s s).2 ⟨rfl, (h1 s).1 hs⟩
    rw [hnil] at this; cases this
  · intro s hs d hd
    obtain ⟨rfl, hk⟩ := (h2 s d).1 hd
    exact (hw d).1 hk
  · intro s _ a ha
    exact ha s ((h2 s s).2 ⟨rfl, (h1 s).1 ‹_›⟩)

/-- On the term `true = (x = 5)`, which is not an expression as the `create` functions
build it, the rewriting loses the constraint `x = 5`: the hypothesis of `simplify_sound` on
the constraints is needed. -/
theorem simp_raw_wrapper :
    simplify id RewriteEqualitiesPolicy.Full 3
        [exampleX, binary BinOp.Eq createTrue exampleX] = some ([], []) ∧
      (binary BinOp.Eq createTrue exampleX).isCondition = false := by
  decide

/-- C7: for a set `constraints` of constraints (expressions of width 1 as the `create`
functions build them), a policy `Simple` or `Full` and enough fuel, `simplify` returns a set
`S` and a map `D` such that an assignment satisfies every constraint of `constraints` iff it
satisfies every constraint of `S`, `D` has an entry for each constraint of `S`, each `D[s]`
is a subset of `constraints`, and every assignment that satisfies `D[s]` satisfies `s`. -/
theorem simplify_sound (order : List Expr → List Expr)
    (horder : ∀ l, (order l).Perm l) (policy : RewriteEqualitiesPolicy)
    (hpolicy : policy ≠ RewriteEqualitiesPolicy.None) (constraints : List Expr)
    (hC : ∀ c ∈ constraints, c.isCondition = true) (fuel : Nat)
    (hfuel : measure constraints < fuel) :
    ∃ S D, simplify order policy fuel constraints = some (S, D) ∧
      (∀ a, (∀ c ∈ constraints, holds a c) ↔ (∀ s ∈ S, holds a s)) ∧
      ∀ s ∈ S, (mapFind s D).isSome = true ∧ (∀ d ∈ depsOf D s, d ∈ constraints) ∧
        ∀ a, (∀ d ∈ depsOf D s, holds a d) → holds a s := by
  have hinv := simp_initial_inv constraints (order constraints)
    (fun e => (horder constraints).mem_iff) hC
  obtain ⟨_, _, h3⟩ := simp_initial_spec (order constraints)
  have hm : measure (initial (order constraints)).1 < fuel := by
    rw [simp_measure_perm _ _ (horder constraints)] at h3
    omega
  obtain ⟨S, D, hr, hl⟩ := simp_loop_sound order horder
    (decide (policy = RewriteEqualitiesPolicy.Full)) constraints fuel _ _ hm hinv
  refine ⟨S.filter fun e => decide (e ≠ createTrue), mapErase createTrue D, ?_, ?_, ?_⟩
  · simp only [simplify, hpolicy, false_and, if_false, hr, Option.map_some']
  · intro a
    rw [hl.equiv a]
    constructor
    · intro ha s hs
      exact ha s (List.mem_filter.1 hs).1
    · intro ha s hs
      by_cases ht : s = createTrue
      · rw [ht]; exact simp_holds_true a
      · exact ha s (List.mem_filter.2 ⟨hs, by simpa using ht⟩)
  · intro s hs
    obtain ⟨hs1, hs2⟩ := List.mem_filter.1 hs
    have hne : s ≠ createTrue := by simpa using hs2
    rw [simp_depsOf_erase _ _ _ hne]
    refine ⟨?_, hl.sub s hs1, hl.sound s hs1⟩
    rw [simp_mapFind_erase, if_neg hne]
    exact simp_find_of_depsOf D s (hl.nonempty s hs1)

theorem simplify_sound_witness :
    (∀ l : List Expr, (id l).Perm l) ∧
      RewriteEqualitiesPolicy.Full ≠ RewriteEqualitiesPolicy.None ∧
      (∀ c ∈ [exampleX, exampleY, exampleZ], c.isCondition = true) ∧
      measure [exampleX, exampleY, exampleZ] < 30 ∧
      ∃ S D, simplify id RewriteEqualitiesPolicy.Full 30 [exampleX, exampleY, exampleZ]
          = some (S, D) ∧
        (∀ a, (∀ c ∈ [exampleX, exampleY, exampleZ], holds a c) ↔ (∀ s ∈ S, holds a s)) ∧
        ∀ s ∈ S, (mapFind s D).isSome = true ∧
          (∀ d ∈ depsOf D s, d ∈ [exampleX, exampleY, exampleZ]) ∧
          ∀ a, (∀ d ∈ depsOf D s, holds a d) → holds a s :=
  ⟨fun l => List.Perm.refl l, by decide, by decide, by decide,
    simplify_sound id (fun l => List.Perm.refl l) RewriteEqualitiesPolicy.Full (by decide)
      [exampleX, exampleY, exampleZ] (by decide) 30 (by decide)⟩

end Simplificator

end Klee

